import Mathlib

/-!
# The segregated-free-list allocator `mm_final2.c`

A shallow embedding of `src/mallocLab/malloc/mm_final2.c`.

* Machine words (`word_t`, `size_t`, pointers) are natural numbers below
  `WORD = 2 ^ 64`; every C operation that can wrap is followed by `% WORD`.
* The arena of `memlib` and the two globals `heap_listp` and `seg_free_list`
  form the record `Heap`, which every operation receives and returns.
* A read or write of a word that is not 8-byte aligned or lies outside the
  arena `[lo, brk)` is undefined behaviour in C; the embedding reports it as
  `Fault.segv`.  A loop of the C code (the list walks of `find_fit` and
  `remove_free_block`) runs on fuel; `Fault.hang` reports that the fuel ran out.
-/

namespace MmFinal2

/-! ## Basic constants -/

/-- Number of values of a 64-bit word: sizes and addresses live in `[0, WORD)`. -/
def WORD : Nat := 2 ^ 64

/-- The constant `wsize = sizeof(word_t)`: word and header size in bytes. -/
def wsize : Nat := 8

/-- The constant `dsize = 2 * wsize`: double word size in bytes. -/
def dsize : Nat := 2 * wsize

/-- The constant `min_block_size = dsize`. -/
def min_block_size : Nat := dsize

/-- The constant `chunksize = (1 << 12)`. -/
def chunksize : Nat := 1 <<< 12

/-- The constant `alloc_mask = 1`. -/
def alloc_mask : Nat := 1

/-- The constant `free_alloc_mask = 2`. -/
def free_alloc_mask : Nat := 2

/-- The constant `free_size_mask = 4`. -/
def free_size_mask : Nat := 4

/-- The constant `size_mask = ~(word_t)0xF`. -/
def size_mask : Nat := WORD - 1 - 0xF

/-- The null pointer. -/
def NULL : Nat := 0

/-- Pointer plus byte offset, wrapping at 64 bits. -/
def padd (p n : Nat) : Nat := (p + n) % WORD

/-- Pointer minus byte offset, wrapping at 64 bits. -/
def psub (p n : Nat) : Nat := (p + (WORD - n % WORD)) % WORD

/-- Subtraction of two `size_t` values, wrapping at 64 bits. -/
def wsub (a b : Nat) : Nat := (a + (WORD - b % WORD)) % WORD

/-! ## Outcomes and the allocator state -/

/-- The ways a call can fail to return: an invalid memory access, a division by
zero, or a loop that did not finish within its fuel. -/
inductive Fault where
  | segv
  | divzero
  | hang
  deriving DecidableEq, Repr

/-- The arena of `memlib` together with the globals of `mm_final2.c`.
`mem a` is the word stored at the 8-aligned address `a`; the arena is
`[lo, brk)` and may grow up to `limit`. -/
structure Heap where
  mem : Nat → Nat
  lo : Nat
  brk : Nat
  limit : Nat
  heap_listp : Nat
  seg_free_list : Nat → Nat

/-- An address at which a word may be read or written. -/
def Heap.valid (h : Heap) (a : Nat) : Prop :=
  a % 8 = 0 ∧ h.lo ≤ a ∧ a + 8 ≤ h.brk

instance (h : Heap) (a : Nat) : Decidable (h.valid a) := by
  unfold Heap.valid; infer_instance

/-- Read of the word at address `a` (`*(word_t *)a`). -/
def load (h : Heap) (a : Nat) : Except Fault Nat :=
  if h.valid a then .ok (h.mem a % WORD) else .error .segv

/-- Write of the word at address `a` (`*(word_t *)a = v`). -/
def store (h : Heap) (a v : Nat) : Except Fault Heap :=
  if h.valid a then
    .ok { h with mem := fun x => if x = a then v else h.mem x }
  else .error .segv

/-- Assignment `seg_free_list[i] = v`. -/
def set_seg (h : Heap) (i v : Nat) : Heap :=
  { h with seg_free_list := fun j => if j = i then v else h.seg_free_list j }

/-- Modelled from the spec: the arena accessor `mem_heap_lo` of memlib
(`current_low()`), whose source is not part of the repository. -/
def mem_heap_lo (h : Heap) : Nat := h.lo

/-- Modelled from the spec: the arena accessor `mem_heap_hi` of memlib
(`current_high()`), the address of the last byte of the arena. -/
def mem_heap_hi (h : Heap) : Nat := h.brk - 1

/-- Modelled from the spec: the arena-growth primitive `mem_sbrk` of memlib
(`grow(delta_bytes) -> previous_end_address | FAILURE`): it extends the arena by
exactly `incr` bytes and returns the previous end, or fails (`none`, the C value
`(void *)-1`) without extending when the resource limit would be exceeded. -/
def mem_sbrk (h : Heap) (incr : Nat) : Option (Nat × Heap) :=
  if h.brk + incr ≤ h.limit then some (h.brk, { h with brk := h.brk + incr })
  else none

/-! ## Block codec -/

/-- The function `max`: returns x if x > y, and y otherwise. -/
def max (x y : Nat) : Nat := if x > y then x else y

/-- The function `round_up`: rounds size up to the next multiple of n
(in `size_t` arithmetic). -/
def round_up (size n : Nat) : Nat :=
  (n * (((size + (n - 1)) % WORD) / n)) % WORD

/-- The function `pack`: `size | ((int)prev_size << 2) | ((int)prev << 1) | alloc`. -/
def pack (size : Nat) (prev_size prev alloc : Bool) : Nat :=
  size ||| (prev_size.toNat <<< 2) ||| (prev.toNat <<< 1) ||| alloc.toNat

/-- The function `extract_size`: `word & size_mask`. -/
def extract_size (word : Nat) : Nat := word &&& size_mask

/-- The function `extract_alloc`: the current-allocation bit when `curr`, else
the previous-allocation bit when `prev`, else the previous-is-16-bytes bit. -/
def extract_alloc (word : Nat) (_prev_size prev curr : Bool) : Bool :=
  if curr then (word &&& alloc_mask) != 0
  else if prev then (word &&& free_alloc_mask) != 0
  else (word &&& free_size_mask) != 0

/-- The function `get_size`: `extract_size(block->header)`. -/
def get_size (h : Heap) (block : Nat) : Except Fault Nat := do
  let w ← load h block
  pure (extract_size w)

/-- The function `get_payload_size`: `get_size(block) - wsize`. -/
def get_payload_size (h : Heap) (block : Nat) : Except Fault Nat := do
  let asize ← get_size h block
  pure (wsub asize wsize)

/-- The function `get_alloc`: `extract_alloc(block->header, prev_size, prev, curr)`. -/
def get_alloc (h : Heap) (block : Nat) (prev_size prev curr : Bool) :
    Except Fault Bool := do
  let w ← load h block
  pure (extract_alloc w prev_size prev curr)

/-- The function `write_header`: `block->header = pack(size, prev_size, prev, alloc)`. -/
def write_header (h : Heap) (block size : Nat) (prev_size prev alloc : Bool) :
    Except Fault Heap :=
  store h block (pack size prev_size prev alloc)

/-- The function `write_free_footer`: the footer position is computed from the
size currently in the header, `block->payload + get_size(block) - dsize`. -/
def write_free_footer (h : Heap) (block size : Nat) (alloc : Bool) :
    Except Fault Heap := do
  let cur ← get_size h block
  let footerp := psub (padd (padd block wsize) cur) dsize
  store h footerp (pack size false false alloc)

/-- The function `find_next`: `(char *)block + get_size(block)`. -/
def find_next (h : Heap) (block : Nat) : Except Fault Nat := do
  let size ← get_size h block
  pure (padd block size)

/-- The function `find_prev_footer`: one word before the header. -/
def find_prev_footer (block : Nat) : Nat := psub block wsize

/-- The function `find_prev`: `block - 16` when the header says the previous
block has 16 bytes, else `block - extract_size(previous footer)`. -/
def find_prev (h : Heap) (block : Nat) : Except Fault Nat := do
  let is16 ← get_alloc h block true false false
  if !is16 then do
    let footer ← load h (find_prev_footer block)
    pure (psub block (extract_size footer))
  else pure (psub block dsize)

/-- The function `payload_to_header`: `bp - offsetof(block_t, payload)`. -/
def payload_to_header (bp : Nat) : Nat := psub bp wsize

/-- The function `header_to_payload`: `block->payload`. -/
def header_to_payload (block : Nat) : Nat := padd block wsize

/-! ## Free-list index -/

/-- The function `find_free_next`: `*((word_t *)block + 2)`. -/
def find_free_next (h : Heap) (block : Nat) : Except Fault Nat :=
  load h (padd block (2 * wsize))

/-- The function `find_free_prev`: `*((word_t *)block + 1)`. -/
def find_free_prev (h : Heap) (block : Nat) : Except Fault Nat :=
  load h (padd block wsize)

/-- The function `set_prev`: `*((word_t *)block + 1) = prev`. -/
def set_prev (h : Heap) (block prev : Nat) : Except Fault Heap :=
  store h (padd block wsize) prev

/-- The function `set_next`: `*((word_t *)block + 2) = next`. -/
def set_next (h : Heap) (block next : Nat) : Except Fault Heap :=
  store h (padd block (2 * wsize)) next

/-- The function `find_index`: the bucket of a block size. -/
def find_index (size : Nat) : Nat :=
  if size < 32 then 0
  else if size < 64 then 1
  else if size < 128 then 2
  else if size < 256 then 3
  else if size < 512 then 4
  else if size < 1024 then 5
  else if size < 2048 then 6
  else if size < 4096 then 7
  else if size < 8192 then 8
  else if size < 16382 then 9
  else if size < 32764 then 10
  else if size < 65536 then 11
  else if size < 131072 then 12
  else 13

/-- Fuel that suffices for every list walk that terminates: a walk that reads
only words of the arena and makes more steps than this has revisited a list
node in the same loop state. -/
def fuel (h : Heap) : Nat := 10 * ((h.brk - h.lo) / 8) + 10

/-- The loop `while (find_free_prev(prev_tmp) != block) prev_tmp = find_free_prev(prev_tmp);`
of `remove_free_block`; returns the final `prev_tmp`. -/
def remove_scan (h : Heap) (block : Nat) : Nat → Nat → Except Fault Nat
  | 0, _ => .error .hang
  | n + 1, prev_tmp => do
    let p ← find_free_prev h prev_tmp
    if p ≠ block then remove_scan h block n p else pure prev_tmp

/-- The function `remove_free_block`: unlinks a block from its bucket. -/
def remove_free_block (h : Heap) (block : Nat) : Except Fault Heap := do
  let size ← get_size h block
  let index := find_index size
  if index = 0 then do
    let prev_tmp := h.seg_free_list 0
    let block_prev ← find_free_prev h block
    if prev_tmp = block then pure (set_seg h 0 block_prev)
    else do
      let prev_tmp ← remove_scan h block (fuel h) prev_tmp
      set_prev h prev_tmp block_prev
  else do
    let block_prev ← find_free_prev h block
    let block_next ← find_free_next h block
    if block_prev = NULL ∧ block_next = NULL then pure (set_seg h index NULL)
    else if block_prev = NULL then do
      let h ← set_prev h block_next NULL
      pure (set_seg h index block_next)
    else if block_next = NULL then set_next h block_prev NULL
    else do
      let h ← set_next h block_prev block_next
      set_prev h block_next block_prev

/-- The function `insert`: puts the block at the head of its bucket. -/
def insert (h : Heap) (block : Nat) : Except Fault Heap := do
  let size ← get_size h block
  let index := find_index size
  if index = 0 then do
    let h ← set_prev h block (h.seg_free_list 0)
    pure (set_seg h 0 block)
  else if h.seg_free_list index = NULL then do
    let h := set_seg h index block
    let h ← set_prev h block NULL
    set_next h block NULL
  else do
    let h ← set_prev h (h.seg_free_list index) block
    let h ← set_next h block (h.seg_free_list index)
    let h ← set_prev h block NULL
    pure (set_seg h index block)

/-! ## Coalescer, placer and fit finder -/

/-- The function `coalesce`: merges a freed block with its free physical
neighbours and inserts the result into the index; returns the merged block. -/
def coalesce (h : Heap) (block : Nat) : Except Fault (Nat × Heap) := do
  let block_next ← find_next h block
  let block_next_next ← find_next h block_next
  let prev_alloc ← get_alloc h block false true false
  let next_alloc ← get_alloc h block_next false false true
  let prev_size_status ← get_alloc h block true false false
  let block_size_status ← get_alloc h block_next true false false
  let size ← get_size h block
  let next_size ← get_size h block_next
  let next_next_size ← get_size h block_next_next
  if prev_alloc && next_alloc then do
    let h ← write_header h block size prev_size_status true false
    let h ← write_header h block_next next_size block_size_status false true
    let h ← insert h block
    pure (block, h)
  else if prev_alloc && !next_alloc then do
    let size := (size + next_size) % WORD
    let h ← remove_free_block h block_next
    let h ← write_header h block size prev_size_status true false
    let h ← write_header h block_next_next next_next_size false false true
    let h ← write_free_footer h block size false
    let h ← insert h block
    pure (block, h)
  else if !prev_alloc && next_alloc then do
    let block_prev ← find_prev h block
    let prev_prev_size_status ← get_alloc h block_prev true false false
    let prev_size ← get_size h block_prev
    let size := (size + prev_size) % WORD
    let h ← remove_free_block h block_prev
    let h ← write_header h block_prev size prev_prev_size_status true false
    let h ← write_header h block_next next_size false false true
    let h ← write_free_footer h block_prev size false
    let h ← insert h block_prev
    pure (block_prev, h)
  else do
    let block_prev ← find_prev h block
    let prev_prev_size_status ← get_alloc h block_prev true false false
    let prev_size ← get_size h block_prev
    let size := (size + (next_size + prev_size) % WORD) % WORD
    let h ← remove_free_block h block_prev
    let h ← remove_free_block h block_next
    let h ← write_header h block_prev size prev_prev_size_status true false
    let h ← write_header h block_next_next next_next_size false false true
    let h ← write_free_footer h block_prev size false
    let h ← insert h block_prev
    pure (block_prev, h)

/-- The function `extend_heap`: grows the arena, turns the old epilogue and the
new span into a free block, writes a new epilogue and coalesces.  Returns
`NULL` and the unchanged state when `mem_sbrk` fails. -/
def extend_heap (h : Heap) (size : Nat) : Except Fault (Nat × Heap) :=
  let size := round_up size dsize
  match mem_sbrk h size with
  | none => pure (NULL, h)
  | some (bp, h) => do
    let block := payload_to_header bp
    let prev_status ← get_alloc h block false true false
    let prev_size ← get_alloc h block true false false
    let h ← write_header h block size prev_size prev_status false
    let h ← write_free_footer h block size false
    let block_next ← find_next h block
    let h ← write_header h block_next 0 false false true
    coalesce h block

/-- The function `place`: allocates `asize` bytes at the start of a free block,
splitting off the remainder when it is at least `min_block_size`. -/
def place (h : Heap) (block asize : Nat) : Except Fault Heap := do
  let csize ← get_size h block
  let prev_size_status ← get_alloc h block true false false
  let block_size_status : Bool := if asize = 16 then true else false
  let rest := wsub csize asize
  if rest ≥ min_block_size then do
    let h ← remove_free_block h block
    let h ← write_header h block asize prev_size_status true true
    let block_next ← find_next h block
    let h ← write_header h block_next rest block_size_status true false
    let next_status : Bool := if rest = 16 then true else false
    let h ← if !next_status then write_free_footer h block_next rest false
            else pure h
    let block_next_next ← find_next h block_next
    let nn_size ← get_size h block_next_next
    let h ← write_header h block_next_next nn_size next_status false true
    insert h block_next
  else do
    let h ← remove_free_block h block
    let h ← write_header h block csize prev_size_status true true
    let block_next ← find_next h block
    let n_size ← get_size h block_next
    write_header h block_next n_size block_size_status true true

/-- Outcome of scanning one bucket in `find_fit`: either the function returns
the block, or the scan of the bucket ended with these loop variables. -/
inductive Scan where
  | ret (block : Nat)
  | next (n : Int) (min_size min_block : Nat)

/-- The inner loop of `find_fit` over one bucket list, starting at `block`. -/
def find_fit_list (h : Heap) (asize : Nat) :
    Nat → Nat → Int → Nat → Nat → Except Fault Scan
  | 0, _, _, _, _ => .error .hang
  | f + 1, block, n, min_size, min_block =>
    if block = NULL then pure (.next n min_size min_block)
    else do
      let size ← get_size h block
      if size = asize then pure (.ret block)
      else if size > asize then
        let n := n - 1
        let min_block := if size < min_size then block else min_block
        let min_size := if size < min_size then size else min_size
        if n = 0 then pure (.ret min_block)
        else do
          let nxt ← find_free_next h block
          find_fit_list h asize f nxt n min_size min_block
      else do
        let nxt ← find_free_next h block
        find_fit_list h asize f nxt n min_size min_block

/-- The outer loop `for (i = index; i < 14; i++)` of `find_fit`; `k` counts
the buckets that remain. -/
def find_fit_buckets (h : Heap) (asize : Nat) :
    Nat → Nat → Int → Nat → Nat → Except Fault Nat
  | 0, _, _, _, _ => pure NULL
  | k + 1, i, n, min_size, min_block => do
    let r ← find_fit_list h asize (fuel h) (h.seg_free_list i) n min_size min_block
    match r with
    | .ret b => pure b
    | .next n min_size min_block =>
      if min_block ≠ NULL then pure min_block
      else find_fit_buckets h asize k (i + 1) n min_size min_block

/-- The function `find_fit`: find-n-fit search (n = 9) for a free block of at
least `asize` bytes; `NULL` if none is found. -/
def find_fit (h : Heap) (asize : Nat) : Except Fault Nat :=
  let index := find_index asize
  if index = 0 ∧ h.seg_free_list 0 ≠ NULL then pure (h.seg_free_list 0)
  else
    let index := if index = 0 then index + 1 else index
    find_fit_buckets h asize (14 - index) index 9 (WORD - 1) NULL

/-! ## Public operations -/

/-- The function `mm_init`: creates prologue and epilogue and extends the
empty heap by `chunksize` bytes. -/
def mm_init (h : Heap) : Except Fault (Bool × Heap) :=
  match mem_sbrk h (2 * wsize) with
  | none => pure (false, h)
  | some (start, h) => do
    let h ← store h start (pack 0 false true true)
    let h ← store h (padd start wsize) (pack 0 false true true)
    let h := { h with heap_listp := padd start wsize }
    let h := { h with seg_free_list := fun _ => NULL }
    let (block, h) ← extend_heap h chunksize
    if block = NULL then pure (false, h) else pure (true, h)

/-- The function `malloc`; returns the payload address (or `NULL`) and the
new state. -/
def malloc (h : Heap) (size : Nat) : Except Fault (Nat × Heap) := do
  let h ← if h.heap_listp = NULL then (do let r ← mm_init h; pure r.2) else pure h
  if size = 0 then pure (NULL, h)
  else do
    let asize := round_up ((size + wsize) % WORD) dsize
    let block ← find_fit h asize
    if block = NULL then do
      let extendsize := max asize chunksize
      let (block, h) ← extend_heap h extendsize
      if block = NULL then pure (NULL, h)
      else do
        let h ← place h block asize
        pure (header_to_payload block, h)
    else do
      let h ← place h block asize
      pure (header_to_payload block, h)

/-- The function `free`. -/
def free (h : Heap) (bp : Nat) : Except Fault Heap :=
  if bp = NULL then pure h
  else do
    let block := payload_to_header bp
    let size ← get_size h block
    let prev_alloc_status ← get_alloc h block false true false
    let prev_size_status ← get_alloc h block true false false
    let h ← write_header h block size prev_size_status prev_alloc_status false
    let h ← write_free_footer h block size false
    let r ← coalesce h block
    pure r.2

/-- Modelled from the spec: the byte-copy primitive (`memcpy`, aliased to
`mem_memcpy` of memlib): the `n` bytes at `src` are copied to `dst`.  Words are
little-endian, so a trailing part of `n % 8` bytes replaces the low bytes of
the last destination word.  Both ranges must lie in the arena. -/
def memcpy (h : Heap) (dst src n : Nat) : Except Fault Heap :=
  if n = 0 then pure h
  else if dst % 8 = 0 ∧ src % 8 = 0 ∧ h.lo ≤ dst ∧ h.lo ≤ src ∧
      dst + n ≤ h.brk ∧ src + n ≤ h.brk then
    let k := n / 8
    let r := n % 8
    let m : Nat → Nat := fun a =>
      if a % 8 = 0 ∧ dst ≤ a ∧ a < dst + 8 * k then h.mem (src + (a - dst))
      else if r ≠ 0 ∧ a = dst + 8 * k then
        (h.mem (src + 8 * k) % WORD) % 256 ^ r + (h.mem a % WORD) / 256 ^ r * 256 ^ r
      else h.mem a
    pure { h with mem := m }
  else .error .segv

/-- Modelled from the spec: the zero-fill primitive (`memset(bp, 0, n)`,
aliased to `mem_memset` of memlib): the `n` bytes at `bp` become zero. -/
def memset0 (h : Heap) (bp n : Nat) : Except Fault Heap :=
  if n = 0 then pure h
  else if bp % 8 = 0 ∧ h.lo ≤ bp ∧ bp + n ≤ h.brk then
    let k := n / 8
    let r := n % 8
    let m : Nat → Nat := fun a =>
      if a % 8 = 0 ∧ bp ≤ a ∧ a < bp + 8 * k then 0
      else if r ≠ 0 ∧ a = bp + 8 * k then (h.mem a % WORD) / 256 ^ r * 256 ^ r
      else h.mem a
    pure { h with mem := m }
  else .error .segv

/-- The function `realloc`. -/
def realloc (h : Heap) (ptr size : Nat) : Except Fault (Nat × Heap) :=
  let block := payload_to_header ptr
  if size = 0 then do
    let h ← free h ptr
    pure (NULL, h)
  else if ptr = NULL then malloc h size
  else do
    let (newptr, h) ← malloc h size
    if newptr = NULL then pure (NULL, h)
    else do
      let copysize ← get_payload_size h block
      let copysize := if size < copysize then size else copysize
      let h ← memcpy h newptr ptr copysize
      let h ← free h ptr
      pure (newptr, h)

/-- The function `calloc`; the test `asize / nmemb != size` divides by
`nmemb`. -/
def calloc (h : Heap) (nmemb size : Nat) : Except Fault (Nat × Heap) :=
  let asize := (nmemb * size) % WORD
  if nmemb = 0 then .error .divzero
  else if asize / nmemb ≠ size then pure (NULL, h)
  else do
    let (bp, h) ← malloc h asize
    if bp = NULL then pure (NULL, h)
    else do
      let h ← memset0 h bp asize
      pure (bp, h)

/-- The overflow test `asize / nmemb != size` of `calloc`, where
`asize = nmemb * size` in `size_t` arithmetic (for `nmemb` other than 0). -/
def calloc_overflow (nmemb size : Nat) : Bool :=
  ((nmemb * size) % WORD) / nmemb != size

/-- The allocator before the first call: `memlib` provides an empty arena at
`base` that may grow up to `base + cap`, with memory contents `m`; the globals
`heap_listp` and `seg_free_list` are zero-initialised statics. -/
def fresh (m : Nat → Nat) (base cap : Nat) : Heap :=
  { mem := m, lo := base, brk := base, limit := base + cap,
    heap_listp := NULL, seg_free_list := fun _ => NULL }

/-- A concrete uninitialised allocator: arena base `0x1000` (16-byte aligned),
at most 20 MB, memory all zero. -/
def heap0 : Heap := fresh (fun _ => 0) 0x1000 (20 * (1 <<< 20))

/-- The allocator `heap0` after a successful `mm_init`: a concrete initialised
heap. -/
def heap1 : Heap :=
  match mm_init heap0 with
  | .ok r => r.2
  | .error _ => heap0

/-- An uninitialised allocator whose arena limit is used up by `mm_init`
(16 bytes of sentinels and one chunk): every later `mem_sbrk` fails. -/
def heap_tight : Heap := fresh (fun _ => 0) 0x1000 (2 * wsize + chunksize)

/-- The allocator `heap_tight` after `malloc(16)`: an initialised heap with one
live block (payload 4112) that cannot grow. -/
def heap_tight1 : Heap :=
  match malloc heap_tight 16 with
  | .ok r => r.2
  | .error _ => heap_tight

/-- The allocator after `a = malloc(1); malloc(1); free(a)` on `heap0`: the
16-byte block at 4104 is free and is the head of bucket 0. -/
def heap_min_free : Heap :=
  match (do let (a, h) ← malloc heap0 1
            let (_, h) ← malloc h 1
            free h a) with
  | .ok h => h
  | .error _ => heap0

/-- The allocator after `malloc(24); malloc(24)` on `heap0`: two live blocks
of 32 bytes at 4104 and 4136 (payloads 4112 and 4144), followed by a free
block. -/
def heap_live2 : Heap :=
  match (do let (_, h) ← malloc heap0 24
            malloc h 24) with
  | .ok r => r.2
  | .error _ => heap0

/-- The allocator after `w = malloc(1); x = malloc(1); y = malloc(1);
z = malloc(1); free(w); free(y); p = malloc(2^64 - 8); free(p)` on `heap0`:
`x = 4128` and `z = 4160` are live, and `p = 4144` is the payload of the block
4136, which was in bucket 0 when it was handed out and released. -/
def heap_loop0 : Heap :=
  match (do let (w, h) ← malloc heap0 1
            let (_, h) ← malloc h 1
            let (y, h) ← malloc h 1
            let (_, h) ← malloc h 1
            let h ← free h w
            let h ← free h y
            let (p, h) ← malloc h (2 ^ 64 - 8)
            free h p) with
  | .ok h => h
  | .error _ => heap0

/-- The allocator after `a = malloc(24); b = malloc(24); c = malloc(24);
d = malloc(24); free(b); g = malloc(2^64 - 8); free(a); malloc(56); free(g)` on
`heap0`: `c = 4176` and `d = 4208` are live, and so is the block of 64 bytes at
4104 returned by `malloc(56)`. -/
def heap_stale_bit : Heap :=
  match (do let (a, h) ← malloc heap0 24
            let (b, h) ← malloc h 24
            let (_, h) ← malloc h 24
            let (_, h) ← malloc h 24
            let h ← free h b
            let (g, h) ← malloc h (2 ^ 64 - 8)
            let h ← free h a
            let (_, h) ← malloc h 56
            free h g) with
  | .ok h => h
  | .error _ => heap0

/-! ## Heap checker -/

/-- The function `check_block`: alignment of the block address and range of
the physical neighbours (the diagnostics printed by the C code are left out). -/
def check_block (h : Heap) (block : Nat) : Except Fault Bool :=
  if block % dsize ≠ 0 then pure false
  else do
    let prev ← find_prev h block
    if prev < mem_heap_lo h ∨ prev > mem_heap_hi h then pure false
    else do
      let next ← find_next h block
      if next < mem_heap_lo h ∨ next > mem_heap_hi h then pure false
      else pure true

/-- The function `check_free_list`: range of the two list pointers, and for a
free block the test on the allocation bit of the physically next block. -/
def check_free_list (h : Heap) (block : Nat) : Except Fault Bool := do
  let prev ← find_free_prev h block
  if prev < mem_heap_lo h ∨ prev > mem_heap_hi h then pure false
  else do
    let next ← find_free_next h block
    if next < mem_heap_lo h ∨ next > mem_heap_hi h then pure false
    else do
      let alloc ← get_alloc h block false false true
      if !alloc then do
        let block_next ← find_next h block
        let next_alloc ← get_alloc h block_next false false true
        if next_alloc then pure false else pure true
      else pure true

/-- The first loop of `mm_checkheap`,
`for (bp = heap_listp; (bp->header ^ 0x1) > 0; bp = find_next(bp)) { check_block(bp); return false; }`:
`some b` when the function returns `b` from inside the loop, `none` when the
loop ends.  The body returns in its first iteration, so `bp` never advances. -/
def checkheap_blocks (h : Heap) : Except Fault (Option Bool) := do
  let w ← load h h.heap_listp
  if (w ^^^ 0x1) > 0 then do
    let _ ← check_block h h.heap_listp
    pure (some false)
  else pure none

/-- The inner loop of the second loop of `mm_checkheap`,
`for (bp = seg_free_list[i]; (bp->header ^ 0x1) > 0; bp = find_free_next(bp)) check_free_list(bp);`. -/
def checkheap_list (h : Heap) : Nat → Nat → Except Fault Unit
  | 0, _ => .error .hang
  | f + 1, bp => do
    let w ← load h bp
    if (w ^^^ 0x1) > 0 then do
      let _ ← check_free_list h bp
      let nxt ← find_free_next h bp
      checkheap_list h f nxt
    else pure ()

/-- The second loop of `mm_checkheap`, `for (int i = 0; i < 14; i++) { ...; return false; }`
with `k` buckets remaining: `some b` when the function returns `b` from inside
the loop, `none` when the loop ends.  The body ends with `return false`, so
`i` never advances. -/
def checkheap_buckets (h : Heap) : Nat → Nat → Except Fault (Option Bool)
  | 0, _ => pure none
  | _ + 1, i => do
    checkheap_list h (fuel h) (h.seg_free_list i)
    pure (some false)

/-- The function `mm_checkheap`. -/
def mm_checkheap (h : Heap) (_verbose : Int) : Except Fault Bool := do
  let prologue := mem_heap_lo h
  let epilogue := mem_heap_hi h
  let psize ← get_size h prologue
  let palloc ← get_alloc h prologue false false true
  if psize ≠ 0 ∨ !palloc then pure false
  else do
    let r ← checkheap_blocks h
    match r with
    | some b => pure b
    | none => do
      let r ← checkheap_buckets h 14 0
      match r with
      | some b => pure b
      | none => do
        let esize ← get_size h epilogue
        let ealloc ← get_alloc h epilogue false false true
        if esize ≠ 0 ∨ !ealloc then pure false else pure true

/-! ## The free-list index as linked lists in memory -/

/-- The heap after the word at address `a` has been overwritten with `v`. -/
def Heap.put (h : Heap) (a v : Nat) : Heap :=
  { h with mem := fun x => if x = a then v else h.mem x }

/-- The word a read at `a` yields. -/
def Heap.word (h : Heap) (a : Nat) : Nat := h.mem a % WORD

/-- The size field of the header word stored at `b`. -/
def Heap.size_at (h : Heap) (b : Nat) : Nat := extract_size (h.word b)

/-- A block header at `b` (8 modulo 16, as all headers are when the arena base
is 16-byte aligned) whose block, of at least 16 bytes, lies inside the arena. -/
def IsBlock (h : Heap) (b : Nat) : Prop :=
  b % 16 = 8 ∧ h.lo ≤ b ∧ 16 ≤ h.size_at b ∧ b + h.size_at b ≤ h.brk

/-- The singly linked list of bucket 0: starting at `a`, following the word at
offset 8 (the `prev` pointer) visits the nodes `l` and ends in `NULL`. -/
def SList (h : Heap) : Nat → List Nat → Prop
  | a, [] => a = NULL
  | a, b :: t => a = b ∧ SList h (h.word (b + 8)) t

/-- A doubly linked list of the buckets 1 to 13: starting at `a`, following the
word at offset 16 (the `next` pointer) visits the nodes `l` and ends in `NULL`,
and the word at offset 8 (the `prev` pointer) of each node is the node before
it, `pv` for the first. -/
def DList (h : Heap) : Nat → Nat → List Nat → Prop
  | _, a, [] => a = NULL
  | pv, a, b :: t => a = b ∧ h.word (b + 8) = pv ∧ DList h b (h.word (b + 16)) t

/-- The free-list index is well formed and holds exactly the lists `L`:
bucket `i` is the list `L i` in memory, every member is a block inside the
arena whose size belongs to that bucket, no block occurs twice and the blocks
do not overlap. -/
structure IndexRep (h : Heap) (L : Nat → List Nat) : Prop where
  brk_le : h.brk ≤ WORD
  single : SList h (h.seg_free_list 0) (L 0)
  double : ∀ i, 1 ≤ i → i < 14 → DList h NULL (h.seg_free_list i) (L i)
  block : ∀ i, i < 14 → ∀ b ∈ L i, IsBlock h b ∧ find_index (h.size_at b) = i
  nodup : ∀ i, i < 14 → (L i).Nodup
  apart : ∀ i j, i < 14 → j < 14 → ∀ b ∈ L i, ∀ c ∈ L j, b ≠ c →
    b + h.size_at b ≤ c ∨ c + h.size_at c ≤ b

/-- The lists `L` with the block `b` taken out of bucket `i`. -/
def erase_at (L : Nat → List Nat) (i b : Nat) : Nat → List Nat :=
  fun j => if j = i then (L j).erase b else L j

/-- The lists `L` with the block `b` put at the head of bucket `i`. -/
def cons_at (L : Nat → List Nat) (i b : Nat) : Nat → List Nat :=
  fun j => if j = i then b :: L j else L j

/-! ### The find-n-fit policy, stated on the bucket lists

These definitions follow the wording of the policy (first exact fit seen
before nine larger blocks, else the smallest of the larger blocks inspected);
they are compared with `find_fit` in the verification part. -/

/-- The members of `l` that are strictly larger than `asize`, in list order. -/
def fit_larger (h : Heap) (asize : Nat) (l : List Nat) : List Nat :=
  l.filter (fun b => decide (asize < h.size_at b))

/-- The better of a current best candidate and a later block `b`: the later
block wins only when it is strictly smaller. -/
def fit_better (h : Heap) (best : Option Nat) (b : Nat) : Option Nat :=
  match best with
  | none => some b
  | some m => if h.size_at b < h.size_at m then some b else some m

/-- The smallest block of `l`, the earliest one on ties, starting from the
candidate `best`. -/
def fit_smallest (h : Heap) (best : Option Nat) (l : List Nat) : Option Nat :=
  l.foldl (fit_better h) best

/-- The first block of `l` of size exactly `asize`, when fewer than `k`
strictly larger blocks stand before it. -/
def fit_exact_first (h : Heap) (asize k : Nat) (l : List Nat) : Option Nat :=
  match l.find? (fun b => decide (h.size_at b = asize)) with
  | some e =>
    if (fit_larger h asize
        (l.takeWhile (fun b => decide (h.size_at b ≠ asize)))).length < k
    then some e else none
  | none => none

/-- The block that find-n-fit with N = 9 selects in the bucket list `l`: the
first exact fit if it comes before nine larger blocks, else the smallest of
the first nine larger blocks (`NULL` when there is none). -/
def fit_in_bucket (h : Heap) (asize : Nat) (l : List Nat) : Nat :=
  match fit_exact_first h asize 9 l with
  | some e => e
  | none => (fit_smallest h none ((fit_larger h asize l).take 9)).getD NULL

/-- The loop variable `min_size` that stands for a best candidate. -/
def acc_size (h : Heap) (best : Option Nat) : Nat :=
  match best with
  | none => WORD - 1
  | some m => h.size_at m

/-- The loop variable `min_block` that stands for a best candidate. -/
def acc_block (best : Option Nat) : Nat := best.getD NULL

/-- The outcome of the inner loop of `find_fit` on the bucket list `l`, entered
with `k` larger blocks still to inspect and the candidate `best`. -/
def fit_scan (h : Heap) (asize k : Nat) (best : Option Nat) (l : List Nat) : Scan :=
  match fit_exact_first h asize k l with
  | some e => .ret e
  | none =>
    if k ≤ (fit_larger h asize l).length then
      .ret (acc_block (fit_smallest h best ((fit_larger h asize l).take k)))
    else
      .next ((k - (fit_larger h asize l).length : Nat) : Int)
        (acc_size h (fit_smallest h best (fit_larger h asize l)))
        (acc_block (fit_smallest h best (fit_larger h asize l)))

/-- The size classes with the two irregular thresholds of `find_index` replaced
by the powers of two 16384 and 32768: bucket `k ≤ 12` takes the sizes in
`[2^(k+4), 2^(k+5))`, bucket 13 the sizes from `2^17`. -/
def find_index_pow2 (size : Nat) : Nat :=
  if size < 32 then 0
  else if size < 64 then 1
  else if size < 128 then 2
  else if size < 256 then 3
  else if size < 512 then 4
  else if size < 1024 then 5
  else if size < 2048 then 6
  else if size < 4096 then 7
  else if size < 8192 then 8
  else if size < 16384 then 9
  else if size < 32768 then 10
  else if size < 65536 then 11
  else if size < 131072 then 12
  else 13

/-! ## Reachable states and the shape of the heap

Predicates in which invariants of the allocator are stated. -/

/-- The allocation bit of the header at `b`. -/
def Heap.alloc_at (h : Heap) (b : Nat) : Bool :=
  extract_alloc (h.word b) false false true

/-- The previous-allocated bit of the header at `b`. -/
def Heap.palloc_at (h : Heap) (b : Nat) : Bool :=
  extract_alloc (h.word b) false true false

/-- The previous-is-16-bytes bit of the header at `b`. -/
def Heap.psize_at (h : Heap) (b : Nat) : Bool :=
  extract_alloc (h.word b) true false false

/-- The blocks of the implicit list, as the heap checker walks them:
`for (b = heap_listp; get_size(b) > 0; b = find_next(b))`. -/
inductive HeapBlock (h : Heap) : Nat → Prop
  | first : h.size_at h.heap_listp ≠ 0 → HeapBlock h h.heap_listp
  | next {b : Nat} : HeapBlock h b → h.size_at (b + h.size_at b) ≠ 0 →
      HeapBlock h (b + h.size_at b)

/-- The largest request size for which `size + wsize` rounded up to a multiple
of `dsize` does not wrap around in 64-bit arithmetic. -/
def max_request : Nat := 2 ^ 64 - 24

/-- The states of the allocator that the public operations reach from a
successful `mm_init` on an empty arena with a 16-byte aligned base, together
with the list of live pointers, when every request size is at most
`max_request` and `free` and `realloc` get live pointers (or `NULL`) only. -/
inductive Reach : Heap → List Nat → Prop
  | init (m : Nat → Nat) (base cap : Nat) (h : Heap) :
      base % 16 = 0 → base + cap ≤ WORD →
      mm_init (fresh m base cap) = Except.ok (true, h) → Reach h []
  | malloc {h : Heap} {live : List Nat} (n p : Nat) (h' : Heap) :
      Reach h live → n ≤ max_request →
      malloc h n = Except.ok (p, h') →
      Reach h' (if p = NULL then live else p :: live)
  | free {h : Heap} {live : List Nat} (p : Nat) (h' : Heap) :
      Reach h live → p = NULL ∨ p ∈ live →
      free h p = Except.ok h' →
      Reach h' (live.filter (fun q => decide (q ≠ p)))
  | realloc {h : Heap} {live : List Nat} (p n q : Nat) (h' : Heap) :
      Reach h live → p = NULL ∨ p ∈ live → n ≤ max_request →
      realloc h p n = Except.ok (q, h') →
      Reach h' (if n = 0 then live.filter (fun r => decide (r ≠ p))
        else if q = NULL then live
        else q :: live.filter (fun r => decide (r ≠ p)))
  | calloc {h : Heap} {live : List Nat} (nmemb size p : Nat) (h' : Heap) :
      Reach h live → nmemb * size ≤ max_request →
      calloc h nmemb size = Except.ok (p, h') →
      Reach h' (if p = NULL then live else p :: live)

/-- The blocks with headers `B`, the epilogue included, tile the arena from
`lo + 8` to the epilogue at `brk - 8`, and every header carries the
is-16-bytes status of the block before it. -/
structure Tiling (h : Heap) (B : Nat → Prop) : Prop where
  lo16 : h.lo % 16 = 0
  lim : h.brk ≤ h.limit ∧ h.limit ≤ WORD
  hl : h.heap_listp = h.lo + 8
  first : B (h.lo + 8)
  epi : h.lo + 16 ≤ h.brk ∧ B (h.brk - 8) ∧ h.size_at (h.brk - 8) = 0
  range : ∀ b, B b → b % 16 = 8 ∧ h.lo + 8 ≤ b ∧ b + 8 ≤ h.brk
  next : ∀ b, B b → b ≠ h.brk - 8 → 16 ≤ h.size_at b ∧ B (b + h.size_at b)
  apart : ∀ b c, B b → B c → b < c → b + h.size_at b ≤ c
  prev : ∀ b, B b → b ≠ h.lo + 8 → ∃ a, B a ∧ a < b ∧ a + h.size_at a = b
  p16 : ∀ b, B b → b ≠ h.brk - 8 →
    h.psize_at (b + h.size_at b) = decide (h.size_at b = 16)

/-- The heap invariant.  `B` is the set of block headers, the epilogue
included, `L` the lists of the index and `X` a set of pending blocks.  The
blocks tile the arena; every header carries the allocation status of the block
before it; no two free blocks are neighbours; every free block of more than 16
bytes ends in a footer `pack(size, false, false, false)`; and the index holds
exactly the free blocks.  A pending block is marked free but is not in the
index, and the rules on neighbours are not required of it. -/
structure Inv (h : Heap) (B : Nat → Prop) (L : Nat → List Nat) (X : Nat → Prop) :
    Prop where
  tiling : Tiling h B
  first_pa : h.palloc_at (h.lo + 8) = true
  epi_alloc : h.alloc_at (h.brk - 8) = true
  pa : ∀ b, B b → b ≠ h.brk - 8 → ¬ X b →
    h.palloc_at (b + h.size_at b) = h.alloc_at b
  nofree2 : ∀ b, B b → b ≠ h.brk - 8 → ¬ X b → ¬ X (b + h.size_at b) →
    h.alloc_at b = false → h.alloc_at (b + h.size_at b) = true
  footer : ∀ b, B b → h.alloc_at b = false → 16 < h.size_at b →
    h.word (b + h.size_at b - 8) = pack (h.size_at b) false false false
  hole : ∀ x, X x → B x ∧ x ≠ h.brk - 8 ∧ h.alloc_at x = false
  index : IndexRep h L
  members : ∀ b, (∃ i, i < 14 ∧ b ∈ L i) ↔ (B b ∧ h.alloc_at b = false ∧ ¬ X b)

/-- A state with a heap invariant in which every live pointer is the payload
of an allocated block. -/
def Good (h : Heap) (live : List Nat) : Prop :=
  ∃ B L, Inv h B L (fun _ => False) ∧
    ∀ p ∈ live, ∃ b, p = b + 8 ∧ B b ∧ b ≠ h.brk - 8 ∧ h.alloc_at b = true

end MmFinal2

/-!
# The first version `mm_1.c`

A shallow embedding of the parts of `src/mallocLab/malloc/mm_1.c` that decide
the result of its `mm_checkheap` and build the heap of `mm_init`: an explicit
free list with one list head `free_listp`, headers and footers of the form
`size | alloc`.  Words, faults and the arena are modelled as for `mm_final2.c`.
-/

namespace Mm1

/-! ## Basic constants -/

/-- Number of values of a 64-bit word. -/
def WORD : Nat := 2 ^ 64

/-- The constant `wsize = sizeof(word_t)`. -/
def wsize : Nat := 8

/-- The constant `dsize = 2 * wsize`. -/
def dsize : Nat := 2 * wsize

/-- The constant `min_block_size = 2 * dsize`. -/
def min_block_size : Nat := 2 * dsize

/-- The constant `chunksize = (1 << 12)`. -/
def chunksize : Nat := 1 <<< 12

/-- The constant `alloc_mask = 0x1`. -/
def alloc_mask : Nat := 0x1

/-- The constant `size_mask = ~(word_t)0xF`. -/
def size_mask : Nat := WORD - 1 - 0xF

/-- The null pointer. -/
def NULL : Nat := 0

/-- Pointer plus byte offset, wrapping at 64 bits. -/
def padd (p n : Nat) : Nat := (p + n) % WORD

/-- Pointer minus byte offset, wrapping at 64 bits. -/
def psub (p n : Nat) : Nat := (p + (WORD - n % WORD)) % WORD

/-! ## Outcomes and the allocator state -/

/-- The ways a call can fail to return: an invalid memory access, or a loop
that did not finish within its fuel. -/
inductive Fault where
  | segv
  | hang

/-- The arena of `memlib` (`mem` holds one word per 8-aligned address of
`[lo, brk)`, `limit` bounds the growth) and the globals `heap_listp` and
`free_listp`. -/
structure Heap where
  mem : Nat → Nat
  lo : Nat
  brk : Nat
  limit : Nat
  heap_listp : Nat
  free_listp : Nat

/-- An address at which a word may be read or written. -/
def Heap.valid (h : Heap) (a : Nat) : Prop :=
  a % 8 = 0 ∧ h.lo ≤ a ∧ a + 8 ≤ h.brk

instance (h : Heap) (a : Nat) : Decidable (h.valid a) := by
  unfold Heap.valid; infer_instance

/-- Read of the word at address `a`. -/
def load (h : Heap) (a : Nat) : Except Fault Nat :=
  if h.valid a then .ok (h.mem a % WORD) else .error .segv

/-- Write of the word at address `a`. -/
def store (h : Heap) (a v : Nat) : Except Fault Heap :=
  if h.valid a then
    let m : Nat → Nat := fun x => if x = a then v else h.mem x
    .ok { h with mem := m }
  else .error .segv

/-- Modelled from the spec: the arena accessor `mem_heap_lo` of memlib. -/
def mem_heap_lo (h : Heap) : Nat := h.lo

/-- Modelled from the spec: the arena accessor `mem_heap_hi` of memlib, the
address of the last byte of the arena. -/
def mem_heap_hi (h : Heap) : Nat := h.brk - 1

/-- Modelled from the spec: the arena-growth primitive `mem_sbrk` of memlib: it
extends the arena by exactly `incr` bytes and returns the previous end, or
fails (`none`) without extending when the limit would be exceeded. -/
def mem_sbrk (h : Heap) (incr : Nat) : Option (Nat × Heap) :=
  if h.brk + incr ≤ h.limit then some (h.brk, { h with brk := h.brk + incr })
  else none

/-! ## Block codec and navigation -/

/-- The function `round_up`: `n * ((size + (n-1)) / n)` in `size_t` arithmetic. -/
def round_up (size n : Nat) : Nat :=
  (n * (((size + (n - 1)) % WORD) / n)) % WORD

/-- The function `pack`: `alloc ? (size | 1) : size`. -/
def pack (size : Nat) (alloc : Bool) : Nat :=
  if alloc then size ||| 1 else size

/-- The function `extract_size`: `word & size_mask`. -/
def extract_size (word : Nat) : Nat := word &&& size_mask

/-- The function `get_size`: `extract_size(block->header)`. -/
def get_size (h : Heap) (block : Nat) : Except Fault Nat := do
  let w ← load h block
  pure (extract_size w)

/-- The function `extract_alloc`: `(bool)(word & alloc_mask)`. -/
def extract_alloc (word : Nat) : Bool := (word &&& alloc_mask) != 0

/-- The function `get_alloc`: `extract_alloc(block->header)`. -/
def get_alloc (h : Heap) (block : Nat) : Except Fault Bool := do
  let w ← load h block
  pure (extract_alloc w)

/-- The function `write_header`: `block->header = pack(size, alloc)`. -/
def write_header (h : Heap) (block size : Nat) (alloc : Bool) : Except Fault Heap :=
  store h block (pack size alloc)

/-- The function `find_footer`: `block->payload + get_size(block) - dsize`. -/
def find_footer (h : Heap) (block : Nat) : Except Fault Nat := do
  let cur ← get_size h block
  pure (psub (padd (padd block wsize) cur) dsize)

/-- The function `write_footer`: the footer position is computed from the size
currently in the header. -/
def write_footer (h : Heap) (block size : Nat) (alloc : Bool) : Except Fault Heap := do
  let cur ← get_size h block
  let footerp := psub (padd (padd block wsize) cur) dsize
  store h footerp (pack size alloc)

/-- The function `find_next`: `(char *)block + get_size(block)`. -/
def find_next (h : Heap) (block : Nat) : Except Fault Nat := do
  let size ← get_size h block
  pure (padd block size)

/-- The function `find_prev_footer`: one word before the header. -/
def find_prev_footer (block : Nat) : Nat := psub block wsize

/-- The function `find_prev`: `(char *)block - extract_size(previous footer)`. -/
def find_prev (h : Heap) (block : Nat) : Except Fault Nat := do
  let footer ← load h (find_prev_footer block)
  pure (psub block (extract_size footer))

/-- The function `payload_to_header`. -/
def payload_to_header (bp : Nat) : Nat := psub bp wsize

/-- The function `header_to_payload`. -/
def header_to_payload (block : Nat) : Nat := padd block wsize

/-! ## The free list -/

/-- The function `find_free_next`: `*((word_t *)block + 2)`. -/
def find_free_next (h : Heap) (block : Nat) : Except Fault Nat :=
  load h (padd block (2 * wsize))

/-- The function `find_free_prev`: `*((word_t *)block + 1)`. -/
def find_free_prev (h : Heap) (block : Nat) : Except Fault Nat :=
  load h (padd block wsize)

/-- The function `set_prev`: `*((word_t *)block + 1) = prev`. -/
def set_prev (h : Heap) (block prev : Nat) : Except Fault Heap :=
  store h (padd block wsize) prev

/-- The function `set_next`: `*((word_t *)block + 2) = next`. -/
def set_next (h : Heap) (block next : Nat) : Except Fault Heap :=
  store h (padd block (2 * wsize)) next

/-- The function `remove_free_block`: unlinks a block from the free list. -/
def remove_free_block (h : Heap) (block : Nat) : Except Fault Heap := do
  let block_prev ← find_free_prev h block
  let block_next ← find_free_next h block
  if block_prev = NULL ∧ block_next = NULL then pure { h with free_listp := NULL }
  else if block_prev = NULL then do
    let h ← set_prev h block_next NULL
    pure { h with free_listp := block_next }
  else if block_next = NULL then set_next h block_prev NULL
  else do
    let h ← set_next h block_prev block_next
    set_prev h block_next block_prev

/-- The function `insert`: puts the block at the head of the free list. -/
def insert (h : Heap) (block : Nat) : Except Fault Heap :=
  if h.free_listp = NULL then do
    let h := { h with free_listp := block }
    let h ← set_prev h block NULL
    set_next h block NULL
  else do
    let h ← set_prev h h.free_listp block
    let h ← set_next h block h.free_listp
    let h ← set_prev h block NULL
    pure { h with free_listp := block }

/-! ## Coalescer and heap growth -/

/-- The function `coalesce`: merges a freed block with its free physical
neighbours and inserts the result into the free list; returns the merged
block. -/
def coalesce (h : Heap) (block : Nat) : Except Fault (Nat × Heap) := do
  let block_next ← find_next h block
  let block_prev ← find_prev h block
  let prev_footer ← load h (find_prev_footer block)
  let prev_alloc := extract_alloc prev_footer
  let next_alloc ← get_alloc h block_next
  let size ← get_size h block
  if prev_alloc && next_alloc then do
    let h ← insert h block
    pure (block, h)
  else if prev_alloc && !next_alloc then do
    let next_size ← get_size h block_next
    let size := (size + next_size) % WORD
    let h ← remove_free_block h block_next
    let h ← write_header h block size false
    let h ← write_footer h block size false
    let h ← insert h block
    pure (block, h)
  else if !prev_alloc && next_alloc then do
    let prev_size ← get_size h block_prev
    let size := (size + prev_size) % WORD
    let h ← remove_free_block h block_prev
    let h ← write_header h block_prev size false
    let h ← write_footer h block_prev size false
    let h ← insert h block_prev
    pure (block_prev, h)
  else do
    let next_size ← get_size h block_next
    let prev_size ← get_size h block_prev
    let size := (size + (next_size + prev_size) % WORD) % WORD
    let h ← remove_free_block h block_prev
    let h ← remove_free_block h block_next
    let h ← write_header h block_prev size false
    let h ← write_footer h block_prev size false
    let h ← insert h block_prev
    pure (block_prev, h)

/-- The function `extend_heap`: grows the arena, writes the new free block and
the new epilogue and coalesces.  Returns `NULL` and the unchanged state when
`mem_sbrk` fails. -/
def extend_heap (h : Heap) (size : Nat) : Except Fault (Nat × Heap) :=
  let size := round_up size dsize
  match mem_sbrk h size with
  | none => pure (NULL, h)
  | some (bp, h) => do
    let block := payload_to_header bp
    let h ← write_header h block size false
    let h ← write_footer h block size false
    let block_next ← find_next h block
    let h ← write_header h block_next 0 true
    coalesce h block

/-- The function `mm_init`: creates prologue footer and epilogue header and
extends the empty heap by `chunksize` bytes. -/
def mm_init (h : Heap) : Except Fault (Bool × Heap) :=
  match mem_sbrk h (2 * wsize) with
  | none => pure (false, h)
  | some (start, h) => do
    let h ← store h start (pack 0 true)
    let h ← store h (padd start wsize) (pack 0 true)
    let h := { h with heap_listp := padd start wsize }
    let h := { h with free_listp := NULL }
    let (block, h) ← extend_heap h chunksize
    if block = NULL then pure (false, h) else pure (true, h)

/-! ## Heap checker -/

/-- The function `check_block`: alignment, equality of header and footer, and
range of the physical neighbours. -/
def check_block (h : Heap) (block : Nat) : Except Fault Bool :=
  if block % dsize ≠ 0 then pure false
  else do
    let header ← load h block
    let footerp ← find_footer h block
    let footer ← load h footerp
    if header ≠ footer then pure false
    else do
      let prev ← find_prev h block
      if prev < mem_heap_lo h ∨ prev > mem_heap_hi h then pure false
      else do
        let next ← find_next h block
        if next < mem_heap_lo h ∨ next > mem_heap_hi h then pure false
        else pure true

/-- The function `check_free_list`: range tests on the two list pointers (the
second test compares `find_free_next` with the low bound and `find_free_prev`
with the high bound, as the source does). -/
def check_free_list (h : Heap) (block : Nat) : Except Fault Bool := do
  let prev ← find_free_prev h block
  if prev < mem_heap_lo h ∨ prev > mem_heap_hi h then pure false
  else do
    let next ← find_free_next h block
    if next < mem_heap_lo h ∨ prev > mem_heap_hi h then pure false
    else pure true

/-- The function `mm_checkheap`.  The body of its loop
`for (bp = heap_listp; (heap_listp->header ^ 0x1) > 0; bp = find_next(bp))`
is `check_block(bp); return false;`, so the loop returns in its first
iteration or is not entered, and `bp` is `heap_listp` at the epilogue test. -/
def mm_checkheap (h : Heap) : Except Fault Bool := do
  let size ← get_size h h.heap_listp
  if size ≠ wsize then pure false
  else do
    let alloc ← get_alloc h h.heap_listp
    if !alloc then pure false
    else do
      let w ← load h h.heap_listp
      if (w ^^^ 0x1) > 0 then do
        let _ ← check_block h h.heap_listp
        pure false
      else do
        let bp := h.heap_listp
        let header ← load h bp
        if header ≠ 0 then pure false
        else do
          let alloc ← get_alloc h bp
          if !alloc then pure false
          else check_free_list h h.free_listp

/-! ## Concrete states -/

/-- A concrete uninitialised allocator: arena base `0x1000`, at most 20 MB,
memory all zero, both globals `NULL`. -/
def heap0 : Heap :=
  { mem := fun _ => 0, lo := 0x1000, brk := 0x1000, limit := 0x1000 + 20 * (1 <<< 20),
    heap_listp := NULL, free_listp := NULL }

/-- The allocator `heap0` after a successful `mm_init`. -/
def heap1 : Heap :=
  match mm_init heap0 with
  | .ok r => r.2
  | .error _ => heap0

end Mm1

namespace MmFinal2

/-! ## Verification -/

/-! ### Shared lemmas -/

/-- On an initialised heap `malloc(0)` skips `mm_init` and returns `NULL`
before anything is read or written. -/
theorem malloc_zero_of_init (h : Heap) (hi : h.heap_listp ≠ NULL) :
    malloc h 0 = Except.ok (NULL, h) := by
  unfold malloc
  rw [if_neg hi]
  rfl

/-- On the uninitialised `heap0`, `malloc(0)` grows the arena to `0x2010`. -/
theorem malloc_zero_heap0_brk :
    Except.map (fun r => r.2.brk) (malloc heap0 0) = Except.ok 8208 := by
  rfl

/-! ### Overflow of the adjusted size in `malloc`

`malloc` computes `asize = round_up(size + wsize, dsize)` in 64-bit arithmetic
with no overflow check.  For `size` in `[2^64 - 23, 2^64 - 8]` the result is
`asize = 0`, for `size` in `[2^64 - 7, 2^64 - 1]` it is `asize = 16`.  With
`asize = 0`, `find_fit` returns a free block and `place(block, 0)` splits it into
an allocated part of 0 bytes and a free remainder that starts at the same
address, so `malloc` returns the payload address of a block that stays free and
stays in its bucket.  The statements C1 to C6 evaluate the code on call
sequences that contain one such request. -/

/-- C1 (the code violates the claim): from the uninitialised heap,
`p = malloc(2^64 - 8)` returns 4112 and leaves the block at 4104 free, and the
next call `q = malloc(1)` returns 4112 again.  Both pointers are live and the
regions `[p, p + 2^64 - 8)` and `[q, q + 1)` share the byte at 4112. -/
theorem C1_live_regions_overlap :
    (do let (p, h) ← malloc heap0 (2 ^ 64 - 8)
        let (q, _) ← malloc h 1
        pure (p, q)) = Except.ok (4112, 4112) := by
  rfl

/-- C2 (the code violates the claim): from the uninitialised heap,
`malloc(2^64 - 8)` returns the non-null address `a = 4112`, but the block at
`a - 8` is not an allocated block: after the call its header has size 4096 and
a clear allocation bit, and the block is still the head of bucket 8. -/
theorem C2_returned_block_is_free :
    (do let (a, h) ← malloc heap0 (2 ^ 64 - 8)
        let size ← get_size h (payload_to_header a)
        let alloc ← get_alloc h (payload_to_header a) false false true
        pure (a, size, alloc, h.seg_free_list 8)) =
      Except.ok (4112, 4096, false, 4104) := by
  rfl

/-- C3 (the code violates the claim): from the uninitialised heap,
`malloc(2^64 - 1)` returns the non-null address `a = 4112` of a block of 16
bytes (payload `[4112, 4120)`), while the arena ends at `mem_heap_hi = 8207`:
the requested region `[a, a + 2^64 - 1)` lies neither inside the block nor
inside the arena. -/
theorem C3_region_outside_arena :
    (do let (a, h) ← malloc heap0 (2 ^ 64 - 1)
        let size ← get_size h (payload_to_header a)
        pure (a, size, mem_heap_lo h, mem_heap_hi h,
          decide (a + (2 ^ 64 - 1) ≤ payload_to_header a + size),
          decide (a + (2 ^ 64 - 1) ≤ mem_heap_hi h + 1))) =
      Except.ok (4112, 16, 4096, 8207, false, false) := by
  rfl

/-- C4 (the code violates the claim): after the calls `a = malloc(1)`,
`p = malloc(2^64 - 8)`, `q = malloc(16)`, `n = malloc(1)`, `free(a)`, `free(p)`
(each pointer live when it is freed) the first block of the heap (at 4104,
16 bytes) and the physically next block (at 4120) are both free. -/
theorem C4_adjacent_free_blocks :
    (do let (a, h) ← malloc heap0 1
        let (p, h) ← malloc h (2 ^ 64 - 8)
        let (q, h) ← malloc h 16
        let (n, h) ← malloc h 1
        let h ← free h a
        let h ← free h p
        let b1 := h.heap_listp
        let b2 ← find_next h b1
        let alloc1 ← get_alloc h b1 false false true
        let alloc2 ← get_alloc h b2 false false true
        pure (a, p, q, n, b1, b2, alloc1, alloc2)) =
      Except.ok (4112, 4128, 4128, 4160, 4104, 4120, false, false) := by
  rfl

/-- C5 (the code violates the claim): after `p = malloc(2^64 - 8)` and
`free(p)` the free block at 4104 has been inserted into bucket 8 a second time:
it is the head of the bucket and its own successor, so it occurs more than once
in the list. -/
theorem C5_block_twice_in_bucket :
    (do let (p, h) ← malloc heap0 (2 ^ 64 - 8)
        let h ← free h p
        let head := h.seg_free_list 8
        let second ← find_free_next h head
        let alloc ← get_alloc h head false false true
        pure (p, head, second, alloc)) =
      Except.ok (4112, 4104, 4104, false) := by
  rfl

/-- C6 (the code violates the claim): after `w = malloc(16)`,
`p = malloc(2^64 - 8)`, `free(w)`, `a = malloc(40)`, `free(p)` (each pointer
live when it is freed) the walk from `heap_listp` goes from the block at 4104
(48 bytes) to the block at 4152, whose header now holds the list pointer 4152,
that is size 4144; adding that size gives 8296, beyond the end 8208 of the
arena, so the walk never reaches the epilogue at 8200. -/
theorem C6_walk_leaves_arena :
    (do let (w, h) ← malloc heap0 16
        let (p, h) ← malloc h (2 ^ 64 - 8)
        let h ← free h w
        let (a, h) ← malloc h 40
        let h ← free h p
        let b1 := h.heap_listp
        let b2 ← find_next h b1
        let header2 ← load h b2
        let b3 ← find_next h b2
        pure (w, p, a, b1, b2, header2, b3, h.brk)) =
      Except.ok (4112, 4144, 4112, 4104, 4152, 4152, 8296, 8208) := by
  rfl

/-! ### Zero-size and null-pointer requests -/

/-- C7 (counterexample): on the uninitialised heap `malloc(0)` does not leave
the state as it was: it runs `mm_init` first, which grows the arena. -/
theorem C7_malloc_zero_initialises :
    malloc heap0 0 ≠ Except.ok (NULL, heap0) := by
  intro hEq
  have hb := malloc_zero_heap0_brk
  rw [hEq] at hb
  simp [Except.map, heap0, fresh] at hb

/-- C7 (amended): for every allocator state whose heap is initialised
(`heap_listp` is not `NULL`), `malloc(0)` returns `NULL` and the state after
the call (arena bounds, every word, `heap_listp`, all bucket heads) is the
state before it. -/
theorem C7_malloc_zero_no_effect (h : Heap) (hi : h.heap_listp ≠ NULL) :
    malloc h 0 = Except.ok (NULL, h) :=
  malloc_zero_of_init h hi

/-- C7 (witness): the amended statement at the initialised heap `heap1`. -/
theorem C7_malloc_zero_no_effect_witness :
    heap1.heap_listp ≠ NULL ∧ malloc heap1 0 = Except.ok (NULL, heap1) :=
  ⟨by decide, C7_malloc_zero_no_effect heap1 (by decide)⟩

/-- C8: for every allocator state, `free(NULL)` returns with the state
unchanged (arena bounds, every word and all bucket heads). -/
theorem C8_free_null (h : Heap) : free h NULL = Except.ok h := by
  rfl

/-- C9 (counterexample): on the uninitialised heap `realloc(NULL, 0)` and
`malloc(0)` end in different states: `realloc` takes the `size == 0` branch,
calls `free(NULL)` and returns, while `malloc(0)` runs `mm_init`. -/
theorem C9_realloc_null_zero_differs :
    realloc heap0 NULL 0 ≠ malloc heap0 0 := by
  intro hEq
  have hr : realloc heap0 NULL 0 = Except.ok (NULL, heap0) := by rfl
  have hb := malloc_zero_heap0_brk
  rw [← hEq, hr] at hb
  simp [Except.map, heap0, fresh] at hb

/-- C9 (amended): for every allocator state and every `n`, provided `n > 0` or
the heap is already initialised, `realloc(NULL, n)` returns the same result and
produces the same final state as `malloc(n)`. -/
theorem C9_realloc_null_is_malloc (h : Heap) (n : Nat)
    (hn : n ≠ 0 ∨ h.heap_listp ≠ NULL) : realloc h NULL n = malloc h n := by
  by_cases h0 : n = 0
  · subst h0
    have hi : h.heap_listp ≠ NULL := by
      rcases hn with hn | hn
      · exact absurd rfl hn
      · exact hn
    rw [malloc_zero_of_init h hi]
    rfl
  · unfold realloc
    simp only [if_neg h0]
    rfl

/-- C9 (witness): the amended statement at the uninitialised heap with
`n = 32`. -/
theorem C9_realloc_null_is_malloc_witness :
    ((32 : Nat) ≠ 0 ∨ heap0.heap_listp ≠ NULL) ∧
      realloc heap0 NULL 32 = malloc heap0 32 :=
  ⟨Or.inl (by decide), C9_realloc_null_is_malloc heap0 32 (Or.inl (by decide))⟩

/-- For every allocator state and every pointer `p`, `realloc(p, 0)` has
exactly the outcome of `free(p)`: when `free(p)` returns with state `s`,
`realloc(p, 0)` returns `NULL` with state `s`, and when `free(p)` does not
return, neither does `realloc(p, 0)`. -/
theorem realloc_zero_outcome (h : Heap) (p : Nat) :
    realloc h p 0 = Except.map (fun s => (NULL, s)) (free h p) := by
  unfold realloc
  simp only [if_pos]
  cases free h p <;> rfl

/-! ### Failure of the allocation inside `malloc` and `realloc` -/

/-- When the heap is initialised, `find_fit` finds no block and `mem_sbrk`
refuses the extension, `malloc` returns `NULL` and the state is untouched. -/
theorem malloc_fail_of_no_fit (h : Heap) (n : Nat)
    (hi : h.heap_listp ≠ NULL) (hn : n ≠ 0)
    (hfit : find_fit h (round_up ((n + wsize) % WORD) dsize) = Except.ok NULL)
    (hgrow : mem_sbrk h (round_up (max (round_up ((n + wsize) % WORD) dsize)
      chunksize) dsize) = none) :
    malloc h n = Except.ok (NULL, h) := by
  unfold malloc
  rw [if_neg hi]
  simp only [pure_bind, if_neg hn]
  rw [hfit]
  simp only [Except.bind, bind, extend_heap, hgrow]
  rfl

/-- C12: for every initialised state, every non-null `p` and every `n > 0`, if
the allocation inside `realloc(p, n)` fails (`find_fit` finds no block and
`mem_sbrk` refuses the extension), `realloc` returns `NULL` and the state after
the call is the state before it: the block of `p`, every other block and all
free lists are unchanged. -/
theorem C12_realloc_failure_no_effect (h : Heap) (p n : Nat)
    (hi : h.heap_listp ≠ NULL) (hp : p ≠ NULL) (hn : n ≠ 0)
    (hfit : find_fit h (round_up ((n + wsize) % WORD) dsize) = Except.ok NULL)
    (hgrow : mem_sbrk h (round_up (max (round_up ((n + wsize) % WORD) dsize)
      chunksize) dsize) = none) :
    realloc h p n = Except.ok (NULL, h) := by
  unfold realloc
  simp only [if_neg hn, if_neg hp]
  rw [malloc_fail_of_no_fit h n hi hn hfit hgrow]
  rfl

/-- C12 (witness): on `heap_tight1`, whose arena cannot grow, with the live
pointer 4112 and `n = 5000`. -/
theorem C12_realloc_failure_no_effect_witness :
    heap_tight1.heap_listp ≠ NULL ∧ (4112 : Nat) ≠ NULL ∧ (5000 : Nat) ≠ 0 ∧
      find_fit heap_tight1 (round_up ((5000 + wsize) % WORD) dsize) = Except.ok NULL ∧
      mem_sbrk heap_tight1 (round_up (max (round_up ((5000 + wsize) % WORD) dsize)
        chunksize) dsize) = none ∧
      realloc heap_tight1 4112 5000 = Except.ok (NULL, heap_tight1) :=
  ⟨by decide, by decide, by decide, by rfl, by rfl,
    C12_realloc_failure_no_effect heap_tight1 4112 5000 (by decide) (by decide)
      (by decide) (by rfl) (by rfl)⟩

/-- C16: for every initialised state and every `n > 0`, if `find_fit` finds no
block and the arena-growth primitive fails, `malloc(n)` returns `NULL` and the
state after the call (every word of the arena, the bucket heads and the arena
bounds) is the state before it. -/
theorem C16_malloc_failure_no_effect (h : Heap) (n : Nat)
    (hi : h.heap_listp ≠ NULL) (hn : n ≠ 0)
    (hfit : find_fit h (round_up ((n + wsize) % WORD) dsize) = Except.ok NULL)
    (hgrow : mem_sbrk h (round_up (max (round_up ((n + wsize) % WORD) dsize)
      chunksize) dsize) = none) :
    malloc h n = Except.ok (NULL, h) :=
  malloc_fail_of_no_fit h n hi hn hfit hgrow

/-- C16 (witness): on `heap_tight1`, whose arena cannot grow, with `n = 6000`. -/
theorem C16_malloc_failure_no_effect_witness :
    heap_tight1.heap_listp ≠ NULL ∧ (6000 : Nat) ≠ 0 ∧
      find_fit heap_tight1 (round_up ((6000 + wsize) % WORD) dsize) = Except.ok NULL ∧
      mem_sbrk heap_tight1 (round_up (max (round_up ((6000 + wsize) % WORD) dsize)
        chunksize) dsize) = none ∧
      malloc heap_tight1 6000 = Except.ok (NULL, heap_tight1) :=
  ⟨by decide, by decide, by rfl, by rfl,
    C16_malloc_failure_no_effect heap_tight1 6000 (by decide) (by decide)
      (by rfl) (by rfl)⟩

/-! ### `calloc` -/

/-- C13: for every `count > 0` and every `size`, the overflow test of `calloc`
succeeds exactly when the mathematical product `count * size` is at least
`2^64`; when it succeeds `calloc` returns `NULL` with the state unchanged and
without calling `malloc`, and when it does not `calloc` goes on to
`malloc(count * size)`. -/
theorem C13_calloc_overflow_path (h : Heap) (count size : Nat) (hc : 0 < count) :
    (calloc_overflow count size = true ↔ WORD ≤ count * size) ∧
    (calloc_overflow count size = true →
      calloc h count size = Except.ok (NULL, h)) ∧
    (calloc_overflow count size = false →
      calloc h count size =
        (do let (bp, h) ← malloc h (count * size)
            if bp = NULL then pure (NULL, h)
            else do
              let h ← memset0 h bp (count * size)
              pure (bp, h))) := by
  have hc0 : count ≠ 0 := Nat.pos_iff_ne_zero.mp hc
  have key : ((count * size) % WORD) / count ≠ size ↔ WORD ≤ count * size := by
    constructor
    · intro hne
      by_contra hlt
      have hlt2 : count * size < WORD := Nat.lt_of_not_le hlt
      rw [Nat.mod_eq_of_lt hlt2, Nat.mul_div_cancel_left size hc] at hne
      exact hne rfl
    · intro hge hEq
      have hmod : (count * size) % WORD < WORD := Nat.mod_lt _ (by decide)
      have hlt : (count * size) % WORD < count * size := Nat.lt_of_lt_of_le hmod hge
      have hdiv : ((count * size) % WORD) / count < size :=
        Nat.div_lt_of_lt_mul hlt
      omega
  refine ⟨?_, ?_, ?_⟩
  · unfold calloc_overflow
    rw [bne_iff_ne]
    exact key
  · intro ht
    unfold calloc_overflow at ht
    rw [bne_iff_ne] at ht
    unfold calloc
    simp only [if_neg hc0, if_pos ht]
    rfl
  · intro hf
    have hnot : ¬ (((count * size) % WORD) / count ≠ size) := by
      intro hne
      have : calloc_overflow count size = true := by
        unfold calloc_overflow
        rw [bne_iff_ne]
        exact hne
      rw [hf] at this
      exact Bool.noConfusion this
    have hlt : count * size < WORD := by
      by_contra hge
      exact hnot (key.mpr (Nat.le_of_not_lt hge))
    have hnot2 : ¬ ((count * size) / count ≠ size) := by
      rw [Nat.mod_eq_of_lt hlt] at hnot
      exact hnot
    unfold calloc
    simp only [if_neg hc0, Nat.mod_eq_of_lt hlt, if_neg hnot2]

/-- C13 (witness): `count = size = 2^40` on `heap0`: the product is `2^80`, the
test succeeds and `calloc` returns `NULL` with the state unchanged. -/
theorem C13_calloc_overflow_path_witness :
    0 < 2 ^ 40 ∧ calloc_overflow (2 ^ 40) (2 ^ 40) = true ∧
      calloc heap0 (2 ^ 40) (2 ^ 40) = Except.ok (NULL, heap0) :=
  ⟨by decide, by decide,
    (C13_calloc_overflow_path heap0 (2 ^ 40) (2 ^ 40) (by decide)).2.1 (by decide)⟩

/-- C14 (the code violates the claim): from the uninitialised heap
`malloc(2^64 - 8)` returns the non-null address 4112, but
`calloc(1, 2^64 - 8)`, whose product does not overflow, does not return that
address with a zeroed region: its `memset` of `2^64 - 8` bytes from 4112 runs
past the end of the arena (8208) and the call faults. -/
theorem C14_calloc_fill_leaves_arena :
    Except.map (fun r => (r.1, r.2.brk)) (malloc heap0 (2 ^ 64 - 8)) =
        Except.ok (4112, 8208) ∧
      calloc heap0 1 (2 ^ 64 - 8) = Except.error Fault.segv := by
  constructor <;> rfl

/-- C15 (the code violates the claim): for every state and every `size`,
`calloc(0, size)` evaluates `asize / nmemb` with `nmemb = 0`: the overflow test
divides by zero and the call does not return. -/
theorem C15_calloc_zero_count_divides_by_zero (h : Heap) (size : Nat) :
    calloc h 0 size = Except.error Fault.divzero := by
  rfl

/-! ### Further consequences of the overflow in `malloc` -/

/-- C11 (the code violates the claim): after `p = malloc(16)` the call
`q = realloc(p, 2^64 - 8)` returns the non-null address 4144, but `q` is not
live: the header at `q - 8` has a clear allocation bit, `q` lies inside the free
block at 4104 of size 4096, and the second of two following `malloc(16)` calls
returns 4144 again. -/
theorem C11_realloc_result_not_live :
    (do let (p, h) ← malloc heap0 16
        let (q, h) ← realloc h p (2 ^ 64 - 8)
        let alloc_q ← get_alloc h (payload_to_header q) false false true
        let size0 ← get_size h 4104
        let alloc0 ← get_alloc h 4104 false false true
        let (r1, h) ← malloc h 16
        let (r2, _) ← malloc h 16
        pure (p, q, alloc_q, size0, alloc0, r1, r2)) =
      Except.ok (4112, 4144, false, 4096, false, 4112, 4144) := by
  rfl

/-- The scenario of C17 on the code: from the fresh heap, `A = malloc(40)`,
`B = malloc(40)`, `free(A)`, `C = malloc(16)` gives `C = A`, and the last call
leaves the end of the arena where it was. -/
theorem reuse_scenario :
    (do let (a, h) ← malloc heap0 40
        let (b, h) ← malloc h 40
        let h ← free h a
        let brk_before := h.brk
        let (c, h) ← malloc h 16
        pure (a, b, c, brk_before, h.brk)) =
      Except.ok (4112, 4160, 4112, 8208, 8208) := by
  rfl

/-- C17 (the code violates the claim): after `a = malloc(1)`,
`p = malloc(2^64 - 8)`, `free(p)`, `q = malloc(16)` the heap holds the free
block at 4152 of size 4048 and the allocated block of the live pointer
`q = 4128`; the next call `malloc(1)` needs 16 bytes, does not grow the arena,
and returns 4128, a payload inside the block that was allocated before the
call. -/
theorem C17_malloc_returns_allocated_block :
    (do let (a, h) ← malloc heap0 1
        let (p, h) ← malloc h (2 ^ 64 - 8)
        let h ← free h p
        let (q, h) ← malloc h 16
        let free_size ← get_size h 4152
        let free_alloc ← get_alloc h 4152 false false true
        let q_alloc ← get_alloc h (payload_to_header q) false false true
        let brk_before := h.brk
        let (c, h) ← malloc h 1
        pure (a, p, q, free_size, free_alloc, q_alloc, c, brk_before, h.brk)) =
      Except.ok (4112, 4128, 4128, 4048, false, true, 4128, 8208, 8208) := by
  rfl

/-- The scenario of C18 on the code: with the three adjacent allocated blocks
of `A = malloc(40)`, `B = malloc(40)`, `C = malloc(40)` (48 bytes each),
`free(B)` and then `free(A)` leave one free block at 4104 of size 96, head of
bucket 2, followed by the allocated block of `C`. -/
theorem coalesce_scenario :
    (do let (a, h) ← malloc heap0 40
        let (b, h) ← malloc h 40
        let (c, h) ← malloc h 40
        let h ← free h b
        let h ← free h a
        let size ← get_size h 4104
        let alloc ← get_alloc h 4104 false false true
        let next ← find_next h 4104
        let next_alloc ← get_alloc h next false false true
        pure (a, b, c, size, alloc, next, next_alloc,
          h.seg_free_list 1, h.seg_free_list 2)) =
      Except.ok (4112, 4160, 4208, 96, false, 4200, true, 0, 4104) := by
  rfl

/-- C18 (the code violates the claim): after `a = malloc(1)`,
`p = malloc(2^64 - 8)`, `q = malloc(16)`, `n = malloc(1)`, `free(a)` the block
of `p` at 4120 (32 bytes, allocated) has the free block at 4104 (16 bytes)
before it and an allocated block after it.  `free(p)` does not produce a free
block at 4104 of size 48: the block at 4104 keeps size 16 and stays head of
bucket 0, and the block at 4120 becomes a free block of size 64, head of
bucket 2. -/
theorem C18_free_misses_free_predecessor :
    (do let (a, h) ← malloc heap0 1
        let (p, h) ← malloc h (2 ^ 64 - 8)
        let (_, h) ← malloc h 16
        let (_, h) ← malloc h 1
        let h ← free h a
        let prev_size ← get_size h 4104
        let prev_alloc ← get_alloc h 4104 false false true
        let size ← get_size h (payload_to_header p)
        let alloc ← get_alloc h (payload_to_header p) false false true
        let h ← free h p
        let prev_size_after ← get_size h 4104
        let size_after ← get_size h (payload_to_header p)
        let alloc_after ← get_alloc h (payload_to_header p) false false true
        pure (p, prev_size, prev_alloc, size, alloc, prev_size_after, size_after,
          alloc_after, h.seg_free_list 0, h.seg_free_list 1, h.seg_free_list 2)) =
      Except.ok (4128, 16, false, 32, true, 16, 64, false, 4104, 0, 4120) := by
  rfl

/-- C19 (the code violates the claim): after `w = malloc(16)` the call
`malloc(2^64 - 16)` succeeds with the address 4144; the adjusted size
`round_up(n + 8, 16)` computed by the code is 0, and the block at 4136 whose
payload is returned has size 4064 and a clear allocation bit. -/
theorem C19_returned_block_not_marked :
    (do let (w, h) ← malloc heap0 16
        let (a, h) ← malloc h (2 ^ 64 - 16)
        let size ← get_size h (payload_to_header a)
        let alloc ← get_alloc h (payload_to_header a) false false true
        pure (w, a, size, alloc,
          round_up ((2 ^ 64 - 16 + wsize) % WORD) dsize)) =
      Except.ok (4112, 4144, 4064, false, 0) := by
  rfl

/-! ### The heap checker -/
/-- The first loop of `mm_checkheap` either returns `false` or ends. -/
theorem checkheap_blocks_result (h : Heap) (r : Option Bool)
    (hr : checkheap_blocks h = Except.ok r) : r = some false ∨ r = none := by
  unfold checkheap_blocks at hr
  cases hw : load h h.heap_listp with
  | error e => rw [hw] at hr; cases hr
  | ok w =>
    rw [hw] at hr
    by_cases hx : (w ^^^ 0x1) > 0
    · cases hb : check_block h h.heap_listp with
      | error e => simp [bind, Except.bind, hx, hb] at hr
      | ok b =>
        simp [bind, Except.bind, hx, hb, pure, Except.pure] at hr
        exact Or.inl hr.symm
    · simp [bind, Except.bind, hx, pure, Except.pure] at hr
      exact Or.inr hr.symm

/-- The second loop of `mm_checkheap` never ends normally: when it finishes, the
function has returned `false`. -/
theorem checkheap_buckets_result (h : Heap) (r : Option Bool)
    (hr : checkheap_buckets h 14 0 = Except.ok r) : r = some false := by
  unfold checkheap_buckets at hr
  cases hl : checkheap_list h (fuel h) (h.seg_free_list 0) with
  | error e => simp [bind, Except.bind, hl] at hr
  | ok u =>
    simp [bind, Except.bind, hl, pure, Except.pure] at hr
    exact hr.symm

/-- The checker `mm_checkheap` returns `true` on no state at all: the final
`return true` is unreachable. -/
theorem mm_checkheap_never_true (h : Heap) (v : Int) :
    mm_checkheap h v ≠ Except.ok true := by
  intro hEq
  unfold mm_checkheap at hEq
  cases hs : get_size h (mem_heap_lo h) with
  | error e => simp [bind, Except.bind, hs] at hEq
  | ok psize =>
    cases ha : get_alloc h (mem_heap_lo h) false false true with
    | error e => simp [bind, Except.bind, hs, ha] at hEq
    | ok palloc =>
      simp only [bind, Except.bind, hs, ha] at hEq
      by_cases hc : psize ≠ 0 ∨ (!palloc) = true
      · rw [if_pos hc] at hEq
        simp [pure, Except.pure] at hEq
      · rw [if_neg hc] at hEq
        cases hb : checkheap_blocks h with
        | error e => simp [hb] at hEq
        | ok r1 =>
          rw [hb] at hEq
          rcases checkheap_blocks_result h r1 hb with h1 | h1
          · subst h1
            simp [pure, Except.pure] at hEq
          · subst h1
            cases hk : checkheap_buckets h 14 0 with
            | error e => simp [hk] at hEq
            | ok r2 =>
              have h2 := checkheap_buckets_result h r2 hk
              subst h2
              simp [hk, pure, Except.pure] at hEq

/-- C20 (the code violates the claim): `mm_init` succeeds on `heap0`, and on
the resulting heap `heap1` the checker `mm_checkheap` returns `false`: the body
of its first loop ends with `return false`.  Moreover `mm_checkheap` returns
`true` on no state at all. -/
theorem C20_checkheap_rejects_initial_heap :
    Except.map (fun r => r.1) (mm_init heap0) = Except.ok true ∧
      mm_checkheap heap1 0 = Except.ok false ∧
      ∀ (h : Heap) (v : Int), mm_checkheap h v ≠ Except.ok true :=
  ⟨by rfl, by rfl, mm_checkheap_never_true⟩


/-! ### Block codec -/

/-- Or-ing a number below 16 into a multiple of 16 adds it. -/
theorem or_low_bits (k c : Nat) (hc : c < 16) : 16 * k ||| c = 16 * k + c := by
  have h := Nat.mul_add_lt_is_or (i := 4) (b := c) (by simpa using hc) k
  simpa using h.symm

/-- Masking with a single bit tests that bit. -/
theorem and_two_pow_ne_zero (x i : Nat) : (x &&& 2 ^ i != 0) = x.testBit i := by
  rw [Nat.and_two_pow]
  cases h : x.testBit i <;> simp

/-- The header word of a block whose size is a multiple of 16 is the size plus
the three flag bits. -/
theorem pack_eq_add (k : Nat) (ps p a : Bool) :
    pack (16 * k) ps p a = 16 * k + (4 * ps.toNat + 2 * p.toNat + a.toNat) := by
  unfold pack
  rw [Nat.or_assoc, Nat.or_assoc]
  have hc : (ps.toNat <<< 2 ||| (p.toNat <<< 1 ||| a.toNat)) =
      4 * ps.toNat + 2 * p.toNat + a.toNat := by
    cases ps <;> cases p <;> cases a <;> decide
  rw [hc]
  apply or_low_bits
  cases ps <;> cases p <;> cases a <;> decide

/-- Masking with `size_mask` clears the four low bits of a 64-bit word. -/
theorem extract_size_add (k c : Nat) (hk : 16 * k < WORD) (hc : c < 16) :
    extract_size (16 * k + c) = 16 * k := by
  unfold extract_size
  have hm : size_mask = (2 ^ 60 - 1) <<< 4 := by decide
  have hk60 : k < 2 ^ 60 := by unfold WORD at hk; omega
  rw [← or_low_bits k c hc, hm]
  apply Nat.eq_of_testBit_eq
  intro i
  rw [Nat.testBit_and, Nat.testBit_or, Nat.testBit_shiftLeft,
    Nat.testBit_two_pow_sub_one]
  have h16 : (16 : Nat) = 2 ^ 4 := by norm_num
  rw [h16, Nat.testBit_mul_pow_two]
  by_cases hi : i ≥ 4
  · have hci : c.testBit i = false := by
      apply Nat.testBit_lt_two_pow
      calc c < 2 ^ 4 := by simpa using hc
        _ ≤ 2 ^ i := Nat.pow_le_pow_right (by norm_num) hi
    by_cases hj : i - 4 < 60
    · simp [hi, hci, hj]
    · have hkj : k.testBit (i - 4) = false := by
        apply Nat.testBit_lt_two_pow
        calc k < 2 ^ 60 := hk60
          _ ≤ 2 ^ (i - 4) := Nat.pow_le_pow_right (by norm_num) (by omega)
      simp [hi, hci, hj, hkj]
  · simp [hi]

/-- The three flag bits of a word `16 * k + c`. -/
theorem extract_alloc_add (k : Nat) (ps p a x y z : Bool) :
    extract_alloc (16 * k + (4 * ps.toNat + 2 * p.toNat + a.toNat)) x y true = a ∧
    extract_alloc (16 * k + (4 * ps.toNat + 2 * p.toNat + a.toNat)) z true false = p ∧
    extract_alloc (16 * k + (4 * ps.toNat + 2 * p.toNat + a.toNat)) true false false = ps := by
  have h0 := and_two_pow_ne_zero (16 * k + (4 * ps.toNat + 2 * p.toNat + a.toNat)) 0
  have h1 := and_two_pow_ne_zero (16 * k + (4 * ps.toNat + 2 * p.toNat + a.toNat)) 1
  have h2 := and_two_pow_ne_zero (16 * k + (4 * ps.toNat + 2 * p.toNat + a.toNat)) 2
  simp only [pow_zero, pow_one] at h0 h1
  have h4 : (2 : Nat) ^ 2 = 4 := by norm_num
  rw [h4] at h2
  unfold extract_alloc alloc_mask free_alloc_mask free_size_mask
  simp only [if_true, Bool.false_eq_true, if_false]
  rw [h0, h1, h2]
  simp only [Nat.testBit_to_div_mod]
  refine ⟨?_, ?_, ?_⟩
  · cases ps <;> cases p <;> cases a <;> simp <;> omega
  · cases ps <;> cases p <;> cases a <;> simp <;> omega
  · cases ps <;> cases p <;> cases a <;> simp <;> omega


/-- C23: for every size that is a multiple of 16 below `2^64` and all booleans
`ps`, `p`, `a`, the word `w = pack(size, ps, p, a)` gives back its parts:
`extract_size(w) = size`, `extract_alloc(w, _, _, true) = a`,
`extract_alloc(w, _, true, false) = p` and
`extract_alloc(w, true, false, false) = ps`. -/
theorem C23_codec_round_trip (size : Nat) (ps p a x y z : Bool)
    (hs : size % 16 = 0) (hw : size < WORD) :
    extract_size (pack size ps p a) = size ∧
    extract_alloc (pack size ps p a) x y true = a ∧
    extract_alloc (pack size ps p a) z true false = p ∧
    extract_alloc (pack size ps p a) true false false = ps := by
  obtain ⟨k, rfl⟩ : ∃ k, size = 16 * k := ⟨size / 16, by omega⟩
  rw [pack_eq_add]
  refine ⟨?_, extract_alloc_add k ps p a x y z⟩
  apply extract_size_add k _ hw
  cases ps <;> cases p <;> cases a <;> decide

/-- C23 (witness): the header of a free block of 4096 bytes whose predecessor
is allocated and is not a 16-byte block. -/
theorem C23_codec_round_trip_witness :
    4096 % 16 = 0 ∧ 4096 < WORD ∧
      extract_size (pack 4096 false true false) = 4096 ∧
      extract_alloc (pack 4096 false true false) false false true = false ∧
      extract_alloc (pack 4096 false true false) false true false = true ∧
      extract_alloc (pack 4096 false true false) true false false = false :=
  ⟨by decide, by decide,
    C23_codec_round_trip 4096 false true false false false false
      (by decide) (by decide)⟩

/-! ### Size classes -/

/-- The bucket of a size, read off the thresholds of `find_index`. -/
theorem find_index_bounds (s r : Nat) (hr : find_index s = r) :
    r ≤ 13 ∧
    (32 ≤ s ↔ 1 ≤ r) ∧ (64 ≤ s ↔ 2 ≤ r) ∧
    (128 ≤ s ↔ 3 ≤ r) ∧ (256 ≤ s ↔ 4 ≤ r) ∧
    (512 ≤ s ↔ 5 ≤ r) ∧ (1024 ≤ s ↔ 6 ≤ r) ∧
    (2048 ≤ s ↔ 7 ≤ r) ∧ (4096 ≤ s ↔ 8 ≤ r) ∧
    (8192 ≤ s ↔ 9 ≤ r) ∧ (16382 ≤ s ↔ 10 ≤ r) ∧
    (32764 ≤ s ↔ 11 ≤ r) ∧ (65536 ≤ s ↔ 12 ≤ r) ∧
    (131072 ≤ s ↔ 13 ≤ r) := by
  unfold find_index at hr
  by_cases h0 : s < 32
  · rw [if_pos h0] at hr; omega
  · rw [if_neg h0] at hr
    by_cases h1 : s < 64
    · rw [if_pos h1] at hr; omega
    · rw [if_neg h1] at hr
      by_cases h2 : s < 128
      · rw [if_pos h2] at hr; omega
      · rw [if_neg h2] at hr
        by_cases h3 : s < 256
        · rw [if_pos h3] at hr; omega
        · rw [if_neg h3] at hr
          by_cases h4 : s < 512
          · rw [if_pos h4] at hr; omega
          · rw [if_neg h4] at hr
            by_cases h5 : s < 1024
            · rw [if_pos h5] at hr; omega
            · rw [if_neg h5] at hr
              by_cases h6 : s < 2048
              · rw [if_pos h6] at hr; omega
              · rw [if_neg h6] at hr
                by_cases h7 : s < 4096
                · rw [if_pos h7] at hr; omega
                · rw [if_neg h7] at hr
                  by_cases h8 : s < 8192
                  · rw [if_pos h8] at hr; omega
                  · rw [if_neg h8] at hr
                    by_cases h9 : s < 16382
                    · rw [if_pos h9] at hr; omega
                    · rw [if_neg h9] at hr
                      by_cases h10 : s < 32764
                      · rw [if_pos h10] at hr; omega
                      · rw [if_neg h10] at hr
                        by_cases h11 : s < 65536
                        · rw [if_pos h11] at hr; omega
                        · rw [if_neg h11] at hr
                          by_cases h12 : s < 131072
                          · rw [if_pos h12] at hr; omega
                          · rw [if_neg h12] at hr
                            omega

/-- C24: `find_index` is monotone non-decreasing and never exceeds 13, so the
buckets cover increasing size ranges and `seg_free_list[find_index(size)]` is
always inside the 14-element array. -/
theorem C24_find_index_monotone (a b size : Nat) (hab : a ≤ b) :
    find_index a ≤ find_index b ∧ find_index size ≤ 13 := by
  constructor
  · have ha := find_index_bounds a _ rfl
    have hb := find_index_bounds b _ rfl
    omega
  · exact (find_index_bounds size _ rfl).1

/-- C24 (witness): sizes 48 and 4096 fall into buckets 1 and 8. -/
theorem C24_find_index_monotone_witness :
    (48 : Nat) ≤ 4096 ∧ find_index 48 ≤ find_index 4096 ∧ find_index 200000 ≤ 13 :=
  ⟨by decide, C24_find_index_monotone 48 4096 200000 (by decide)⟩

/-! ### Reads and writes -/

theorem load_ok (h : Heap) (a : Nat) (hv : h.valid a) :
    load h a = Except.ok (h.word a) := by
  unfold load Heap.word
  rw [if_pos hv]

theorem store_ok (h : Heap) (a v : Nat) (hv : h.valid a) :
    store h a v = Except.ok (h.put a v) := by
  unfold store Heap.put
  rw [if_pos hv]

theorem put_valid (h : Heap) (a v x : Nat) : (h.put a v).valid x ↔ h.valid x :=
  Iff.rfl

theorem put_word_same (h : Heap) (a v : Nat) (hv : v < WORD) :
    (h.put a v).word a = v := by
  unfold Heap.word Heap.put
  simp only [if_true]
  exact Nat.mod_eq_of_lt hv

theorem put_word_other (h : Heap) (a v x : Nat) (hx : x ≠ a) :
    (h.put a v).word x = h.word x := by
  unfold Heap.word Heap.put
  simp only [if_neg hx]

theorem put_size_other (h : Heap) (a v x : Nat) (hx : x ≠ a) :
    (h.put a v).size_at x = h.size_at x := by
  unfold Heap.size_at
  rw [put_word_other h a v x hx]

theorem word_lt (h : Heap) (a : Nat) : h.word a < WORD :=
  Nat.mod_lt _ (by decide)

theorem padd_eq (p n : Nat) (hlt : p + n < WORD) : padd p n = p + n := by
  unfold padd
  exact Nat.mod_eq_of_lt hlt

theorem psub_eq (p n : Nat) (hn : n ≤ p) (hp : p < WORD) : psub p n = p - n := by
  unfold psub
  have h1 : n % WORD = n := Nat.mod_eq_of_lt (by omega)
  rw [h1]
  have h2 : p + (WORD - n) = (p - n) + WORD := by omega
  rw [h2, Nat.add_mod_right]
  exact Nat.mod_eq_of_lt (by omega)

theorem wsub_eq (a b : Nat) (hb : b ≤ a) (ha : a < WORD) : wsub a b = a - b := by
  unfold wsub
  have h1 : b % WORD = b := Nat.mod_eq_of_lt (by omega)
  rw [h1]
  have h2 : a + (WORD - b) = (a - b) + WORD := by omega
  rw [h2, Nat.add_mod_right]
  exact Nat.mod_eq_of_lt (by omega)

/-- The size field of any word is a multiple of 16 below `2^64 - 15`. -/
theorem extract_size_props (w : Nat) :
    extract_size w % 16 = 0 ∧ extract_size w ≤ WORD - 16 := by
  unfold extract_size
  constructor
  · have h := Nat.and_pow_two_sub_one_eq_mod (w &&& size_mask) 4
    have h16 : (2 : Nat) ^ 4 = 16 := by norm_num
    rw [h16] at h
    rw [← h, Nat.and_assoc]
    have hz : size_mask &&& (16 - 1) = 0 := by decide
    rw [hz]
    simp
  · have hle : w &&& size_mask ≤ size_mask := Nat.and_le_right
    have hm : size_mask = WORD - 16 := by decide
    omega

/-- Writing a header and reading its size back. -/
theorem extract_size_pack (s : Nat) (ps p a : Bool) (hs : s % 16 = 0)
    (hw : s < WORD) : extract_size (pack s ps p a) = s := by
  obtain ⟨k, rfl⟩ : ∃ k, s = 16 * k := ⟨s / 16, by omega⟩
  rw [pack_eq_add]
  apply extract_size_add k _ hw
  cases ps <;> cases p <;> cases a <;> decide

theorem pack_lt (s : Nat) (ps p a : Bool) (hs : s % 16 = 0) (hw : s < WORD) :
    pack s ps p a < WORD := by
  obtain ⟨k, rfl⟩ : ∃ k, s = 16 * k := ⟨s / 16, by omega⟩
  rw [pack_eq_add]
  have : 4 * ps.toNat + 2 * p.toNat + a.toNat < 16 := by
    cases ps <;> cases p <;> cases a <;> decide
  unfold WORD at hw ⊢
  omega

/-! ### Primitive steps on valid addresses -/

theorem get_size_ok (h : Heap) (b : Nat) (hv : h.valid b) :
    get_size h b = Except.ok (h.size_at b) := by
  unfold get_size Heap.size_at
  rw [load_ok h b hv]
  rfl

theorem get_alloc_ok (h : Heap) (b : Nat) (x y z : Bool) (hv : h.valid b) :
    get_alloc h b x y z = Except.ok (extract_alloc (h.word b) x y z) := by
  unfold get_alloc
  rw [load_ok h b hv]
  rfl

theorem find_next_ok (h : Heap) (b : Nat) (hv : h.valid b)
    (hlt : b + h.size_at b < WORD) :
    find_next h b = Except.ok (b + h.size_at b) := by
  unfold find_next
  rw [get_size_ok h b hv]
  show Except.ok (padd b (h.size_at b)) = _
  rw [padd_eq _ _ hlt]

theorem find_free_prev_ok (h : Heap) (b : Nat) (hv : h.valid (b + 8))
    (hlt : b + 8 < WORD) : find_free_prev h b = Except.ok (h.word (b + 8)) := by
  unfold find_free_prev wsize
  rw [padd_eq _ _ hlt, load_ok h _ hv]

theorem find_free_next_ok (h : Heap) (b : Nat) (hv : h.valid (b + 16))
    (hlt : b + 16 < WORD) : find_free_next h b = Except.ok (h.word (b + 16)) := by
  unfold find_free_next wsize
  rw [padd_eq _ _ hlt, load_ok h _ hv]

theorem set_prev_ok (h : Heap) (b v : Nat) (hv : h.valid (b + 8))
    (hlt : b + 8 < WORD) : set_prev h b v = Except.ok (h.put (b + 8) v) := by
  unfold set_prev wsize
  rw [padd_eq _ _ hlt, store_ok h _ _ hv]

theorem set_next_ok (h : Heap) (b v : Nat) (hv : h.valid (b + 16))
    (hlt : b + 16 < WORD) : set_next h b v = Except.ok (h.put (b + 16) v) := by
  unfold set_next wsize
  rw [padd_eq _ _ hlt, store_ok h _ _ hv]

theorem write_header_ok (h : Heap) (b s : Nat) (x y z : Bool) (hv : h.valid b) :
    write_header h b s x y z = Except.ok (h.put b (pack s x y z)) := by
  unfold write_header
  rw [store_ok h _ _ hv]

/-! ### Blocks -/

theorem IsBlock.valid_header {h : Heap} {b : Nat} (hb : IsBlock h b) : h.valid b := by
  obtain ⟨h1, h2, h3, h4⟩ := hb
  refine ⟨by omega, h2, by omega⟩

theorem IsBlock.valid_prev {h : Heap} {b : Nat} (hb : IsBlock h b) :
    h.valid (b + 8) := by
  obtain ⟨h1, h2, h3, h4⟩ := hb
  refine ⟨by omega, by omega, by omega⟩

theorem IsBlock.valid_next {h : Heap} {b : Nat} (hb : IsBlock h b)
    (hs : 32 ≤ h.size_at b) : h.valid (b + 16) := by
  obtain ⟨h1, h2, h3, h4⟩ := hb
  refine ⟨by omega, by omega, by omega⟩

theorem IsBlock.ne_null {h : Heap} {b : Nat} (hb : IsBlock h b) : b ≠ NULL := by
  obtain ⟨h1, _⟩ := hb
  unfold NULL
  omega

theorem size_at_mod (h : Heap) (b : Nat) : h.size_at b % 16 = 0 :=
  (extract_size_props _).1

theorem size_at_lt (h : Heap) (b : Nat) : h.size_at b < WORD := by
  have := (extract_size_props (h.word b)).2
  unfold Heap.size_at
  unfold WORD at this ⊢
  omega

/-- A size belongs to bucket 0 exactly when it is below 32. -/
theorem find_index_zero (s : Nat) : find_index s = 0 ↔ s < 32 := by
  have := find_index_bounds s _ rfl
  omega

/-! ### Frame lemmas for the lists -/

theorem SList.frame_single {h h' : Heap} {l : List Nat} :
    ∀ {a : Nat}, (∀ b ∈ l, h'.word (b + 8) = h.word (b + 8)) →
      SList h a l → SList h' a l := by
  induction l with
  | nil => intro a _ hl; exact hl
  | cons b t ih =>
    intro a hw hl
    obtain ⟨h1, h2⟩ := hl
    refine ⟨h1, ?_⟩
    rw [hw b (List.mem_cons_self _ _)]
    exact ih (fun c hc => hw c (List.mem_cons_of_mem _ hc)) h2

theorem DList.frame_double {h h' : Heap} {l : List Nat} :
    ∀ {pv a : Nat}, (∀ b ∈ l, h'.word (b + 8) = h.word (b + 8) ∧
        h'.word (b + 16) = h.word (b + 16)) →
      DList h pv a l → DList h' pv a l := by
  induction l with
  | nil => intro pv a _ hl; exact hl
  | cons b t ih =>
    intro pv a hw hl
    obtain ⟨h1, h2, h3⟩ := hl
    have hb := hw b (List.mem_cons_self _ _)
    refine ⟨h1, by rw [hb.1]; exact h2, ?_⟩
    rw [hb.2]
    exact ih (fun c hc => hw c (List.mem_cons_of_mem _ hc)) h3

/-- A state that agrees with `h` on the bounds, the bucket heads and the header
sizes and link words of all members represents the same lists. -/
theorem IndexRep.frame {h h' : Heap} {L : Nat → List Nat} (hrep : IndexRep h L)
    (hlo : h'.lo = h.lo) (hbrk : h'.brk = h.brk)
    (hseg : ∀ i, i < 14 → h'.seg_free_list i = h.seg_free_list i)
    (hmem : ∀ i, i < 14 → ∀ b ∈ L i, h'.size_at b = h.size_at b ∧
      h'.word (b + 8) = h.word (b + 8) ∧
      (1 ≤ i → h'.word (b + 16) = h.word (b + 16))) :
    IndexRep h' L := by
  refine ⟨by rw [hbrk]; exact hrep.brk_le, ?_, ?_, ?_, hrep.nodup, ?_⟩
  · rw [hseg 0 (by norm_num)]
    exact SList.frame_single (fun b hb => (hmem 0 (by norm_num) b hb).2.1) hrep.single
  · intro i hi1 hi2
    rw [hseg i hi2]
    exact DList.frame_double (fun b hb => ⟨(hmem i hi2 b hb).2.1, (hmem i hi2 b hb).2.2 hi1⟩)
      (hrep.double i hi1 hi2)
  · intro i hi b hb
    obtain ⟨⟨h1, h2, h3, h4⟩, h5⟩ := hrep.block i hi b hb
    have hs := (hmem i hi b hb).1
    refine ⟨⟨h1, by rw [hlo]; exact h2, by rw [hs]; exact h3, by rw [hs, hbrk]; exact h4⟩, ?_⟩
    rw [hs]; exact h5
  · intro i j hi hj b hb c hc hne
    rw [(hmem i hi b hb).1, (hmem j hj c hc).1]
    exact hrep.apart i j hi hj b hb c hc hne

/-! ### Structure of the lists -/

/-- The start of a list is its first node, or `NULL` for the empty list. -/
theorem SList.head_single {h : Heap} {a : Nat} {l : List Nat} (hl : SList h a l) :
    a = l.headD NULL := by
  cases l with
  | nil => exact hl
  | cons b t => exact hl.1

theorem DList.head_double {h : Heap} {pv a : Nat} {l : List Nat} (hl : DList h pv a l) :
    a = l.headD NULL := by
  cases l with
  | nil => exact hl
  | cons b t => exact hl.1

/-- The link of a node of a singly linked list is `NULL` or a later node. -/
theorem SList.link_mem {h : Heap} {l : List Nat} :
    ∀ {a : Nat}, SList h a l → ∀ c ∈ l, h.word (c + 8) = NULL ∨ h.word (c + 8) ∈ l := by
  induction l with
  | nil => intro a _ c hc; cases hc
  | cons b t ih =>
    intro a hl c hc
    obtain ⟨_, h2⟩ := hl
    rcases List.mem_cons.mp hc with rfl | hct
    · cases t with
      | nil => exact Or.inl h2
      | cons d t' => right; rw [h2.1]; simp
    · rcases ih h2 c hct with h3 | h3
      · exact Or.inl h3
      · exact Or.inr (List.mem_cons_of_mem _ h3)

/-- In a singly linked list without repetition no node links back to the
first node or to itself. -/
theorem SList.link_ne_head {h : Heap} {l : List Nat} :
    ∀ {a : Nat}, SList h a l → l.Nodup → (∀ c ∈ l, c ≠ NULL) →
      ∀ c ∈ l, h.word (c + 8) ≠ a := by
  induction l with
  | nil => intro a _ _ _ c hc; cases hc
  | cons b t ih =>
    intro a hl hnd hnn c hc
    obtain ⟨h1, h2⟩ := hl
    subst h1
    have hbt : a ∉ t := (List.nodup_cons.mp hnd).1
    have hndt : t.Nodup := (List.nodup_cons.mp hnd).2
    have hlm : ∀ d ∈ t, h.word (d + 8) = NULL ∨ h.word (d + 8) ∈ t := SList.link_mem h2
    rcases List.mem_cons.mp hc with rfl | hct
    · intro hEq
      cases t with
      | nil =>
        have : h.word (c + 8) = NULL := h2
        rw [hEq] at this
        exact hnn c (List.mem_cons_self _ _) this
      | cons d t' =>
        have : h.word (c + 8) = d := h2.1
        rw [hEq] at this
        exact hbt (by rw [this]; simp)
    · intro hEq
      rcases hlm c hct with h3 | h3
      · rw [hEq] at h3
        exact hnn a (List.mem_cons_self _ _) h3
      · rw [hEq] at h3
        exact hbt h3

/-- Taking `b` out of a singly linked list: when every other node that linked
to `b` now links to the successor of `b` and all other links are kept, the
list is the old one without `b`. -/
theorem SList.erase_single {h h' : Heap} {b : Nat} {l : List Nat} :
    ∀ {a : Nat}, SList h a l → l.Nodup → (∀ c ∈ l, c ≠ NULL) → b ≠ NULL →
      (∀ c ∈ l, c ≠ b → h'.word (c + 8) =
        if h.word (c + 8) = b then h.word (b + 8) else h.word (c + 8)) →
      SList h' (if a = b then h.word (b + 8) else a) (l.erase b) := by
  induction l with
  | nil =>
    intro a hl _ _ hb _
    have ha : a = NULL := hl
    rw [if_neg (by rw [ha]; exact fun hEq => hb hEq.symm)]
    exact ha
  | cons x t ih =>
    intro a hl hnd hnn hb hw
    obtain ⟨h1, h2⟩ := hl
    subst h1
    have hat : a ∉ t := (List.nodup_cons.mp hnd).1
    have hndt : t.Nodup := (List.nodup_cons.mp hnd).2
    have hnnt : ∀ c ∈ t, c ≠ NULL := fun c hc => hnn c (List.mem_cons_of_mem _ hc)
    by_cases hab : a = b
    · subst hab
      rw [if_pos rfl, List.erase_cons_head]
      apply SList.frame_single _ h2
      intro c hc
      have hca : c ≠ a := fun hEq => hat (hEq ▸ hc)
      rw [hw c (List.mem_cons_of_mem _ hc) hca]
      have hne : h.word (c + 8) ≠ a := by
        rcases SList.link_mem h2 c hc with h3 | h3
        · rw [h3]; exact fun hEq => hnn a (List.mem_cons_self _ _) hEq.symm
        · exact fun hEq => hat (hEq ▸ h3)
      rw [if_neg hne]
    · rw [if_neg hab, List.erase_cons_tail (by simpa using hab)]
      refine ⟨rfl, ?_⟩
      rw [hw a (List.mem_cons_self _ _) hab]
      exact ih h2 hndt hnnt hb (fun c hc hcb => hw c (List.mem_cons_of_mem _ hc) hcb)

/-- The links of a node of a doubly linked list: its `prev` word is `pv` when
it is the first node and otherwise a node whose `next` word points back to it;
its `next` word is `NULL` or a node whose `prev` word points back to it. -/
theorem DList.links {h : Heap} {l : List Nat} :
    ∀ {pv a : Nat}, DList h pv a l → ∀ c ∈ l,
      ((c = a ∧ h.word (c + 8) = pv) ∨
        (h.word (c + 8) ∈ l ∧ h.word (h.word (c + 8) + 16) = c)) ∧
      (h.word (c + 16) = NULL ∨
        (h.word (c + 16) ∈ l ∧ h.word (h.word (c + 16) + 8) = c)) := by
  induction l with
  | nil => intro pv a _ c hc; cases hc
  | cons x t ih =>
    intro pv a hl c hc
    obtain ⟨h1, h2, h3⟩ := hl
    subst h1
    rcases List.mem_cons.mp hc with rfl | hct
    · refine ⟨Or.inl ⟨rfl, h2⟩, ?_⟩
      cases t with
      | nil => exact Or.inl h3
      | cons y t' =>
        right
        obtain ⟨h4, h5, _⟩ := h3
        rw [h4]
        exact ⟨by simp, h5⟩
    · obtain ⟨hp, hn⟩ := ih h3 c hct
      constructor
      · right
        rcases hp with ⟨hca, hcp⟩ | ⟨hm, hb⟩
        · rw [hcp]
          exact ⟨List.mem_cons_self _ _, hca.symm⟩
        · exact ⟨List.mem_cons_of_mem _ hm, hb⟩
      · rcases hn with hn | ⟨hm, hb⟩
        · exact Or.inl hn
        · exact Or.inr ⟨List.mem_cons_of_mem _ hm, hb⟩

/-- Taking `b` out of a doubly linked list: when every other node whose `prev`
or `next` word pointed to `b` now points past it and all other links are kept,
the list is the old one without `b`. -/
theorem DList.erase_double {h h' : Heap} {b : Nat} {l : List Nat} :
    ∀ {pv a : Nat}, DList h pv a l → l.Nodup → (∀ c ∈ l, c ≠ NULL) → b ≠ NULL →
      pv ≠ b →
      (∀ c ∈ l, c ≠ b →
        h'.word (c + 8) =
          (if h.word (c + 8) = b then h.word (b + 8) else h.word (c + 8)) ∧
        h'.word (c + 16) =
          (if h.word (c + 16) = b then h.word (b + 16) else h.word (c + 16))) →
      DList h' pv (if a = b then h.word (b + 16) else a) (l.erase b) := by
  induction l with
  | nil =>
    intro pv a hl _ _ hb _ _
    have ha : a = NULL := hl
    rw [if_neg (by rw [ha]; exact fun hEq => hb hEq.symm)]
    exact ha
  | cons x t ih =>
    intro pv a hl hnd hnn hb hpv hw
    obtain ⟨h1, h2, h3⟩ := hl
    subst h1
    have hat : a ∉ t := (List.nodup_cons.mp hnd).1
    have hndt : t.Nodup := (List.nodup_cons.mp hnd).2
    have hnnt : ∀ c ∈ t, c ≠ NULL := fun c hc => hnn c (List.mem_cons_of_mem _ hc)
    by_cases hab : a = b
    · subst hab
      rw [if_pos rfl, List.erase_cons_head]
      cases t with
      | nil => exact h3
      | cons y t' =>
        obtain ⟨h4, h5, h6⟩ := h3
        have hya : y ≠ a := fun hEq => hat (hEq ▸ List.mem_cons_self _ _)
        have hwy := hw y (List.mem_cons_of_mem _ (List.mem_cons_self _ _)) hya
        have hyt : y ∉ t' := (List.nodup_cons.mp hndt).1
        have hl6 := DList.links h6
        have hny : h.word (y + 16) ≠ a := by
          cases t' with
          | nil =>
            have : h.word (y + 16) = NULL := h6
            rw [this]; exact fun hEq => hb hEq.symm
          | cons z t'' =>
            have : h.word (y + 16) = z := h6.1
            rw [this]
            exact fun hEq => hat (hEq ▸ List.mem_cons_of_mem _ (List.mem_cons_self _ _))
        refine ⟨h4, ?_, ?_⟩
        · rw [hwy.1, if_pos h5]; exact h2
        · rw [hwy.2, if_neg hny]
          apply DList.frame_double _ h6
          intro c hc
          have hct : c ∈ y :: t' := List.mem_cons_of_mem _ hc
          have hca : c ≠ a := fun hEq => hat (hEq ▸ hct)
          have hwc := hw c (List.mem_cons_of_mem _ hct) hca
          obtain ⟨hp, hn⟩ := hl6 c hc
          have hpne : h.word (c + 8) ≠ a := by
            rcases hp with ⟨_, hcp⟩ | ⟨hm, _⟩
            · rw [hcp]; exact hya
            · exact fun hEq => hat (hEq ▸ List.mem_cons_of_mem _ hm)
          have hnne : h.word (c + 16) ≠ a := by
            rcases hn with hn | ⟨hm, _⟩
            · rw [hn]; exact fun hEq => hb hEq.symm
            · exact fun hEq => hat (hEq ▸ List.mem_cons_of_mem _ hm)
          rw [hwc.1, hwc.2, if_neg hpne, if_neg hnne]
          exact ⟨rfl, rfl⟩
    · rw [if_neg hab, List.erase_cons_tail (by simpa using hab)]
      have hwa := hw a (List.mem_cons_self _ _) hab
      refine ⟨rfl, ?_, ?_⟩
      · rw [hwa.1, h2, if_neg hpv]
      · rw [hwa.2]
        exact ih h3 hndt hnnt hb hab
          (fun c hc hcb => hw c (List.mem_cons_of_mem _ hc) hcb)

/-! ### The index after a removal and after an insertion -/

theorem IndexRep.mem_ne_null {h : Heap} {L : Nat → List Nat} (hrep : IndexRep h L)
    {i : Nat} (hi : i < 14) {c : Nat} (hc : c ∈ L i) : c ≠ NULL :=
  (hrep.block i hi c hc).1.ne_null

theorem IndexRep.mem_lt {h : Heap} {L : Nat → List Nat} (hrep : IndexRep h L)
    {i : Nat} (hi : i < 14) {c : Nat} (hc : c ∈ L i) : c + 16 ≤ WORD := by
  obtain ⟨⟨_, _, h3, h4⟩, _⟩ := hrep.block i hi c hc
  have := hrep.brk_le
  omega

/-- A member of bucket `i` is in no other bucket. -/
theorem IndexRep.bucket_unique {h : Heap} {L : Nat → List Nat} (hrep : IndexRep h L)
    {i j : Nat} (hi : i < 14) (hj : j < 14) {c : Nat} (hci : c ∈ L i)
    (hcj : c ∈ L j) : i = j := by
  rw [← (hrep.block i hi c hci).2, ← (hrep.block j hj c hcj).2]

/-- The state after `b` has been unlinked from bucket `idx` represents the
lists without `b`. -/
theorem IndexRep.erase {h h' : Heap} {L : Nat → List Nat} {b idx : Nat}
    (hrep : IndexRep h L) (hidx : idx < 14) (hb : b ∈ L idx)
    (hlo : h'.lo = h.lo) (hbrk : h'.brk = h.brk)
    (hseg : ∀ i, i < 14 → h'.seg_free_list i =
      if i = idx then
        (if h.seg_free_list idx = b then
          (if idx = 0 then h.word (b + 8) else h.word (b + 16))
         else h.seg_free_list idx)
      else h.seg_free_list i)
    (hsize : ∀ i, i < 14 → ∀ c ∈ L i, h'.size_at c = h.size_at c)
    (hother : ∀ i, i < 14 → i ≠ idx → ∀ c ∈ L i,
      h'.word (c + 8) = h.word (c + 8) ∧ (1 ≤ i → h'.word (c + 16) = h.word (c + 16)))
    (hlink0 : idx = 0 → ∀ c ∈ L 0, c ≠ b → h'.word (c + 8) =
      if h.word (c + 8) = b then h.word (b + 8) else h.word (c + 8))
    (hlink1 : 1 ≤ idx → ∀ c ∈ L idx, c ≠ b →
      h'.word (c + 8) =
        (if h.word (c + 8) = b then h.word (b + 8) else h.word (c + 8)) ∧
      h'.word (c + 16) =
        (if h.word (c + 16) = b then h.word (b + 16) else h.word (c + 16))) :
    IndexRep h' (erase_at L idx b) := by
  have hbn : b ≠ NULL := hrep.mem_ne_null hidx hb
  have hsub : ∀ i, i < 14 → ∀ c ∈ erase_at L idx b i, c ∈ L i := by
    intro i _ c hc
    unfold erase_at at hc
    by_cases hii : i = idx
    · rw [if_pos hii] at hc
      exact List.mem_of_mem_erase hc
    · rw [if_neg hii] at hc
      exact hc
  refine ⟨by rw [hbrk]; exact hrep.brk_le, ?_, ?_, ?_, ?_, ?_⟩
  · rw [hseg 0 (by norm_num)]
    by_cases h0 : idx = 0
    · subst h0
      have hE := @SList.erase_single h h' b (L 0) (h.seg_free_list 0) hrep.single (hrep.nodup 0 hidx)
        (fun c hc => hrep.mem_ne_null hidx hc) hbn (hlink0 rfl)
      simp only [erase_at, if_true]
      exact hE
    · have h0' : (0 : Nat) ≠ idx := fun hEq => h0 hEq.symm
      simp only [erase_at, if_neg h0']
      exact SList.frame_single (fun c hc => (hother 0 (by norm_num) h0' c hc).1) hrep.single
  · intro i hi1 hi2
    rw [hseg i hi2]
    by_cases hii : i = idx
    · subst hii
      have hi0 : i ≠ 0 := by omega
      have hE := @DList.erase_double h h' b (L i) NULL (h.seg_free_list i) (hrep.double i hi1 hi2)
        (hrep.nodup i hi2) (fun c hc => hrep.mem_ne_null hi2 hc) hbn
        (fun hEq => hbn hEq.symm) (hlink1 hi1)
      simp only [erase_at, if_true, if_neg hi0]
      exact hE
    · simp only [erase_at, if_neg hii]
      exact DList.frame_double (fun c hc => ⟨(hother i hi2 hii c hc).1,
        (hother i hi2 hii c hc).2 hi1⟩) (hrep.double i hi1 hi2)
  · intro i hi c hc
    have hcL := hsub i hi c hc
    obtain ⟨⟨h1, h2, h3, h4⟩, h5⟩ := hrep.block i hi c hcL
    have hs := hsize i hi c hcL
    exact ⟨⟨h1, by rw [hlo]; exact h2, by rw [hs]; exact h3,
      by rw [hs, hbrk]; exact h4⟩, by rw [hs]; exact h5⟩
  · intro i hi
    unfold erase_at
    by_cases hii : i = idx
    · rw [if_pos hii]
      exact (hrep.nodup i hi).erase b
    · rw [if_neg hii]
      exact hrep.nodup i hi
  · intro i j hi hj c hc d hd hne
    have hcL := hsub i hi c hc
    have hdL := hsub j hj d hd
    rw [hsize i hi c hcL, hsize j hj d hdL]
    exact hrep.apart i j hi hj c hcL d hdL hne

/-- The state after the block `b` has been linked in front of its bucket
represents the lists with `b` added. -/
theorem IndexRep.cons {h h' : Heap} {L : Nat → List Nat} {b : Nat}
    (hrep : IndexRep h L) (hb : IsBlock h b)
    (hnew : ∀ i, i < 14 → ∀ c ∈ L i,
      b + h.size_at b ≤ c ∨ c + h.size_at c ≤ b)
    (hlo : h'.lo = h.lo) (hbrk : h'.brk = h.brk)
    (hseg : ∀ i, i < 14 → h'.seg_free_list i =
      if i = find_index (h.size_at b) then b else h.seg_free_list i)
    (hsize : ∀ i, i < 14 → ∀ c ∈ L i, h'.size_at c = h.size_at c)
    (hsizeb : h'.size_at b = h.size_at b)
    (hprevb : h'.word (b + 8) =
      if find_index (h.size_at b) = 0 then h.seg_free_list 0 else NULL)
    (hnextb : 1 ≤ find_index (h.size_at b) →
      h'.word (b + 16) = h.seg_free_list (find_index (h.size_at b)))
    (hlinks : ∀ i, i < 14 → ∀ c ∈ L i,
      h'.word (c + 8) =
        (if 1 ≤ find_index (h.size_at b) ∧
            c = h.seg_free_list (find_index (h.size_at b)) then b
         else h.word (c + 8)) ∧
      (1 ≤ i → h'.word (c + 16) = h.word (c + 16))) :
    IndexRep h' (cons_at L (find_index (h.size_at b)) b) := by
  have hidx : find_index (h.size_at b) < 14 := by
    have := (find_index_bounds (h.size_at b) _ rfl).1
    omega
  have hbs : 16 ≤ h.size_at b := hb.2.2.1
  have hnotin : ∀ i, i < 14 → b ∉ L i := by
    intro i hi hbi
    have h16 := (hrep.block i hi b hbi).1.2.2.1
    rcases hnew i hi b hbi with h1 | h1 <;> omega
  have hmem : ∀ i, i < 14 → ∀ c ∈ cons_at L (find_index (h.size_at b)) b i,
      c = b ∨ c ∈ L i := by
    intro i _ c hc
    unfold cons_at at hc
    by_cases hii : i = find_index (h.size_at b)
    · rw [if_pos hii] at hc
      rcases List.mem_cons.mp hc with h1 | h1
      · exact Or.inl h1
      · exact Or.inr h1
    · rw [if_neg hii] at hc
      exact Or.inr hc
  have hsz : ∀ i, i < 14 → ∀ c ∈ cons_at L (find_index (h.size_at b)) b i,
      h'.size_at c = h.size_at c := by
    intro i hi c hc
    rcases hmem i hi c hc with rfl | h1
    · exact hsizeb
    · exact hsize i hi c h1
  refine ⟨by rw [hbrk]; exact hrep.brk_le, ?_, ?_, ?_, ?_, ?_⟩
  · rw [hseg 0 (by norm_num)]
    by_cases h0 : find_index (h.size_at b) = 0
    · have h0' : (0 : Nat) = find_index (h.size_at b) := h0.symm
      simp only [cons_at, if_pos h0']
      refine ⟨rfl, ?_⟩
      rw [hprevb, if_pos h0]
      apply SList.frame_single _ hrep.single
      intro c hc
      rw [(hlinks 0 (by norm_num) c hc).1, if_neg]
      omega
    · have h0' : (0 : Nat) ≠ find_index (h.size_at b) := fun hEq => h0 hEq.symm
      simp only [cons_at, if_neg h0']
      apply SList.frame_single _ hrep.single
      intro c hc
      rw [(hlinks 0 (by norm_num) c hc).1, if_neg]
      rintro ⟨_, hEq⟩
      have hhead := (hrep.double _ (by omega) hidx).head_double
      rw [← hEq] at hhead
      cases hL : L (find_index (h.size_at b)) with
      | nil =>
        rw [hL] at hhead
        exact hrep.mem_ne_null (by norm_num) hc hhead
      | cons x t =>
        rw [hL] at hhead
        have hx : c ∈ L (find_index (h.size_at b)) := by
          rw [hL, show c = x from hhead]; exact List.mem_cons_self _ _
        exact h0 (hrep.bucket_unique (by norm_num) hidx hc hx).symm
  · intro i hi1 hi2
    rw [hseg i hi2]
    by_cases hii : i = find_index (h.size_at b)
    · simp only [cons_at, if_pos hii]
      have h1 : 1 ≤ find_index (h.size_at b) := hii ▸ hi1
      have h0 : find_index (h.size_at b) ≠ 0 := by omega
      refine ⟨rfl, by rw [hprevb, if_neg h0], ?_⟩
      rw [hnextb h1, ← hii]
      have hd := hrep.double i hi1 hi2
      cases hL : L i with
      | nil => rw [hL] at hd; exact hd
      | cons x t =>
        rw [hL] at hd
        obtain ⟨h4, h5, h6⟩ := hd
        have hx : x ∈ L i := by rw [hL]; exact List.mem_cons_self _ _
        have hnd := hrep.nodup i hi2
        rw [hL] at hnd
        refine ⟨h4, ?_, ?_⟩
        · rw [(hlinks i hi2 x hx).1, if_pos ⟨h1, by rw [← hii]; exact h4.symm⟩]
        · rw [(hlinks i hi2 x hx).2 hi1]
          apply DList.frame_double _ h6
          intro c hc
          have hcL : c ∈ L i := by rw [hL]; exact List.mem_cons_of_mem _ hc
          have hcx : c ≠ x := fun hEq => (List.nodup_cons.mp hnd).1 (hEq ▸ hc)
          refine ⟨?_, (hlinks i hi2 c hcL).2 hi1⟩
          rw [(hlinks i hi2 c hcL).1, if_neg]
          rintro ⟨_, hEq⟩
          rw [← hii, h4] at hEq
          exact hcx hEq
    · simp only [cons_at, if_neg hii]
      apply DList.frame_double _ (hrep.double i hi1 hi2)
      intro c hc
      refine ⟨?_, (hlinks i hi2 c hc).2 hi1⟩
      rw [(hlinks i hi2 c hc).1, if_neg]
      rintro ⟨h1, hEq⟩
      have hhead := (hrep.double _ h1 hidx).head_double
      rw [← hEq] at hhead
      cases hL : L (find_index (h.size_at b)) with
      | nil =>
        rw [hL] at hhead
        exact hrep.mem_ne_null hi2 hc hhead
      | cons x t =>
        rw [hL] at hhead
        have hx : c ∈ L (find_index (h.size_at b)) := by
          rw [hL, show c = x from hhead]; exact List.mem_cons_self _ _
        exact hii (hrep.bucket_unique hi2 hidx hc hx)
  · intro i hi c hc
    have hs := hsz i hi c hc
    rcases hmem i hi c hc with rfl | h1
    · obtain ⟨h1, h2, h3, h4⟩ := hb
      refine ⟨⟨h1, by rw [hlo]; exact h2, by rw [hs]; exact h3,
        by rw [hs, hbrk]; exact h4⟩, ?_⟩
      rw [hs]
      unfold cons_at at hc
      by_contra hne
      rw [if_neg (fun hEq => hne hEq.symm)] at hc
      exact hnotin i hi hc
    · obtain ⟨⟨h1', h2, h3, h4⟩, h5⟩ := hrep.block i hi c h1
      exact ⟨⟨h1', by rw [hlo]; exact h2, by rw [hs]; exact h3,
        by rw [hs, hbrk]; exact h4⟩, by rw [hs]; exact h5⟩
  · intro i hi
    unfold cons_at
    by_cases hii : i = find_index (h.size_at b)
    · rw [if_pos hii]
      exact List.nodup_cons.mpr ⟨hnotin i hi, hrep.nodup i hi⟩
    · rw [if_neg hii]
      exact hrep.nodup i hi
  · intro i j hi hj c hc d hd hne
    rw [hsz i hi c hc, hsz j hj d hd]
    rcases hmem i hi c hc with rfl | h1
    · rcases hmem j hj d hd with rfl | h2
      · exact absurd rfl hne
      · exact hnew j hj d h2
    · rcases hmem j hj d hd with rfl | h2
      · exact (hnew i hi c h1).symm
      · exact hrep.apart i j hi hj c h1 d h2 hne

/-! ### `insert` -/

theorem set_seg_word (h : Heap) (i v a : Nat) : (set_seg h i v).word a = h.word a := rfl

theorem set_seg_size_at (h : Heap) (i v a : Nat) :
    (set_seg h i v).size_at a = h.size_at a := rfl

theorem set_seg_valid (h : Heap) (i v a : Nat) : (set_seg h i v).valid a ↔ h.valid a :=
  Iff.rfl

/-- The head of a bucket is `NULL` or a member, hence a 64-bit value. -/
theorem IndexRep.head_cases {h : Heap} {L : Nat → List Nat} (hrep : IndexRep h L)
    {i : Nat} (hi : i < 14) :
    (h.seg_free_list i = NULL ∧ L i = []) ∨
      (∃ t, L i = h.seg_free_list i :: t) := by
  have hhead : h.seg_free_list i = (L i).headD NULL := by
    by_cases h0 : i = 0
    · subst h0; exact hrep.single.head_single
    · exact (hrep.double i (by omega) hi).head_double
  cases hL : L i with
  | nil => rw [hL] at hhead; exact Or.inl ⟨hhead, rfl⟩
  | cons x t =>
    rw [hL] at hhead
    right
    exact ⟨t, by rw [show h.seg_free_list i = x from hhead]⟩

theorem IndexRep.head_lt {h : Heap} {L : Nat → List Nat} (hrep : IndexRep h L)
    {i : Nat} (hi : i < 14) : h.seg_free_list i < WORD := by
  rcases hrep.head_cases hi with ⟨h1, _⟩ | ⟨t, ht⟩
  · rw [h1]; decide
  · have hm : h.seg_free_list i ∈ L i := by rw [ht]; exact List.mem_cons_self _ _
    have := hrep.mem_lt hi hm
    omega

/-- The function `insert` on a block that lies apart from all members of a
well-formed index: it returns, the block becomes the head of the bucket of its
size, and only the link words of the block and the `prev` word of the former
head are written. -/
theorem insert_spec {h : Heap} {L : Nat → List Nat} {b : Nat}
    (hrep : IndexRep h L) (hb : IsBlock h b)
    (hnew : ∀ i, i < 14 → ∀ c ∈ L i,
      b + h.size_at b ≤ c ∨ c + h.size_at c ≤ b) :
    ∃ h', insert h b = Except.ok h' ∧
      IndexRep h' (cons_at L (find_index (h.size_at b)) b) ∧
      h'.lo = h.lo ∧ h'.brk = h.brk ∧ h'.limit = h.limit ∧
      h'.heap_listp = h.heap_listp ∧
      (∀ a, a ≠ b + 8 →
        (1 ≤ find_index (h.size_at b) → a ≠ b + 16) →
        (1 ≤ find_index (h.size_at b) →
          h.seg_free_list (find_index (h.size_at b)) ≠ NULL →
          a ≠ h.seg_free_list (find_index (h.size_at b)) + 8) →
        h'.mem a = h.mem a) := by
  have hidx : find_index (h.size_at b) < 14 := by
    have := (find_index_bounds (h.size_at b) _ rfl).1
    omega
  have hbk := hrep.brk_le
  obtain ⟨hb1, hb2, hb3, hb4⟩ := id hb
  have hb8 : b + 8 < WORD := by omega
  have hmod : ∀ i, i < 14 → ∀ c ∈ L i, c % 16 = 8 :=
    fun i hi c hc => (hrep.block i hi c hc).1.1
  have hneb : ∀ i, i < 14 → ∀ c ∈ L i, c ≠ b := by
    intro i hi c hc hEq
    have h16 := (hrep.block i hi c hc).1.2.2.1
    rcases hnew i hi c hc with h1 | h1 <;> omega
  unfold insert
  rw [get_size_ok h b hb.valid_header]
  simp only [bind, Except.bind]
  by_cases h0 : find_index (h.size_at b) = 0
  · -- bucket 0: one link word
    rw [if_pos h0, set_prev_ok h b _ hb.valid_prev hb8]
    refine ⟨_, rfl, ?_, rfl, rfl, rfl, rfl, ?_⟩
    · have hs0 := hrep.head_lt (i := 0) (by norm_num)
      apply IndexRep.cons hrep hb hnew
      · rfl
      · rfl
      · intro i _
        rw [h0]; rfl
      · intro i hi c hc
        rw [set_seg_size_at]
        exact put_size_other _ _ _ _ (by have := hmod i hi c hc; omega)
      · rw [set_seg_size_at]
        exact put_size_other _ _ _ _ (by omega)
      · rw [if_pos h0, set_seg_word]
        exact put_word_same _ _ _ hs0
      · intro h1; omega
      · intro i hi c hc
        have hcm := hmod i hi c hc
        have hcb := hneb i hi c hc
        rw [if_neg (by omega), set_seg_word, set_seg_word]
        exact ⟨put_word_other _ _ _ _ (by omega),
          fun _ => put_word_other _ _ _ _ (by omega)⟩
    · intro a ha _ _
      show (if a = b + 8 then _ else h.mem a) = h.mem a
      rw [if_neg ha]
  · have h1 : 1 ≤ find_index (h.size_at b) := by omega
    have hs32 : 32 ≤ h.size_at b := by
      have := find_index_bounds (h.size_at b) _ rfl
      omega
    have hb16 : b + 16 < WORD := by omega
    have hapart16 : ∀ i, i < 14 → ∀ c ∈ L i, c ≠ b + 16 := by
      intro i hi c hc hEq
      rcases hnew i hi c hc with h2 | h2 <;> omega
    rw [if_neg h0]
    by_cases hnull : h.seg_free_list (find_index (h.size_at b)) = NULL
    · -- empty bucket
      rw [if_pos hnull]
      rw [set_prev_ok _ b _ ((set_seg_valid _ _ _ _).mpr hb.valid_prev) hb8]
      simp only []
      rw [set_next_ok _ b _ (by exact (hb.valid_next hs32)) hb16]
      refine ⟨_, rfl, ?_, rfl, rfl, rfl, rfl, ?_⟩
      · apply IndexRep.cons hrep hb hnew
        · rfl
        · rfl
        · intro i _; rfl
        · intro i hi c hc
          have hcm := hmod i hi c hc
          rw [put_size_other _ _ _ _ (hapart16 i hi c hc),
            put_size_other _ _ _ _ (by omega)]
          rfl
        · rw [put_size_other _ _ _ _ (by omega), put_size_other _ _ _ _ (by omega)]
          rfl
        · rw [if_neg h0, put_word_other _ _ _ _ (by omega)]
          exact put_word_same _ _ _ (by decide)
        · intro _
          rw [hnull]
          exact put_word_same _ _ _ (by decide)
        · intro i hi c hc
          have hcm := hmod i hi c hc
          have hcb := hneb i hi c hc
          have hcn : ¬ (1 ≤ find_index (h.size_at b) ∧
              c = h.seg_free_list (find_index (h.size_at b))) := by
            rintro ⟨_, hEq⟩
            rw [hnull] at hEq
            exact hrep.mem_ne_null hi hc hEq
          rw [if_neg hcn]
          refine ⟨?_, fun _ => ?_⟩
          · rw [put_word_other _ _ _ _ (by omega), put_word_other _ _ _ _ (by omega)]
            rfl
          · rw [put_word_other _ _ _ _ (by omega), put_word_other _ _ _ _ (by omega)]
            rfl
      · intro a ha ha16 _
        show (if a = b + 16 then _ else (if a = b + 8 then _ else h.mem a)) = h.mem a
        rw [if_neg (ha16 h1), if_neg ha]
    · -- non-empty bucket
      rw [if_neg hnull]
      rcases hrep.head_cases hidx with ⟨hn, _⟩ | ⟨t, ht⟩
      · exact absurd hn hnull
      · have hm : h.seg_free_list (find_index (h.size_at b)) ∈
            L (find_index (h.size_at b)) := by
          rw [ht]; exact List.mem_cons_self _ _
        have hhd := (hrep.block _ hidx _ hm).1
        have hhdm := hhd.1
        have hhd8 : h.seg_free_list (find_index (h.size_at b)) + 8 < WORD := by
          have := hrep.mem_lt hidx hm
          omega
        have hblt : b < WORD := by omega
        rw [set_prev_ok h _ _ hhd.valid_prev hhd8]
        simp only []
        rw [set_next_ok _ b _ (by exact (hb.valid_next hs32)) hb16]
        simp only []
        rw [set_prev_ok _ b _ (by exact hb.valid_prev) hb8]
        refine ⟨_, rfl, ?_, rfl, rfl, rfl, rfl, ?_⟩
        · apply IndexRep.cons hrep hb hnew
          · rfl
          · rfl
          · intro i _; rfl
          · intro i hi c hc
            have hcm := hmod i hi c hc
            rw [set_seg_size_at, put_size_other _ _ _ _ (by omega),
              put_size_other _ _ _ _ (hapart16 i hi c hc),
              put_size_other _ _ _ _ (by omega)]
          · rw [set_seg_size_at, put_size_other _ _ _ _ (by omega),
              put_size_other _ _ _ _ (by omega), put_size_other _ _ _ _ (by omega)]
          · rw [if_neg h0, set_seg_word]
            exact put_word_same _ _ _ (by decide)
          · intro _
            rw [set_seg_word, put_word_other _ _ _ _ (by omega)]
            exact put_word_same _ _ _ (hrep.head_lt hidx)
          · intro i hi c hc
            have hcm := hmod i hi c hc
            have hcb := hneb i hi c hc
            refine ⟨?_, fun _ => ?_⟩
            · rw [set_seg_word, put_word_other _ _ _ _ (by omega),
                put_word_other _ _ _ _ (by omega)]
              by_cases hch : c = h.seg_free_list (find_index (h.size_at b))
              · rw [if_pos ⟨h1, hch⟩, hch]
                exact put_word_same _ _ _ hblt
              · rw [if_neg (fun hx => hch hx.2)]
                exact put_word_other _ _ _ _ (by omega)
            · rw [set_seg_word, put_word_other _ _ _ _ (by omega),
                put_word_other _ _ _ _ (by omega), put_word_other _ _ _ _ (by omega)]
        · intro a ha ha16 hah
          show (if a = b + 8 then _ else (if a = b + 16 then _ else
            (if a = h.seg_free_list (find_index (h.size_at b)) + 8 then _
              else h.mem a))) = h.mem a
          rw [if_neg ha, if_neg (ha16 h1), if_neg (hah h1 hnull)]

/-! ### `remove_free_block` -/

/-- A duplicate-free list of addresses of an arena is shorter than the fuel of
the loops. -/
theorem nodup_length_lt_fuel {h : Heap} {l : List Nat} (hnd : l.Nodup)
    (hin : ∀ c ∈ l, h.lo ≤ c ∧ c < h.brk) : l.length < fuel h := by
  have hmap : (l.map (fun c => c - h.lo)).Nodup := by
    apply List.Nodup.map_on _ hnd
    intro x hx y hy hxy
    have h1 := hin x hx
    have h2 := hin y hy
    simp only at hxy
    omega
  have hsub : l.map (fun c => c - h.lo) ⊆ List.range (h.brk - h.lo) := by
    intro x hx
    obtain ⟨c, hc, rfl⟩ := List.mem_map.mp hx
    have h1 := hin c hc
    exact List.mem_range.mpr (by omega)
  have hlen := (List.Nodup.subperm hmap hsub).length_le
  rw [List.length_map, List.length_range] at hlen
  unfold fuel
  omega

theorem IndexRep.length_lt_fuel {h : Heap} {L : Nat → List Nat} (hrep : IndexRep h L)
    {i : Nat} (hi : i < 14) : (L i).length < fuel h := by
  apply nodup_length_lt_fuel (hrep.nodup i hi)
  intro c hc
  obtain ⟨⟨_, h2, h3, h4⟩, _⟩ := hrep.block i hi c hc
  exact ⟨h2, by omega⟩

/-- The scan of `remove_free_block` over a singly linked bucket: with fuel for
every node it returns the one node whose link is the block. -/
theorem SList.scan {h : Heap} {b : Nat} {l : List Nat} :
    ∀ {a : Nat} (n : Nat), SList h a l → l.Nodup →
      (∀ c ∈ l, c ≠ NULL ∧ h.valid (c + 8) ∧ c + 8 < WORD) → b ∈ l → a ≠ b → l.length ≤ n →
      ∃ q, q ∈ l ∧ remove_scan h b n a = Except.ok q ∧ h.word (q + 8) = b ∧
        ∀ c ∈ l, h.word (c + 8) = b → c = q := by
  induction l with
  | nil => intro a n _ _ _ hb; cases hb
  | cons x t ih =>
    intro a n hl hnd hv hb hab hn
    obtain ⟨h1, h2⟩ := hl
    subst h1
    have hbt : b ∈ t := by
      rcases List.mem_cons.mp hb with hEq | hbt
      · exact absurd hEq.symm hab
      · exact hbt
    have hndt : t.Nodup := (List.nodup_cons.mp hnd).2
    have hvt : ∀ c ∈ t, c ≠ NULL ∧ h.valid (c + 8) ∧ c + 8 < WORD :=
      fun c hc => hv c (List.mem_cons_of_mem _ hc)
    cases n with
    | zero => simp at hn
    | succ m =>
      have hm : t.length ≤ m := by simp at hn; omega
      have hx := hv a (List.mem_cons_self _ _)
      unfold remove_scan
      rw [find_free_prev_ok h a hx.2.1 hx.2.2]
      simp only [bind, Except.bind]
      by_cases hy : h.word (a + 8) = b
      · rw [if_neg (by simpa using hy)]
        refine ⟨a, List.mem_cons_self _ _, rfl, hy, ?_⟩
        intro c hc hcb
        rcases List.mem_cons.mp hc with hca | hct
        · exact hca
        · have := SList.link_ne_head h2 hndt (fun d hd => (hvt d hd).1) c hct
          rw [hy] at this
          exact absurd hcb this
      · rw [if_pos hy]
        obtain ⟨q, hq, hrun, hqb, huniq⟩ := ih m h2 hndt hvt hbt hy hm
        refine ⟨q, List.mem_cons_of_mem _ hq, hrun, hqb, ?_⟩
        intro c hc hcb
        rcases List.mem_cons.mp hc with hca | hct
        · rw [hca] at hcb; exact absurd hcb hy
        · exact huniq c hct hcb

/-- No member starts at the `next` word of a member of a doubly linked bucket. -/
theorem IndexRep.ne_next_word {h : Heap} {L : Nat → List Nat} (hrep : IndexRep h L)
    {i j : Nat} (hi : i < 14) (hj : j < 14) (h1 : 1 ≤ j) {c p : Nat}
    (hc : c ∈ L i) (hp : p ∈ L j) : c ≠ p + 16 := by
  have hs := find_index_bounds (h.size_at p) _ (hrep.block j hj p hp).2
  have h16 := (hrep.block i hi c hc).1.2.2.1
  by_cases hcp : c = p
  · omega
  · rcases hrep.apart i j hi hj c hc p hp hcp with h2 | h2 <;> omega

theorem DList.head_prev {h : Heap} {pv a x : Nat} {t : List Nat}
    (hl : DList h pv a (x :: t)) : h.word (x + 8) = pv := hl.2.1

/-- The function `remove_free_block` on a member of a well-formed index: it
returns, the member leaves its bucket, every other list is as before, and only
link words of members are written. -/
theorem remove_spec {h : Heap} {L : Nat → List Nat} {b idx : Nat}
    (hrep : IndexRep h L) (hidx : idx < 14) (hb : b ∈ L idx) :
    ∃ h', remove_free_block h b = Except.ok h' ∧
      IndexRep h' (erase_at L idx b) ∧
      h'.lo = h.lo ∧ h'.brk = h.brk ∧ h'.limit = h.limit ∧
      h'.heap_listp = h.heap_listp ∧
      (∀ a, (∀ c ∈ L idx, a ≠ c + 8 ∧ (1 ≤ idx → a ≠ c + 16)) →
        h'.mem a = h.mem a) := by
  obtain ⟨hblk, hfi⟩ := hrep.block idx hidx b hb
  have hbn : b ≠ NULL := hrep.mem_ne_null hidx hb
  have hmod : ∀ i, i < 14 → ∀ c ∈ L i, c % 16 = 8 :=
    fun i hi c hc => (hrep.block i hi c hc).1.1
  have hbm := hmod idx hidx b hb
  have hb16 : b + 16 ≤ WORD := hrep.mem_lt hidx hb
  unfold remove_free_block
  rw [get_size_ok h b hblk.valid_header]
  simp only [bind, Except.bind]
  rw [hfi]
  by_cases h0 : idx = 0
  · subst h0
    rw [if_pos rfl, find_free_prev_ok h b hblk.valid_prev (by omega)]
    simp only []
    by_cases hhead : h.seg_free_list 0 = b
    · rw [if_pos hhead]
      refine ⟨_, rfl, ?_, rfl, rfl, rfl, rfl, fun a _ => rfl⟩
      apply IndexRep.erase hrep hidx hb
      · rfl
      · rfl
      · intro i _
        show (if i = 0 then _ else _) = _
        by_cases hi0 : i = 0
        · rw [if_pos hi0, if_pos hi0, if_pos hhead, if_pos rfl]
        · rw [if_neg hi0, if_neg hi0]
      · intro i _ c _; rfl
      · intro i _ _ c _; exact ⟨rfl, fun _ => rfl⟩
      · intro _ c hc _
        have := SList.link_ne_head hrep.single (hrep.nodup 0 hidx)
          (fun d hd => hrep.mem_ne_null hidx hd) c hc
        rw [hhead] at this
        rw [if_neg this]
        rfl
      · intro h1; omega
    · rw [if_neg hhead]
      obtain ⟨q, hq, hrun, hqb, huniq⟩ := SList.scan (fuel h) hrep.single
        (hrep.nodup 0 hidx)
        (fun c hc => ⟨hrep.mem_ne_null hidx hc, (hrep.block 0 hidx c hc).1.valid_prev,
          by have := hrep.mem_lt hidx hc; omega⟩)
        hb hhead (Nat.le_of_lt (hrep.length_lt_fuel hidx))
      rw [hrun]
      simp only []
      have hqblk := (hrep.block 0 hidx q hq).1
      have hq8 : q + 8 < WORD := by
        have := hrep.mem_lt hidx hq
        omega
      rw [set_prev_ok h q _ hqblk.valid_prev hq8]
      have hqm := hmod 0 hidx q hq
      refine ⟨_, rfl, ?_, rfl, rfl, rfl, rfl, ?_⟩
      · apply IndexRep.erase hrep hidx hb
        · rfl
        · rfl
        · intro i _
          show h.seg_free_list i = _
          by_cases hi0 : i = 0
          · rw [if_pos hi0, if_neg hhead, hi0]
          · rw [if_neg hi0]
        · intro i hi c hc
          exact put_size_other _ _ _ _ (by have := hmod i hi c hc; omega)
        · intro i hi hne c hc
          have hcm := hmod i hi c hc
          have hcq : c ≠ q := by
            intro hEq
            rw [hEq] at hc
            exact hne (hrep.bucket_unique hi hidx hc hq)
          exact ⟨put_word_other _ _ _ _ (by omega),
            fun _ => put_word_other _ _ _ _ (by omega)⟩
        · intro _ c hc hcb
          by_cases hcq : c = q
          · rw [hcq, if_pos hqb]
            exact put_word_same _ _ _ (word_lt _ _)
          · rw [if_neg (fun hx => hcq (huniq c hc hx))]
            exact put_word_other _ _ _ _ (by omega)
        · intro h1; omega
      · intro a ha
        show (if a = q + 8 then _ else h.mem a) = h.mem a
        rw [if_neg (ha q hq).1]
  · have h1 : 1 ≤ idx := by omega
    have hs32 : 32 ≤ h.size_at b := by
      have := find_index_bounds (h.size_at b) _ hfi
      omega
    have hs32m : ∀ c ∈ L idx, 32 ≤ h.size_at c := by
      intro c hc
      have := find_index_bounds (h.size_at c) _ (hrep.block idx hidx c hc).2
      omega
    rw [if_neg h0, find_free_prev_ok h b hblk.valid_prev (by omega)]
    simp only []
    rw [find_free_next_ok h b (hblk.valid_next hs32)
      (by have := hblk.2.2.2; have := hrep.brk_le; omega)]
    simp only []
    have hdl := hrep.double idx h1 hidx
    have hlinks := DList.links hdl
    obtain ⟨hbp, hbnx⟩ := hlinks b hb
    have hmn : ∀ c ∈ L idx, c ≠ NULL := fun c hc => hrep.mem_ne_null hidx hc
    -- the neighbours of `b` in the list
    have hP : h.word (b + 8) ≠ NULL →
        h.word (b + 8) ∈ L idx ∧ h.word (h.word (b + 8) + 16) = b ∧
          h.seg_free_list idx ≠ b := by
      intro hp
      rcases hbp with ⟨_, h3⟩ | ⟨h2, h3⟩
      · exact absurd h3 hp
      · refine ⟨h2, h3, ?_⟩
        intro hEq
        rcases hrep.head_cases hidx with ⟨hn, _⟩ | ⟨t, ht⟩
        · rw [hn] at hEq; exact hbn hEq.symm
        · rw [ht] at hdl
          have := hdl.head_prev
          rw [hEq] at this
          exact hp this
    have hP0 : h.word (b + 8) = NULL → h.seg_free_list idx = b := by
      intro hp
      rcases hbp with ⟨h2, _⟩ | ⟨h2, _⟩
      · exact h2.symm
      · rw [hp] at h2; exact absurd rfl (hmn _ h2)
    have hN : h.word (b + 16) ≠ NULL →
        h.word (b + 16) ∈ L idx ∧ h.word (h.word (b + 16) + 8) = b := by
      intro hn
      rcases hbnx with h2 | h2
      · exact absurd h2 hn
      · exact h2
    have hU8 : ∀ c ∈ L idx, h.word (c + 8) = b → c = h.word (b + 16) := by
      intro c hc hcb
      rcases (hlinks c hc).1 with ⟨_, h3⟩ | ⟨_, h3⟩
      · rw [hcb] at h3; exact absurd h3 hbn
      · rw [hcb] at h3; exact h3.symm
    have hU16 : ∀ c ∈ L idx, h.word (c + 16) = b → c = h.word (b + 8) := by
      intro c hc hcb
      rcases (hlinks c hc).2 with h3 | ⟨_, h3⟩
      · rw [hcb] at h3; exact absurd h3 hbn
      · rw [hcb] at h3; exact h3.symm
    have hsegeq : ∀ (s : Nat → Nat) (v : Nat),
        (v = if h.seg_free_list idx = b then h.word (b + 16) else h.seg_free_list idx) →
        ∀ i, i < 14 → (if i = idx then v else h.seg_free_list i) =
          if i = idx then
            (if h.seg_free_list idx = b then
              (if idx = 0 then h.word (b + 8) else h.word (b + 16))
             else h.seg_free_list idx)
          else h.seg_free_list i := by
      intro _ v hv i _
      by_cases hii : i = idx
      · rw [if_pos hii, if_pos hii, if_neg h0]; exact hv
      · rw [if_neg hii, if_neg hii]
    have hsegsame : ∀ i, i < 14 → h.seg_free_list idx ≠ b → h.seg_free_list i =
          if i = idx then
            (if h.seg_free_list idx = b then
              (if idx = 0 then h.word (b + 8) else h.word (b + 16))
             else h.seg_free_list idx)
          else h.seg_free_list i := by
      intro i _ hne
      by_cases hii : i = idx
      · rw [if_pos hii, if_neg hne, hii]
      · rw [if_neg hii]
    by_cases hp : h.word (b + 8) = NULL
    · have hsb := hP0 hp
      by_cases hn : h.word (b + 16) = NULL
      · -- sole node
        rw [if_pos ⟨hp, hn⟩]
        refine ⟨_, rfl, ?_, rfl, rfl, rfl, rfl, fun a _ => rfl⟩
        apply IndexRep.erase hrep hidx hb
        · rfl
        · rfl
        · exact hsegeq h.seg_free_list _ (by rw [if_pos hsb, hn])
        · intro i _ c _; rfl
        · intro i _ _ c _; exact ⟨rfl, fun _ => rfl⟩
        · intro hi0; omega
        · intro _ c hc hcb
          refine ⟨?_, ?_⟩
          · rw [if_neg (fun hx => hmn c hc (by rw [hU8 c hc hx, hn]))]; rfl
          · rw [if_neg (fun hx => hmn c hc (by rw [hU16 c hc hx, hp]))]; rfl
      · -- head with a successor
        rw [if_neg (fun hx => hn hx.2), if_pos hp]
        obtain ⟨hnm, hnb⟩ := hN hn
        have hnblk := (hrep.block idx hidx _ hnm).1
        have hnmod := hmod idx hidx _ hnm
        have hn8 : h.word (b + 16) + 8 < WORD := by
          have := hrep.mem_lt hidx hnm
          omega
        rw [set_prev_ok h _ _ hnblk.valid_prev hn8]
        refine ⟨_, rfl, ?_, rfl, rfl, rfl, rfl, ?_⟩
        · apply IndexRep.erase hrep hidx hb
          · rfl
          · rfl
          · exact hsegeq h.seg_free_list _ (by rw [if_pos hsb])
          · intro i hi c hc
            rw [set_seg_size_at]
            exact put_size_other _ _ _ _ (by have := hmod i hi c hc; omega)
          · intro i hi hne c hc
            have hcm := hmod i hi c hc
            have hcq : c ≠ h.word (b + 16) := by
              intro hEq
              rw [hEq] at hc
              exact hne (hrep.bucket_unique hi hidx hc hnm)
            rw [set_seg_word, set_seg_word]
            exact ⟨put_word_other _ _ _ _ (by omega),
              fun _ => put_word_other _ _ _ _ (by omega)⟩
          · intro hi0; omega
          · intro _ c hc hcb
            have hcm := hmod idx hidx c hc
            rw [set_seg_word, set_seg_word]
            refine ⟨?_, ?_⟩
            · by_cases hcq : c = h.word (b + 16)
              · rw [hcq, if_pos hnb, hp]
                exact put_word_same _ _ _ (by decide)
              · rw [if_neg (fun hx => hcq (hU8 c hc hx))]
                exact put_word_other _ _ _ _ (by omega)
            · rw [if_neg (fun hx => hmn c hc (by rw [hU16 c hc hx, hp]))]
              exact put_word_other _ _ _ _ (by omega)
        · intro a ha
          show (if a = h.word (b + 16) + 8 then _ else h.mem a) = h.mem a
          rw [if_neg (ha _ hnm).1]
    · obtain ⟨hpm, hpb, hsb⟩ := hP hp
      have hpblk := (hrep.block idx hidx _ hpm).1
      have hpmod := hmod idx hidx _ hpm
      have hp16 : h.word (b + 8) + 16 < WORD := by
        have := hpblk.2.2.2
        have := hs32m _ hpm
        have := hrep.brk_le
        omega
      rw [if_neg (fun hx => hp hx.1), if_neg hp]
      by_cases hn : h.word (b + 16) = NULL
      · -- last node
        rw [if_pos hn, set_next_ok h _ _ (hpblk.valid_next (hs32m _ hpm)) hp16]
        refine ⟨_, rfl, ?_, rfl, rfl, rfl, rfl, ?_⟩
        · apply IndexRep.erase hrep hidx hb
          · rfl
          · rfl
          · intro i hi; exact hsegsame i hi hsb
          · intro i hi c hc
            exact put_size_other _ _ _ _ (hrep.ne_next_word hi hidx h1 hc hpm)
          · intro i hi hne c hc
            have hcm := hmod i hi c hc
            have hcq : c ≠ h.word (b + 8) := by
              intro hEq
              rw [hEq] at hc
              exact hne (hrep.bucket_unique hi hidx hc hpm)
            exact ⟨put_word_other _ _ _ _ (by omega),
              fun _ => put_word_other _ _ _ _ (by omega)⟩
          · intro hi0; omega
          · intro _ c hc hcb
            have hcm := hmod idx hidx c hc
            refine ⟨?_, ?_⟩
            · rw [if_neg (fun hx => hmn c hc (by rw [hU8 c hc hx, hn]))]
              exact put_word_other _ _ _ _ (by omega)
            · by_cases hcq : c = h.word (b + 8)
              · rw [hcq, if_pos hpb, hn]
                exact put_word_same _ _ _ (by decide)
              · rw [if_neg (fun hx => hcq (hU16 c hc hx))]
                exact put_word_other _ _ _ _ (by omega)
        · intro a ha
          show (if a = h.word (b + 8) + 16 then _ else h.mem a) = h.mem a
          rw [if_neg ((ha _ hpm).2 h1)]
      · -- inner node
        rw [if_neg hn]
        obtain ⟨hnm, hnb⟩ := hN hn
        have hnblk := (hrep.block idx hidx _ hnm).1
        have hnmod := hmod idx hidx _ hnm
        have hn8 : h.word (b + 16) + 8 < WORD := by
          have := hrep.mem_lt hidx hnm
          omega
        rw [set_next_ok h _ _ (hpblk.valid_next (hs32m _ hpm)) hp16]
        simp only []
        rw [set_prev_ok _ _ _ (by exact hnblk.valid_prev) hn8]
        refine ⟨_, rfl, ?_, rfl, rfl, rfl, rfl, ?_⟩
        · apply IndexRep.erase hrep hidx hb
          · rfl
          · rfl
          · intro i hi; exact hsegsame i hi hsb
          · intro i hi c hc
            have hcm := hmod i hi c hc
            rw [put_size_other _ _ _ _ (by omega)]
            exact put_size_other _ _ _ _ (hrep.ne_next_word hi hidx h1 hc hpm)
          · intro i hi hne c hc
            have hcm := hmod i hi c hc
            have hcq : c ≠ h.word (b + 8) := by
              intro hEq
              rw [hEq] at hc
              exact hne (hrep.bucket_unique hi hidx hc hpm)
            have hcq2 : c ≠ h.word (b + 16) := by
              intro hEq
              rw [hEq] at hc
              exact hne (hrep.bucket_unique hi hidx hc hnm)
            refine ⟨?_, fun _ => ?_⟩
            · rw [put_word_other _ _ _ _ (by omega)]
              exact put_word_other _ _ _ _ (by omega)
            · rw [put_word_other _ _ _ _ (by omega)]
              exact put_word_other _ _ _ _ (by omega)
          · intro hi0; omega
          · intro _ c hc hcb
            have hcm := hmod idx hidx c hc
            refine ⟨?_, ?_⟩
            · by_cases hcq : c = h.word (b + 16)
              · rw [hcq, if_pos hnb]
                exact put_word_same _ _ _ (word_lt _ _)
              · rw [if_neg (fun hx => hcq (hU8 c hc hx)),
                  put_word_other _ _ _ _ (by omega)]
                exact put_word_other _ _ _ _ (by omega)
            · rw [put_word_other _ _ _ _ (by omega)]
              by_cases hcq : c = h.word (b + 8)
              · rw [hcq, if_pos hpb]
                exact put_word_same _ _ _ (word_lt _ _)
              · rw [if_neg (fun hx => hcq (hU16 c hc hx))]
                exact put_word_other _ _ _ _ (by omega)
        · intro a ha
          show (if a = h.word (b + 16) + 8 then _ else
            (if a = h.word (b + 8) + 16 then _ else h.mem a)) = h.mem a
          rw [if_neg (ha _ hnm).1, if_neg ((ha _ hpm).2 h1)]

/-! ### `place` -/

theorem valid_congr {h h' : Heap} {a : Nat} (hlo : h'.lo = h.lo) (hbrk : h'.brk = h.brk)
    (hv : h.valid a) : h'.valid a := by
  unfold Heap.valid at hv ⊢
  rw [hlo, hbrk]
  exact hv

theorem word_congr {h h' : Heap} {a : Nat} (hm : h'.mem a = h.mem a) :
    h'.word a = h.word a := by
  unfold Heap.word
  rw [hm]

theorem size_at_congr {h h' : Heap} {a : Nat} (hm : h'.mem a = h.mem a) :
    h'.size_at a = h.size_at a := by
  unfold Heap.size_at
  rw [word_congr hm]

theorem find_next_eq (h : Heap) (b s : Nat) (hv : h.valid b) (hs : h.size_at b = s)
    (hlt : b + s < WORD) : find_next h b = Except.ok (b + s) := by
  rw [find_next_ok h b hv (by rw [hs]; exact hlt), hs]

theorem get_size_eq (h : Heap) (b s : Nat) (hv : h.valid b) (hs : h.size_at b = s) :
    get_size h b = Except.ok s := by
  rw [get_size_ok h b hv, hs]

theorem put_size_same (h : Heap) (a s : Nat) (ps p al : Bool) (hs : s % 16 = 0)
    (hw : s < WORD) : (h.put a (pack s ps p al)).size_at a = s := by
  unfold Heap.size_at
  rw [put_word_same _ _ _ (pack_lt s ps p al hs hw)]
  exact extract_size_pack s ps p al hs hw

theorem footer_addr (blk c : Nat) (hc8 : 8 ≤ c) (hle : blk + 8 + c ≤ WORD) :
    psub (padd (padd blk wsize) c) dsize = blk + c - 8 := by
  have h1 : blk + 8 < WORD := by omega
  have hw : wsize = 8 := rfl
  have hd : dsize = 16 := rfl
  rw [hw, hd, padd_eq blk 8 h1]
  rcases Nat.lt_or_eq_of_le hle with hlt | heq
  · have h2 : 16 ≤ blk + 8 + c := by omega
    rw [padd_eq (blk + 8) c hlt, psub_eq (blk + 8 + c) 16 h2 hlt]
    omega
  · have h3 : padd (blk + 8) c = 0 := by
      unfold padd
      rw [heq]
      exact Nat.mod_self _
    have h4 : psub 0 16 = WORD - 16 := by decide
    rw [h3, h4]
    omega

theorem ok_bind {α β : Type} (x : α) (f : α → Except Fault β) :
    (Except.ok x >>= f) = f x := rfl

/-- The function `write_free_footer` on a block whose header holds size `c`:
the word `pack(size, false, false, alloc)` is stored at `block + c - 8`. -/
theorem write_free_footer_ok (h : Heap) (blk s c : Nat) (al : Bool)
    (hv : h.valid blk) (hc : h.size_at blk = c) (hc8 : 8 ≤ c)
    (hv2 : h.valid (blk + c - 8)) (hlt : blk + 8 + c ≤ WORD) :
    write_free_footer h blk s al =
      Except.ok (h.put (blk + c - 8) (pack s false false al)) := by
  unfold write_free_footer
  rw [get_size_eq h blk c hv hc, ok_bind, footer_addr blk c hc8 hlt]
  exact store_ok h _ _ hv2
/-- The split branch of `place`, after the block has been unlinked: the two
headers, the footer of the remainder and the header of the successor are
written, and the remainder is handed to `insert`. -/
theorem place_split {h h1 : Heap} {b asize : Nat}
    (hrm : remove_free_block h b = Except.ok h1)
    (hlo : h1.lo = h.lo) (hbrk : h1.brk = h.brk) (hword : h.brk ≤ WORD)
    (hbm : b % 16 = 8) (hbl : h.lo ≤ b)
    (h16 : 16 ≤ asize) (hmod : asize % 16 = 0)
    (hsplit : asize + 16 ≤ h.size_at b)
    (hnext : h.valid (b + h.size_at b)) :
    ∃ h5, place h b asize = insert h5 (b + asize) ∧
      h5.lo = h1.lo ∧ h5.brk = h1.brk ∧ h5.limit = h1.limit ∧
      h5.heap_listp = h1.heap_listp ∧ h5.seg_free_list = h1.seg_free_list ∧
      h5.word b = pack asize (extract_alloc (h.word b) true false false) true true ∧
      h5.word (b + asize) = pack (h.size_at b - asize)
        (if asize = 16 then true else false) true false ∧
      (h.size_at b - asize ≠ 16 → h5.word (b + h.size_at b - 8) =
        pack (h.size_at b - asize) false false false) ∧
      h5.word (b + h.size_at b) = pack (h1.size_at (b + h.size_at b))
        (if h.size_at b - asize = 16 then true else false) false true ∧
      ∀ a, a ≠ b → a ≠ b + asize → a ≠ b + h.size_at b - 8 → a ≠ b + h.size_at b →
        h5.mem a = h1.mem a := by
  have hcm := size_at_mod h b
  have hclt := size_at_lt h b
  obtain ⟨hn1, hn2, hn3⟩ := id hnext
  have hvb : h.valid b := ⟨by omega, hbl, by omega⟩
  have hv1 : ∀ a, h.valid a → h1.valid a := fun a ha => valid_congr hlo hbrk ha
  have hrest_mod : (h.size_at b - asize) % 16 = 0 := by omega
  have hrest_lt : h.size_at b - asize < WORD := by omega
  have hasz_lt : asize < WORD := by omega
  have hvn : h.valid (b + asize) := ⟨by omega, by omega, by omega⟩
  have hnn_mod := size_at_mod h1 (b + h.size_at b)
  have hnn_lt := size_at_lt h1 (b + h.size_at b)
  unfold place
  rw [get_size_ok h b hvb]
  simp only [bind, Except.bind]
  rw [get_alloc_ok h b _ _ _ hvb]
  simp only []
  rw [wsub_eq _ _ (by omega) hclt,
    if_pos (show h.size_at b - asize ≥ min_block_size by
      show 2 * 8 ≤ h.size_at b - asize
      omega), hrm]
  simp only []
  rw [write_header_ok h1 b asize _ _ _ (hv1 b hvb)]
  simp only []
  rw [find_next_eq _ b asize (by exact hv1 b hvb)
    (put_size_same _ _ _ _ _ _ hmod hasz_lt) (by omega)]
  simp only []
  rw [write_header_ok _ (b + asize) _ _ _ _ (by exact hv1 _ hvn)]
  simp only []
  by_cases hr16 : h.size_at b - asize = 16
  · rw [if_pos hr16]
    simp only [Bool.not_true, Bool.false_eq_true, if_false, pure, Except.pure]
    rw [find_next_eq _ (b + asize) 16 (by exact hv1 _ hvn)
      (by rw [← hr16]; exact put_size_same _ _ _ _ _ _ hrest_mod hrest_lt) (by omega)]
    simp only []
    have hbn : b + asize + 16 = b + h.size_at b := by omega
    rw [hbn, get_size_eq _ (b + h.size_at b) (h1.size_at (b + h.size_at b))
      (by exact hv1 _ hnext)
      (by rw [put_size_other _ _ _ _ (by omega), put_size_other _ _ _ _ (by omega)])]
    simp only []
    rw [write_header_ok _ (b + h.size_at b) _ _ _ _ (by exact hv1 _ hnext)]
    simp only []
    refine ⟨_, rfl, rfl, rfl, rfl, rfl, rfl, ?_, ?_, ?_, ?_, ?_⟩
    · rw [put_word_other _ _ _ _ (by omega), put_word_other _ _ _ _ (by omega)]
      exact put_word_same _ _ _ (pack_lt _ _ _ _ hmod hasz_lt)
    · rw [put_word_other _ _ _ _ (by omega), ← hr16]
      exact put_word_same _ _ _ (pack_lt _ _ _ _ hrest_mod hrest_lt)
    · intro hne; exact absurd hr16 hne
    · exact put_word_same _ _ _ (pack_lt _ _ _ _ hnn_mod hnn_lt)
    · intro a ha1 ha2 _ ha4
      show (if a = b + h.size_at b then _ else
        (if a = b + asize then _ else (if a = b then _ else h1.mem a))) = h1.mem a
      rw [if_neg ha4, if_neg ha2, if_neg ha1]
  · rw [if_neg hr16]
    simp only [Bool.not_false, if_true]
    have hfa : b + asize + (h.size_at b - asize) - 8 = b + h.size_at b - 8 := by omega
    rw [write_free_footer_ok _ (b + asize) _ (h.size_at b - asize) false
      (by exact hv1 _ hvn) (put_size_same _ _ _ _ _ _ hrest_mod hrest_lt) (by omega)
      (by exact hv1 _ ⟨by omega, by omega, by omega⟩) (by omega), hfa]
    simp only []
    rw [find_next_eq _ (b + asize) (h.size_at b - asize) (by exact hv1 _ hvn)
      (by rw [put_size_other _ _ _ _ (by omega)]
          exact put_size_same _ _ _ _ _ _ hrest_mod hrest_lt) (by omega)]
    simp only []
    have hbn : b + asize + (h.size_at b - asize) = b + h.size_at b := by omega
    rw [hbn, get_size_eq _ (b + h.size_at b) (h1.size_at (b + h.size_at b))
      (by exact hv1 _ hnext)
      (by rw [put_size_other _ _ _ _ (by omega), put_size_other _ _ _ _ (by omega),
            put_size_other _ _ _ _ (by omega)])]
    simp only []
    rw [write_header_ok _ (b + h.size_at b) _ _ _ _ (by exact hv1 _ hnext)]
    simp only []
    refine ⟨_, rfl, rfl, rfl, rfl, rfl, rfl, ?_, ?_, ?_, ?_, ?_⟩
    · rw [put_word_other _ _ _ _ (by omega), put_word_other _ _ _ _ (by omega),
        put_word_other _ _ _ _ (by omega)]
      exact put_word_same _ _ _ (pack_lt _ _ _ _ hmod hasz_lt)
    · rw [put_word_other _ _ _ _ (by omega), put_word_other _ _ _ _ (by omega)]
      exact put_word_same _ _ _ (pack_lt _ _ _ _ hrest_mod hrest_lt)
    · intro _
      rw [put_word_other _ _ _ _ (by omega)]
      exact put_word_same _ _ _ (pack_lt _ _ _ _ hrest_mod hrest_lt)
    · exact put_word_same _ _ _ (pack_lt _ _ _ _ hnn_mod hnn_lt)
    · intro a ha1 ha2 ha3 ha4
      show (if a = b + h.size_at b then _ else
        (if a = b + h.size_at b - 8 then _ else
          (if a = b + asize then _ else (if a = b then _ else h1.mem a)))) = h1.mem a
      rw [if_neg ha4, if_neg ha3, if_neg ha2, if_neg ha1]

/-- The branch of `place` that allocates the whole block, after the block has
been unlinked: its header and the header of the successor are written. -/
theorem place_whole {h h1 : Heap} {b asize : Nat}
    (hrm : remove_free_block h b = Except.ok h1)
    (hlo : h1.lo = h.lo) (hbrk : h1.brk = h.brk) (hword : h.brk ≤ WORD)
    (hbm : b % 16 = 8) (hbl : h.lo ≤ b) (hc16 : 16 ≤ h.size_at b)
    (hle : asize ≤ h.size_at b) (hwhole : h.size_at b - asize < 16)
    (hnext : h.valid (b + h.size_at b)) :
    ∃ h3, place h b asize = Except.ok h3 ∧
      h3.lo = h1.lo ∧ h3.brk = h1.brk ∧ h3.limit = h1.limit ∧
      h3.heap_listp = h1.heap_listp ∧ h3.seg_free_list = h1.seg_free_list ∧
      h3.word b = pack (h.size_at b) (extract_alloc (h.word b) true false false)
        true true ∧
      h3.word (b + h.size_at b) = pack (h1.size_at (b + h.size_at b))
        (if asize = 16 then true else false) true true ∧
      ∀ a, a ≠ b → a ≠ b + h.size_at b → h3.mem a = h1.mem a := by
  have hcm := size_at_mod h b
  have hclt := size_at_lt h b
  obtain ⟨hn1, hn2, hn3⟩ := id hnext
  have hvb : h.valid b := ⟨by omega, hbl, by omega⟩
  have hv1 : ∀ a, h.valid a → h1.valid a := fun a ha => valid_congr hlo hbrk ha
  have hnn_mod := size_at_mod h1 (b + h.size_at b)
  have hnn_lt := size_at_lt h1 (b + h.size_at b)
  unfold place
  rw [get_size_ok h b hvb]
  simp only [bind, Except.bind]
  rw [get_alloc_ok h b _ _ _ hvb]
  simp only []
  rw [wsub_eq _ _ hle hclt,
    if_neg (show ¬ h.size_at b - asize ≥ min_block_size by
      show ¬ 2 * 8 ≤ h.size_at b - asize
      omega), hrm]
  simp only []
  rw [write_header_ok h1 b _ _ _ _ (hv1 b hvb)]
  simp only []
  rw [find_next_eq _ b (h.size_at b) (by exact hv1 b hvb)
    (put_size_same _ _ _ _ _ _ hcm hclt) (by omega)]
  simp only []
  rw [get_size_eq _ (b + h.size_at b) (h1.size_at (b + h.size_at b))
    (by exact hv1 _ hnext) (by rw [put_size_other _ _ _ _ (by omega)])]
  simp only []
  rw [write_header_ok _ (b + h.size_at b) _ _ _ _ (by exact hv1 _ hnext)]
  refine ⟨_, rfl, rfl, rfl, rfl, rfl, rfl, ?_, ?_, ?_⟩
  · rw [put_word_other _ _ _ _ (by omega)]
    exact put_word_same _ _ _ (pack_lt _ _ _ _ hcm hclt)
  · exact put_word_same _ _ _ (pack_lt _ _ _ _ hnn_mod hnn_lt)
  · intro a ha1 ha2
    show (if a = b + h.size_at b then _ else (if a = b then _ else h1.mem a)) = h1.mem a
    rw [if_neg ha2, if_neg ha1]

theorem alloc_bit_pack (s : Nat) (ps p a x y : Bool) (hs : s % 16 = 0) :
    extract_alloc (pack s ps p a) x y true = a := by
  obtain ⟨k, rfl⟩ : ∃ k, s = 16 * k := ⟨s / 16, by omega⟩
  rw [pack_eq_add]
  exact (extract_alloc_add k ps p a x y false).1

theorem size_at_of_word {h : Heap} {a s : Nat} {ps p al : Bool}
    (hw : h.word a = pack s ps p al) (hs : s % 16 = 0) (hlt : s < WORD) :
    h.size_at a = s := by
  show extract_size (h.word a) = s
  rw [hw]
  exact extract_size_pack s ps p al hs hlt

/-- Membership in the lists after `erase_at`. -/
theorem IndexRep.mem_erase_at {h : Heap} {L : Nat → List Nat} (hrep : IndexRep h L)
    {idx b : Nat} (hidx : idx < 14) (hb : b ∈ L idx) {i : Nat} (hi : i < 14) (x : Nat) :
    x ∈ erase_at L idx b i ↔ x ∈ L i ∧ x ≠ b := by
  unfold erase_at
  by_cases hii : i = idx
  · rw [if_pos hii]
    subst hii
    exact (hrep.nodup i hi).mem_erase_iff.trans ⟨fun hx => ⟨hx.2, hx.1⟩, fun hx => ⟨hx.2, hx.1⟩⟩
  · rw [if_neg hii]
    refine ⟨fun hx => ⟨hx, ?_⟩, fun hx => hx.1⟩
    intro hxb
    rw [hxb] at hx
    exact hii (hrep.bucket_unique hi hidx hx hb)

/-- A state that differs from `h` only inside the span `[b, b + c)` and in the
low bits of the header at `b + c` represents the same lists, when every member
lies outside the span. -/
theorem IndexRep.frame_outside {h h' : Heap} {L : Nat → List Nat} (hrep : IndexRep h L)
    (hlo : h'.lo = h.lo) (hbrk : h'.brk = h.brk)
    (hseg : h'.seg_free_list = h.seg_free_list) (b c : Nat)
    (hap : ∀ i, i < 14 → ∀ x ∈ L i, b + c ≤ x ∨ x + h.size_at x ≤ b)
    (hnn : h'.size_at (b + c) = h.size_at (b + c))
    (hfr : ∀ a, a < b ∨ b + c < a → h'.mem a = h.mem a) :
    IndexRep h' L := by
  apply IndexRep.frame hrep hlo hbrk (fun i _ => by rw [hseg])
  intro i hi x hx
  obtain ⟨⟨_, _, hx16, _⟩, hfi⟩ := hrep.block i hi x hx
  have hbd := find_index_bounds (h.size_at x) _ hfi
  refine ⟨?_, ?_, ?_⟩
  · by_cases hxe : x = b + c
    · rw [hxe]; exact hnn
    · exact size_at_congr (hfr x (by rcases hap i hi x hx with h1 | h1 <;> omega))
  · exact word_congr (hfr _ (by rcases hap i hi x hx with h1 | h1 <;> omega))
  · intro h1i
    exact word_congr (hfr _ (by rcases hap i hi x hx with h1 | h1 <;> omega))

/-- The function `place(b, asize)` on a member `b` of a well-formed index, of
size `c`, with `16 ≤ asize ≤ c`, `asize` a multiple of 16 and the header of the
successor inside the arena: the call returns; afterwards `b` is marked
allocated and is in no bucket, every other member is still a member; if
`c - asize ≥ 16` then `b` has size `asize`, a free block of size `c - asize`
starts at `b + asize` and is the new head of bucket `find_index (c - asize)`;
otherwise `b` keeps size `c` and the lists are the old ones without `b`.  In
both cases the header of the physical successor of `b` carries `asize = 16` as
its previous-is-16-bytes bit. -/
theorem place_spec (h : Heap) (L : Nat → List Nat) (b asize : Nat)
    (hrep : IndexRep h L) (hb : b ∈ L (find_index (h.size_at b)))
    (h16 : 16 ≤ asize) (hmod : asize % 16 = 0) (hle : asize ≤ h.size_at b)
    (hnext : h.valid (b + h.size_at b)) :
    ∃ h' L', place h b asize = Except.ok h' ∧ IndexRep h' L' ∧
      extract_alloc (h'.word b) false false true = true ∧
      (∀ i, i < 14 → b ∉ L' i) ∧
      (∀ i, i < 14 → ∀ x ∈ L i, x ≠ b → x ∈ L' i) ∧
      (16 ≤ h.size_at b - asize →
        h'.size_at b = asize ∧
        h'.size_at (b + asize) = h.size_at b - asize ∧
        extract_alloc (h'.word (b + asize)) false false true = false ∧
        L' = cons_at (erase_at L (find_index (h.size_at b)) b)
          (find_index (h.size_at b - asize)) (b + asize) ∧
        h'.word (b + asize) = pack (h.size_at b - asize)
          (if asize = 16 then true else false) true false) ∧
      (h.size_at b - asize < 16 →
        h'.size_at b = h.size_at b ∧
        L' = erase_at L (find_index (h.size_at b)) b ∧
        h'.word (b + h.size_at b) = pack (h.size_at (b + h.size_at b))
          (if asize = 16 then true else false) true true) := by
  have hidx : find_index (h.size_at b) < 14 := by
    have := (find_index_bounds (h.size_at b) _ rfl).1
    omega
  obtain ⟨⟨hbm, hbl, hc16, hbc⟩, _⟩ := hrep.block _ hidx b hb
  have hword := hrep.brk_le
  have hcm := size_at_mod h b
  have hclt := size_at_lt h b
  have hmodm : ∀ i, i < 14 → ∀ x ∈ L i, x % 16 = 8 :=
    fun i hi x hx => (hrep.block i hi x hx).1.1
  obtain ⟨h1, hrm, hrep1, hlo1, hbrk1, _, _, hfr1⟩ := remove_spec hrep hidx hb
  -- `remove_free_block` writes no header
  have hH1 : ∀ a, a % 16 = 8 →
      (1 ≤ find_index (h.size_at b) → ∀ x ∈ L (find_index (h.size_at b)), a ≠ x + 16) →
      h1.mem a = h.mem a := by
    intro a ha hne
    apply hfr1
    intro x hx
    have := hmodm _ hidx x hx
    exact ⟨by omega, fun h1i => hne h1i x hx⟩
  have hHm : ∀ i, i < 14 → ∀ x ∈ L i, h1.mem x = h.mem x := by
    intro i hi x hx
    exact hH1 x (hmodm i hi x hx) (fun h1i y hy => hrep.ne_next_word hi hidx h1i hx hy)
  have hHn : h1.mem (b + h.size_at b) = h.mem (b + h.size_at b) := by
    apply hH1 _ (by omega)
    intro h1i x hx
    have hs := find_index_bounds (h.size_at x) _ (hrep.block _ hidx x hx).2
    by_cases hxb : x = b
    · rw [hxb] at hs ⊢; omega
    · rcases hrep.apart _ _ hidx hidx x hx b hb hxb with h2 | h2 <;> omega
  have hapart : ∀ i, i < 14 → ∀ x ∈ erase_at L (find_index (h.size_at b)) b i,
      b + h.size_at b ≤ x ∨ x + h1.size_at x ≤ b := by
    intro i hi x hx
    obtain ⟨hxL, hxb⟩ := (hrep.mem_erase_at hidx hb hi x).mp hx
    rw [size_at_congr (hHm i hi x hxL)]
    rcases hrep.apart i _ hi hidx x hxL b hb hxb with h2 | h2
    · exact Or.inr h2
    · exact Or.inl h2
  have hnotin : ∀ i, i < 14 → b ∉ erase_at L (find_index (h.size_at b)) b i :=
    fun i hi hx => ((hrep.mem_erase_at hidx hb hi b).mp hx).2 rfl
  have hstay : ∀ i, i < 14 → ∀ x ∈ L i, x ≠ b →
      x ∈ erase_at L (find_index (h.size_at b)) b i :=
    fun i hi x hx hxb => (hrep.mem_erase_at hidx hb hi x).mpr ⟨hx, hxb⟩
  by_cases hsplit : 16 ≤ h.size_at b - asize
  · obtain ⟨h5, hpl, hlo5, hbrk5, _, _, hseg5, hw5b, hw5n, _, hw5nn, hfr5⟩ :=
      place_split hrm hlo1 hbrk1 hword hbm hbl h16 hmod (by omega) hnext
    have hrest_mod : (h.size_at b - asize) % 16 = 0 := by omega
    have hrest_lt : h.size_at b - asize < WORD := by omega
    have hs5n : h5.size_at (b + asize) = h.size_at b - asize := by
      exact size_at_of_word hw5n hrest_mod hrest_lt
    have hrep5 : IndexRep h5 (erase_at L (find_index (h.size_at b)) b) := by
      apply IndexRep.frame_outside hrep1 hlo5 hbrk5 hseg5 b (h.size_at b) hapart
      · exact size_at_of_word hw5nn (size_at_mod _ _) (size_at_lt _ _)
      · intro a ha
        exact hfr5 a (by omega) (by omega) (by omega) (by omega)
    have hblk5 : IsBlock h5 (b + asize) := by
      refine ⟨by omega, by rw [hlo5, hlo1]; omega, by rw [hs5n]; exact hsplit, ?_⟩
      rw [hs5n, hbrk5, hbrk1]
      omega
    have hnew5 : ∀ i, i < 14 → ∀ x ∈ erase_at L (find_index (h.size_at b)) b i,
        b + asize + h5.size_at (b + asize) ≤ x ∨ x + h5.size_at x ≤ b + asize := by
      intro i hi x hx
      have hsx : h5.size_at x = h1.size_at x := by
        have h3 := (hrep5.block i hi x hx).1
        have h4 := (hrep1.block i hi x hx).1.2.2.1
        by_cases hxe : x = b + h.size_at b
        · rw [hxe]
          exact size_at_of_word hw5nn (size_at_mod _ _) (size_at_lt _ _)
        · exact size_at_congr (hfr5 x
            (by rcases hapart i hi x hx with h2 | h2 <;> omega)
            (by rcases hapart i hi x hx with h2 | h2 <;> omega)
            (by have := h3.1; omega) hxe)
      rw [hs5n, hsx]
      rcases hapart i hi x hx with h2 | h2
      · left; omega
      · right; omega
    obtain ⟨h6, hins, hrep6, _, _, _, _, hfr6⟩ := insert_spec hrep5 hblk5 hnew5
    rw [hs5n] at hrep6 hfr6
    have hhead : ∀ a, a % 16 = 8 → a ≠ b + asize + 16 → h6.mem a = h5.mem a := by
      intro a ha ha16
      apply hfr6 a (by omega) (fun _ => ha16)
      intro h1i hne
      have hfi5 : find_index (h.size_at b - asize) < 14 := by
        have := (find_index_bounds (h.size_at b - asize) _ rfl).1
        omega
      rcases hrep5.head_cases hfi5 with ⟨hn, _⟩ | ⟨t, ht⟩
      · exact absurd hn hne
      · have hm : h5.seg_free_list (find_index (h.size_at b - asize)) ∈
            erase_at L (find_index (h.size_at b)) b (find_index (h.size_at b - asize)) := by
          rw [ht]; exact List.mem_cons_self _ _
        have := (hrep5.block _ hfi5 _ hm).1.1
        omega
    have hw6b : h6.word b = pack asize (extract_alloc (h.word b) true false false)
        true true := by
      rw [word_congr (hhead b hbm (by omega))]
      exact hw5b
    have hw6n : h6.word (b + asize) = pack (h.size_at b - asize)
        (if asize = 16 then true else false) true false := by
      rw [word_congr (hhead (b + asize) (by omega) (by omega))]
      exact hw5n
    refine ⟨h6, _, hpl.trans hins, hrep6, ?_, ?_, ?_, ?_, ?_⟩
    · rw [hw6b]
      exact alloc_bit_pack _ _ _ _ _ _ hmod
    · intro i hi hbi
      unfold cons_at at hbi
      by_cases hii : i = find_index (h.size_at b - asize)
      · rw [if_pos hii] at hbi
        rcases List.mem_cons.mp hbi with h2 | h2
        · omega
        · exact hnotin i hi h2
      · rw [if_neg hii] at hbi
        exact hnotin i hi hbi
    · intro i hi x hx hxb
      unfold cons_at
      by_cases hii : i = find_index (h.size_at b - asize)
      · rw [if_pos hii]
        exact List.mem_cons_of_mem _ (hstay i hi x hx hxb)
      · rw [if_neg hii]
        exact hstay i hi x hx hxb
    · intro _
      refine ⟨?_, ?_, ?_, rfl, hw6n⟩
      · exact size_at_of_word hw6b hmod (by omega)
      · exact size_at_of_word hw6n hrest_mod hrest_lt
      · rw [hw6n]
        exact alloc_bit_pack _ _ _ _ _ _ hrest_mod
    · intro hlt
      omega
  · obtain ⟨h3, hpl, hlo3, hbrk3, _, _, hseg3, hw3b, hw3n, hfr3⟩ :=
      place_whole hrm hlo1 hbrk1 hword hbm hbl hc16 hle (by omega) hnext
    have hrep3 : IndexRep h3 (erase_at L (find_index (h.size_at b)) b) := by
      apply IndexRep.frame_outside hrep1 hlo3 hbrk3 hseg3 b (h.size_at b) hapart
      · exact size_at_of_word hw3n (size_at_mod _ _) (size_at_lt _ _)
      · intro a ha
        exact hfr3 a (by omega) (by omega)
    refine ⟨h3, _, hpl, hrep3, ?_, hnotin, hstay, ?_, ?_⟩
    · rw [hw3b]
      exact alloc_bit_pack _ _ _ _ _ _ hcm
    · intro hge
      exact absurd hge hsplit
    · intro _
      refine ⟨?_, rfl, ?_⟩
      · exact size_at_of_word hw3b hcm hclt
      · rw [hw3n, size_at_congr hHn]

/-- The heap after `mm_init` has a well-formed index: bucket 8 holds the one
free block of 4096 bytes, every other bucket is empty. -/
theorem heap1_index : IndexRep heap1 (fun i => if i = 8 then [4104] else []) := by
  refine ⟨by decide, (by decide : heap1.seg_free_list 0 = NULL), ?_, ?_, ?_, ?_⟩
  · intro i h1 h2
    interval_cases i
    all_goals first
      | exact (⟨by decide, by decide, by decide⟩ :
          heap1.seg_free_list 8 = 4104 ∧ heap1.word (4104 + 8) = NULL ∧
            heap1.word (4104 + 16) = NULL)
      | (show heap1.seg_free_list _ = NULL; decide)
  · intro i hi b hb
    by_cases h8 : i = 8
    · subst h8
      simp only [if_true, List.mem_singleton] at hb
      subst hb
      exact ⟨⟨by decide, by decide, by decide, by decide⟩, by decide⟩
    · rw [if_neg h8] at hb
      cases hb
  · intro i _
    by_cases h8 : i = 8
    · rw [if_pos h8]; exact List.nodup_singleton _
    · rw [if_neg h8]; exact List.nodup_nil
  · intro i j _ _ b hb c hc hne
    by_cases h8 : i = 8
    · by_cases h9 : j = 8
      · rw [if_pos h8] at hb
        rw [if_pos h9] at hc
        rw [List.mem_singleton.mp hb, List.mem_singleton.mp hc] at hne
        exact absurd rfl hne
      · rw [if_neg h9] at hc
        cases hc
    · rw [if_neg h8] at hb
      cases hb

/-- In the heap after `mm_init`, whose index holds the one free block 4104 of
4096 bytes, `place(4104, 32)` splits the block. -/
theorem place_spec_heap1 :
    ∃ h', place heap1 4104 32 = Except.ok h' ∧
      extract_alloc (h'.word 4104) false false true = true ∧
      h'.size_at 4104 = 32 ∧ h'.size_at 4136 = 4064 := by
  have hs : heap1.size_at 4104 = 4096 := by decide
  obtain ⟨h', L', hp, _, ha, _, _, hsplit, _⟩ :=
    place_spec heap1 (fun i => if i = 8 then [4104] else [])
      4104 32 heap1_index (by rw [hs]; decide) (by decide) (by decide)
      (by rw [hs]; decide) (by rw [hs]; decide)
  rw [hs] at hsplit
  obtain ⟨h1, h2, _, _⟩ := hsplit (by decide)
  exact ⟨h', hp, ha, h1, h2⟩

/-! ### `find_fit` -/

theorem fit_scan_nil (h : Heap) (asize k : Nat) (best : Option Nat) (hk : 1 ≤ k) :
    fit_scan h asize k best [] = Scan.next (k : Int) (acc_size h best) (acc_block best) := by
  have hk0 : ¬ k ≤ 0 := by omega
  simp [fit_scan, fit_exact_first, fit_larger, fit_smallest, hk0]

theorem fit_scan_exact (h : Heap) (asize k : Nat) (best : Option Nat) (b : Nat)
    (t : List Nat) (hk : 1 ≤ k) (hb : h.size_at b = asize) :
    fit_scan h asize k best (b :: t) = Scan.ret b := by
  have hk0 : 0 < k := hk
  simp [fit_scan, fit_exact_first, fit_larger, hb, hk0]

theorem fit_scan_small (h : Heap) (asize k : Nat) (best : Option Nat) (b : Nat)
    (t : List Nat) (hb : h.size_at b < asize) :
    fit_scan h asize k best (b :: t) = fit_scan h asize k best t := by
  have h1 : ¬ h.size_at b = asize := by omega
  have h2 : ¬ asize < h.size_at b := by omega
  simp [fit_scan, fit_exact_first, fit_larger, h1, h2]

theorem fit_scan_large_last (h : Heap) (asize : Nat) (best : Option Nat) (b : Nat)
    (t : List Nat) (hb : asize < h.size_at b) :
    fit_scan h asize 1 best (b :: t) = Scan.ret (acc_block (fit_better h best b)) := by
  have h1 : ¬ h.size_at b = asize := by omega
  have hex : fit_exact_first h asize 1 (b :: t) = none := by
    simp only [fit_exact_first, fit_larger, List.find?_cons, List.takeWhile_cons, h1,
      decide_False, decide_not, Bool.not_false, if_true, List.filter_cons, hb, decide_True,
      List.length_cons]
    split
    · rw [if_neg (by omega)]
    · rfl
  simp [fit_scan, hex, fit_larger, hb, fit_smallest]

theorem fit_scan_large (h : Heap) (asize k : Nat) (best : Option Nat) (b : Nat)
    (t : List Nat) (hk : 2 ≤ k) (hb : asize < h.size_at b) :
    fit_scan h asize k best (b :: t) = fit_scan h asize (k - 1) (fit_better h best b) t := by
  have h1 : ¬ h.size_at b = asize := by omega
  obtain ⟨j, rfl⟩ : ∃ j, k = j + 2 := ⟨k - 2, by omega⟩
  have hex : fit_exact_first h asize (j + 2) (b :: t) =
      fit_exact_first h asize (j + 1) t := by
    simp only [fit_exact_first, fit_larger, List.find?_cons, List.takeWhile_cons, h1,
      decide_False, decide_not, Bool.not_false, if_true, List.filter_cons, hb, decide_True,
      List.length_cons, Nat.add_lt_add_iff_right]
  have hl : fit_larger h asize (b :: t) = b :: fit_larger h asize t := by
    simp [fit_larger, hb]
  unfold fit_scan
  rw [hex, hl]
  simp only [List.length_cons, Nat.add_sub_cancel, List.take_succ_cons, fit_smallest,
    List.foldl_cons, Nat.add_le_add_iff_right]
  have hsub : j + 2 - ((fit_larger h asize t).length + 1) =
      j + 1 - (fit_larger h asize t).length := by omega
  have hle : j + 2 ≤ (fit_larger h asize t).length + 1 ↔
      j + 1 ≤ (fit_larger h asize t).length := by omega
  have hj : j + 2 - 1 = j + 1 := rfl
  rw [hsub, hj]
  simp only [hle]

theorem acc_better (h : Heap) (best : Option Nat) (b : Nat) :
    (if h.size_at b < acc_size h best then b else acc_block best) =
        acc_block (fit_better h best b) ∧
    (if h.size_at b < acc_size h best then h.size_at b else acc_size h best) =
        acc_size h (fit_better h best b) := by
  cases best with
  | none =>
    have hlt : h.size_at b < WORD - 1 := by
      have := (extract_size_props (h.word b)).2
      have hw : 16 < WORD := by decide
      show extract_size (h.word b) < WORD - 1
      omega
    simp only [acc_size, acc_block, fit_better, if_pos hlt, Option.getD_some]
    exact ⟨trivial, trivial⟩
  | some m =>
    simp only [acc_size, acc_block, fit_better]
    by_cases hlt : h.size_at b < h.size_at m
    · simp only [if_pos hlt, Option.getD_some]
      exact ⟨trivial, trivial⟩
    · simp only [if_neg hlt, Option.getD_some]
      exact ⟨trivial, trivial⟩

/-- The inner loop of `find_fit` on a doubly linked bucket list: with fuel for
every node it ends with the outcome `fit_scan`. -/
theorem find_fit_list_spec {h : Heap} {asize : Nat} :
    ∀ (l : List Nat) (pv a f k : Nat) (best : Option Nat),
      DList h pv a l →
      (∀ b ∈ l, b ≠ NULL ∧ h.valid b ∧ h.valid (b + 16) ∧ b + 16 < WORD) →
      l.length < f → 1 ≤ k →
      find_fit_list h asize f a (k : Int) (acc_size h best) (acc_block best) =
        Except.ok (fit_scan h asize k best l) := by
  intro l
  induction l with
  | nil =>
    intro pv a f k best hl _ hf hk
    have ha : a = NULL := hl
    cases f with
    | zero => simp at hf
    | succ f =>
      unfold find_fit_list
      rw [if_pos ha, fit_scan_nil h asize k best hk]
      rfl
  | cons b t ih =>
    intro pv a f k best hl hv hf hk
    obtain ⟨h1, _, h3⟩ := hl
    subst h1
    obtain ⟨hne, hvh, hvn, hlt⟩ := hv a (List.mem_cons_self _ _)
    have hvt : ∀ c ∈ t, c ≠ NULL ∧ h.valid c ∧ h.valid (c + 16) ∧ c + 16 < WORD :=
      fun c hc => hv c (List.mem_cons_of_mem _ hc)
    cases f with
    | zero => simp at hf
    | succ f =>
      have hft : t.length < f := by simp at hf; omega
      unfold find_fit_list
      rw [if_neg hne, get_size_ok h a hvh, ok_bind]
      by_cases hex : h.size_at a = asize
      · rw [if_pos hex, fit_scan_exact h asize k best a t hk hex]
        rfl
      · rw [if_neg hex]
        by_cases hgt : h.size_at a > asize
        · rw [if_pos hgt]
          obtain ⟨hb1, hb2⟩ := acc_better h best a
          by_cases hk1 : k = 1
          · subst hk1
            rw [fit_scan_large_last h asize best a t hgt]
            show (if ((1 : Nat) : Int) - 1 = 0 then
              pure (Scan.ret (if h.size_at a < acc_size h best then a else acc_block best))
              else _) = _
            rw [if_pos (by norm_num), hb1]
            rfl
          · have hk2 : 2 ≤ k := by omega
            have hn : ¬ ((k : Int) - 1 = 0) := by omega
            have hcast : (k : Int) - 1 = ((k - 1 : Nat) : Int) := by omega
            rw [fit_scan_large h asize k best a t hk2 hgt,
              ← ih a (h.word (a + 16)) f (k - 1) (fit_better h best a) h3 hvt hft (by omega),
              ← hb1, ← hb2, ← hcast]
            show (if (k : Int) - 1 = 0 then _ else
              (find_free_next h a >>= fun nxt => find_fit_list h asize f nxt ((k : Int) - 1)
                (if h.size_at a < acc_size h best then h.size_at a else acc_size h best)
                (if h.size_at a < acc_size h best then a else acc_block best))) = _
            rw [if_neg hn, find_free_next_ok h a hvn hlt, ok_bind]
        · rw [if_neg hgt, find_free_next_ok h a hvn hlt, ok_bind,
            fit_scan_small h asize k best a t (by omega)]
          exact ih a (h.word (a + 16)) f k best h3 hvt hft hk

/-- A bucket list without a block of at least `asize` bytes leaves the loop
variables of `find_fit` as they were. -/
theorem fit_scan_none (h : Heap) (asize k : Nat) (best : Option Nat) (hk : 1 ≤ k) :
    ∀ (l : List Nat), (∀ b ∈ l, h.size_at b < asize) →
      fit_scan h asize k best l = Scan.next (k : Int) (acc_size h best) (acc_block best) := by
  intro l
  induction l with
  | nil => intro _; exact fit_scan_nil h asize k best hk
  | cons b t ih =>
    intro hs
    rw [fit_scan_small h asize k best b t (hs b (List.mem_cons_self _ _))]
    exact ih (fun c hc => hs c (List.mem_cons_of_mem _ hc))

/-- The smallest block from a non-empty supply is a candidate. -/
theorem fit_smallest_some (h : Heap) :
    ∀ (l : List Nat) (best : Option Nat), (best ≠ none ∨ l ≠ []) →
      ∃ m, fit_smallest h best l = some m ∧ (best = some m ∨ m ∈ l) := by
  intro l
  induction l with
  | nil =>
    intro best hb
    rcases hb with hb | hb
    · cases best with
      | none => exact absurd rfl hb
      | some m => exact ⟨m, rfl, Or.inl rfl⟩
    · exact absurd rfl hb
  | cons b t ih =>
    intro best _
    have hbetter : ∃ m, fit_better h best b = some m ∧ (best = some m ∨ m = b) := by
      cases best with
      | none => exact ⟨b, rfl, Or.inr rfl⟩
      | some m =>
        unfold fit_better
        by_cases hlt : h.size_at b < h.size_at m
        · exact ⟨b, by simp only [if_pos hlt], Or.inr rfl⟩
        · exact ⟨m, by simp only [if_neg hlt], Or.inl rfl⟩
    obtain ⟨m, hm, hmb⟩ := hbetter
    obtain ⟨r, hr, hrm⟩ := ih (fit_better h best b) (Or.inl (by rw [hm]; simp))
    refine ⟨r, hr, ?_⟩
    rcases hrm with hrm | hrm
    · rw [hm] at hrm
      have hmr : m = r := Option.some.inj hrm
      rcases hmb with hmb | hmb
      · left; rw [hmb, hmr]
      · right; rw [← hmr, hmb]; exact List.mem_cons_self _ _
    · right; exact List.mem_cons_of_mem _ hrm

theorem fit_larger_sub (h : Heap) (asize : Nat) (l : List Nat) :
    ∀ b ∈ fit_larger h asize l, b ∈ l ∧ asize < h.size_at b := by
  intro b hb
  unfold fit_larger at hb
  have := List.mem_filter.mp hb
  exact ⟨this.1, by simpa using this.2⟩

/-- A bucket list with a block of at least `asize` bytes ends the search: the
inner loop returns the selected block, or leaves it in `min_block`. -/
theorem fit_scan_found (h : Heap) (asize : Nat) (l : List Nat)
    (hnn : ∀ b ∈ l, b ≠ NULL) (hex : ∃ b ∈ l, asize ≤ h.size_at b) :
    fit_scan h asize 9 none l = Scan.ret (fit_in_bucket h asize l) ∨
    ∃ n ms, fit_scan h asize 9 none l = Scan.next n ms (fit_in_bucket h asize l) ∧
      fit_in_bucket h asize l ≠ NULL := by
  unfold fit_scan fit_in_bucket
  cases hfe : fit_exact_first h asize 9 l with
  | some e => left; rfl
  | none =>
    simp only []
    by_cases h9 : 9 ≤ (fit_larger h asize l).length
    · left
      rw [if_pos h9]
      rfl
    · right
      rw [if_neg h9, List.take_of_length_le (by omega)]
      refine ⟨_, _, rfl, ?_⟩
      have hne : fit_larger h asize l ≠ [] := by
        obtain ⟨b, hb, hbs⟩ := hex
        by_cases hbe : h.size_at b = asize
        · -- an exact fit that is not selected stands behind nine larger blocks
          exfalso
          unfold fit_exact_first at hfe
          cases hfind : l.find? (fun b => decide (h.size_at b = asize)) with
          | none =>
            have := List.find?_eq_none.mp hfind b hb
            simp [hbe] at this
          | some e =>
            rw [hfind] at hfe
            simp only [] at hfe
            by_cases hlt : (fit_larger h asize
                (l.takeWhile (fun b => decide (h.size_at b ≠ asize)))).length < 9
            · rw [if_pos hlt] at hfe
              cases hfe
            · have hsub : (fit_larger h asize
                  (l.takeWhile (fun b => decide (h.size_at b ≠ asize)))).length ≤
                  (fit_larger h asize l).length :=
                ((List.takeWhile_sublist _).filter _).length_le
              omega
        · intro hnil
          have hmem : b ∈ fit_larger h asize l := by
            unfold fit_larger
            exact List.mem_filter.mpr ⟨hb, by simp; omega⟩
          rw [hnil] at hmem
          cases hmem
      obtain ⟨m, hm, hmm⟩ := fit_smallest_some h _ none (Or.inr hne)
      rw [hm]
      rcases hmm with hmm | hmm
      · cases hmm
      · exact hnn m (fit_larger_sub h asize l m hmm).1

/-- C21 (the code violates the claim): on `heap_tight1`, whose arena cannot
grow, 4112 is the live pointer returned by `malloc(16)`; the allocation of
5000 bytes fails, and `realloc(4112, 5000)` returns `NULL`, not the old block
4112 that its header comment promises. -/
theorem C21_realloc_failure_returns_null :
    (malloc heap_tight 16).map (fun r => r.1) = Except.ok 4112 ∧
    (malloc heap_tight1 5000).map (fun r => r.1) = Except.ok NULL ∧
    (realloc heap_tight1 4112 5000).map (fun r => r.1) = Except.ok NULL := by
  refine ⟨?_, ?_, ?_⟩ <;> rfl

/-- C22 (counterexample): in the heap after `mm_init` the free block at 4104
has size 4096; its header word is 4098 (the previous-allocated bit is set) and
its footer word at `4104 + 4096 - 8` is 4096. -/
theorem C22_footer_differs_from_header :
    (do let size ← get_size heap1 4104
        let alloc ← get_alloc heap1 4104 false false true
        let header ← load heap1 4104
        let footer ← load heap1 (4104 + 4096 - 8)
        pure (size, alloc, header, footer)) =
      Except.ok (4096, false, 4098, 4096) := by
  rfl

/-- The pair `write_header(b, s, ps, p, false)`,
`write_free_footer(b, s, false)` that writes a free block of size `s > 16`
leaves at `b + s - 8` the word `pack(s, false, false, false)`: the footer holds
the size and the allocation bit of the header with both status bits clear, and
it equals the header word exactly when the header has both status bits clear. -/
theorem free_block_writes (h : Heap) (b s : Nat) (ps p : Bool)
    (hv : h.valid b) (hs : s % 16 = 0) (hs16 : 16 < s) (hv2 : h.valid (b + s - 8))
    (hle : b + 8 + s ≤ WORD) :
    ∃ h', (write_header h b s ps p false >>= fun h1 => write_free_footer h1 b s false) =
        Except.ok h' ∧
      h'.word b = pack s ps p false ∧
      h'.word (b + s - 8) = pack s false false false ∧
      extract_size (h'.word (b + s - 8)) = extract_size (h'.word b) ∧
      extract_alloc (h'.word (b + s - 8)) false false true =
        extract_alloc (h'.word b) false false true ∧
      (h'.word (b + s - 8) = h'.word b ↔ ps = false ∧ p = false) := by
  have hlt : s < WORD := by omega
  have hw1 : ((h.put b (pack s ps p false)).put (b + s - 8)
      (pack s false false false)).word b = pack s ps p false := by
    rw [put_word_other _ _ _ _ (by omega)]
    exact put_word_same _ _ _ (pack_lt _ _ _ _ hs hlt)
  have hw2 : ((h.put b (pack s ps p false)).put (b + s - 8)
      (pack s false false false)).word (b + s - 8) = pack s false false false :=
    put_word_same _ _ _ (pack_lt _ _ _ _ hs hlt)
  rw [write_header_ok h b s ps p false hv, ok_bind,
    write_free_footer_ok _ b s s false (by exact hv)
      (put_size_same _ _ _ _ _ _ hs hlt) (by omega) (by exact hv2) hle]
  refine ⟨_, rfl, hw1, hw2, ?_, ?_, ?_⟩
  · rw [hw1, hw2, extract_size_pack _ _ _ _ hs hlt, extract_size_pack _ _ _ _ hs hlt]
  · rw [hw1, hw2, alloc_bit_pack _ _ _ _ _ _ hs, alloc_bit_pack _ _ _ _ _ _ hs]
  · rw [hw1, hw2]
    obtain ⟨k, rfl⟩ : ∃ k, s = 16 * k := ⟨s / 16, by omega⟩
    rw [pack_eq_add, pack_eq_add]
    cases ps <;> cases p <;> simp

/-- The free block of `heap1` at 4104, size 4096, rewritten with its own
header bits. -/
theorem free_block_writes_heap1 :
    ∃ h', (write_header heap1 4104 4096 false true false >>=
        fun h1 => write_free_footer h1 4104 4096 false) = Except.ok h' ∧
      h'.word 4104 = pack 4096 false true false ∧
      h'.word (4104 + 4096 - 8) = pack 4096 false false false ∧
      extract_size (h'.word (4104 + 4096 - 8)) = extract_size (h'.word 4104) ∧
      extract_alloc (h'.word (4104 + 4096 - 8)) false false true =
        extract_alloc (h'.word 4104) false false true ∧
      (h'.word (4104 + 4096 - 8) = h'.word 4104 ↔ false = false ∧ true = false) :=
  free_block_writes heap1 4104 4096 false true (by decide) (by decide)
    (by decide) (by decide) (by decide)

/-- C25: for every state and every `asize` with `find_index(asize) = 0`, if
bucket 0 is not empty then `find_fit(asize)` returns the head of bucket 0; no
other bucket and no block header is read. -/
theorem C25_find_fit_min_bucket_head (h : Heap) (asize : Nat)
    (hidx : find_index asize = 0) (hne : h.seg_free_list 0 ≠ NULL) :
    find_fit h asize = Except.ok (h.seg_free_list 0) := by
  unfold find_fit
  rw [if_pos ⟨hidx, hne⟩]
  rfl

/-- C25 (witness): `heap_min_free`, which has the 16-byte block 4104 at the
head of bucket 0, and `asize = 16`. -/
theorem C25_find_fit_min_bucket_head_witness :
    find_index 16 = 0 ∧ heap_min_free.seg_free_list 0 ≠ NULL ∧
      find_fit heap_min_free 16 = Except.ok (heap_min_free.seg_free_list 0) :=
  ⟨by decide, by decide,
    C25_find_fit_min_bucket_head heap_min_free 16 (by decide) (by decide)⟩

/-- C26 (the code violates the claim): after `malloc(1)`, `p = malloc(2^64 - 8)`,
`free(p)`, `q = malloc(16)` the pointers are 4112, 4128, 4128, and
`find_fit(32)` returns the block 4120, whose header has size 32 and a set
allocation bit: the block returned is the live block of `q`, not a free block. -/
theorem C26_find_fit_returns_allocated_block :
    (do let (a, h) ← malloc heap0 1
        let (p, h) ← malloc h (2 ^ 64 - 8)
        let h ← free h p
        let (q, h) ← malloc h 16
        let b ← find_fit h 32
        let alloc ← get_alloc h b false false true
        let size ← get_size h b
        pure (a, p, q, b, payload_to_header q, alloc, size)) =
      Except.ok (4112, 4128, 4128, 4120, 4120, true, 32) := by
  rfl

/-- C28 (the code violates the claim): after `p = malloc(2^64 - 8)`, `free(p)`,
`malloc(16)`, `malloc(4050)` the heap consists of the blocks 4104 (32 bytes)
and 4136 (4064 bytes), both with a set allocation bit, and the epilogue at
8200; no block is free, yet `find_fit(32)` returns 4104 and not `NULL`. -/
theorem C28_find_fit_without_free_block :
    (do let (p, h) ← malloc heap0 (2 ^ 64 - 8)
        let h ← free h p
        let (q, h) ← malloc h 16
        let (r, h) ← malloc h 4050
        let s1 ← get_size h 4104
        let a1 ← get_alloc h 4104 false false true
        let s2 ← get_size h (4104 + s1)
        let a2 ← get_alloc h (4104 + s1) false false true
        let s3 ← get_size h (4104 + s1 + s2)
        let a3 ← get_alloc h (4104 + s1 + s2) false false true
        let b ← find_fit h 32
        pure (p, q, r, s1, a1, s2, a2, s3, a3, 4104 + s1 + s2 + 8, h.brk, b)) =
      Except.ok (4112, 4112, 4144, 32, true, 4064, true, 0, true, 8208, 8208, 4104) := by
  rfl

/-- C30 (the code violates the claim): after `malloc(1)` and
`malloc(2^64 - 8)` the block 4104 has size 16 and its physical successor is
4120, but the previous-is-16-bytes bit (bit 2) of the header of 4120 is clear;
the previous-allocated bit (bit 1) is set. -/
theorem C30_prev_size_bit_lost :
    (do let (a, h) ← malloc heap0 1
        let (p, h) ← malloc h (2 ^ 64 - 8)
        let s1 ← get_size h 4104
        let nxt ← find_next h 4104
        let bit2 ← get_alloc h nxt true false false
        let bit1 ← get_alloc h nxt false true false
        let a1 ← get_alloc h 4104 false false true
        pure (a, p, s1, nxt, bit2, bit1, a1)) =
      Except.ok (4112, 4128, 16, 4120, false, true, true) := by
  rfl

/-- C29 (the code violates the claim): after `p = malloc(2^64 - 8)` and
`free(p)` the block 4104 is free, has size 4096 and is the head of bucket 8;
`place(4104, 32)` marks it allocated with size 32, and it is still the head of
bucket 8: the allocated block has not left the index. -/
theorem C29_place_leaves_block_in_bucket :
    (do let (p, h) ← malloc heap0 (2 ^ 64 - 8)
        let h ← free h p
        let c ← get_size h 4104
        let alloc ← get_alloc h 4104 false false true
        let h2 ← place h 4104 32
        let size_after ← get_size h2 4104
        let alloc_after ← get_alloc h2 4104 false false true
        pure (p, c, alloc, find_index c, h.seg_free_list (find_index c),
          size_after, alloc_after, h2.seg_free_list (find_index c))) =
      Except.ok (4112, 4096, false, 8, 4104, 32, true, 4104) := by
  rfl

/-! ### Size arithmetic -/

/-- C39: for every request `n` with `0 < n ≤ 2^64 - 24` the adjusted size
`asize = round_up(n + wsize, dsize)` that `malloc` computes in 64-bit
arithmetic is a multiple of 16 with `n + 8 ≤ asize < n + 24`; hence
`asize ≥ 16` and the payload capacity `asize - 8` is at least `n`. -/
theorem C39_adjusted_size_in_range (n : Nat) (h0 : 0 < n) (hn : n ≤ 2 ^ 64 - 24) :
    round_up ((n + wsize) % WORD) dsize % 16 = 0 ∧
    n + 8 ≤ round_up ((n + wsize) % WORD) dsize ∧
    round_up ((n + wsize) % WORD) dsize < n + 24 ∧
    16 ≤ round_up ((n + wsize) % WORD) dsize ∧
    n ≤ round_up ((n + wsize) % WORD) dsize - 8 := by
  have hw : WORD = 18446744073709551616 := by decide
  have hws : wsize = 8 := rfl
  have hds : dsize = 16 := rfl
  unfold round_up
  rw [hw, hws, hds]
  norm_num at hn
  omega

/-- C39 (witness): the request of one byte. -/
theorem C39_adjusted_size_in_range_witness :
    (0 : Nat) < 1 ∧ (1 : Nat) ≤ 2 ^ 64 - 24 ∧
    round_up ((1 + wsize) % WORD) dsize % 16 = 0 ∧
    1 + 8 ≤ round_up ((1 + wsize) % WORD) dsize ∧
    round_up ((1 + wsize) % WORD) dsize < 1 + 24 ∧
    16 ≤ round_up ((1 + wsize) % WORD) dsize ∧
    1 ≤ round_up ((1 + wsize) % WORD) dsize - 8 :=
  ⟨by decide, by decide, C39_adjusted_size_in_range 1 (by decide) (by decide)⟩

/-- C37: for every size that is a multiple of 16 and at least 16,
`find_index(size) = min(13, floor(log2(size)) - 4)`: bucket `k ≤ 12` holds
exactly the sizes in `[2^(k+4), 2^(k+5))`, bucket 13 the sizes from `2^17`, and
the thresholds 16382 and 32764 of the code classify such sizes as 16384 and
32768 do. -/
theorem C37_find_index_is_log2 (size : Nat) (h16 : 16 ≤ size) (hm : size % 16 = 0) :
    find_index size = min 13 (Nat.log 2 size - 4) ∧
    (∀ k, k ≤ 12 → (find_index size = k ↔ 2 ^ (k + 4) ≤ size ∧ size < 2 ^ (k + 5))) ∧
    (find_index size = 13 ↔ 2 ^ 17 ≤ size) ∧
    find_index size = find_index_pow2 size := by
  have hb := find_index_bounds size _ rfl
  have hp : find_index_pow2 size = find_index size := by
    unfold find_index_pow2
    by_cases h0 : size < 32
    · rw [if_pos h0]; omega
    · rw [if_neg h0]
      by_cases h1 : size < 64
      · rw [if_pos h1]; omega
      · rw [if_neg h1]
        by_cases h2 : size < 128
        · rw [if_pos h2]; omega
        · rw [if_neg h2]
          by_cases h3 : size < 256
          · rw [if_pos h3]; omega
          · rw [if_neg h3]
            by_cases h4 : size < 512
            · rw [if_pos h4]; omega
            · rw [if_neg h4]
              by_cases h5 : size < 1024
              · rw [if_pos h5]; omega
              · rw [if_neg h5]
                by_cases h6 : size < 2048
                · rw [if_pos h6]; omega
                · rw [if_neg h6]
                  by_cases h7 : size < 4096
                  · rw [if_pos h7]; omega
                  · rw [if_neg h7]
                    by_cases h8 : size < 8192
                    · rw [if_pos h8]; omega
                    · rw [if_neg h8]
                      by_cases h9 : size < 16384
                      · rw [if_pos h9]; omega
                      · rw [if_neg h9]
                        by_cases h10 : size < 32768
                        · rw [if_pos h10]; omega
                        · rw [if_neg h10]
                          by_cases h11 : size < 65536
                          · rw [if_pos h11]; omega
                          · rw [if_neg h11]
                            by_cases h12 : size < 131072
                            · rw [if_pos h12]; omega
                            · rw [if_neg h12]
                              omega
  have hk : ∀ k, k ≤ 12 →
      (find_index size = k ↔ 2 ^ (k + 4) ≤ size ∧ size < 2 ^ (k + 5)) := by
    intro k hk
    interval_cases k <;> norm_num <;> omega
  refine ⟨?_, hk, by norm_num; omega, hp.symm⟩
  by_cases h13 : find_index size = 13
  · have h17 : 2 ^ 17 ≤ size := by norm_num; omega
    have hlog : 17 ≤ Nat.log 2 size := Nat.le_log_of_pow_le (by norm_num) h17
    rw [h13]
    omega
  · have hle : find_index size ≤ 12 := by omega
    obtain ⟨h1, h2⟩ := (hk (find_index size) hle).mp rfl
    have hlog : Nat.log 2 size = find_index size + 4 :=
      Nat.log_eq_of_pow_le_of_lt_pow h1 h2
    rw [hlog]
    omega

/-- C37 (witness): the size 16368, the largest multiple of 16 below both 16382
and 16384. -/
theorem C37_find_index_is_log2_witness :
    find_index 16368 = min 13 (Nat.log 2 16368 - 4) ∧
    (∀ k, k ≤ 12 → (find_index 16368 = k ↔ 2 ^ (k + 4) ≤ 16368 ∧ 16368 < 2 ^ (k + 5))) ∧
    (find_index 16368 = 13 ↔ 2 ^ 17 ≤ 16368) ∧
    find_index 16368 = find_index_pow2 16368 :=
  C37_find_index_is_log2 16368 (by decide) (by decide)

/-! ### Claims on `place`, `insert` and `remove_free_block` -/

/-- C38: in `place(b, asize)` on a member `b` of a well-formed index, of size
`c ≥ asize ≥ 16` (multiples of 16), the test `c - asize ≥ min_block_size` of
the split branch fails exactly when `c = asize`; the call returns, the
allocated block has size `asize` in both branches (no slack), and the
previous-is-16-bytes bit written into the header of its physical successor is
`size of the allocated block = 16`. -/
theorem C38_place_no_slack (h : Heap) (L : Nat → List Nat) (b asize : Nat)
    (hrep : IndexRep h L) (hb : b ∈ L (find_index (h.size_at b)))
    (h16 : 16 ≤ asize) (hmod : asize % 16 = 0) (hle : asize ≤ h.size_at b)
    (hnext : h.valid (b + h.size_at b)) :
    (¬ wsub (h.size_at b) asize ≥ min_block_size ↔ h.size_at b = asize) ∧
    ∃ h', place h b asize = Except.ok h' ∧
      h'.size_at b = asize ∧
      extract_alloc (h'.word (b + h'.size_at b)) true false false =
        decide (h'.size_at b = 16) := by
  have hcm := size_at_mod h b
  have hclt := size_at_lt h b
  have hmin : min_block_size = 16 := rfl
  have hbit : ∀ (s : Nat) (p a : Bool), s % 16 = 0 →
      extract_alloc (pack s (if asize = 16 then true else false) p a) true false false =
        decide (asize = 16) := by
    intro s p a hs
    obtain ⟨k, rfl⟩ : ∃ k, s = 16 * k := ⟨s / 16, by omega⟩
    rw [pack_eq_add, (extract_alloc_add k _ p a false false false).2.2]
    by_cases h6 : asize = 16
    · simp [h6]
    · simp [h6]
  refine ⟨?_, ?_⟩
  · rw [wsub_eq _ _ hle hclt, hmin]
    omega
  · obtain ⟨h', L', hp, _, _, _, _, hsplit, hwhole⟩ :=
      place_spec h L b asize hrep hb h16 hmod hle hnext
    refine ⟨h', hp, ?_⟩
    by_cases hs : 16 ≤ h.size_at b - asize
    · obtain ⟨h1, _, _, _, h5⟩ := hsplit hs
      refine ⟨h1, ?_⟩
      rw [h1, h5]
      exact hbit _ _ _ (by omega)
    · obtain ⟨h1, _, h3⟩ := hwhole (by omega)
      have heq : h.size_at b = asize := by omega
      refine ⟨by rw [h1, heq], ?_⟩
      rw [h1, h3]
      rw [heq]
      exact hbit _ _ _ (size_at_mod _ _)

/-- C38 (witness): the free block 4104 of the heap after `mm_init`, with
`asize = 4096` (no split). -/
theorem C38_place_no_slack_witness :
    (¬ wsub (heap1.size_at 4104) 4096 ≥ min_block_size ↔ heap1.size_at 4104 = 4096) ∧
    ∃ h', place heap1 4104 4096 = Except.ok h' ∧
      h'.size_at 4104 = 4096 ∧
      extract_alloc (h'.word (4104 + h'.size_at 4104)) true false false =
        decide (h'.size_at 4104 = 16) := by
  have hs : heap1.size_at 4104 = 4096 := by decide
  exact C38_place_no_slack heap1 (fun i => if i = 8 then [4104] else []) 4104 4096
    heap1_index (by rw [hs]; decide) (by decide) (by decide) (by rw [hs])
    (by rw [hs]; decide)

/-- The heap `heap_tight1` has a well-formed index: bucket 7 holds the free
block 4136 of 4064 bytes, every other bucket is empty. -/
theorem heap_tight1_index :
    IndexRep heap_tight1 (fun i => if i = 7 then [4136] else []) := by
  refine ⟨by decide, (by decide : heap_tight1.seg_free_list 0 = NULL), ?_, ?_, ?_, ?_⟩
  · intro i h1 h2
    interval_cases i
    all_goals first
      | exact (⟨by decide, by decide, by decide⟩ :
          heap_tight1.seg_free_list 7 = 4136 ∧ heap_tight1.word (4136 + 8) = NULL ∧
            heap_tight1.word (4136 + 16) = NULL)
      | (show heap_tight1.seg_free_list _ = NULL; decide)
  · intro i hi b hb
    by_cases h7 : i = 7
    · subst h7
      simp only [if_true, List.mem_singleton] at hb
      subst hb
      exact ⟨⟨by decide, by decide, by decide, by decide⟩, by decide⟩
    · rw [if_neg h7] at hb
      cases hb
  · intro i _
    by_cases h7 : i = 7
    · rw [if_pos h7]; exact List.nodup_singleton _
    · rw [if_neg h7]; exact List.nodup_nil
  · intro i j _ _ b hb c hc hne
    by_cases h7 : i = 7
    · by_cases h9 : j = 7
      · rw [if_pos h7] at hb
        rw [if_pos h9] at hc
        rw [List.mem_singleton.mp hb, List.mem_singleton.mp hc] at hne
        exact absurd rfl hne
      · rw [if_neg h9] at hc
        cases hc
    · rw [if_neg h7] at hb
      cases hb

/-- C31: `insert(b)` on a well-formed index with lists `L` and a block `b` of
the arena that lies apart from every member (so it is not in the index): the
call returns, and the index is again well-formed and holds, in bucket
`find_index(size(b))`, the block `b` followed by the former list of that bucket
in the same order, and in every other bucket the former list; the head pointer
of the bucket is `b`.  The statement covers the singly linked bucket 0 and the
doubly linked buckets. -/
theorem C31_insert_at_head (h : Heap) (L : Nat → List Nat) (b : Nat)
    (hrep : IndexRep h L) (hb : IsBlock h b)
    (hnew : ∀ i, i < 14 → ∀ c ∈ L i, b + h.size_at b ≤ c ∨ c + h.size_at c ≤ b) :
    ∃ h' L', insert h b = Except.ok h' ∧ IndexRep h' L' ∧
      h'.seg_free_list (find_index (h.size_at b)) = b ∧
      L' (find_index (h.size_at b)) = b :: L (find_index (h.size_at b)) ∧
      (∀ j, j ≠ find_index (h.size_at b) → L' j = L j ∧
        (j < 14 → h'.seg_free_list j = h.seg_free_list j)) := by
  obtain ⟨h', hins, hrep2, _, _, _, _, _⟩ := insert_spec hrep hb hnew
  have hidx : find_index (h.size_at b) < 14 := by
    have := (find_index_bounds (h.size_at b) _ rfl).1
    omega
  have hc1 : cons_at L (find_index (h.size_at b)) b (find_index (h.size_at b)) =
      b :: L (find_index (h.size_at b)) := by
    unfold cons_at
    rw [if_pos rfl]
  have hc2 : ∀ j, j ≠ find_index (h.size_at b) →
      cons_at L (find_index (h.size_at b)) b j = L j := by
    intro j hj
    unfold cons_at
    rw [if_neg hj]
  have hhead : ∀ j, j < 14 → h'.seg_free_list j =
      (cons_at L (find_index (h.size_at b)) b j).headD NULL := by
    intro j hj
    by_cases h0 : j = 0
    · subst h0; exact hrep2.single.head_single
    · exact (hrep2.double j (by omega) hj).head_double
  have hhead0 : ∀ j, j < 14 → h.seg_free_list j = (L j).headD NULL := by
    intro j hj
    by_cases h0 : j = 0
    · subst h0; exact hrep.single.head_single
    · exact (hrep.double j (by omega) hj).head_double
  refine ⟨h', _, hins, hrep2, ?_, hc1, ?_⟩
  · rw [hhead _ hidx, hc1]
    rfl
  · intro j hj
    refine ⟨hc2 j hj, fun hj14 => ?_⟩
    rw [hhead j hj14, hc2 j hj, hhead0 j hj14]

/-- C31 (witness): on `heap_tight1`, whose index holds the block 4136 in bucket
7, the block 4104 of 32 bytes is inserted. -/
theorem C31_insert_at_head_witness :
    ∃ h' L', insert heap_tight1 4104 = Except.ok h' ∧ IndexRep h' L' ∧
      h'.seg_free_list (find_index (heap_tight1.size_at 4104)) = 4104 ∧
      L' (find_index (heap_tight1.size_at 4104)) =
        4104 :: (fun i => if i = 7 then [4136] else [])
          (find_index (heap_tight1.size_at 4104)) ∧
      (∀ j, j ≠ find_index (heap_tight1.size_at 4104) →
        L' j = (fun i => if i = 7 then [4136] else []) j ∧
        (j < 14 → h'.seg_free_list j = heap_tight1.seg_free_list j)) := by
  have hs : heap_tight1.size_at 4104 = 32 := by decide
  have hs2 : heap_tight1.size_at 4136 = 4064 := by decide
  exact C31_insert_at_head heap_tight1 (fun i => if i = 7 then [4136] else []) 4104
    heap_tight1_index ⟨by decide, by decide, by decide, by decide⟩
    (by
      intro i _ c hc
      have hc2 : c ∈ (if i = 7 then [4136] else []) := hc
      by_cases h7 : i = 7
      · rw [if_pos h7] at hc2
        rw [List.mem_singleton.mp hc2, hs]
        left
        decide
      · rw [if_neg h7] at hc2
        cases hc2)

/-- C32: `remove_free_block(b)` on a well-formed index with lists `L` and a
member `b` of bucket `idx`: the call returns (the scan of bucket 0 ends), and
the index is again well-formed, which includes consistent `prev`/`next` links
in the doubly linked buckets, and holds in bucket `idx` the former list with
`b` deleted, the others in their order, and in every other bucket the former
list.  The statement covers bucket 0 and every position in the other
buckets. -/
theorem C32_remove_unlinks (h : Heap) (L : Nat → List Nat) (b idx : Nat)
    (hrep : IndexRep h L) (hidx : idx < 14) (hb : b ∈ L idx) :
    ∃ h' L', remove_free_block h b = Except.ok h' ∧ IndexRep h' L' ∧
      L' idx = (L idx).erase b ∧ b ∉ L' idx ∧
      (∀ x, x ∈ L idx → x ≠ b → x ∈ L' idx) ∧
      List.Sublist (L' idx) (L idx) ∧
      (∀ j, j ≠ idx → L' j = L j ∧
        (j < 14 → h'.seg_free_list j = h.seg_free_list j)) := by
  obtain ⟨h', hrm, hrep2, _, _, _, _, _⟩ := remove_spec hrep hidx hb
  have hc1 : erase_at L idx b idx = (L idx).erase b := by
    unfold erase_at
    rw [if_pos rfl]
  have hc2 : ∀ j, j ≠ idx → erase_at L idx b j = L j := by
    intro j hj
    unfold erase_at
    rw [if_neg hj]
  have hhead : ∀ j, j < 14 → h'.seg_free_list j =
      (erase_at L idx b j).headD NULL := by
    intro j hj
    by_cases h0 : j = 0
    · subst h0; exact hrep2.single.head_single
    · exact (hrep2.double j (by omega) hj).head_double
  have hhead0 : ∀ j, j < 14 → h.seg_free_list j = (L j).headD NULL := by
    intro j hj
    by_cases h0 : j = 0
    · subst h0; exact hrep.single.head_single
    · exact (hrep.double j (by omega) hj).head_double
  have hnd := hrep.nodup idx hidx
  refine ⟨h', _, hrm, hrep2, hc1, ?_, ?_, ?_, ?_⟩
  · rw [hc1]
    exact fun hx => (hnd.mem_erase_iff.mp hx).1 rfl
  · intro x hx hxb
    rw [hc1]
    exact hnd.mem_erase_iff.mpr ⟨hxb, hx⟩
  · rw [hc1]
    exact List.erase_sublist b (L idx)
  · intro j hj
    refine ⟨hc2 j hj, fun hj14 => ?_⟩
    rw [hhead j hj14, hc2 j hj, hhead0 j hj14]

/-- C32 (witness): the one member 4104 of the index of the heap after
`mm_init` is removed from bucket 8. -/
theorem C32_remove_unlinks_witness :
    ∃ h' L', remove_free_block heap1 4104 = Except.ok h' ∧ IndexRep h' L' ∧
      L' 8 = ((fun i => if i = 8 then [4104] else []) 8).erase 4104 ∧ 4104 ∉ L' 8 ∧
      (∀ x, x ∈ (fun i => if i = 8 then [4104] else []) 8 → x ≠ 4104 → x ∈ L' 8) ∧
      List.Sublist (L' 8) ((fun i => if i = 8 then [4104] else []) 8) ∧
      (∀ j, j ≠ 8 → L' j = (fun i => if i = 8 then [4104] else []) j ∧
        (j < 14 → h'.seg_free_list j = heap1.seg_free_list j)) :=
  C32_remove_unlinks heap1 (fun i => if i = 8 then [4104] else []) 4104 8
    heap1_index (by decide) (by simp)

/-! ### Claims on the checker, the footer and heap growth -/

/-- When `check_free_list` returns `true` for a block whose allocation bit is
clear, both list pointers are at least `mem_heap_lo` and the physically next
block has a clear allocation bit. -/
theorem check_free_list_true (h : Heap) (b : Nat)
    (hr : check_free_list h b = Except.ok true)
    (hfree : get_alloc h b false false true = Except.ok false) :
    ∃ pv nx nb, find_free_prev h b = Except.ok pv ∧ find_free_next h b = Except.ok nx ∧
      mem_heap_lo h ≤ pv ∧ mem_heap_lo h ≤ nx ∧
      find_next h b = Except.ok nb ∧
      get_alloc h nb false false true = Except.ok false := by
  unfold check_free_list at hr
  cases hpv : find_free_prev h b with
  | error e => rw [hpv] at hr; cases hr
  | ok pv =>
    rw [hpv, ok_bind] at hr
    by_cases hc1 : pv < mem_heap_lo h ∨ pv > mem_heap_hi h
    · rw [if_pos hc1] at hr; cases hr
    · rw [if_neg hc1] at hr
      cases hnx : find_free_next h b with
      | error e => rw [hnx] at hr; cases hr
      | ok nx =>
        rw [hnx, ok_bind] at hr
        by_cases hc2 : nx < mem_heap_lo h ∨ nx > mem_heap_hi h
        · rw [if_pos hc2] at hr; cases hr
        · rw [if_neg hc2, hfree, ok_bind] at hr
          cases hnb : find_next h b with
          | error e =>
            rw [hnb] at hr
            cases hr
          | ok nb =>
            rw [hnb] at hr
            cases hna : get_alloc h nb false false true with
            | error e =>
              simp only [Bool.not_false, if_true, ok_bind, hna] at hr
              cases hr
            | ok na =>
              simp only [Bool.not_false, if_true, ok_bind, hna] at hr
              cases na with
              | true => simp only [if_true] at hr; cases hr
              | false =>
                exact ⟨pv, nx, nb, rfl, rfl, by omega, by omega, rfl, hna⟩

/-- C34 (the code violates the claim): after six `malloc(40)` and the release
of the first, third and fifth block, the free block 4200 is the middle member
of its bucket list; its two list pointers 4296 and 4104 lie between
`mem_heap_lo` and `mem_heap_hi`, its physically next block 4248 is allocated,
and `check_free_list(4200)` returns `false`.  On the heap after `mm_init` the
one member 4104 has two null pointers and an allocated successor, and
`check_free_list(4104)` returns `false` as well. -/
theorem C34_check_free_list_rejects_sound_member :
    (do let (a, h) ← malloc heap0 40
        let (_, h) ← malloc h 40
        let (c, h) ← malloc h 40
        let (_, h) ← malloc h 40
        let (e, h) ← malloc h 40
        let (_, h) ← malloc h 40
        let h ← free h a
        let h ← free h c
        let h ← free h e
        let block := payload_to_header c
        let size ← get_size h block
        let prev ← find_free_prev h block
        let next ← find_free_next h block
        let alloc ← get_alloc h block false false true
        let block_next ← find_next h block
        let next_alloc ← get_alloc h block_next false false true
        let r ← check_free_list h block
        pure (block, h.seg_free_list (find_index size), prev, next, mem_heap_lo h,
          mem_heap_hi h, alloc, block_next, next_alloc, r)) =
      Except.ok (4200, 4296, 4296, 4104, 4096, 8207, false, 4248, true, false) ∧
    (do let prev ← find_free_prev heap1 4104
        let next ← find_free_next heap1 4104
        let block_next ← find_next heap1 4104
        let next_alloc ← get_alloc heap1 block_next false false true
        let r ← check_free_list heap1 4104
        pure (prev, next, block_next, next_alloc, r)) =
      Except.ok (NULL, NULL, 8200, true, false) := by
  constructor <;> rfl

/-- C40 (the code violates the claim): after `a = malloc(1)`,
`malloc(2^64 - 8)`, `malloc(1)`, `free(a)` the block 4104 is free and has size
16, and its successor 4120 is allocated with a clear previous-allocated bit;
`find_prev(4120)` returns 4120 itself, not the free block 4104, because the
previous-is-16-bytes bit of 4120 is clear and the word before 4120 is read as a
footer. -/
theorem C40_find_prev_misses_free_block :
    (do let (a, h) ← malloc heap0 1
        let (p, h) ← malloc h (2 ^ 64 - 8)
        let (q, h) ← malloc h 1
        let h ← free h a
        let size ← get_size h 4104
        let alloc ← get_alloc h 4104 false false true
        let x ← find_next h 4104
        let x_prev_alloc ← get_alloc h x false true false
        let x_prev_16 ← get_alloc h x true false false
        let prev ← find_prev h x
        let prev_alloc ← get_alloc h prev false false true
        pure (a, p, q, size, alloc, x, x_prev_alloc, x_prev_16, prev, prev_alloc)) =
      Except.ok (4112, 4128, 4128, 16, false, 4120, false, false, 4120, true) := by
  rfl

/-- C33 (the code violates the claim): after `a = malloc(16)`,
`p = malloc(2^64 - 8)`, `free(a)`, `free(p)` the heap is the one free block
4104 of 4096 bytes followed by the epilogue 8200.  For `malloc(5000)` the
adjusted size is 5008, `find_fit` misses and the arena grows by 5008 bytes, but
`extend_heap` returns the block 4136 of 9072 bytes: the new span is merged with
the span behind the stale header at 4136, not with the trailing free block
4104, whose merge would give 9104 bytes at 4104. -/
theorem C33_growth_merges_stale_block :
    (do let (a, h) ← malloc heap0 16
        let (p, h) ← malloc h (2 ^ 64 - 8)
        let h ← free h a
        let h ← free h p
        let size ← get_size h 4104
        let alloc ← get_alloc h 4104 false false true
        let epilogue ← find_next h 4104
        let epilogue_size ← get_size h epilogue
        let asize := round_up ((5000 + wsize) % WORD) dsize
        let fit ← find_fit h asize
        let (block, h2) ← extend_heap h (max asize chunksize)
        let block_size ← get_size h2 block
        let (r, _) ← malloc h 5000
        pure (a, p, size, alloc, epilogue, epilogue_size, h.brk, asize, fit,
          h2.brk - h.brk, block, block_size, r)) =
      Except.ok (4112, 4144, 4096, false, 8200, 0, 8208, 5008, NULL,
        5008, 4136, 9072, 4144) := by
  rfl

/-! ### Release and reuse of a block -/

/-- The function `insert` on a block whose header and link words are inside
the arena, on any state in which the head of the bucket of its size is `NULL`
or a block address with a writable `prev` word: the call returns, the block is
the new head, its header is unchanged, and in a doubly linked bucket its `prev`
link is `NULL` and its `next` link is `NULL` or an address with a writable
`prev` word. -/
theorem insert_head_ok (g : Heap) (b : Nat) (hword : g.brk ≤ WORD)
    (hbm : b % 16 = 8) (hbl : g.lo ≤ b) (hs16 : 16 ≤ g.size_at b)
    (hend : b + g.size_at b + 8 ≤ g.brk)
    (hhd : 1 ≤ find_index (g.size_at b) →
      g.seg_free_list (find_index (g.size_at b)) ≠ NULL →
      g.valid (g.seg_free_list (find_index (g.size_at b)) + 8) ∧
        g.seg_free_list (find_index (g.size_at b)) % 16 = 8) :
    ∃ h1, insert g b = Except.ok h1 ∧ h1.lo = g.lo ∧ h1.brk = g.brk ∧
      h1.heap_listp = g.heap_listp ∧
      h1.seg_free_list (find_index (g.size_at b)) = b ∧ h1.word b = g.word b ∧
      (1 ≤ find_index (g.size_at b) → h1.word (b + 8) = NULL ∧
        (h1.word (b + 16) = NULL ∨ h1.valid (h1.word (b + 16) + 8))) := by
  have hvb : g.valid b := ⟨by omega, hbl, by omega⟩
  have hv8 : g.valid (b + 8) := ⟨by omega, by omega, by omega⟩
  have hv16 : g.valid (b + 16) := ⟨by omega, by omega, by omega⟩
  unfold insert
  rw [get_size_ok g b hvb]
  simp only [bind, Except.bind]
  by_cases h0 : find_index (g.size_at b) = 0
  · rw [if_pos h0, set_prev_ok g b _ hv8 (by omega)]
    refine ⟨_, rfl, rfl, rfl, rfl, ?_, ?_, ?_⟩
    · show (if find_index (g.size_at b) = 0 then b else _) = b
      rw [if_pos h0]
    · rw [set_seg_word]
      exact put_word_other _ _ _ _ (by omega)
    · intro h1; omega
  · have h1 : 1 ≤ find_index (g.size_at b) := by omega
    rw [if_neg h0]
    by_cases hnull : g.seg_free_list (find_index (g.size_at b)) = NULL
    · rw [if_pos hnull,
        set_prev_ok _ b _ ((set_seg_valid _ _ _ _).mpr hv8) (by omega)]
      simp only []
      rw [set_next_ok _ b _ (by exact hv16) (by omega)]
      refine ⟨_, rfl, rfl, rfl, rfl, ?_, ?_, ?_⟩
      · show (if find_index (g.size_at b) = find_index (g.size_at b) then b else _) = b
        rw [if_pos rfl]
      · rw [put_word_other _ _ _ _ (by omega), put_word_other _ _ _ _ (by omega)]
        rfl
      · intro _
        refine ⟨?_, Or.inl ?_⟩
        · rw [put_word_other _ _ _ _ (by omega)]
          exact put_word_same _ _ _ (by decide)
        · exact put_word_same _ _ _ (by decide)
    · obtain ⟨hdv, hdm⟩ := hhd h1 hnull
      have hdlt : g.seg_free_list (find_index (g.size_at b)) < WORD := by
        have := hdv.2.2
        omega
      rw [if_neg hnull, set_prev_ok g _ _ hdv (by have := hdv.2.2; omega)]
      simp only []
      rw [set_next_ok _ b _ (by exact hv16) (by omega)]
      simp only []
      rw [set_prev_ok _ b _ (by exact hv8) (by omega)]
      refine ⟨_, rfl, rfl, rfl, rfl, ?_, ?_, ?_⟩
      · show (if find_index (g.size_at b) = find_index (g.size_at b) then b else _) = b
        rw [if_pos rfl]
      · rw [set_seg_word, put_word_other _ _ _ _ (by omega),
          put_word_other _ _ _ _ (by omega), put_word_other _ _ _ _ (by omega)]
      · intro _
        refine ⟨?_, Or.inr ?_⟩
        · rw [set_seg_word]
          exact put_word_same _ _ _ (by decide)
        · rw [set_seg_word, put_word_other _ _ _ _ (by omega),
            put_word_same _ _ _ (by exact hdlt)]
          exact hdv

/-- The function `remove_free_block` on the head of a bucket whose links are
as `insert` leaves them: the call returns with the arena bounds unchanged. -/
theorem remove_head_ok (h : Heap) (b : Nat) (hword : h.brk ≤ WORD)
    (hbm : b % 16 = 8) (hbl : h.lo ≤ b) (hs16 : 16 ≤ h.size_at b)
    (hend : b + h.size_at b + 8 ≤ h.brk)
    (hseg : h.seg_free_list (find_index (h.size_at b)) = b)
    (hlinks : 1 ≤ find_index (h.size_at b) → h.word (b + 8) = NULL ∧
      (h.word (b + 16) = NULL ∨ h.valid (h.word (b + 16) + 8))) :
    ∃ h1, remove_free_block h b = Except.ok h1 ∧ h1.lo = h.lo ∧ h1.brk = h.brk ∧
      h1.heap_listp = h.heap_listp := by
  have hvb : h.valid b := ⟨by omega, hbl, by omega⟩
  have hv8 : h.valid (b + 8) := ⟨by omega, by omega, by omega⟩
  have hv16 : h.valid (b + 16) := ⟨by omega, by omega, by omega⟩
  unfold remove_free_block
  rw [get_size_ok h b hvb]
  simp only [bind, Except.bind]
  by_cases h0 : find_index (h.size_at b) = 0
  · rw [if_pos h0, find_free_prev_ok h b hv8 (by omega)]
    simp only []
    rw [h0] at hseg
    rw [if_pos hseg]
    exact ⟨_, rfl, rfl, rfl, rfl⟩
  · have h1 : 1 ≤ find_index (h.size_at b) := by omega
    obtain ⟨hp, hn⟩ := hlinks h1
    rw [if_neg h0, find_free_prev_ok h b hv8 (by omega)]
    simp only []
    rw [find_free_next_ok h b hv16 (by omega)]
    simp only []
    by_cases hnn : h.word (b + 16) = NULL
    · rw [if_pos ⟨hp, hnn⟩]
      exact ⟨_, rfl, rfl, rfl, rfl⟩
    · rw [if_neg (fun hx => hnn hx.2), if_pos hp]
      rcases hn with hn | hn
      · exact absurd hn hnn
      · rw [set_prev_ok h _ _ hn (by have := hn.2.2; omega)]
        exact ⟨_, rfl, rfl, rfl, rfl⟩

/-- When the head of the bucket of `asize` is a block of size exactly `asize`,
`find_fit(asize)` returns it. -/
theorem find_fit_head (h : Heap) (b asize : Nat) (hb0 : b ≠ NULL) (hv : h.valid b)
    (hsz : h.size_at b = asize) (hseg : h.seg_free_list (find_index asize) = b) :
    find_fit h asize = Except.ok b := by
  unfold find_fit
  by_cases h0 : find_index asize = 0
  · have hs0 : h.seg_free_list 0 = b := by rw [← h0]; exact hseg
    simp only []
    rw [if_pos ⟨h0, by rw [hs0]; exact hb0⟩, hs0]
    rfl
  · have h13 := (find_index_bounds asize _ rfl).1
    simp only []
    rw [if_neg (fun hx => h0 hx.1), if_neg h0]
    obtain ⟨k, hk⟩ : ∃ k, 14 - find_index asize = k + 1 :=
      ⟨13 - find_index asize, by omega⟩
    obtain ⟨f, hf⟩ : ∃ f, fuel h = f + 1 := ⟨10 * ((h.brk - h.lo) / 8) + 9, rfl⟩
    rw [hk]
    unfold find_fit_buckets
    rw [hf]
    unfold find_fit_list
    rw [hseg, if_neg hb0, get_size_ok h b hv, ok_bind, hsz, if_pos rfl]
    rfl

theorem prev_bit_pack (s : Nat) (ps p a z : Bool) (hs : s % 16 = 0) :
    extract_alloc (pack s ps p a) z true false = p := by
  obtain ⟨k, rfl⟩ : ∃ k, s = 16 * k := ⟨s / 16, by omega⟩
  rw [pack_eq_add]
  exact (extract_alloc_add k ps p a false false z).2.1

theorem psize_bit_pack (s : Nat) (ps p a : Bool) (hs : s % 16 = 0) :
    extract_alloc (pack s ps p a) true false false = ps := by
  obtain ⟨k, rfl⟩ : ∃ k, s = 16 * k := ⟨s / 16, by omega⟩
  rw [pack_eq_add]
  exact (extract_alloc_add k ps p a false false false).2.2

/-- The function `coalesce` on a block whose header says that the previous
block is allocated and whose successor is allocated: the two headers are
rewritten and the block goes to `insert` unmerged. -/
theorem coalesce_both_allocated (k : Heap) (b s ns : Nat) (ps bss : Bool)
    (hword : k.brk ≤ WORD) (hvb : k.valid b) (hs : k.size_at b = s)
    (hns : k.size_at (b + s) = ns) (hnext : k.valid (b + s))
    (hnn : k.valid (b + s + ns))
    (hps : extract_alloc (k.word b) true false false = ps)
    (hbss : extract_alloc (k.word (b + s)) true false false = bss)
    (hpa : extract_alloc (k.word b) false true false = true)
    (hna : extract_alloc (k.word (b + s)) false false true = true) :
    coalesce k b =
      (insert ((k.put b (pack s ps true false)).put (b + s) (pack ns bss false true)) b >>=
        fun h1 => pure (b, h1)) := by
  obtain ⟨hn1, hn2, hn3⟩ := id hnext
  obtain ⟨hm1, hm2, hm3⟩ := id hnn
  subst hs
  subst hns
  unfold coalesce
  rw [find_next_ok k b hvb (by omega), ok_bind,
    find_next_ok k _ hnext (by omega), ok_bind,
    get_alloc_ok k b _ _ _ hvb, ok_bind,
    get_alloc_ok k _ _ _ _ hnext, ok_bind,
    get_alloc_ok k b _ _ _ hvb, ok_bind,
    get_alloc_ok k _ _ _ _ hnext, ok_bind,
    get_size_ok k b hvb, ok_bind,
    get_size_ok k _ hnext, ok_bind,
    get_size_ok k _ hnn, ok_bind, hpa, hna, hps, hbss]
  simp only [Bool.and_self, if_true]
  rw [write_header_ok k b _ _ _ _ hvb, ok_bind,
    write_header_ok _ _ _ _ _ _ (by exact hnext), ok_bind]

/-- The function `free` on the payload of a block whose header says that the
previous block is allocated and whose successor is allocated: the header and
the footer of the block and the header of the successor are written, and the
block goes to `insert` unmerged. -/
theorem free_both_allocated (h : Heap) (b : Nat) (hword : h.brk ≤ WORD)
    (hbm : b % 16 = 8) (hbl : h.lo ≤ b) (hs16 : 16 ≤ h.size_at b)
    (hnext : h.valid (b + h.size_at b))
    (hnn : h.valid (b + h.size_at b + h.size_at (b + h.size_at b)))
    (hpa : extract_alloc (h.word b) false true false = true)
    (hna : extract_alloc (h.word (b + h.size_at b)) false false true = true) :
    ∃ g, g.lo = h.lo ∧ g.brk = h.brk ∧ g.heap_listp = h.heap_listp ∧
      g.seg_free_list = h.seg_free_list ∧ g.size_at b = h.size_at b ∧
      ∀ h1, insert g b = Except.ok h1 → free h (b + 8) = Except.ok h1 := by
  have hcm := size_at_mod h b
  have hclt := size_at_lt h b
  have hnm := size_at_mod h (b + h.size_at b)
  have hnlt := size_at_lt h (b + h.size_at b)
  obtain ⟨hn1, hn2, hn3⟩ := id hnext
  have hvb : h.valid b := ⟨by omega, hbl, by omega⟩
  have hp : payload_to_header (b + 8) = b := by
    unfold payload_to_header wsize
    rw [psub_eq _ _ (by omega) (by omega)]
    omega
  have hk_b : ((h.put b (pack (h.size_at b) (extract_alloc (h.word b) true false false)
      (extract_alloc (h.word b) false true false) false)).put (b + h.size_at b - 8)
      (pack (h.size_at b) false false false)).word b =
      pack (h.size_at b) (extract_alloc (h.word b) true false false) true false := by
    rw [put_word_other _ _ _ _ (by omega), put_word_same _ _ _ (pack_lt _ _ _ _ hcm hclt), hpa]
  have hk_s := size_at_of_word hk_b hcm hclt
  have hk_n : ((h.put b (pack (h.size_at b) (extract_alloc (h.word b) true false false)
      (extract_alloc (h.word b) false true false) false)).put (b + h.size_at b - 8)
      (pack (h.size_at b) false false false)).word (b + h.size_at b) =
      h.word (b + h.size_at b) := by
    rw [put_word_other _ _ _ _ (by omega), put_word_other _ _ _ _ (by omega)]
  have hk_ns : ((h.put b (pack (h.size_at b) (extract_alloc (h.word b) true false false)
      (extract_alloc (h.word b) false true false) false)).put (b + h.size_at b - 8)
      (pack (h.size_at b) false false false)).size_at (b + h.size_at b) =
      h.size_at (b + h.size_at b) := by
    rw [put_size_other _ _ _ _ (by omega), put_size_other _ _ _ _ (by omega)]
  refine ⟨(((h.put b (pack (h.size_at b) (extract_alloc (h.word b) true false false)
      (extract_alloc (h.word b) false true false) false)).put (b + h.size_at b - 8)
      (pack (h.size_at b) false false false)).put b
      (pack (h.size_at b) (extract_alloc (h.word b) true false false) true false)).put
      (b + h.size_at b) (pack (h.size_at (b + h.size_at b))
        (extract_alloc (h.word (b + h.size_at b)) true false false) false true),
    rfl, rfl, rfl, rfl, ?_, ?_⟩
  · rw [put_size_other _ _ _ _ (by omega)]
    exact put_size_same _ _ _ _ _ _ hcm hclt
  · intro h1 hins
    unfold free
    rw [if_neg (show b + 8 ≠ NULL by unfold NULL; omega)]
    simp only [hp]
    rw [get_size_ok h b hvb, ok_bind, get_alloc_ok h b _ _ _ hvb, ok_bind,
      get_alloc_ok h b _ _ _ hvb, ok_bind, write_header_ok h b _ _ _ _ hvb, ok_bind,
      write_free_footer_ok _ b _ (h.size_at b) false (by exact hvb)
        (put_size_same _ _ _ _ _ _ hcm hclt) (by omega)
        (by exact (show h.valid (b + h.size_at b - 8) from ⟨by omega, by omega, by omega⟩))
        (by omega), ok_bind,
      coalesce_both_allocated _ b (h.size_at b) (h.size_at (b + h.size_at b))
        (extract_alloc (h.word b) true false false)
        (extract_alloc (h.word (b + h.size_at b)) true false false)
        (by exact hword) (by exact hvb) hk_s hk_ns (by exact hnext) (by exact hnn)
        (by rw [hk_b]; exact psize_bit_pack _ _ _ _ hcm)
        (by rw [hk_n])
        (by rw [hk_b]; exact prev_bit_pack _ _ _ _ _ hcm)
        (by rw [hk_n]; exact hna), hins]
    rfl

/-- LIFO reuse from the header bits.  In every state of the initialised
allocator in which the block of `p = b + 8` has size `s ≥ 16`, its header says
that the previous block is allocated, the header of its successor says that the
successor is allocated, the headers of the successor and of the block after it
are inside the arena, and the head of the bucket of `s` is `NULL` or a block
address: `free(p)` returns, and `malloc(n)` called right after it, for any
`n > 0` with `round_up(n + 8, 16) = s`, returns `p` again and leaves the top of
the arena where it was. -/
theorem lifo_reuse_of_header_bits (h : Heap) (b n : Nat)
    (hinit : h.heap_listp ≠ NULL) (hword : h.brk ≤ WORD)
    (hbm : b % 16 = 8) (hbl : h.lo ≤ b) (hs16 : 16 ≤ h.size_at b)
    (hnext : h.valid (b + h.size_at b))
    (hnn : h.valid (b + h.size_at b + h.size_at (b + h.size_at b)))
    (hpa : extract_alloc (h.word b) false true false = true)
    (hna : extract_alloc (h.word (b + h.size_at b)) false false true = true)
    (hhd : 1 ≤ find_index (h.size_at b) →
      h.seg_free_list (find_index (h.size_at b)) ≠ NULL →
      h.valid (h.seg_free_list (find_index (h.size_at b)) + 8) ∧
        h.seg_free_list (find_index (h.size_at b)) % 16 = 8)
    (hn0 : n ≠ 0) (hn : round_up ((n + wsize) % WORD) dsize = h.size_at b) :
    ∃ h1 h2, free h (b + 8) = Except.ok h1 ∧
      malloc h1 n = Except.ok (b + 8, h2) ∧ h2.brk = h.brk := by
  obtain ⟨g, hglo, hgbrk, hghl, hgseg, hgsz, hfree⟩ :=
    free_both_allocated h b hword hbm hbl hs16 hnext hnn hpa hna
  obtain ⟨hn1, hn2, hn3⟩ := id hnext
  obtain ⟨h1, hins, h1lo, h1brk, h1hl, h1seg, h1w, h1links⟩ :=
    insert_head_ok g b (by rw [hgbrk]; exact hword) hbm (by rw [hglo]; exact hbl)
      (by rw [hgsz]; exact hs16) (by rw [hgsz, hgbrk]; exact hn3)
      (by
        rw [hgsz, hgseg]
        intro x y
        obtain ⟨u, v⟩ := hhd x y
        exact ⟨valid_congr hglo hgbrk u, v⟩)
  rw [hgsz] at h1seg h1links
  have h1sz : h1.size_at b = h.size_at b := by
    show extract_size (h1.word b) = _
    rw [h1w]
    exact hgsz
  have hlo1 : h1.lo = h.lo := by rw [h1lo, hglo]
  have hbrk1 : h1.brk = h.brk := by rw [h1brk, hgbrk]
  have hvb1 : h1.valid b := ⟨by omega, by rw [hlo1]; exact hbl, by rw [hbrk1]; omega⟩
  obtain ⟨h2, hrm, h2lo, h2brk, -⟩ :=
    remove_head_ok h1 b (by rw [hbrk1]; exact hword) hbm (by rw [hlo1]; exact hbl)
      (by rw [h1sz]; exact hs16) (by rw [h1sz, hbrk1]; exact hn3)
      (by rw [h1sz]; exact h1seg) (by rw [h1sz]; exact h1links)
  obtain ⟨h3, hpl, -, h3brk, -⟩ :=
    @place_whole h1 h2 b (h.size_at b) hrm h2lo h2brk (by rw [hbrk1]; exact hword) hbm
      (by rw [hlo1]; exact hbl) (by rw [h1sz]; exact hs16) (by rw [h1sz])
      (by rw [h1sz]; omega) (by rw [h1sz]; exact valid_congr hlo1 hbrk1 hnext)
  have hb0 : b ≠ NULL := by unfold NULL; omega
  have hfit : find_fit h1 (round_up ((n + wsize) % WORD) dsize) = Except.ok b := by
    rw [hn]
    exact find_fit_head h1 b _ hb0 hvb1 h1sz h1seg
  have hpay : header_to_payload b = b + 8 := by
    unfold header_to_payload wsize
    exact padd_eq _ _ (by omega)
  refine ⟨h1, h3, hfree h1 hins, ?_, by rw [h3brk, h2brk, hbrk1]⟩
  unfold malloc
  rw [if_neg (show h1.heap_listp ≠ NULL by rw [h1hl, hghl]; exact hinit)]
  simp only [pure_bind, if_neg hn0]
  rw [hfit, ok_bind, if_neg hb0, hn, hpl, ok_bind, hpay]
  rfl
/-- The first of the two live blocks of `heap_live2` is reused. -/
theorem lifo_reuse_heap_live2 :
    ∃ h1 h2, free heap_live2 (4104 + 8) = Except.ok h1 ∧
      malloc h1 24 = Except.ok (4104 + 8, h2) ∧ h2.brk = heap_live2.brk := by
  have hs : heap_live2.size_at 4104 = 32 := by decide
  exact lifo_reuse_of_header_bits heap_live2 4104 24 (by decide) (by decide) (by decide) (by decide)
    (by rw [hs]; decide) (by rw [hs]; decide) (by rw [hs]; decide) (by decide)
    (by rw [hs]; decide) (by rw [hs]; decide) (by decide) (by rw [hs]; decide)

/-- When the `prev` word of `c` is `c` itself and `c` is not the block looked
for, the scan loop of `remove_free_block` started at `c` ends with no amount of
fuel: it never leaves `c`. -/
theorem remove_scan_self_loop (h : Heap) (block c : Nat) (hne : c ≠ block)
    (hself : find_free_prev h c = Except.ok c) :
    ∀ f, remove_scan h block f c = Except.error Fault.hang := by
  intro f
  induction f with
  | zero => rfl
  | succ f ih =>
    unfold remove_scan
    rw [hself, ok_bind, if_pos hne]
    exact ih

/-- The function `remove_free_block` on a block of bucket 0 that is not the
head, when the `prev` word of the head is the head itself: the scan for the
predecessor never ends. -/
theorem remove_free_block_self_loop (h : Heap) (b c : Nat) (hv : h.valid b)
    (hv8 : h.valid (b + 8)) (hlt : b + 8 < WORD)
    (h0 : find_index (h.size_at b) = 0) (hhead : h.seg_free_list 0 = c) (hne : c ≠ b)
    (hself : find_free_prev h c = Except.ok c) :
    remove_free_block h b = Except.error Fault.hang := by
  unfold remove_free_block
  rw [get_size_ok h b hv]
  simp only [bind, Except.bind]
  rw [h0, if_pos rfl, find_free_prev_ok h b hv8 hlt]
  simp only []
  rw [hhead, if_neg hne, remove_scan_self_loop h b c hne hself]

/-- The function `coalesce` on a block whose header says that the previous
block is free: the first change of the state is `remove_free_block` on the
previous block, and when that call does not return, `coalesce` does not. -/
theorem coalesce_hang_of_prev (k : Heap) (b n nn p s sn snn sp : Nat) (na ps bss pps : Bool)
    (h1 : find_next k b = Except.ok n) (h2 : find_next k n = Except.ok nn)
    (h3 : get_alloc k b false true false = Except.ok false)
    (h4 : get_alloc k n false false true = Except.ok na)
    (h5 : get_alloc k b true false false = Except.ok ps)
    (h6 : get_alloc k n true false false = Except.ok bss)
    (h7 : get_size k b = Except.ok s) (h8 : get_size k n = Except.ok sn)
    (h9 : get_size k nn = Except.ok snn)
    (h10 : find_prev k b = Except.ok p)
    (h11 : get_alloc k p true false false = Except.ok pps)
    (h12 : get_size k p = Except.ok sp)
    (h13 : remove_free_block k p = Except.error Fault.hang) :
    coalesce k b = Except.error Fault.hang := by
  unfold coalesce
  rw [h1, ok_bind, h2, ok_bind, h3, ok_bind, h4, ok_bind, h5, ok_bind, h6, ok_bind,
    h7, ok_bind, h8, ok_bind, h9, ok_bind]
  cases na
  · simp only [Bool.false_and, Bool.and_false, Bool.not_false, Bool.and_self,
      Bool.false_eq_true, if_false]
    rw [h10, ok_bind, h11, ok_bind, h12, ok_bind, h13]
    rfl
  · simp only [Bool.false_and, Bool.and_true, Bool.not_false, Bool.not_true, Bool.and_self,
      Bool.false_eq_true, if_false, if_true]
    rw [h10, ok_bind, h11, ok_bind, h12, ok_bind, h13]
    rfl

/-- C10 (the code violates the claim): after `w = malloc(1)`, `x = malloc(1)`,
`y = malloc(1)`, `z = malloc(1)`, `free(w)`, `free(y)`, `p = malloc(2^64 - 8)`,
`free(p)` the pointer `x = 4128` is live, its block 4120 is allocated and the
block 4104 before it is free.  Bucket 0 has the head 4136 whose link word is
4136 itself, so the loop of `remove_free_block` that looks for the predecessor
of 4104 in the list never ends, with any amount of fuel: neither `free(x)` nor
`realloc(x, 0)` returns. -/
theorem C10_realloc_zero_never_returns :
    (do let (w, h) ← malloc heap0 1
        let (x, h) ← malloc h 1
        let (y, h) ← malloc h 1
        let (z, h) ← malloc h 1
        let h ← free h w
        let h ← free h y
        let (p, h) ← malloc h (2 ^ 64 - 8)
        let h ← free h p
        let x_alloc ← get_alloc h (payload_to_header x) false false true
        let x_prev_alloc ← get_alloc h (payload_to_header x) false true false
        let x_prev ← find_prev h (payload_to_header x)
        let link ← find_free_prev h (h.seg_free_list 0)
        pure (w, x, y, z, p, x_alloc, x_prev_alloc, x_prev, h.seg_free_list 0, link)) =
      Except.ok (4112, 4128, 4144, 4160, 4144, true, false, 4104, 4136, 4136) ∧
    (∀ f, (do let h ← write_header heap_loop0 4120 16 true false false
              let h ← write_free_footer h 4120 16 false
              remove_scan h 4104 f (h.seg_free_list 0)) = Except.error Fault.hang) ∧
    free heap_loop0 4128 = Except.error Fault.hang ∧
    realloc heap_loop0 4128 0 = Except.error Fault.hang := by
  have hfree : free heap_loop0 4128 = Except.error Fault.hang := by
    have hp : payload_to_header 4128 = 4120 := rfl
    have hvb : heap_loop0.valid 4120 := by decide
    unfold free
    rw [if_neg (by decide)]
    simp only [hp]
    rw [get_size_ok _ _ hvb, ok_bind, get_alloc_ok _ _ _ _ _ hvb, ok_bind,
      get_alloc_ok _ _ _ _ _ hvb, ok_bind, write_header_ok _ _ _ _ _ _ hvb, ok_bind,
      show heap_loop0.size_at 4120 = 16 from rfl,
      write_free_footer_ok _ 4120 16 16 false (by decide) (by rfl) (by decide) (by decide)
        (by decide), ok_bind]
    have hc := coalesce_hang_of_prev
      ((heap_loop0.put 4120 (pack 16 true false false)).put 4128 (pack 16 false false false))
      4120 4136 4152 4104 16 16 16 16 false true false false
      rfl rfl rfl rfl rfl rfl rfl rfl rfl rfl rfl rfl
      (remove_free_block_self_loop _ 4104 4136 (by decide) (by decide) (by decide)
        (by rfl) (by rfl) (by decide) (by rfl))
    have hr : (coalesce ((heap_loop0.put 4120 (pack 16 true false false)).put 4128
        (pack 16 false false false)) 4120 >>= fun r => (pure r.2 : Except Fault Heap)) =
        Except.error Fault.hang := by
      rw [hc]
      rfl
    exact hr
  refine ⟨by rfl, ?_, hfree, ?_⟩
  · intro f
    exact remove_scan_self_loop _ 4104 4136 (by decide) (by rfl) f
  · unfold realloc
    rw [if_pos rfl, hfree]
    rfl

/-- C36 (the code violates the claim): in the state `heap_stale_bit` the live
pointer 4176 has the block 4168 of 32 bytes; the block before it, 4104 (64
bytes, ending at 4168), and the block after it, 4200, are both allocated, but
the header of 4168 is 33, with a clear previous-allocated bit.  `free(4176)`
followed by `malloc(24)`, whose adjusted size is 32, returns 4144 and not 4176;
the arena does not grow. -/
theorem C36_neighbours_allocated_not_reused :
    (do let prev_alloc ← get_alloc heap_stale_bit 4104 false false true
        let prev_size ← get_size heap_stale_bit 4104
        let header ← load heap_stale_bit 4168
        let size ← get_size heap_stale_bit 4168
        let next ← find_next heap_stale_bit 4168
        let next_alloc ← get_alloc heap_stale_bit next false false true
        let h ← free heap_stale_bit 4176
        let (r, h2) ← malloc h 24
        pure (prev_alloc, 4104 + prev_size, header, size, next, next_alloc,
          round_up ((24 + wsize) % WORD) dsize, r, h2.brk - heap_stale_bit.brk)) =
      Except.ok (true, 4168, 33, 32, 4200, true, 32, 4144, 0) := by
  rfl

/-! ### The heap invariant -/

theorem hdr_of_word {h : Heap} {a s : Nat} {ps pa al : Bool}
    (hw : h.word a = pack s ps pa al) (hs : s % 16 = 0) (hlt : s < WORD) :
    h.size_at a = s ∧ h.psize_at a = ps ∧ h.palloc_at a = pa ∧ h.alloc_at a = al := by
  refine ⟨size_at_of_word hw hs hlt, ?_, ?_, ?_⟩
  · unfold Heap.psize_at
    rw [hw]
    exact psize_bit_pack _ _ _ _ hs
  · unfold Heap.palloc_at
    rw [hw]
    exact prev_bit_pack _ _ _ _ _ hs
  · unfold Heap.alloc_at
    rw [hw]
    exact alloc_bit_pack _ _ _ _ _ _ hs

theorem hdr_congr {h h' : Heap} {a : Nat} (hw : h'.mem a = h.mem a) :
    h'.size_at a = h.size_at a ∧ h'.psize_at a = h.psize_at a ∧
      h'.palloc_at a = h.palloc_at a ∧ h'.alloc_at a = h.alloc_at a := by
  have := word_congr hw
  unfold Heap.size_at Heap.psize_at Heap.palloc_at Heap.alloc_at
  rw [this]
  exact ⟨rfl, rfl, rfl, rfl⟩

theorem Tiling.block_ne_null {h : Heap} {B : Nat → Prop} (ht : Tiling h B) {b : Nat}
    (hb : B b) : b ≠ NULL := by
  have := (ht.range b hb).1
  unfold NULL
  omega

/-- The block that starts where a block ends is a block, and the two are
inside the arena. -/
theorem Tiling.next_range {h : Heap} {B : Nat → Prop} (ht : Tiling h B) {b : Nat}
    (hb : B b) (hbe : b ≠ h.brk - 8) :
    16 ≤ h.size_at b ∧ h.size_at b % 16 = 0 ∧ B (b + h.size_at b) ∧
      b + h.size_at b + 8 ≤ h.brk := by
  obtain ⟨h1, h2⟩ := ht.next b hb hbe
  exact ⟨h1, size_at_mod h b, h2, (ht.range _ h2).2.2⟩

/-- Two different blocks do not overlap. -/
theorem Tiling.disjoint {h : Heap} {B : Nat → Prop} (ht : Tiling h B) {b c : Nat}
    (hb : B b) (hc : B c) (hne : b ≠ c) :
    b + h.size_at b ≤ c ∨ c + h.size_at c ≤ b := by
  rcases Nat.lt_or_gt_of_ne hne with hlt | hlt
  · exact Or.inl (ht.apart b c hb hc hlt)
  · exact Or.inr (ht.apart c b hc hb hlt)

/-- The tiling depends only on the bounds of the arena and on the size and the
is-16-bytes bit of every header. -/
theorem Tiling.congr {h h' : Heap} {B : Nat → Prop} (ht : Tiling h B)
    (hlo : h'.lo = h.lo) (hbrk : h'.brk = h.brk) (hlim : h'.limit = h.limit)
    (hhl : h'.heap_listp = h.heap_listp)
    (hsz : ∀ a, B a → h'.size_at a = h.size_at a)
    (hps : ∀ a, B a → h'.psize_at a = h.psize_at a) : Tiling h' B := by
  refine ⟨by rw [hlo]; exact ht.lo16, by rw [hbrk, hlim]; exact ht.lim,
    by rw [hhl, hlo]; exact ht.hl, by rw [hlo]; exact ht.first, ?_, ?_, ?_, ?_, ?_, ?_⟩
  · obtain ⟨e1, e2, e3⟩ := ht.epi
    rw [hlo, hbrk, hsz _ e2]
    exact ⟨e1, e2, e3⟩
  · intro a ha
    rw [hlo, hbrk]
    exact ht.range a ha
  · intro a ha hae
    rw [hbrk] at hae
    rw [hsz a ha]
    exact ht.next a ha hae
  · intro a c ha hc hac
    rw [hsz a ha]
    exact ht.apart a c ha hc hac
  · intro a ha hae
    rw [hlo] at hae
    obtain ⟨p, hp, hpl, hpe⟩ := ht.prev a ha hae
    exact ⟨p, hp, hpl, by rw [hsz p hp]; exact hpe⟩
  · intro a ha hae
    rw [hbrk] at hae
    rw [hsz a ha, hps _ (ht.next a ha hae).2]
    exact ht.p16 a ha hae

/-- The footer of a free block is not a header, and it is not the footer of
another block. -/
theorem Tiling.footer_ne {h : Heap} {B : Nat → Prop} (ht : Tiling h B) {a b : Nat}
    (ha : B a) (hb : B b) (hab : a ≠ b) :
    a + h.size_at a - 8 ≠ b ∧ (16 ≤ h.size_at b → 16 ≤ h.size_at a →
      a + h.size_at a - 8 ≠ b + h.size_at b - 8) := by
  have := (ht.range a ha).1
  have := (ht.range b hb).1
  have := size_at_mod h a
  have := size_at_mod h b
  refine ⟨by omega, ?_⟩
  intro _ _
  rcases ht.disjoint ha hb hab with h1 | h1 <;> omega

/-- Two blocks that end at the same address are the same block. -/
theorem Tiling.pred_unique {h : Heap} {B : Nat → Prop} (ht : Tiling h B) {a b : Nat}
    (ha : B a) (hb : B b) (hsa : 16 ≤ h.size_at a) (hsb : 16 ≤ h.size_at b)
    (he : a + h.size_at a = b + h.size_at b) : a = b := by
  by_contra hne
  rcases ht.disjoint ha hb hne with h1 | h1 <;> omega

/-- The link words of a block are not headers. -/
theorem Tiling.link_not_header {h : Heap} {B : Nat → Prop} (ht : Tiling h B) {c a : Nat}
    (hc : B c) (ha : B a) : a ≠ c + 8 ∧ (32 ≤ h.size_at c → a ≠ c + 16) := by
  have := (ht.range a ha).1
  have := (ht.range c hc).1
  refine ⟨by omega, ?_⟩
  intro h32 he
  have := ht.apart c a hc ha (by omega)
  omega

/-- The link words of a block are not footers of blocks of more than 16
bytes. -/
theorem Tiling.link_not_footer {h : Heap} {B : Nat → Prop} (ht : Tiling h B) {c b : Nat}
    (hc : B c) (hb : B b) (hsc : 16 ≤ h.size_at c) (hsb : 16 < h.size_at b) :
    b + h.size_at b - 8 ≠ c + 8 ∧ b + h.size_at b - 8 ≠ c + 16 := by
  have := (ht.range b hb).1
  have := (ht.range c hc).1
  have := size_at_mod h b
  refine ⟨?_, by omega⟩
  intro he
  by_cases hbc : b = c
  · rw [hbc] at he hsb
    omega
  · rcases ht.disjoint hb hc hbc with h1 | h1 <;> omega

/-- A step that changes no header and no footer: the invariant holds for the
new index and the new set of pending blocks, provided the rules on neighbours
hold for the blocks that are no longer pending. -/
theorem Inv.index_step {h h' : Heap} {B : Nat → Prop} {L L' : Nat → List Nat}
    {X X' : Nat → Prop} (hinv : Inv h B L X)
    (hlo : h'.lo = h.lo) (hbrk : h'.brk = h.brk) (hlim : h'.limit = h.limit)
    (hhl : h'.heap_listp = h.heap_listp)
    (hhdr : ∀ a, B a → h'.mem a = h.mem a)
    (hftr : ∀ b, B b → h.alloc_at b = false → 16 < h.size_at b →
      h'.mem (b + h.size_at b - 8) = h.mem (b + h.size_at b - 8))
    (hidx : IndexRep h' L')
    (hmem : ∀ b, (∃ i, i < 14 ∧ b ∈ L' i) ↔ (B b ∧ h.alloc_at b = false ∧ ¬ X' b))
    (hhole : ∀ x, X' x → B x ∧ x ≠ h.brk - 8 ∧ h.alloc_at x = false)
    (hpa : ∀ b, B b → b ≠ h.brk - 8 → ¬ X' b → X b →
      h.palloc_at (b + h.size_at b) = h.alloc_at b)
    (hnf : ∀ b, B b → b ≠ h.brk - 8 → ¬ X' b → ¬ X' (b + h.size_at b) →
      (X b ∨ X (b + h.size_at b)) → h.alloc_at b = false →
      h.alloc_at (b + h.size_at b) = true) :
    Inv h' B L' X' := by
  have ht := hinv.tiling
  have hsz : ∀ a, B a → h'.size_at a = h.size_at a := fun a ha => (hdr_congr (hhdr a ha)).1
  have hps : ∀ a, B a → h'.psize_at a = h.psize_at a :=
    fun a ha => (hdr_congr (hhdr a ha)).2.1
  have hpl : ∀ a, B a → h'.palloc_at a = h.palloc_at a :=
    fun a ha => (hdr_congr (hhdr a ha)).2.2.1
  have hal : ∀ a, B a → h'.alloc_at a = h.alloc_at a :=
    fun a ha => (hdr_congr (hhdr a ha)).2.2.2
  refine ⟨ht.congr hlo hbrk hlim hhl hsz hps, ?_, ?_, ?_, ?_, ?_, ?_, hidx, ?_⟩
  · rw [hlo, hpl _ ht.first]
    exact hinv.first_pa
  · rw [hbrk, hal _ ht.epi.2.1]
    exact hinv.epi_alloc
  · intro b hb hbe hxb
    rw [hbrk] at hbe
    rw [hsz b hb, hpl _ (ht.next b hb hbe).2, hal b hb]
    by_cases hx : X b
    · exact hpa b hb hbe hxb hx
    · exact hinv.pa b hb hbe hx
  · intro b hb hbe hxb hxn hfb
    rw [hbrk] at hbe
    rw [hsz b hb] at hxn ⊢
    rw [hal b hb] at hfb
    rw [hal _ (ht.next b hb hbe).2]
    by_cases hx : X b ∨ X (b + h.size_at b)
    · exact hnf b hb hbe hxb hxn hx hfb
    · exact hinv.nofree2 b hb hbe (fun hh => hx (Or.inl hh)) (fun hh => hx (Or.inr hh)) hfb
  · intro b hb hfb h16
    rw [hsz b hb] at h16 ⊢
    rw [hal b hb] at hfb
    rw [word_congr (hftr b hb hfb h16)]
    exact hinv.footer b hb hfb h16
  · intro x hx
    obtain ⟨h1, h2, h3⟩ := hhole x hx
    exact ⟨h1, by rw [hbrk]; exact h2, by rw [hal x h1]; exact h3⟩
  · intro b
    rw [hmem b]
    constructor
    · rintro ⟨h1, h2, h3⟩
      exact ⟨h1, by rw [hal b h1]; exact h2, h3⟩
    · rintro ⟨h1, h2, h3⟩
      exact ⟨h1, by rw [← hal b h1]; exact h2, h3⟩

/-- A member of the index is a free block of the tiling. -/
theorem Inv.member {h : Heap} {B : Nat → Prop} {L : Nat → List Nat} {X : Nat → Prop}
    (hinv : Inv h B L X) {i c : Nat} (hi : i < 14) (hc : c ∈ L i) :
    B c ∧ h.alloc_at c = false ∧ ¬ X c ∧ 16 ≤ h.size_at c ∧ (1 ≤ i → 32 ≤ h.size_at c) := by
  obtain ⟨h1, h2, h3⟩ := (hinv.members c).mp ⟨i, hi, hc⟩
  obtain ⟨⟨_, _, h16, _⟩, hfi⟩ := hinv.index.block i hi c hc
  have := find_index_bounds (h.size_at c) _ hfi
  exact ⟨h1, h2, h3, h16, by omega⟩

/-- The function `remove_free_block` on a member of the index: the call
returns, the member becomes a pending block, and no header and no footer
changes. -/
theorem Inv.remove_member {h : Heap} {B : Nat → Prop} {L : Nat → List Nat} {X : Nat → Prop}
    {c idx : Nat} (hinv : Inv h B L X) (hidx : idx < 14) (hc : c ∈ L idx) :
    ∃ h', remove_free_block h c = Except.ok h' ∧
      Inv h' B (erase_at L idx c) (fun a => X a ∨ a = c) ∧
      h'.lo = h.lo ∧ h'.brk = h.brk ∧ h'.limit = h.limit ∧
      h'.heap_listp = h.heap_listp ∧
      (∀ a, B a → h'.mem a = h.mem a) ∧
      (∀ b, B b → 16 < h.size_at b →
        h'.mem (b + h.size_at b - 8) = h.mem (b + h.size_at b - 8)) := by
  have ht := hinv.tiling
  obtain ⟨h', hrm, hrep', hlo, hbrk, hlim, hhl, hfr⟩ := remove_spec hinv.index hidx hc
  have hhdr : ∀ a, B a → h'.mem a = h.mem a := by
    intro a ha
    apply hfr
    intro d hd
    obtain ⟨hdB, _, _, _, hd32⟩ := hinv.member hidx hd
    have := ht.link_not_header hdB ha
    exact ⟨this.1, fun h1 => this.2 (hd32 h1)⟩
  have hftr : ∀ b, B b → 16 < h.size_at b →
      h'.mem (b + h.size_at b - 8) = h.mem (b + h.size_at b - 8) := by
    intro b hb h16
    apply hfr
    intro d hd
    obtain ⟨hdB, _, _, hd16, _⟩ := hinv.member hidx hd
    have := ht.link_not_footer hdB hb hd16 h16
    exact ⟨this.1, fun _ => this.2⟩
  obtain ⟨hcB, hcf, hcx, hc16, _⟩ := hinv.member hidx hc
  refine ⟨h', hrm, ?_, hlo, hbrk, hlim, hhl, hhdr, hftr⟩
  apply hinv.index_step hlo hbrk hlim hhl hhdr (fun b hb _ h16 => hftr b hb h16) hrep'
  · intro b
    constructor
    · rintro ⟨i, hi, hb⟩
      obtain ⟨hb1, hb2⟩ := (hinv.index.mem_erase_at hidx hc hi b).mp hb
      obtain ⟨hbB, hbf, hbx, _, _⟩ := hinv.member hi hb1
      exact ⟨hbB, hbf, fun hh => hh.elim hbx hb2⟩
    · rintro ⟨hbB, hbf, hbx⟩
      obtain ⟨i, hi, hb⟩ := (hinv.members b).mpr ⟨hbB, hbf, fun hh => hbx (Or.inl hh)⟩
      exact ⟨i, hi, (hinv.index.mem_erase_at hidx hc hi b).mpr
        ⟨hb, fun hh => hbx (Or.inr hh)⟩⟩
  · intro x hx
    rcases hx with hx | hx
    · exact hinv.hole x hx
    · rw [hx]
      refine ⟨hcB, ?_, hcf⟩
      intro he
      rw [he, ht.epi.2.2] at hc16
      omega
  · intro b _ _ hxb hx
    exact absurd (Or.inl hx) hxb
  · intro b _ _ hxb hxn hx
    rcases hx with hx | hx
    · exact absurd (Or.inl hx) hxb
    · exact absurd (Or.inl hx) hxn

/-- The function `insert` on the one pending block, when the header of the
block says that the block before it is allocated, the block after it is
allocated and the header of that block says that the pending block is free:
the call returns, the invariant holds with no pending block, and no header and
no footer changes. -/
theorem Inv.insert_pending {h : Heap} {B : Nat → Prop} {L : Nat → List Nat} {x : Nat}
    (hinv : Inv h B L (fun a => a = x))
    (hpx : h.palloc_at x = true)
    (hna : h.alloc_at (x + h.size_at x) = true)
    (hnp : h.palloc_at (x + h.size_at x) = false) :
    ∃ h', insert h x = Except.ok h' ∧
      Inv h' B (cons_at L (find_index (h.size_at x)) x) (fun _ => False) ∧
      h'.lo = h.lo ∧ h'.brk = h.brk ∧ h'.limit = h.limit ∧
      h'.heap_listp = h.heap_listp ∧
      (∀ a, B a → h'.mem a = h.mem a) ∧
      (∀ b, B b → 16 < h.size_at b →
        h'.mem (b + h.size_at b - 8) = h.mem (b + h.size_at b - 8)) := by
  have ht := hinv.tiling
  obtain ⟨hxB, hxe, hxf⟩ := hinv.hole x rfl
  obtain ⟨hx16, hxm, hnB, hnr⟩ := ht.next_range hxB hxe
  obtain ⟨hxm8, hxl, hxr⟩ := ht.range x hxB
  have hblk : IsBlock h x := ⟨hxm8, by omega, hx16, by omega⟩
  have hidx : find_index (h.size_at x) < 14 := by
    have := (find_index_bounds (h.size_at x) _ rfl).1
    omega
  have hnew : ∀ i, i < 14 → ∀ c ∈ L i, x + h.size_at x ≤ c ∨ c + h.size_at c ≤ x := by
    intro i hi c hc
    obtain ⟨hcB, _, hcx, _, _⟩ := hinv.member hi hc
    exact ht.disjoint hxB hcB (fun hh => hcx hh.symm)
  obtain ⟨h', hins, hrep', hlo, hbrk, hlim, hhl, hfr⟩ := insert_spec hinv.index hblk hnew
  have h32 : 1 ≤ find_index (h.size_at x) → 32 ≤ h.size_at x := by
    have := find_index_bounds (h.size_at x) _ rfl
    omega
  have hhead : 1 ≤ find_index (h.size_at x) →
      h.seg_free_list (find_index (h.size_at x)) ≠ NULL →
      B (h.seg_free_list (find_index (h.size_at x))) ∧
        32 ≤ h.size_at (h.seg_free_list (find_index (h.size_at x))) := by
    intro h1 hne
    rcases hinv.index.head_cases hidx with ⟨h0, _⟩ | ⟨t, hL⟩
    · exact absurd h0 hne
    · have hm : h.seg_free_list (find_index (h.size_at x)) ∈
          L (find_index (h.size_at x)) := by rw [hL]; exact List.mem_cons_self _ _
      obtain ⟨hB, _, _, _, hs⟩ := hinv.member hidx hm
      exact ⟨hB, hs h1⟩
  have hhdr : ∀ a, B a → h'.mem a = h.mem a := by
    intro a ha
    have h1 := ht.link_not_header hxB ha
    apply hfr a h1.1 (fun hi => h1.2 (h32 hi))
    intro hi hne
    obtain ⟨hB, _⟩ := hhead hi hne
    exact (ht.link_not_header hB ha).1
  have hftr : ∀ b, B b → 16 < h.size_at b →
      h'.mem (b + h.size_at b - 8) = h.mem (b + h.size_at b - 8) := by
    intro b hb h16
    have h1 := ht.link_not_footer hxB hb hx16 h16
    apply hfr _ h1.1 (fun _ => h1.2)
    intro hi hne
    obtain ⟨hB, hs⟩ := hhead hi hne
    exact (ht.link_not_footer hB hb (by omega) h16).1
  refine ⟨h', hins, ?_, hlo, hbrk, hlim, hhl, hhdr, hftr⟩
  apply hinv.index_step hlo hbrk hlim hhl hhdr (fun b hb _ h16 => hftr b hb h16) hrep'
  · intro b
    constructor
    · rintro ⟨i, hi, hb⟩
      unfold cons_at at hb
      by_cases hii : i = find_index (h.size_at x)
      · rw [if_pos hii] at hb
        rcases List.mem_cons.mp hb with hb | hb
        · rw [hb]
          exact ⟨hxB, hxf, fun hh => hh⟩
        · obtain ⟨hbB, hbf, _, _, _⟩ := hinv.member hi hb
          exact ⟨hbB, hbf, fun hh => hh⟩
      · rw [if_neg hii] at hb
        obtain ⟨hbB, hbf, _, _, _⟩ := hinv.member hi hb
        exact ⟨hbB, hbf, fun hh => hh⟩
    · rintro ⟨hbB, hbf, _⟩
      by_cases hbx : b = x
      · refine ⟨find_index (h.size_at x), hidx, ?_⟩
        unfold cons_at
        rw [if_pos rfl, hbx]
        exact List.mem_cons_self _ _
      · obtain ⟨i, hi, hb⟩ := (hinv.members b).mpr ⟨hbB, hbf, hbx⟩
        refine ⟨i, hi, ?_⟩
        unfold cons_at
        by_cases hii : i = find_index (h.size_at x)
        · rw [if_pos hii]
          exact List.mem_cons_of_mem _ hb
        · rw [if_neg hii]
          exact hb
  · intro y hy
    exact absurd hy (fun hh => hh)
  · intro b _ _ _ hx
    rw [hx, hnp, hxf]
  · intro b hb hbe _ _ hx hfb
    rcases hx with hx | hx
    · rw [hx]
      exact hna
    · have hbx : b ≠ x := by
        intro hh
        rw [hh] at hx
        omega
      have := hinv.pa b hb hbe hbx
      rw [hx, hpx, hfb] at this
      cases this

/-- Marking an allocated block free: the header of the block gets a clear
allocation bit and the footer is written; the block becomes a pending block of
the invariant. -/
theorem Inv.mark_free {h h1 : Heap} {B : Nat → Prop} {L : Nat → List Nat}
    {X : Nat → Prop} {b : Nat}
    (hinv : Inv h B L X) (hb : B b) (hbe : b ≠ h.brk - 8) (hal : h.alloc_at b = true)
    (hlo : h1.lo = h.lo) (hbrk : h1.brk = h.brk) (hlim : h1.limit = h.limit)
    (hhl : h1.heap_listp = h.heap_listp) (hseg : h1.seg_free_list = h.seg_free_list)
    (hwb : h1.word b = pack (h.size_at b) (h.psize_at b) (h.palloc_at b) false)
    (hwf : h1.word (b + h.size_at b - 8) = pack (h.size_at b) false false false)
    (hfr : ∀ a, a ≠ b → a ≠ b + h.size_at b - 8 → h1.mem a = h.mem a) :
    Inv h1 B L (fun a => X a ∨ a = b) := by
  have ht := hinv.tiling
  obtain ⟨hs16, hsm, hnb, hnr⟩ := ht.next_range hb hbe
  have hslt := size_at_lt h b
  obtain ⟨hbm, hbl, hbr⟩ := ht.range b hb
  obtain ⟨hsb, hpsb, hpab, halb⟩ := hdr_of_word hwb hsm hslt
  have hxb : ¬ X b := by
    intro hx
    have := (hinv.hole b hx).2.2
    rw [hal] at this
    cases this
  have hoth : ∀ a, B a → a ≠ b → h1.mem a = h.mem a := by
    intro a ha hab
    have := (ht.range a ha).1
    exact hfr a hab (by omega)
  have hsz : ∀ a, B a → h1.size_at a = h.size_at a := by
    intro a ha
    by_cases hab : a = b
    · rw [hab, hsb]
    · exact (hdr_congr (hoth a ha hab)).1
  have hps : ∀ a, B a → h1.psize_at a = h.psize_at a := by
    intro a ha
    by_cases hab : a = b
    · rw [hab, hpsb]
    · exact (hdr_congr (hoth a ha hab)).2.1
  have hpa : ∀ a, B a → h1.palloc_at a = h.palloc_at a := by
    intro a ha
    by_cases hab : a = b
    · rw [hab, hpab]
    · exact (hdr_congr (hoth a ha hab)).2.2.1
  have hao : ∀ a, B a → a ≠ b → h1.alloc_at a = h.alloc_at a :=
    fun a ha hab => (hdr_congr (hoth a ha hab)).2.2.2
  refine ⟨ht.congr hlo hbrk hlim hhl hsz hps, ?_, ?_, ?_, ?_, ?_, ?_, ?_, ?_⟩
  · rw [hlo, hpa _ ht.first]
    exact hinv.first_pa
  · rw [hbrk, hao _ ht.epi.2.1 (fun hx => hbe hx.symm)]
    exact hinv.epi_alloc
  · intro a ha hae hxa
    rw [hbrk] at hae
    rw [hsz a ha, hpa _ (ht.next a ha hae).2, hao a ha (fun hh => hxa (Or.inr hh))]
    exact hinv.pa a ha hae (fun hh => hxa (Or.inl hh))
  · intro a ha hae hxa hxn hfa
    rw [hbrk] at hae
    rw [hsz a ha] at hxn ⊢
    rw [hao a ha (fun hh => hxa (Or.inr hh))] at hfa
    rw [hao _ (ht.next a ha hae).2 (fun hh => hxn (Or.inr hh))]
    exact hinv.nofree2 a ha hae (fun hh => hxa (Or.inl hh)) (fun hh => hxn (Or.inl hh)) hfa
  · intro a ha hfa h16
    rw [hsz a ha] at h16 ⊢
    by_cases hab : a = b
    · rw [hab]; exact hwf
    · rw [hao a ha hab] at hfa
      have hne := ht.footer_ne ha hb hab
      rw [word_congr (hfr _ hne.1 (hne.2 hs16 (by omega)))]
      exact hinv.footer a ha hfa h16
  · intro a ha
    rcases ha with ha | ha
    · obtain ⟨h1a, h2a, h3a⟩ := hinv.hole a ha
      have hab : a ≠ b := fun hh => hxb (hh ▸ ha)
      exact ⟨h1a, by rw [hbrk]; exact h2a, by rw [hao a h1a hab]; exact h3a⟩
    · rw [ha]
      exact ⟨hb, by rw [hbrk]; exact hbe, halb⟩
  · apply IndexRep.frame hinv.index hlo hbrk (fun i _ => by rw [hseg])
    intro i hi c hc
    obtain ⟨hcB, hcf, _, hc16, hc32⟩ := hinv.member hi hc
    have hcb : c ≠ b := by intro hx; rw [hx, hal] at hcf; cases hcf
    have hcm := (ht.range c hcB).1
    have hap := ht.disjoint hb hcB (fun hh => hcb hh.symm)
    refine ⟨hsz c hcB, word_congr (hfr _ (by omega) (by omega)), ?_⟩
    intro hi1
    have := hc32 hi1
    exact word_congr (hfr _ (by omega) (by omega))
  · intro c
    rw [hinv.members c]
    constructor
    · rintro ⟨hcB, hcf, hcx⟩
      have hcb : c ≠ b := by intro hx; rw [hx, hal] at hcf; cases hcf
      exact ⟨hcB, by rw [hao c hcB hcb]; exact hcf, fun hh => hh.elim hcx hcb⟩
    · rintro ⟨hcB, hcf, hcx⟩
      rw [hao c hcB (fun hh => hcx (Or.inr hh))] at hcf
      exact ⟨hcB, hcf, fun hh => hcx (Or.inl hh)⟩

/-- Rewriting the header of a pending block with its own bits and the header of
its allocated successor with a clear previous-allocated bit keeps the
invariant. -/
theorem Inv.stamp_next {h h1 : Heap} {B : Nat → Prop} {L : Nat → List Nat}
    {X : Nat → Prop} {x : Nat}
    (hinv : Inv h B L X) (hx : X x) (hpx : h.palloc_at x = true)
    (hna : h.alloc_at (x + h.size_at x) = true)
    (hlo : h1.lo = h.lo) (hbrk : h1.brk = h.brk) (hlim : h1.limit = h.limit)
    (hhl : h1.heap_listp = h.heap_listp) (hseg : h1.seg_free_list = h.seg_free_list)
    (hwx : h1.word x = pack (h.size_at x) (h.psize_at x) true false)
    (hwn : h1.word (x + h.size_at x) = pack (h.size_at (x + h.size_at x))
      (h.psize_at (x + h.size_at x)) false true)
    (hfr : ∀ a, a ≠ x → a ≠ x + h.size_at x → h1.mem a = h.mem a) :
    Inv h1 B L X ∧ h1.palloc_at (x + h.size_at x) = false := by
  have ht := hinv.tiling
  obtain ⟨hxB, hxe, hxf⟩ := hinv.hole x hx
  obtain ⟨hs16, hsm, hnB, hnr⟩ := ht.next_range hxB hxe
  obtain ⟨hsx, hpsx, hpax, halx⟩ := hdr_of_word hwx hsm (size_at_lt h x)
  obtain ⟨hsn, hpsn, hpan, haln⟩ := hdr_of_word hwn (size_at_mod h _) (size_at_lt h _)
  have hoth : ∀ a, B a → a ≠ x → a ≠ x + h.size_at x → h1.mem a = h.mem a :=
    fun a _ h1 h2 => hfr a h1 h2
  have hsz : ∀ a, B a → h1.size_at a = h.size_at a := by
    intro a ha
    by_cases hax : a = x
    · rw [hax, hsx]
    · by_cases han : a = x + h.size_at x
      · rw [han, hsn]
      · exact (hdr_congr (hoth a ha hax han)).1
  have hps : ∀ a, B a → h1.psize_at a = h.psize_at a := by
    intro a ha
    by_cases hax : a = x
    · rw [hax, hpsx]
    · by_cases han : a = x + h.size_at x
      · rw [han, hpsn]
      · exact (hdr_congr (hoth a ha hax han)).2.1
  have hal : ∀ a, B a → h1.alloc_at a = h.alloc_at a := by
    intro a ha
    by_cases hax : a = x
    · rw [hax, halx, hxf]
    · by_cases han : a = x + h.size_at x
      · rw [han, haln, hna]
      · exact (hdr_congr (hoth a ha hax han)).2.2.2
  have hpa : ∀ a, B a → a ≠ x + h.size_at x → h1.palloc_at a = h.palloc_at a := by
    intro a ha han
    by_cases hax : a = x
    · rw [hax, hpax, hpx]
    · exact (hdr_congr (hoth a ha hax han)).2.2.1
  refine ⟨⟨ht.congr hlo hbrk hlim hhl hsz hps, ?_, ?_, ?_, ?_, ?_, ?_, ?_, ?_⟩, hpan⟩
  · rw [hlo, hpa _ ht.first (by have := (ht.range x hxB).2.1; omega)]
    exact hinv.first_pa
  · rw [hbrk, hal _ ht.epi.2.1]
    exact hinv.epi_alloc
  · intro a ha hae hxa
    rw [hbrk] at hae
    have hne : a + h.size_at a ≠ x + h.size_at x := by
      intro he
      have := ht.pred_unique ha hxB (ht.next a ha hae).1 hs16 he
      rw [this] at hxa
      exact hxa hx
    rw [hsz a ha, hpa _ (ht.next a ha hae).2 hne, hal a ha]
    exact hinv.pa a ha hae hxa
  · intro a ha hae hxa hxn hfa
    rw [hbrk] at hae
    rw [hsz a ha] at hxn ⊢
    rw [hal a ha] at hfa
    rw [hal _ (ht.next a ha hae).2]
    exact hinv.nofree2 a ha hae hxa hxn hfa
  · intro a ha hfa h16
    rw [hsz a ha] at h16 ⊢
    rw [hal a ha] at hfa
    have hne1 : a + h.size_at a - 8 ≠ x := by
      have := (ht.range a ha).1
      have := (ht.range x hxB).1
      have := size_at_mod h a
      omega
    have hne2 : a + h.size_at a - 8 ≠ x + h.size_at x := by
      have := (ht.range a ha).1
      have := (ht.range x hxB).1
      have := size_at_mod h a
      omega
    rw [word_congr (hfr _ hne1 hne2)]
    exact hinv.footer a ha hfa h16
  · intro a ha
    obtain ⟨h1a, h2a, h3a⟩ := hinv.hole a ha
    exact ⟨h1a, by rw [hbrk]; exact h2a, by rw [hal a h1a]; exact h3a⟩
  · apply IndexRep.frame hinv.index hlo hbrk (fun i _ => by rw [hseg])
    intro i hi c hc
    obtain ⟨hcB, hcf, hcx, hc16, hc32⟩ := hinv.member hi hc
    have hcm := (ht.range c hcB).1
    have hxm := (ht.range x hxB).1
    have h1 := ht.link_not_header hcB hxB
    have h2 := ht.link_not_header hcB hnB
    refine ⟨hsz c hcB, word_congr (hfr _ (by omega) (by omega)), ?_⟩
    intro hi1
    exact word_congr (hfr _ (fun hh => h1.2 (hc32 hi1) hh.symm)
      (fun hh => h2.2 (hc32 hi1) hh.symm))
  · intro c
    rw [hinv.members c]
    constructor
    · rintro ⟨hcB, hcf, hcx⟩
      exact ⟨hcB, by rw [hal c hcB]; exact hcf, hcx⟩
    · rintro ⟨hcB, hcf, hcx⟩
      rw [hal c hcB] at hcf
      exact ⟨hcB, hcf, hcx⟩

/-- Allocating a pending block whole: its header gets the allocation bit and
the header of its allocated successor gets the previous-allocated bit; the
block is no longer pending. -/
theorem Inv.allocate {h h1 : Heap} {B : Nat → Prop} {L : Nat → List Nat}
    {X : Nat → Prop} {x : Nat}
    (hinv : Inv h B L X) (hx : X x) (hpx : h.palloc_at x = true)
    (hna : h.alloc_at (x + h.size_at x) = true)
    (hlo : h1.lo = h.lo) (hbrk : h1.brk = h.brk) (hlim : h1.limit = h.limit)
    (hhl : h1.heap_listp = h.heap_listp) (hseg : h1.seg_free_list = h.seg_free_list)
    (hwx : h1.word x = pack (h.size_at x) (h.psize_at x) true true)
    (hwn : h1.word (x + h.size_at x) = pack (h.size_at (x + h.size_at x))
      (h.psize_at (x + h.size_at x)) true true)
    (hfr : ∀ a, a ≠ x → a ≠ x + h.size_at x → h1.mem a = h.mem a) :
    Inv h1 B L (fun a => X a ∧ a ≠ x) ∧ h1.alloc_at x = true ∧
      h1.size_at x = h.size_at x ∧
      (∀ a, B a → a ≠ x → h1.alloc_at a = h.alloc_at a) := by
  have ht := hinv.tiling
  obtain ⟨hxB, hxe, hxf⟩ := hinv.hole x hx
  obtain ⟨hs16, hsm, hnB, hnr⟩ := ht.next_range hxB hxe
  obtain ⟨hsx, hpsx, hpax, halx⟩ := hdr_of_word hwx hsm (size_at_lt h x)
  obtain ⟨hsn, hpsn, hpan, haln⟩ := hdr_of_word hwn (size_at_mod h _) (size_at_lt h _)
  have hoth : ∀ a, B a → a ≠ x → a ≠ x + h.size_at x → h1.mem a = h.mem a :=
    fun a _ h1 h2 => hfr a h1 h2
  have hsz : ∀ a, B a → h1.size_at a = h.size_at a := by
    intro a ha
    by_cases hax : a = x
    · rw [hax, hsx]
    · by_cases han : a = x + h.size_at x
      · rw [han, hsn]
      · exact (hdr_congr (hoth a ha hax han)).1
  have hps : ∀ a, B a → h1.psize_at a = h.psize_at a := by
    intro a ha
    by_cases hax : a = x
    · rw [hax, hpsx]
    · by_cases han : a = x + h.size_at x
      · rw [han, hpsn]
      · exact (hdr_congr (hoth a ha hax han)).2.1
  have hal : ∀ a, B a → a ≠ x → h1.alloc_at a = h.alloc_at a := by
    intro a ha hax
    by_cases han : a = x + h.size_at x
    · rw [han, haln, hna]
    · exact (hdr_congr (hoth a ha hax han)).2.2.2
  have hpa : ∀ a, B a → a ≠ x + h.size_at x → h1.palloc_at a = h.palloc_at a := by
    intro a ha han
    by_cases hax : a = x
    · rw [hax, hpax, hpx]
    · exact (hdr_congr (hoth a ha hax han)).2.2.1
  refine ⟨⟨ht.congr hlo hbrk hlim hhl hsz hps, ?_, ?_, ?_, ?_, ?_, ?_, ?_, ?_⟩, halx, hsx,
    hal⟩
  · rw [hlo, hpa _ ht.first (by have := (ht.range x hxB).2.1; omega)]
    exact hinv.first_pa
  · rw [hbrk, hal _ ht.epi.2.1 (fun hh => hxe hh.symm)]
    exact hinv.epi_alloc
  · intro a ha hae hxa
    rw [hbrk] at hae
    rw [hsz a ha]
    by_cases hax : a = x
    · rw [hax, hpan, halx]
    · have hxa' : ¬ X a := fun hh => hxa ⟨hh, hax⟩
      have hne : a + h.size_at a ≠ x + h.size_at x := by
        intro he
        exact hax (ht.pred_unique ha hxB (ht.next a ha hae).1 hs16 he)
      rw [hpa _ (ht.next a ha hae).2 hne, hal a ha hax]
      exact hinv.pa a ha hae hxa'
  · intro a ha hae hxa hxn hfa
    rw [hbrk] at hae
    rw [hsz a ha] at hxn ⊢
    have hax : a ≠ x := by
      intro hh
      rw [hh, halx] at hfa
      cases hfa
    rw [hal a ha hax] at hfa
    by_cases hnx : a + h.size_at a = x
    · rw [hnx]; exact halx
    · rw [hal _ (ht.next a ha hae).2 hnx]
      exact hinv.nofree2 a ha hae (fun hh => hxa ⟨hh, hax⟩) (fun hh => hxn ⟨hh, hnx⟩) hfa
  · intro a ha hfa h16
    rw [hsz a ha] at h16 ⊢
    have hax : a ≠ x := by
      intro hh
      rw [hh, halx] at hfa
      cases hfa
    rw [hal a ha hax] at hfa
    have hne1 : a + h.size_at a - 8 ≠ x := by
      have := (ht.range a ha).1
      have := (ht.range x hxB).1
      have := size_at_mod h a
      omega
    have hne2 : a + h.size_at a - 8 ≠ x + h.size_at x := by
      have := (ht.range a ha).1
      have := (ht.range x hxB).1
      have := size_at_mod h a
      omega
    rw [word_congr (hfr _ hne1 hne2)]
    exact hinv.footer a ha hfa h16
  · intro a ha
    obtain ⟨h1a, h2a, h3a⟩ := hinv.hole a ha.1
    exact ⟨h1a, by rw [hbrk]; exact h2a, by rw [hal a h1a ha.2]; exact h3a⟩
  · apply IndexRep.frame hinv.index hlo hbrk (fun i _ => by rw [hseg])
    intro i hi c hc
    obtain ⟨hcB, hcf, hcx, hc16, hc32⟩ := hinv.member hi hc
    have hcm := (ht.range c hcB).1
    have hxm := (ht.range x hxB).1
    have h1 := ht.link_not_header hcB hxB
    have h2 := ht.link_not_header hcB hnB
    refine ⟨hsz c hcB, word_congr (hfr _ (by omega) (by omega)), ?_⟩
    intro hi1
    exact word_congr (hfr _ (fun hh => h1.2 (hc32 hi1) hh.symm)
      (fun hh => h2.2 (hc32 hi1) hh.symm))
  · intro c
    rw [hinv.members c]
    constructor
    · rintro ⟨hcB, hcf, hcx⟩
      have hcne : c ≠ x := fun hh => hcx (hh ▸ hx)
      exact ⟨hcB, by rw [hal c hcB hcne]; exact hcf, fun hh => hcx hh.1⟩
    · rintro ⟨hcB, hcf, hcx⟩
      have hcne : c ≠ x := by
        intro hh
        rw [hh, halx] at hcf
        cases hcf
      rw [hal c hcB hcne] at hcf
      exact ⟨hcB, hcf, fun hh => hcx ⟨hh, hcne⟩⟩

/-- Merging a pending block with the pending block after it: the header of the
first gets the sum of the sizes, the footer goes to the end of the second, and
the header of the allocated block after them says that a free block of more
than 16 bytes comes before it.  The second block is no longer a block. -/
theorem Inv.merge {h h' : Heap} {B : Nat → Prop} {L : Nat → List Nat}
    {X : Nat → Prop} {x n nn : Nat}
    (hinv : Inv h B L X) (hx : X x) (hn : n = x + h.size_at x) (hxn : X n)
    (hnn : nn = n + h.size_at n) (hnna : h.alloc_at nn = true)
    (hlo : h'.lo = h.lo) (hbrk : h'.brk = h.brk) (hlim : h'.limit = h.limit)
    (hhl : h'.heap_listp = h.heap_listp) (hseg : h'.seg_free_list = h.seg_free_list)
    (hwx : h'.word x = pack (h.size_at x + h.size_at n) (h.psize_at x)
      (h.palloc_at x) false)
    (hwf : h'.word (nn - 8) = pack (h.size_at x + h.size_at n) false false false)
    (hwnn : h'.word nn = pack (h.size_at nn) false false true)
    (hfr : ∀ a, a < x ∨ nn < a → h'.mem a = h.mem a) :
    Inv h' (fun a => B a ∧ a ≠ n) L (fun a => X a ∧ a ≠ n) ∧
      h'.size_at x = h.size_at x + h.size_at n ∧ h'.palloc_at nn = false ∧
      (∀ a, B a → a ≠ n → h'.alloc_at a = h.alloc_at a) := by
  have ht := hinv.tiling
  obtain ⟨hxB, hxe, hxf⟩ := hinv.hole x hx
  obtain ⟨hnB, hne, hnf⟩ := hinv.hole n hxn
  obtain ⟨hsx16, hsxm, hnB', hnr⟩ := ht.next_range hxB hxe
  obtain ⟨hsn16, hsnm, hnnB, hnnr⟩ := ht.next_range hnB hne
  rw [← hnn] at hnnB hnnr
  obtain ⟨hxm8, hxl, hxr⟩ := ht.range x hxB
  have hlimw := ht.lim
  have hSlt : h.size_at x + h.size_at n < WORD := by omega
  obtain ⟨hsx', hpsx', hpax', halx'⟩ := hdr_of_word hwx (by omega) hSlt
  obtain ⟨hsnn', hpsnn', hpann', halnn'⟩ :=
    hdr_of_word hwnn (size_at_mod h nn) (size_at_lt h nn)
  have hout : ∀ a, B a → a ≠ x → a ≠ n → a ≠ nn → a < x ∨ nn < a := by
    intro a ha h1 h2 h3
    rcases ht.disjoint ha hxB h1 with hd | hd
    · left; omega
    · rcases ht.disjoint ha hnB h2 with hd2 | hd2
      · omega
      · right; omega
  have hsz : ∀ a, B a → a ≠ x → a ≠ n → h'.size_at a = h.size_at a := by
    intro a ha h1 h2
    by_cases h3 : a = nn
    · rw [h3, hsnn']
    · exact (hdr_congr (hfr a (hout a ha h1 h2 h3))).1
  have hps : ∀ a, B a → a ≠ n → a ≠ nn → h'.psize_at a = h.psize_at a := by
    intro a ha h2 h3
    by_cases h1 : a = x
    · rw [h1, hpsx']
    · exact (hdr_congr (hfr a (hout a ha h1 h2 h3))).2.1
  have hpa : ∀ a, B a → a ≠ n → a ≠ nn → h'.palloc_at a = h.palloc_at a := by
    intro a ha h2 h3
    by_cases h1 : a = x
    · rw [h1, hpax']
    · exact (hdr_congr (hfr a (hout a ha h1 h2 h3))).2.2.1
  have hal : ∀ a, B a → a ≠ n → h'.alloc_at a = h.alloc_at a := by
    intro a ha h2
    by_cases h1 : a = x
    · rw [h1, halx', hxf]
    · by_cases h3 : a = nn
      · rw [h3, halnn', hnna]
      · exact (hdr_congr (hfr a (hout a ha h1 h2 h3))).2.2.2
  -- the successor of a block other than `x` and `n` is not `n` and not `nn`
  have hsucc : ∀ a, B a → a ≠ h.brk - 8 → a ≠ x → a ≠ n →
      a + h.size_at a ≠ n ∧ a + h.size_at a ≠ nn := by
    intro a ha hae h1 h2
    constructor
    · intro he
      exact h1 (ht.pred_unique ha hxB (ht.next a ha hae).1 hsx16 (by omega))
    · intro he
      exact h2 (ht.pred_unique ha hnB (ht.next a ha hae).1 hsn16 (by omega))
  have hnnx : nn ≠ x := by omega
  have hnnn : nn ≠ n := by omega
  have hxn' : x ≠ n := by omega
  refine ⟨⟨⟨by rw [hlo]; exact ht.lo16, by rw [hbrk, hlim]; exact ht.lim,
    by rw [hhl, hlo]; exact ht.hl, ⟨by rw [hlo]; exact ht.first, by rw [hlo]; omega⟩,
    ?_, ?_, ?_, ?_, ?_, ?_⟩, ?_, ?_, ?_, ?_, ?_, ?_, ?_, ?_⟩, hsx', hpann', hal⟩
  · obtain ⟨e1, e2, e3⟩ := ht.epi
    rw [hlo, hbrk, hsz _ e2 (fun hh => hxe hh.symm) (fun hh => hne hh.symm)]
    exact ⟨e1, ⟨e2, fun hh => hne hh.symm⟩, e3⟩
  · intro a ha
    rw [hlo, hbrk]
    exact ht.range a ha.1
  · intro a ha hae
    rw [hbrk] at hae
    by_cases h1 : a = x
    · rw [h1, hsx']
      have hh : x + (h.size_at x + h.size_at n) = nn := by omega
      rw [hh]
      exact ⟨by omega, hnnB, hnnn⟩
    · rw [hsz a ha.1 h1 ha.2]
      obtain ⟨h16, hB⟩ := ht.next a ha.1 hae
      exact ⟨h16, hB, (hsucc a ha.1 hae h1 ha.2).1⟩
  · intro a c ha hc hac
    by_cases h1 : a = x
    · rw [h1, hsx']
      rw [h1] at hac
      have := ht.apart x c hxB hc.1 hac
      have hnc : n < c := by
        have := hc.2
        omega
      have := ht.apart n c hnB hc.1 hnc
      omega
    · rw [hsz a ha.1 h1 ha.2]
      exact ht.apart a c ha.1 hc.1 hac
  · intro a ha hae
    rw [hlo] at hae
    obtain ⟨p, hp, hpl, hpe⟩ := ht.prev a ha.1 hae
    by_cases hpn : p = n
    · rw [hpn] at hpe
      refine ⟨x, ⟨hxB, hxn'⟩, by omega, ?_⟩
      rw [hsx']
      omega
    · refine ⟨p, ⟨hp, hpn⟩, hpl, ?_⟩
      by_cases hpx : p = x
      · exfalso
        rw [hpx] at hpe
        exact ha.2 (by omega)
      · rw [hsz p hp hpx hpn]
        exact hpe
  · intro a ha hae
    rw [hbrk] at hae
    by_cases h1 : a = x
    · rw [h1, hsx']
      have : x + (h.size_at x + h.size_at n) = nn := by omega
      rw [this, hpsnn']
      have : ¬ (h.size_at x + h.size_at n = 16) := by omega
      simp [this]
    · obtain ⟨hs1, hs2⟩ := hsucc a ha.1 hae h1 ha.2
      rw [hsz a ha.1 h1 ha.2, hps _ (ht.next a ha.1 hae).2 hs1 hs2]
      exact ht.p16 a ha.1 hae
  · rw [hlo, hpa _ ht.first (by omega) (by omega)]
    exact hinv.first_pa
  · rw [hbrk, hal _ ht.epi.2.1 (fun hh => hne hh.symm)]
    exact hinv.epi_alloc
  · intro a ha hae hxa
    rw [hbrk] at hae
    have hxa' : ¬ X a := fun hh => hxa ⟨hh, ha.2⟩
    have h1 : a ≠ x := fun hh => hxa' (hh ▸ hx)
    obtain ⟨hs1, hs2⟩ := hsucc a ha.1 hae h1 ha.2
    rw [hsz a ha.1 h1 ha.2, hpa _ (ht.next a ha.1 hae).2 hs1 hs2, hal a ha.1 ha.2]
    exact hinv.pa a ha.1 hae hxa'
  · intro a ha hae hxa hxs hfa
    rw [hbrk] at hae
    have hxa' : ¬ X a := fun hh => hxa ⟨hh, ha.2⟩
    have h1 : a ≠ x := fun hh => hxa' (hh ▸ hx)
    obtain ⟨hs1, hs2⟩ := hsucc a ha.1 hae h1 ha.2
    rw [hsz a ha.1 h1 ha.2] at hxs ⊢
    rw [hal a ha.1 ha.2] at hfa
    rw [hal _ (ht.next a ha.1 hae).2 hs1]
    exact hinv.nofree2 a ha.1 hae hxa' (fun hh => hxs ⟨hh, hs1⟩) hfa
  · intro a ha hfa h16
    by_cases h1 : a = x
    · rw [h1, hsx']
      have : x + (h.size_at x + h.size_at n) - 8 = nn - 8 := by omega
      rw [this]
      exact hwf
    · rw [hsz a ha.1 h1 ha.2] at h16 ⊢
      rw [hal a ha.1 ha.2] at hfa
      have h3 : a ≠ nn := by
        intro hh
        rw [hh, hnna] at hfa
        cases hfa
      have hae : a ≠ h.brk - 8 := by
        intro hh
        rw [hh, ht.epi.2.2] at h16
        omega
      have hr := (ht.range _ (ht.next a ha.1 hae).2).2.2
      have : a + h.size_at a - 8 < x ∨ nn < a + h.size_at a - 8 := by
        rcases hout a ha.1 h1 ha.2 h3 with hd | hd
        · have := ht.apart a x ha.1 hxB hd
          left; omega
        · right; omega
      rw [word_congr (hfr _ this)]
      exact hinv.footer a ha.1 hfa h16
  · intro a ha
    obtain ⟨h1a, h2a, h3a⟩ := hinv.hole a ha.1
    exact ⟨⟨h1a, ha.2⟩, by rw [hbrk]; exact h2a, by rw [hal a h1a ha.2]; exact h3a⟩
  · apply IndexRep.frame hinv.index hlo hbrk (fun i _ => by rw [hseg])
    intro i hi c hc
    obtain ⟨hcB, hcf, hcx, hc16, hc32⟩ := hinv.member hi hc
    have h1 : c ≠ x := fun hh => hcx (hh ▸ hx)
    have h2 : c ≠ n := fun hh => hcx (hh ▸ hxn)
    have h3 : c ≠ nn := by
      intro hh
      rw [hh, hnna] at hcf
      cases hcf
    have hce : c ≠ h.brk - 8 := by
      intro hh
      rw [hh, ht.epi.2.2] at hc16
      omega
    have hr := (ht.range _ (ht.next c hcB hce).2).2.2
    have hreg : c + h.size_at c ≤ x ∨ nn < c := by
      rcases hout c hcB h1 h2 h3 with hd | hd
      · left; exact ht.apart c x hcB hxB hd
      · right; exact hd
    refine ⟨hsz c hcB h1 h2, word_congr (hfr _ (by omega)), ?_⟩
    intro hi1
    have := hc32 hi1
    exact word_congr (hfr _ (by omega))
  · intro c
    rw [hinv.members c]
    constructor
    · rintro ⟨hcB, hcf, hcx⟩
      have h2 : c ≠ n := fun hh => hcx (hh ▸ hxn)
      exact ⟨⟨hcB, h2⟩, by rw [hal c hcB h2]; exact hcf, fun hh => hcx hh.1⟩
    · rintro ⟨hcB, hcf, hcx⟩
      rw [hal c hcB.1 hcB.2] at hcf
      exact ⟨hcB.1, hcf, fun hh => hcx ⟨hh, hcB.2⟩⟩

/-- The index is still represented when the arena has grown and the sizes and
link words of the members are unchanged. -/
theorem IndexRep.frame_grow {h h' : Heap} {L : Nat → List Nat} (hrep : IndexRep h L)
    (hlo : h'.lo = h.lo) (hbrk : h.brk ≤ h'.brk) (hw : h'.brk ≤ WORD)
    (hseg : ∀ i, i < 14 → h'.seg_free_list i = h.seg_free_list i)
    (hmem : ∀ i, i < 14 → ∀ b ∈ L i, h'.size_at b = h.size_at b ∧
      h'.word (b + 8) = h.word (b + 8) ∧
      (1 ≤ i → h'.word (b + 16) = h.word (b + 16))) :
    IndexRep h' L := by
  refine ⟨hw, ?_, ?_, ?_, hrep.nodup, ?_⟩
  · rw [hseg 0 (by norm_num)]
    exact SList.frame_single (fun b hb => (hmem 0 (by norm_num) b hb).2.1) hrep.single
  · intro i hi1 hi2
    rw [hseg i hi2]
    exact DList.frame_double (fun b hb => ⟨(hmem i hi2 b hb).2.1, (hmem i hi2 b hb).2.2 hi1⟩)
      (hrep.double i hi1 hi2)
  · intro i hi b hb
    obtain ⟨⟨h1, h2, h3, h4⟩, h5⟩ := hrep.block i hi b hb
    have hs := (hmem i hi b hb).1
    refine ⟨⟨h1, by rw [hlo]; exact h2, by rw [hs]; exact h3, by rw [hs]; omega⟩, ?_⟩
    rw [hs]; exact h5
  · intro i j hi hj b hb c hc hne
    rw [(hmem i hi b hb).1, (hmem j hj c hc).1]
    exact hrep.apart i j hi hj b hb c hc hne

/-- Splitting a pending block: the first `asize` bytes become an allocated
block and the rest a pending block with its footer; the header of the allocated
block after them says that a free block comes before it. -/
theorem Inv.split {h h' : Heap} {B : Nat → Prop} {L : Nat → List Nat}
    {X : Nat → Prop} {x asize r n : Nat}
    (hinv : Inv h B L X) (hx : X x) (hpx : h.palloc_at x = true)
    (ha16 : 16 ≤ asize) (ham : asize % 16 = 0) (hle : asize + 16 ≤ h.size_at x)
    (hr : r = x + asize) (hn : n = x + h.size_at x) (hna : h.alloc_at n = true)
    (hlo : h'.lo = h.lo) (hbrk : h'.brk = h.brk) (hlim : h'.limit = h.limit)
    (hhl : h'.heap_listp = h.heap_listp) (hseg : h'.seg_free_list = h.seg_free_list)
    (hwx : h'.word x = pack asize (h.psize_at x) true true)
    (hwr : h'.word r = pack (h.size_at x - asize) (decide (asize = 16)) true false)
    (hwf : h.size_at x - asize ≠ 16 →
      h'.word (n - 8) = pack (h.size_at x - asize) false false false)
    (hwn : h'.word n = pack (h.size_at n) (decide (h.size_at x - asize = 16)) false true)
    (hfr : ∀ a, a < x ∨ n < a → h'.mem a = h.mem a) :
    Inv h' (fun a => B a ∨ a = r) L (fun a => (X a ∧ a ≠ x) ∨ a = r) ∧
      h'.size_at x = asize ∧ h'.alloc_at x = true ∧
      h'.size_at r = h.size_at x - asize ∧ h'.palloc_at r = true ∧
      h'.alloc_at n = true ∧ h'.palloc_at n = false ∧
      (∀ a, B a → a ≠ x → h'.alloc_at a = h.alloc_at a) := by
  have ht := hinv.tiling
  obtain ⟨hxB, hxe, hxf⟩ := hinv.hole x hx
  obtain ⟨hsx16, hsxm, hnB, hnr⟩ := ht.next_range hxB hxe
  rw [← hn] at hnB hnr
  obtain ⟨hxm8, hxl, hxr⟩ := ht.range x hxB
  have hlimw := ht.lim
  have hsxlt := size_at_lt h x
  obtain ⟨hsx', hpsx', hpax', halx'⟩ := hdr_of_word hwx ham (by omega)
  obtain ⟨hsr', hpsr', hpar', halr'⟩ := hdr_of_word hwr (by omega) (by omega)
  obtain ⟨hsn', hpsn', hpan', haln'⟩ := hdr_of_word hwn (size_at_mod h n) (size_at_lt h n)
  have hrB : ¬ B r := by
    intro hh
    have := ht.apart x r hxB hh (by omega)
    omega
  have hout : ∀ a, B a → a ≠ x → a ≠ n → a < x ∨ n < a := by
    intro a ha h1 h2
    rcases ht.disjoint ha hxB h1 with hd | hd
    · left; omega
    · right; omega
  have hsz : ∀ a, B a → a ≠ x → h'.size_at a = h.size_at a := by
    intro a ha h1
    by_cases h2 : a = n
    · rw [h2, hsn']
    · exact (hdr_congr (hfr a (hout a ha h1 h2))).1
  have hps : ∀ a, B a → a ≠ n → h'.psize_at a = h.psize_at a := by
    intro a ha h2
    by_cases h1 : a = x
    · rw [h1, hpsx']
    · exact (hdr_congr (hfr a (hout a ha h1 h2))).2.1
  have hpa : ∀ a, B a → a ≠ n → h'.palloc_at a = h.palloc_at a := by
    intro a ha h2
    by_cases h1 : a = x
    · rw [h1, hpax', hpx]
    · exact (hdr_congr (hfr a (hout a ha h1 h2))).2.2.1
  have hal : ∀ a, B a → a ≠ x → h'.alloc_at a = h.alloc_at a := by
    intro a ha h1
    by_cases h2 : a = n
    · rw [h2, haln', hna]
    · exact (hdr_congr (hfr a (hout a ha h1 h2))).2.2.2
  have hsucc : ∀ a, B a → a ≠ h.brk - 8 → a ≠ x → a + h.size_at a ≠ n := by
    intro a ha hae h1 he
    exact h1 (ht.pred_unique ha hxB (ht.next a ha hae).1 hsx16 (by omega))
  have hxr' : x ≠ r := by omega
  have hnr' : n ≠ r := by omega
  have hre : r ≠ h.brk - 8 := by omega
  refine ⟨⟨⟨by rw [hlo]; exact ht.lo16, by rw [hbrk, hlim]; exact ht.lim,
    by rw [hhl, hlo]; exact ht.hl, Or.inl (by rw [hlo]; exact ht.first),
    ?_, ?_, ?_, ?_, ?_, ?_⟩, ?_, ?_, ?_, ?_, ?_, ?_, ?_, ?_⟩,
    hsx', halx', hsr', hpar', haln', hpan', hal⟩
  · obtain ⟨e1, e2, e3⟩ := ht.epi
    rw [hlo, hbrk, hsz _ e2 (fun hh => hxe hh.symm)]
    exact ⟨e1, Or.inl e2, e3⟩
  · intro a ha
    rw [hlo, hbrk]
    rcases ha with ha | ha
    · exact ht.range a ha
    · rw [ha]
      exact ⟨by (clear hxe hre hnr' hxr'; omega), by (clear hxe hre hnr' hxr'; omega), by (clear hxe hre hnr' hxr'; omega)⟩
  · intro a ha hae
    rw [hbrk] at hae
    rcases ha with ha | ha
    · by_cases h1 : a = x
      · rw [h1, hsx']
        exact ⟨ha16, Or.inr hr.symm⟩
      · rw [hsz a ha h1]
        obtain ⟨h16, hB⟩ := ht.next a ha hae
        exact ⟨h16, Or.inl hB⟩
    · rw [ha, hsr']
      refine ⟨by (clear hxe hre hnr' hxr'; omega), Or.inl ?_⟩
      have : r + (h.size_at x - asize) = n := by (clear hxe hre hnr' hxr'; omega)
      rw [this]
      exact hnB
  · intro a c ha hc hac
    rcases ha with ha | ha
    · by_cases h1 : a = x
      · rw [h1, hsx']
        rw [h1] at hac
        rcases hc with hc | hc
        · have := ht.apart x c hxB hc hac
          (clear hxe hre hnr' hxr'; omega)
        · (clear hxe hre hnr' hxr'; omega)
      · rw [hsz a ha h1]
        rcases hc with hc | hc
        · exact ht.apart a c ha hc hac
        · rcases ht.disjoint ha hxB h1 with hd | hd <;> (clear hxe hre hnr' hxr'; omega)
    · rw [ha, hsr']
      rw [ha] at hac
      rcases hc with hc | hc
      · have := ht.apart x c hxB hc (by (clear hxe hre hnr' hxr'; omega))
        (clear hxe hre hnr' hxr'; omega)
      · (clear hxe hre hnr' hxr'; omega)
  · intro a ha hae
    rw [hlo] at hae
    rcases ha with ha | ha
    · obtain ⟨p, hp, hpl, hpe⟩ := ht.prev a ha hae
      by_cases hpx : p = x
      · rw [hpx] at hpe
        refine ⟨r, Or.inr rfl, by (clear hxe hre hnr' hxr'; omega), ?_⟩
        rw [hsr']
        (clear hxe hre hnr' hxr'; omega)
      · exact ⟨p, Or.inl hp, hpl, by rw [hsz p hp hpx]; exact hpe⟩
    · refine ⟨x, Or.inl hxB, by (clear hxe hre hnr' hxr'; omega), ?_⟩
      rw [hsx', ha, hr]
  · intro a ha hae
    rw [hbrk] at hae
    rcases ha with ha | ha
    · by_cases h1 : a = x
      · rw [h1, hsx', ← hr, hpsr']
      · rw [hsz a ha h1, hps _ (ht.next a ha hae).2 (hsucc a ha hae h1)]
        exact ht.p16 a ha hae
    · rw [ha, hsr']
      have : r + (h.size_at x - asize) = n := by (clear hxe hre hnr' hxr'; omega)
      rw [this, hpsn']
  · rw [hlo, hpa _ ht.first (by (clear hxe hre hnr' hxr'; omega))]
    exact hinv.first_pa
  · rw [hbrk, hal _ ht.epi.2.1 (fun hh => hxe hh.symm)]
    exact hinv.epi_alloc
  · intro a ha hae hxa
    rw [hbrk] at hae
    rcases ha with ha | ha
    · by_cases h1 : a = x
      · rw [h1, hsx', ← hr, hpar', halx']
      · have hxa' : ¬ X a := fun hh => hxa (Or.inl ⟨hh, h1⟩)
        rw [hsz a ha h1, hpa _ (ht.next a ha hae).2 (hsucc a ha hae h1), hal a ha h1]
        exact hinv.pa a ha hae hxa'
    · exact absurd (Or.inr ha) hxa
  · intro a ha hae hxa hxs hfa
    rw [hbrk] at hae
    rcases ha with ha | ha
    · have h1 : a ≠ x := by
        intro hh
        rw [hh, halx'] at hfa
        cases hfa
      have hxa' : ¬ X a := fun hh => hxa (Or.inl ⟨hh, h1⟩)
      rw [hsz a ha h1] at hxs ⊢
      rw [hal a ha h1] at hfa
      by_cases hsx : a + h.size_at a = x
      · rw [hsx]; exact halx'
      · rw [hal _ (ht.next a ha hae).2 hsx]
        exact hinv.nofree2 a ha hae hxa' (fun hh => hxs (Or.inl ⟨hh, hsx⟩)) hfa
    · exact absurd (Or.inr ha) hxa
  · intro a ha hfa h16
    rcases ha with ha | ha
    · have h1 : a ≠ x := by
        intro hh
        rw [hh, halx'] at hfa
        cases hfa
      rw [hsz a ha h1] at h16 ⊢
      rw [hal a ha h1] at hfa
      have h2 : a ≠ n := by
        intro hh
        rw [hh, hna] at hfa
        cases hfa
      have hae : a ≠ h.brk - 8 := by
        intro hh
        rw [hh, ht.epi.2.2] at h16
        (clear hxe hre hnr' hxr'; omega)
      have : a + h.size_at a - 8 < x ∨ n < a + h.size_at a - 8 := by
        rcases hout a ha h1 h2 with hd | hd
        · have := ht.apart a x ha hxB hd
          left; (clear hxe hre hnr' hxr'; omega)
        · right; (clear hxe hre hnr' hxr'; omega)
      rw [word_congr (hfr _ this)]
      exact hinv.footer a ha hfa h16
    · rw [ha, hsr'] at h16 ⊢
      have : r + (h.size_at x - asize) - 8 = n - 8 := by (clear hxe hre hnr' hxr'; omega)
      rw [this]
      exact hwf (by (clear hxe hre hnr' hxr'; omega))
  · intro a ha
    rcases ha with ha | ha
    · obtain ⟨h1a, h2a, h3a⟩ := hinv.hole a ha.1
      exact ⟨Or.inl h1a, by rw [hbrk]; exact h2a, by rw [hal a h1a ha.2]; exact h3a⟩
    · rw [ha]
      exact ⟨Or.inr rfl, by rw [hbrk]; exact hre, halr'⟩
  · apply IndexRep.frame hinv.index hlo hbrk (fun i _ => by rw [hseg])
    intro i hi c hc
    obtain ⟨hcB, hcf, hcx, hc16, hc32⟩ := hinv.member hi hc
    have h1 : c ≠ x := fun hh => hcx (hh ▸ hx)
    have h2 : c ≠ n := by
      intro hh
      rw [hh, hna] at hcf
      cases hcf
    have hce : c ≠ h.brk - 8 := by
      intro hh
      rw [hh, ht.epi.2.2] at hc16
      (clear hxe hre hnr' hxr'; omega)
    have hreg : c + h.size_at c ≤ x ∨ n < c := by
      rcases hout c hcB h1 h2 with hd | hd
      · left; exact ht.apart c x hcB hxB hd
      · right; exact hd
    refine ⟨hsz c hcB h1, word_congr (hfr _ (by (clear hxe hre hnr' hxr'; omega))), ?_⟩
    intro hi1
    have := hc32 hi1
    exact word_congr (hfr _ (by (clear hxe hre hnr' hxr'; omega)))
  · intro c
    rw [hinv.members c]
    constructor
    · rintro ⟨hcB, hcf, hcx⟩
      have h1 : c ≠ x := fun hh => hcx (hh ▸ hx)
      refine ⟨Or.inl hcB, by rw [hal c hcB h1]; exact hcf, ?_⟩
      intro hh
      rcases hh with hh | hh
      · exact hcx hh.1
      · rw [hh] at hcB
        exact hrB hcB
    · rintro ⟨hcB, hcf, hcx⟩
      rcases hcB with hcB | hcB
      · have h1 : c ≠ x := by
          intro hh
          rw [hh, halx'] at hcf
          cases hcf
        rw [hal c hcB h1] at hcf
        exact ⟨hcB, hcf, fun hh => hcx (Or.inl ⟨hh, h1⟩)⟩
      · exact absurd (Or.inr hcB) hcx

/-- Growing the arena by `s` bytes: the old epilogue becomes the header of a
pending block of `s` bytes with its footer, and a new epilogue is written at
the new end. -/
theorem Inv.extend {h h' : Heap} {B : Nat → Prop} {L : Nat → List Nat}
    {X : Nat → Prop} {s e : Nat}
    (hinv : Inv h B L X) (hs32 : 32 ≤ s) (hsm : s % 16 = 0)
    (hfit : h.brk + s ≤ h.limit) (he : e = h.brk - 8)
    (hlo : h'.lo = h.lo) (hbrk : h'.brk = h.brk + s) (hlim : h'.limit = h.limit)
    (hhl : h'.heap_listp = h.heap_listp) (hseg : h'.seg_free_list = h.seg_free_list)
    (hwe : h'.word e = pack s (h.psize_at e) (h.palloc_at e) false)
    (hwf : h'.word (e + s - 8) = pack s false false false)
    (hwn : h'.word (e + s) = pack 0 false false true)
    (hfr : ∀ a, a < e → h'.mem a = h.mem a) :
    Inv h' (fun a => B a ∨ a = e + s) L (fun a => X a ∨ a = e) ∧
      h'.size_at e = s ∧ h'.palloc_at e = h.palloc_at e ∧
      (∀ a, B a → a ≠ e → h'.alloc_at a = h.alloc_at a) := by
  have ht := hinv.tiling
  obtain ⟨e1, e2, e3⟩ := ht.epi
  rw [← he] at e2 e3
  obtain ⟨hem8, hel, her⟩ := ht.range e e2
  have hlimw := ht.lim
  obtain ⟨hse', hpse', hpae', hale'⟩ := hdr_of_word hwe hsm (by omega)
  obtain ⟨hsn', hpsn', hpan', haln'⟩ :=
    hdr_of_word hwn (by decide : 0 % 16 = 0) (by decide : 0 < WORD)
  have hle : ∀ a, B a → a ≠ e → a < e := by
    intro a ha hae
    have := (ht.range a ha).2.2
    have := (ht.range a ha).1
    omega
  have hnB : ¬ B (e + s) := by
    intro hh
    have := (ht.range _ hh).2.2
    omega
  have hsz : ∀ a, B a → a ≠ e → h'.size_at a = h.size_at a :=
    fun a ha hae => (hdr_congr (hfr a (hle a ha hae))).1
  have hps : ∀ a, B a → h'.psize_at a = h.psize_at a := by
    intro a ha
    by_cases hae : a = e
    · rw [hae, hpse']
    · exact (hdr_congr (hfr a (hle a ha hae))).2.1
  have hpa : ∀ a, B a → h'.palloc_at a = h.palloc_at a := by
    intro a ha
    by_cases hae : a = e
    · rw [hae, hpae']
    · exact (hdr_congr (hfr a (hle a ha hae))).2.2.1
  have hal : ∀ a, B a → a ≠ e → h'.alloc_at a = h.alloc_at a :=
    fun a ha hae => (hdr_congr (hfr a (hle a ha hae))).2.2.2
  have hbe : h'.brk - 8 = e + s := by omega
  have hxe : ¬ X e := by
    intro hh
    have := (hinv.hole e hh).2.1
    exact this he
  refine ⟨⟨⟨by rw [hlo]; exact ht.lo16, by rw [hbrk, hlim]; omega,
    by rw [hhl, hlo]; exact ht.hl, Or.inl (by rw [hlo]; exact ht.first),
    ?_, ?_, ?_, ?_, ?_, ?_⟩, ?_, ?_, ?_, ?_, ?_, ?_, ?_, ?_⟩, hse', hpae', hal⟩
  · rw [hlo, hbe, hsn']
    exact ⟨by omega, Or.inr rfl, rfl⟩
  · intro a ha
    rw [hlo, hbrk]
    rcases ha with ha | ha
    · obtain ⟨r1, r2, r3⟩ := ht.range a ha
      exact ⟨r1, r2, by omega⟩
    · rw [ha]
      exact ⟨by omega, by omega, by omega⟩
  · intro a ha hae
    rw [hbe] at hae
    rcases ha with ha | ha
    · by_cases h1 : a = e
      · rw [h1, hse']
        exact ⟨by omega, Or.inr rfl⟩
      · rw [hsz a ha h1]
        obtain ⟨h16, hB⟩ := ht.next a ha (by rw [← he]; exact h1)
        exact ⟨h16, Or.inl hB⟩
    · exact absurd ha hae
  · intro a c ha hc hac
    rcases ha with ha | ha
    · by_cases h1 : a = e
      · rw [h1, hse']
        rw [h1] at hac
        rcases hc with hc | hc
        · have := (ht.range c hc).2.2
          omega
        · omega
      · rw [hsz a ha h1]
        rcases hc with hc | hc
        · exact ht.apart a c ha hc hac
        · have := ht.apart a e ha e2 (hle a ha h1)
          omega
    · exfalso
      rcases hc with hc | hc
      · have := (ht.range c hc).2.2
        omega
      · omega
  · intro a ha hae
    rw [hlo] at hae
    rcases ha with ha | ha
    · obtain ⟨p, hp, hpl, hpe⟩ := ht.prev a ha hae
      have hpne : p ≠ e := by
        intro hh
        have := (ht.range a ha).2.2
        omega
      exact ⟨p, Or.inl hp, hpl, by rw [hsz p hp hpne]; exact hpe⟩
    · refine ⟨e, Or.inl e2, by omega, ?_⟩
      rw [hse', ha]
  · intro a ha hae
    rw [hbe] at hae
    rcases ha with ha | ha
    · by_cases h1 : a = e
      · rw [h1, hse', hpsn']
        have : ¬ (s = 16) := by omega
        simp [this]
      · rw [hsz a ha h1, hps _ (ht.next a ha (by rw [← he]; exact h1)).2]
        exact ht.p16 a ha (by rw [← he]; exact h1)
    · exact absurd ha hae
  · rw [hlo, hpa _ ht.first]
    exact hinv.first_pa
  · rw [hbe]
    exact haln'
  · intro a ha hae hxa
    rcases ha with ha | ha
    · have h1 : a ≠ e := fun hh => hxa (Or.inr hh)
      have hae' : a ≠ h.brk - 8 := by rw [← he]; exact h1
      rw [hsz a ha h1, hpa _ (ht.next a ha hae').2, hal a ha h1]
      exact hinv.pa a ha hae' (fun hh => hxa (Or.inl hh))
    · rw [hbe] at hae
      exact absurd ha hae
  · intro a ha hae hxa hxs hfa
    rcases ha with ha | ha
    · have h1 : a ≠ e := fun hh => hxa (Or.inr hh)
      have hae' : a ≠ h.brk - 8 := by rw [← he]; exact h1
      rw [hsz a ha h1] at hxs ⊢
      rw [hal a ha h1] at hfa
      rw [hal _ (ht.next a ha hae').2 (fun hh => hxs (Or.inr hh))]
      exact hinv.nofree2 a ha hae' (fun hh => hxa (Or.inl hh))
        (fun hh => hxs (Or.inl hh)) hfa
    · rw [hbe] at hae
      exact absurd ha hae
  · intro a ha hfa h16
    rcases ha with ha | ha
    · by_cases h1 : a = e
      · rw [h1, hse']
        exact hwf
      · rw [hsz a ha h1] at h16 ⊢
        rw [hal a ha h1] at hfa
        have := ht.apart a e ha e2 (hle a ha h1)
        rw [word_congr (hfr _ (by omega))]
        exact hinv.footer a ha hfa h16
    · rw [ha, haln'] at hfa
      cases hfa
  · intro a ha
    rcases ha with ha | ha
    · obtain ⟨h1a, h2a, h3a⟩ := hinv.hole a ha
      have hae : a ≠ e := by rw [he]; exact h2a
      refine ⟨Or.inl h1a, ?_, by rw [hal a h1a hae]; exact h3a⟩
      have := hle a h1a hae
      omega
    · rw [ha]
      exact ⟨Or.inl e2, by omega, hale'⟩
  · apply IndexRep.frame_grow hinv.index hlo (by omega) (by rw [hbrk]; omega)
      (fun i _ => by rw [hseg])
    intro i hi c hc
    obtain ⟨hcB, hcf, hcx, hc16, hc32⟩ := hinv.member hi hc
    have hce : c ≠ e := by
      intro hh
      rw [hh, e3] at hc16
      omega
    have := ht.apart c e hcB e2 (hle c hcB hce)
    refine ⟨hsz c hcB hce, word_congr (hfr _ (by omega)), ?_⟩
    intro hi1
    have := hc32 hi1
    exact word_congr (hfr _ (by omega))
  · intro c
    rw [hinv.members c]
    constructor
    · rintro ⟨hcB, hcf, hcx⟩
      have hce : c ≠ e := by
        intro hh
        rw [hh, he, hinv.epi_alloc] at hcf
        cases hcf
      exact ⟨Or.inl hcB, by rw [hal c hcB hce]; exact hcf, fun hh => hh.elim hcx hce⟩
    · rintro ⟨hcB, hcf, hcx⟩
      rcases hcB with hcB | hcB
      · have hce : c ≠ e := fun hh => hcx (Or.inr hh)
        rw [hal c hcB hce] at hcf
        exact ⟨hcB, hcf, fun hh => hcx (Or.inl hh)⟩
      · rw [hcB, haln'] at hcf
        cases hcf

/-- The invariant depends on the sets of blocks and of pending blocks only
through their members. -/
theorem Inv.congr_set {h : Heap} {B B' : Nat → Prop} {L : Nat → List Nat}
    {X X' : Nat → Prop} (hinv : Inv h B L X) (hB : ∀ a, B a ↔ B' a)
    (hX : ∀ a, X a ↔ X' a) : Inv h B' L X' := by
  have e1 : B = B' := funext fun a => propext (hB a)
  have e2 : X = X' := funext fun a => propext (hX a)
  rw [← e1, ← e2]
  exact hinv

/-- The function `find_prev` on a header that is not the first word of the
arena. -/
theorem find_prev_ok (h : Heap) (x : Nat) (hv : h.valid x) (hv8 : h.valid (x - 8))
    (h16 : 16 ≤ x) (hlt : x < WORD) :
    find_prev h x = Except.ok
      (if h.psize_at x then x - 16
        else psub x (extract_size (h.word (x - 8)))) := by
  unfold find_prev find_prev_footer
  rw [get_alloc_ok h x _ _ _ hv, ok_bind]
  unfold Heap.psize_at
  cases extract_alloc (h.word x) true false false
  · have hw : wsize = 8 := rfl
    rw [hw, psub_eq x 8 (by omega) hlt]
    simp only [Bool.not_false, if_true, Bool.false_eq_true, if_false]
    rw [load_ok h _ hv8, ok_bind]
    rfl
  · have hd : dsize = 16 := rfl
    simp only [Bool.not_true, Bool.false_eq_true, if_false, if_true]
    rw [hd, psub_eq x 16 h16 hlt]
    rfl

/-- The function `coalesce` when the header of the block says that the previous
block is allocated and the successor is free: the successor is unlinked, the
block takes both sizes and is inserted. -/
theorem coalesce_next_free (k : Heap) (b s ns nns : Nat) (ps bss : Bool)
    (hword : k.brk ≤ WORD) (hvb : k.valid b) (hs : k.size_at b = s)
    (hns : k.size_at (b + s) = ns) (hnns : k.size_at (b + s + ns) = nns)
    (hnext : k.valid (b + s)) (hnn : k.valid (b + s + ns))
    (hps : k.psize_at b = ps) (hbss : k.psize_at (b + s) = bss)
    (hpa : k.palloc_at b = true) (hna : k.alloc_at (b + s) = false) :
    coalesce k b =
      (do let h ← remove_free_block k (b + s)
          let h ← write_header h b ((s + ns) % WORD) ps true false
          let h ← write_header h (b + s + ns) nns false false true
          let h ← write_free_footer h b ((s + ns) % WORD) false
          let h ← insert h b
          pure (b, h)) := by
  obtain ⟨hn1, hn2, hn3⟩ := id hnext
  obtain ⟨hm1, hm2, hm3⟩ := id hnn
  subst hs
  subst hns
  subst hnns
  unfold Heap.psize_at at hps hbss
  unfold Heap.palloc_at at hpa
  unfold Heap.alloc_at at hna
  unfold coalesce
  rw [find_next_ok k b hvb (by omega), ok_bind,
    find_next_ok k _ hnext (by omega), ok_bind,
    get_alloc_ok k b _ _ _ hvb, ok_bind,
    get_alloc_ok k _ _ _ _ hnext, ok_bind,
    get_alloc_ok k b _ _ _ hvb, ok_bind,
    get_alloc_ok k _ _ _ _ hnext, ok_bind,
    get_size_ok k b hvb, ok_bind,
    get_size_ok k _ hnext, ok_bind,
    get_size_ok k _ hnn, ok_bind, hpa, hna, hps, hbss]
  simp only [Bool.and_false, Bool.false_eq_true, if_false, Bool.not_false, Bool.and_self,
    if_true]

/-- The function `coalesce` when the header of the block says that the previous
block is free and the successor is allocated: the previous block `p` is
unlinked, takes both sizes and is inserted. -/
theorem coalesce_prev_free (k : Heap) (b s ns p sp : Nat) (pps : Bool)
    (hword : k.brk ≤ WORD) (hvb : k.valid b) (hs : k.size_at b = s)
    (hns : k.size_at (b + s) = ns)
    (hnext : k.valid (b + s)) (hnn : k.valid (b + s + ns))
    (hpa : k.palloc_at b = false) (hna : k.alloc_at (b + s) = true)
    (hprev : find_prev k b = Except.ok p) (hvp : k.valid p)
    (hpps : k.psize_at p = pps) (hsp : k.size_at p = sp) :
    coalesce k b =
      (do let h ← remove_free_block k p
          let h ← write_header h p ((s + sp) % WORD) pps true false
          let h ← write_header h (b + s) ns false false true
          let h ← write_free_footer h p ((s + sp) % WORD) false
          let h ← insert h p
          pure (p, h)) := by
  obtain ⟨hn1, hn2, hn3⟩ := id hnext
  obtain ⟨hm1, hm2, hm3⟩ := id hnn
  subst hs
  subst hns
  subst hsp
  unfold Heap.psize_at at hpps
  unfold Heap.palloc_at at hpa
  unfold Heap.alloc_at at hna
  unfold coalesce
  rw [find_next_ok k b hvb (by omega), ok_bind,
    find_next_ok k _ hnext (by omega), ok_bind,
    get_alloc_ok k b _ _ _ hvb, ok_bind,
    get_alloc_ok k _ _ _ _ hnext, ok_bind,
    get_alloc_ok k b _ _ _ hvb, ok_bind,
    get_alloc_ok k _ _ _ _ hnext, ok_bind,
    get_size_ok k b hvb, ok_bind,
    get_size_ok k _ hnext, ok_bind,
    get_size_ok k _ hnn, ok_bind, hpa, hna]
  simp only [Bool.false_and, Bool.false_eq_true, if_false, Bool.not_false, Bool.and_self,
    Bool.not_true, Bool.and_false, Bool.true_and, if_true]
  rw [hprev, ok_bind, get_alloc_ok k p _ _ _ hvp, ok_bind, get_size_ok k p hvp, ok_bind,
    hpps]

/-- The function `coalesce` when the previous block and the successor are both
free: both are unlinked, the previous block `p` takes the three sizes and is
inserted. -/
theorem coalesce_both_free (k : Heap) (b s ns nns p sp : Nat) (pps : Bool)
    (hword : k.brk ≤ WORD) (hvb : k.valid b) (hs : k.size_at b = s)
    (hns : k.size_at (b + s) = ns) (hnns : k.size_at (b + s + ns) = nns)
    (hnext : k.valid (b + s)) (hnn : k.valid (b + s + ns))
    (hpa : k.palloc_at b = false) (hna : k.alloc_at (b + s) = false)
    (hprev : find_prev k b = Except.ok p) (hvp : k.valid p)
    (hpps : k.psize_at p = pps) (hsp : k.size_at p = sp) :
    coalesce k b =
      (do let h ← remove_free_block k p
          let h ← remove_free_block h (b + s)
          let h ← write_header h p ((s + (ns + sp) % WORD) % WORD) pps true false
          let h ← write_header h (b + s + ns) nns false false true
          let h ← write_free_footer h p ((s + (ns + sp) % WORD) % WORD) false
          let h ← insert h p
          pure (p, h)) := by
  obtain ⟨hn1, hn2, hn3⟩ := id hnext
  obtain ⟨hm1, hm2, hm3⟩ := id hnn
  subst hs
  subst hns
  subst hnns
  subst hsp
  unfold Heap.psize_at at hpps
  unfold Heap.palloc_at at hpa
  unfold Heap.alloc_at at hna
  unfold coalesce
  rw [find_next_ok k b hvb (by omega), ok_bind,
    find_next_ok k _ hnext (by omega), ok_bind,
    get_alloc_ok k b _ _ _ hvb, ok_bind,
    get_alloc_ok k _ _ _ _ hnext, ok_bind,
    get_alloc_ok k b _ _ _ hvb, ok_bind,
    get_alloc_ok k _ _ _ _ hnext, ok_bind,
    get_size_ok k b hvb, ok_bind,
    get_size_ok k _ hnext, ok_bind,
    get_size_ok k _ hnn, ok_bind, hpa, hna]
  simp only [Bool.false_and, Bool.false_eq_true, if_false, Bool.not_false, Bool.and_self,
    Bool.not_true, Bool.and_false, Bool.true_and, if_true]
  rw [hprev, ok_bind, get_alloc_ok k p _ _ _ hvp, ok_bind, get_size_ok k p hvp, ok_bind,
    hpps]

theorem put_mem_other (h : Heap) (a v x : Nat) (hx : x ≠ a) :
    (h.put a v).mem x = h.mem x := by
  show (if x = a then v else h.mem x) = h.mem x
  rw [if_neg hx]

/-- A free block of the invariant that is not pending is in the bucket of its
size. -/
theorem Inv.free_member {h : Heap} {B : Nat → Prop} {L : Nat → List Nat}
    {X : Nat → Prop} (hinv : Inv h B L X) {b : Nat} (hb : B b)
    (hf : h.alloc_at b = false) (hx : ¬ X b) :
    find_index (h.size_at b) < 14 ∧ b ∈ L (find_index (h.size_at b)) := by
  obtain ⟨i, hi, hbi⟩ := (hinv.members b).mpr ⟨hb, hf, hx⟩
  have := (hinv.index.block i hi b hbi).2
  rw [this]
  exact ⟨hi, hbi⟩

/-- A block of the invariant and the block after it have readable headers. -/
theorem Tiling.valid_hdr {h : Heap} {B : Nat → Prop} (ht : Tiling h B) {b : Nat}
    (hb : B b) : h.valid b := by
  obtain ⟨h1, h2, h3⟩ := ht.range b hb
  exact ⟨by omega, by omega, h3⟩

/-- The function `coalesce` on the pending block when both neighbours are
allocated. -/
theorem Inv.coalesce_case1 {h : Heap} {B : Nat → Prop} {L : Nat → List Nat} {x : Nat}
    (hinv : Inv h B L (fun a => a = x))
    (hpx : h.palloc_at x = true) (hna : h.alloc_at (x + h.size_at x) = true) :
    ∃ r h' B' L', coalesce h x = Except.ok (r, h') ∧ Inv h' B' L' (fun _ => False) ∧
      h'.lo = h.lo ∧ h'.brk = h.brk ∧ h'.limit = h.limit ∧
      h'.heap_listp = h.heap_listp ∧ B' r ∧ h'.alloc_at r = false ∧
      h.size_at x ≤ h'.size_at r ∧
      (∀ a, B a → h.alloc_at a = true → B' a ∧ h'.alloc_at a = true) := by
  have ht := hinv.tiling
  obtain ⟨hxB, hxe, hxf⟩ := hinv.hole x rfl
  obtain ⟨hsx16, hsxm, hnB, hnr⟩ := ht.next_range hxB hxe
  obtain ⟨hxm8, hxl, hxr⟩ := ht.range x hxB
  have hlimw := ht.lim
  have hword : h.brk ≤ WORD := by omega
  have hvx := ht.valid_hdr hxB
  have hvn := ht.valid_hdr hnB
  have hnnv : h.valid (x + h.size_at x + h.size_at (x + h.size_at x)) := by
    by_cases hne : x + h.size_at x = h.brk - 8
    · rw [hne, ht.epi.2.2]
      rw [hne] at hvn
      exact hvn
    · exact ht.valid_hdr (ht.next _ hnB hne).2
  have hxn : x ≠ x + h.size_at x := by omega
  -- the two header writes
  obtain ⟨k, hk⟩ : ∃ k : Heap, k = (h.put x (pack (h.size_at x) (h.psize_at x) true false)).put
      (x + h.size_at x) (pack (h.size_at (x + h.size_at x))
        (h.psize_at (x + h.size_at x)) false true) := ⟨_, rfl⟩
  have hw1 : k.word x = pack (h.size_at x) (h.psize_at x) true false := by
    rw [hk, put_word_other _ _ _ _ hxn]
    exact put_word_same _ _ _ (pack_lt _ _ _ _ hsxm (size_at_lt h x))
  have hw2 : k.word (x + h.size_at x) =
      pack (h.size_at (x + h.size_at x)) (h.psize_at (x + h.size_at x)) false true := by
    rw [hk]
    exact put_word_same _ _ _ (pack_lt _ _ _ _ (size_at_mod h _) (size_at_lt h _))
  have hfr : ∀ a, a ≠ x → a ≠ x + h.size_at x → k.mem a = h.mem a := by
    intro a h1 h2
    rw [hk, put_mem_other _ _ _ _ h2, put_mem_other _ _ _ _ h1]
  have hb1 : k.lo = h.lo := by rw [hk]; rfl
  have hb2 : k.brk = h.brk := by rw [hk]; rfl
  have hb3 : k.limit = h.limit := by rw [hk]; rfl
  have hb4 : k.heap_listp = h.heap_listp := by rw [hk]; rfl
  have hb5 : k.seg_free_list = h.seg_free_list := by rw [hk]; rfl
  obtain ⟨hinv2, hnp2⟩ := hinv.stamp_next rfl hpx hna hb1 hb2 hb3 hb4 hb5 hw1 hw2 hfr
  obtain ⟨hsx2, _, hpx2, hfx2⟩ := hdr_of_word hw1 hsxm (size_at_lt h x)
  obtain ⟨_, _, _, hna2⟩ := hdr_of_word hw2 (size_at_mod h _) (size_at_lt h _)
  obtain ⟨hF, hins, hinvF, hloF, hbrkF, hlimF, hhlF, hhdrF, _⟩ :=
    hinv2.insert_pending hpx2 (by rw [hsx2]; exact hna2) (by rw [hsx2]; exact hnp2)
  refine ⟨x, hF, B, _, ?_, hinvF, by rw [hloF, hb1], by rw [hbrkF, hb2],
    by rw [hlimF, hb3], by rw [hhlF, hb4], hxB, ?_, ?_, ?_⟩
  · rw [coalesce_both_allocated h x (h.size_at x) (h.size_at (x + h.size_at x))
      (h.psize_at x) (h.psize_at (x + h.size_at x)) hword hvx rfl rfl hvn hnnv rfl rfl
      hpx hna, ← hk, hins]
    rfl
  · rw [(hdr_congr (hhdrF x hxB)).2.2.2]
    exact hfx2
  · rw [(hdr_congr (hhdrF x hxB)).1, hsx2]
  · intro a ha haa
    refine ⟨ha, ?_⟩
    rw [(hdr_congr (hhdrF a ha)).2.2.2]
    have hax : a ≠ x := by
      intro hh
      rw [hh, hxf] at haa
      cases haa
    by_cases han : a = x + h.size_at x
    · rw [han]; exact hna2
    · rw [(hdr_congr (hfr a hax han)).2.2.2]
      exact haa

/-- The words of the state after the three stores of a merge: the header at
`x`, the header at `n = x + s` with its status bits cleared and the footer at
`n - 8`; every other word outside `[x, n]` is untouched. -/
theorem merge_words (g : Heap) (x s n w : Nat) (ps pa : Bool) (hx : x % 16 = 8)
    (hs16 : 16 ≤ s) (hsm : s % 16 = 0) (hn : n = x + s) (hwm : w % 16 = 0)
    (hwl : w < WORD) (hlt : n + 8 ≤ WORD) (m : Heap)
    (hm : m = ((g.put x (pack s ps pa false)).put n (pack w false false true)).put
      (n - 8) (pack s false false false)) :
    m.word x = pack s ps pa false ∧ m.word n = pack w false false true ∧
      m.word (n - 8) = pack s false false false ∧
      (∀ a, a < x ∨ n < a → m.mem a = g.mem a) ∧
      m.lo = g.lo ∧ m.brk = g.brk ∧ m.limit = g.limit ∧
      m.heap_listp = g.heap_listp ∧ m.seg_free_list = g.seg_free_list := by
  have hsl : s < WORD := by omega
  have h1 : x ≠ n - 8 := by omega
  have h2 : x ≠ n := by omega
  have h3 : n ≠ n - 8 := by omega
  refine ⟨?_, ?_, ?_, ?_, ?_, ?_, ?_, ?_, ?_⟩
  · rw [hm, put_word_other _ _ _ _ h1, put_word_other _ _ _ _ h2]
    exact put_word_same _ _ _ (pack_lt _ _ _ _ hsm hsl)
  · rw [hm, put_word_other _ _ _ _ h3]
    exact put_word_same _ _ _ (pack_lt _ _ _ _ hwm hwl)
  · rw [hm]
    exact put_word_same _ _ _ (pack_lt _ _ _ _ hsm hsl)
  · intro a ha
    rw [hm, put_mem_other _ _ _ _ (by omega), put_mem_other _ _ _ _ (by omega),
      put_mem_other _ _ _ _ (by omega)]
  · rw [hm]; rfl
  · rw [hm]; rfl
  · rw [hm]; rfl
  · rw [hm]; rfl
  · rw [hm]; rfl

/-- The function `coalesce` on the pending block when the block before it is
allocated and the block after it is free. -/
theorem Inv.coalesce_case2 {h : Heap} {B : Nat → Prop} {L : Nat → List Nat} {x : Nat}
    (hinv : Inv h B L (fun a => a = x))
    (hpx : h.palloc_at x = true) (hnf : h.alloc_at (x + h.size_at x) = false) :
    ∃ r h' B' L', coalesce h x = Except.ok (r, h') ∧ Inv h' B' L' (fun _ => False) ∧
      h'.lo = h.lo ∧ h'.brk = h.brk ∧ h'.limit = h.limit ∧
      h'.heap_listp = h.heap_listp ∧ B' r ∧ h'.alloc_at r = false ∧
      h.size_at x ≤ h'.size_at r ∧
      (∀ a, B a → h.alloc_at a = true → B' a ∧ h'.alloc_at a = true) := by
  have ht := hinv.tiling
  obtain ⟨hxB, hxe, hxf⟩ := hinv.hole x rfl
  obtain ⟨hsx16, hsxm, hnB, hnr⟩ := ht.next_range hxB hxe
  obtain ⟨hxm8, hxl, hxr⟩ := ht.range x hxB
  have hlimw := ht.lim
  have hword : h.brk ≤ WORD := by omega
  have hne : x + h.size_at x ≠ h.brk - 8 := by
    intro hh
    rw [hh, hinv.epi_alloc] at hnf
    cases hnf
  obtain ⟨hsn16, hsnm, hnnB, hnnr⟩ := ht.next_range hnB hne
  have hnx : x + h.size_at x ≠ x := by omega
  have hnnx : x + h.size_at x + h.size_at (x + h.size_at x) ≠ x := by omega
  have hS16 : 16 ≤ h.size_at x + h.size_at (x + h.size_at x) := by omega
  have hnnW : x + h.size_at x + h.size_at (x + h.size_at x) + 8 ≤ WORD := by omega
  have hfeq : x + (h.size_at x + h.size_at (x + h.size_at x)) - 8 =
      x + h.size_at x + h.size_at (x + h.size_at x) - 8 := by omega
  have hxnn : x ≠ x + h.size_at x + h.size_at (x + h.size_at x) := by omega
  have hS8 : 8 ≤ h.size_at x + h.size_at (x + h.size_at x) := by omega
  have hxW : x + 8 + (h.size_at x + h.size_at (x + h.size_at x)) ≤ WORD := by omega
  have hfv : h.valid (x + (h.size_at x + h.size_at (x + h.size_at x)) - 8) :=
    ⟨by omega, by omega, by omega⟩
  have hSlt : h.size_at x + h.size_at (x + h.size_at x) < WORD := by omega
  have hSm : (h.size_at x + h.size_at (x + h.size_at x)) % 16 = 0 := by omega
  have hnna : h.alloc_at (x + h.size_at x + h.size_at (x + h.size_at x)) = true :=
    hinv.nofree2 _ hnB hne hnx hnnx hnf
  obtain ⟨hidx, hmem⟩ := hinv.free_member hnB hnf hnx
  obtain ⟨h1, hrm, hinv1, hlo1, hbrk1, hlim1, hhl1, hhdr1, _⟩ := hinv.remove_member hidx hmem
  have e1 := hdr_congr (hhdr1 x hxB)
  have e2 := hdr_congr (hhdr1 _ hnB)
  have e3 := hdr_congr (hhdr1 _ hnnB)
  have hvx1 : h1.valid x := valid_congr hlo1 hbrk1 (ht.valid_hdr hxB)
  have hvnn1 : h1.valid (x + h.size_at x + h.size_at (x + h.size_at x)) :=
    valid_congr hlo1 hbrk1 (ht.valid_hdr hnnB)
  obtain ⟨k, hk⟩ : ∃ k : Heap, k = ((h1.put x (pack
      (h.size_at x + h.size_at (x + h.size_at x)) (h.psize_at x) true false)).put
      (x + h.size_at x + h.size_at (x + h.size_at x))
      (pack (h.size_at (x + h.size_at x + h.size_at (x + h.size_at x)))
        false false true)).put
      (x + (h.size_at x + h.size_at (x + h.size_at x)) - 8)
      (pack (h.size_at x + h.size_at (x + h.size_at x)) false false false) := ⟨_, rfl⟩
  obtain ⟨hwx, hwnn, hwf, hfr, hb1, hb2, hb3, hb4, hb5⟩ :=
    merge_words h1 x _ _ _ _ _ hxm8 hS16 hSm (Nat.add_assoc _ _ _) (size_at_mod h _)
      (size_at_lt h _) hnnW k (by rw [hk, hfeq])
  obtain ⟨hinv2, hsx2, hpnn2, hal2⟩ := @Inv.merge h1 k B _ _ x (x + h.size_at x)
    (x + h.size_at x + h.size_at (x + h.size_at x)) hinv1 (Or.inl rfl)
    (by rw [e1.1]) (Or.inr rfl) (by rw [e2.1]) (by rw [e3.2.2.2]; exact hnna)
    hb1 hb2 hb3 hb4 hb5
    (by rw [e1.1, e2.1, e1.2.1, e1.2.2.1, hpx]; exact hwx)
    (by rw [e1.1, e2.1]; exact hwf)
    (by rw [e3.1]; exact hwnn) hfr
  have hinv3 : Inv k (fun a => B a ∧ a ≠ x + h.size_at x) (erase_at L
      (find_index (h.size_at (x + h.size_at x))) (x + h.size_at x)) (fun a => a = x) := by
    apply hinv2.congr_set (fun a => Iff.rfl)
    intro a
    constructor
    · rintro ⟨h1a | h1a, h2a⟩
      · exact h1a
      · exact absurd h1a h2a
    · intro h1a
      exact ⟨Or.inl h1a, by rw [h1a]; exact hnx.symm⟩
  obtain ⟨_, _, hpx2, hfx2⟩ := hdr_of_word hwx hSm hSlt
  obtain ⟨_, _, _, hna2⟩ := hdr_of_word hwnn (size_at_mod h _) (size_at_lt h _)
  rw [e1.1, e2.1] at hsx2
  have hnn2 : x + k.size_at x = x + h.size_at x + h.size_at (x + h.size_at x) := by
    rw [hsx2]; exact (Nat.add_assoc _ _ _).symm
  obtain ⟨hF, hins, hinvF, hloF, hbrkF, hlimF, hhlF, hhdrF, _⟩ :=
    hinv3.insert_pending hpx2 (by rw [hnn2]; exact hna2) (by rw [hnn2]; exact hpnn2)
  refine ⟨x, hF, _, _, ?_, hinvF, by rw [hloF, hb1, hlo1], by rw [hbrkF, hb2, hbrk1],
    by rw [hlimF, hb3, hlim1], by rw [hhlF, hb4, hhl1], ⟨hxB, hnx.symm⟩, ?_, ?_, ?_⟩
  · rw [coalesce_next_free h x (h.size_at x) (h.size_at (x + h.size_at x))
      (h.size_at (x + h.size_at x + h.size_at (x + h.size_at x)))
      (h.psize_at x) (h.psize_at (x + h.size_at x)) hword (ht.valid_hdr hxB) rfl rfl rfl
      (ht.valid_hdr hnB) (ht.valid_hdr hnnB) rfl rfl hpx hnf, hrm, ok_bind,
      Nat.mod_eq_of_lt hSlt, write_header_ok _ _ _ _ _ _ hvx1, ok_bind,
      write_header_ok _ _ _ _ _ _ (by exact hvnn1), ok_bind,
      write_free_footer_ok _ x _ (h.size_at x + h.size_at (x + h.size_at x)) false
        (by exact hvx1)
        (by rw [put_size_other _ _ _ _ hxnn]
            exact put_size_same _ _ _ _ _ _ hSm hSlt)
        hS8
        (by exact (show h1.valid (x + (h.size_at x + h.size_at (x + h.size_at x)) - 8) from
          valid_congr hlo1 hbrk1 hfv))
        hxW, ok_bind, ← hk, hins]
    rfl
  · rw [(hdr_congr (hhdrF x ⟨hxB, hnx.symm⟩)).2.2.2]
    exact hfx2
  · rw [(hdr_congr (hhdrF x ⟨hxB, hnx.symm⟩)).1, hsx2]
    exact Nat.le_add_right _ _
  · intro a ha haa
    have han : a ≠ x + h.size_at x := by
      intro hh
      rw [hh, hnf] at haa
      cases haa
    refine ⟨⟨ha, han⟩, ?_⟩
    rw [(hdr_congr (hhdrF a ⟨ha, han⟩)).2.2.2, hal2 a ha han, (hdr_congr (hhdr1 a ha)).2.2.2]
    exact haa

/-- The header of a free block that is not pending, and whose predecessor is
not pending, says that the block before it is allocated. -/
theorem Inv.palloc_of_free {h : Heap} {B : Nat → Prop} {L : Nat → List Nat}
    {X : Nat → Prop} (hinv : Inv h B L X) {p : Nat} (hp : B p)
    (hf : h.alloc_at p = false) (hx : ¬ X p)
    (hq : ∀ q, B q → q + h.size_at q = p → ¬ X q) : h.palloc_at p = true := by
  have ht := hinv.tiling
  by_cases hfirst : p = h.lo + 8
  · rw [hfirst]
    exact hinv.first_pa
  · obtain ⟨q, hqB, hql, hqe⟩ := ht.prev p hp hfirst
    have hqne : q ≠ h.brk - 8 := by
      have := (ht.range p hp).2.2
      omega
    have h1 := hinv.pa q hqB hqne (hq q hqB hqe)
    have h2 := hinv.nofree2 q hqB hqne (hq q hqB hqe) (by rw [hqe]; exact hx)
    rw [hqe] at h1 h2
    rw [h1]
    cases hqa : h.alloc_at q
    · have := h2 hqa
      rw [hf] at this
      cases this
    · rfl

/-- When the header of a block says that the block before it is free, the
block before it is a free block of the tiling and `find_prev` returns it. -/
theorem Inv.prev_found {h : Heap} {B : Nat → Prop} {L : Nat → List Nat}
    {X : Nat → Prop} (hinv : Inv h B L X) {x : Nat} (hx : B x)
    (hpx : h.palloc_at x = false) (hX : ∀ q, B q → q + h.size_at q = x → ¬ X q) :
    ∃ p, find_prev h x = Except.ok p ∧ B p ∧ p < x ∧ p + h.size_at p = x ∧
      h.alloc_at p = false ∧ 16 ≤ h.size_at p := by
  have ht := hinv.tiling
  have hfirst : x ≠ h.lo + 8 := by
    intro hh
    rw [hh, hinv.first_pa] at hpx
    cases hpx
  obtain ⟨p, hpB, hpl, hpe⟩ := ht.prev x hx hfirst
  obtain ⟨hxm8, hxl, hxr⟩ := ht.range x hx
  obtain ⟨hpm8, hpl', hpr⟩ := ht.range p hpB
  have hlimw := ht.lim
  have hpne : p ≠ h.brk - 8 := by omega
  obtain ⟨hsp16, hspm, _, _⟩ := ht.next_range hpB hpne
  have hpf : h.alloc_at p = false := by
    have := hinv.pa p hpB hpne (hX p hpB hpe)
    rw [hpe, hpx] at this
    exact this.symm
  have hp16 := ht.p16 p hpB hpne
  rw [hpe] at hp16
  refine ⟨p, ?_, hpB, hpl, hpe, hpf, hsp16⟩
  rw [find_prev_ok h x (ht.valid_hdr hx) ⟨by omega, by omega, by omega⟩ (by omega)
    (by omega), hp16]
  by_cases h16 : h.size_at p = 16
  · simp only [h16, decide_True, if_true]
    have : x - 16 = p := by omega
    rw [this]
  · simp only [h16, decide_False, Bool.false_eq_true, if_false]
    have hfoot := hinv.footer p hpB hpf (by omega)
    have : p + h.size_at p - 8 = x - 8 := by omega
    rw [this] at hfoot
    rw [hfoot, extract_size_pack _ _ _ _ hspm (size_at_lt h p),
      psub_eq _ _ (by omega) (by omega)]
    have : x - h.size_at p = p := by omega
    rw [this]

/-- The function `coalesce` on the pending block when the block before it is
free and the block after it is allocated. -/
theorem Inv.coalesce_case3 {h : Heap} {B : Nat → Prop} {L : Nat → List Nat} {x : Nat}
    (hinv : Inv h B L (fun a => a = x))
    (hpx : h.palloc_at x = false) (hna : h.alloc_at (x + h.size_at x) = true) :
    ∃ r h' B' L', coalesce h x = Except.ok (r, h') ∧ Inv h' B' L' (fun _ => False) ∧
      h'.lo = h.lo ∧ h'.brk = h.brk ∧ h'.limit = h.limit ∧
      h'.heap_listp = h.heap_listp ∧ B' r ∧ h'.alloc_at r = false ∧
      h.size_at x ≤ h'.size_at r ∧
      (∀ a, B a → h.alloc_at a = true → B' a ∧ h'.alloc_at a = true) := by
  have ht := hinv.tiling
  obtain ⟨hxB, hxe, hxf⟩ := hinv.hole x rfl
  obtain ⟨hsx16, hsxm, hnB, hnr⟩ := ht.next_range hxB hxe
  obtain ⟨hxm8, hxl, hxr⟩ := ht.range x hxB
  have hlimw := ht.lim
  have hword : h.brk ≤ WORD := by omega
  obtain ⟨p, hfp, hpB, hplt, hpe, hpf, hsp16⟩ := hinv.prev_found hxB hpx
    (fun q _ hq hh => by rw [hh] at hq; omega)
  have hspm := size_at_mod h p
  obtain ⟨hpm8, hpl, hpr⟩ := ht.range p hpB
  have hpx' : p ≠ x := by omega
  have hS16 : 16 ≤ h.size_at p + h.size_at x := by omega
  have hnW : x + h.size_at x + 8 ≤ WORD := by omega
  have hnp' : x + h.size_at x = p + (h.size_at p + h.size_at x) := by omega
  have hfeq : p + (h.size_at p + h.size_at x) - 8 = x + h.size_at x - 8 := by omega
  have hpn : p ≠ x + h.size_at x := by omega
  have hS8 : 8 ≤ h.size_at p + h.size_at x := by omega
  have hpW : p + 8 + (h.size_at p + h.size_at x) ≤ WORD := by omega
  have hfv : h.valid (p + (h.size_at p + h.size_at x) - 8) :=
    ⟨by omega, by omega, by omega⟩
  have hSlt : h.size_at p + h.size_at x < WORD := by omega
  have hSm : (h.size_at p + h.size_at x) % 16 = 0 := by omega
  have hpp : h.palloc_at p = true :=
    hinv.palloc_of_free hpB hpf hpx' (fun q _ hq hh => by rw [hh] at hq; omega)
  have hnnv : h.valid (x + h.size_at x + h.size_at (x + h.size_at x)) := by
    by_cases hne : x + h.size_at x = h.brk - 8
    · rw [hne, ht.epi.2.2]
      exact ht.valid_hdr ht.epi.2.1
    · exact ht.valid_hdr (ht.next _ hnB hne).2
  obtain ⟨hidx, hmem⟩ := hinv.free_member hpB hpf hpx'
  obtain ⟨h1, hrm, hinv1, hlo1, hbrk1, hlim1, hhl1, hhdr1, _⟩ := hinv.remove_member hidx hmem
  have e1 := hdr_congr (hhdr1 x hxB)
  have e2 := hdr_congr (hhdr1 _ hnB)
  have e3 := hdr_congr (hhdr1 p hpB)
  have hvp1 : h1.valid p := valid_congr hlo1 hbrk1 (ht.valid_hdr hpB)
  have hvn1 : h1.valid (x + h.size_at x) := valid_congr hlo1 hbrk1 (ht.valid_hdr hnB)
  obtain ⟨k, hk⟩ : ∃ k : Heap, k = ((h1.put p (pack
      (h.size_at p + h.size_at x) (h.psize_at p) true false)).put
      (x + h.size_at x) (pack (h.size_at (x + h.size_at x)) false false true)).put
      (p + (h.size_at p + h.size_at x) - 8)
      (pack (h.size_at p + h.size_at x) false false false) := ⟨_, rfl⟩
  obtain ⟨hwx, hwnn, hwf, hfr, hb1, hb2, hb3, hb4, hb5⟩ :=
    merge_words h1 p _ _ _ _ _ hpm8 hS16 hSm hnp' (size_at_mod h _)
      (size_at_lt h _) hnW k (by rw [hk, hfeq])
  obtain ⟨hinv2, hsx2, hpnn2, hal2⟩ := @Inv.merge h1 k B _ _ p x (x + h.size_at x)
    hinv1 (Or.inr rfl) (by rw [e3.1, hpe]) (Or.inl rfl) (by rw [e1.1])
    (by rw [e2.2.2.2]; exact hna) hb1 hb2 hb3 hb4 hb5
    (by rw [e3.1, e1.1, e3.2.1, e3.2.2.1, hpp]; exact hwx)
    (by rw [e3.1, e1.1]; exact hwf)
    (by rw [e2.1]; exact hwnn) hfr
  have hinv3 : Inv k (fun a => B a ∧ a ≠ x) (erase_at L (find_index (h.size_at p)) p)
      (fun a => a = p) := by
    apply hinv2.congr_set (fun a => Iff.rfl)
    intro a
    constructor
    · rintro ⟨h1a | h1a, h2a⟩
      · exact absurd h1a h2a
      · exact h1a
    · intro h1a
      exact ⟨Or.inr h1a, by rw [h1a]; exact hpx'⟩
  obtain ⟨_, _, hpx2, hfx2⟩ := hdr_of_word hwx hSm hSlt
  obtain ⟨_, _, _, hna2⟩ := hdr_of_word hwnn (size_at_mod h _) (size_at_lt h _)
  rw [e3.1, e1.1] at hsx2
  have hnn2 : p + k.size_at p = x + h.size_at x := by
    rw [hsx2]; exact hnp'.symm
  obtain ⟨hF, hins, hinvF, hloF, hbrkF, hlimF, hhlF, hhdrF, _⟩ :=
    hinv3.insert_pending hpx2 (by rw [hnn2]; exact hna2) (by rw [hnn2]; exact hpnn2)
  have hcomm : (h.size_at x + h.size_at p) % WORD = h.size_at p + h.size_at x := by
    rw [Nat.add_comm, Nat.mod_eq_of_lt hSlt]
  refine ⟨p, hF, _, _, ?_, hinvF, by rw [hloF, hb1, hlo1], by rw [hbrkF, hb2, hbrk1],
    by rw [hlimF, hb3, hlim1], by rw [hhlF, hb4, hhl1], ⟨hpB, hpx'⟩, ?_, ?_, ?_⟩
  · rw [coalesce_prev_free h x (h.size_at x) (h.size_at (x + h.size_at x)) p
      (h.size_at p) (h.psize_at p) hword (ht.valid_hdr hxB) rfl rfl
      (ht.valid_hdr hnB) hnnv hpx hna hfp (ht.valid_hdr hpB) rfl rfl, hrm, ok_bind,
      hcomm, write_header_ok _ _ _ _ _ _ hvp1, ok_bind,
      write_header_ok _ _ _ _ _ _ (by exact hvn1), ok_bind,
      write_free_footer_ok _ p _ (h.size_at p + h.size_at x) false
        (by exact hvp1)
        (by rw [put_size_other _ _ _ _ hpn]
            exact put_size_same _ _ _ _ _ _ hSm hSlt)
        hS8
        (by exact (show h1.valid (p + (h.size_at p + h.size_at x) - 8) from
          valid_congr hlo1 hbrk1 hfv))
        hpW, ok_bind, ← hk, hins]
    rfl
  · rw [(hdr_congr (hhdrF p ⟨hpB, hpx'⟩)).2.2.2]
    exact hfx2
  · rw [(hdr_congr (hhdrF p ⟨hpB, hpx'⟩)).1, hsx2]
    exact Nat.le_add_left _ _
  · intro a ha haa
    have han : a ≠ x := by
      intro hh
      rw [hh, hxf] at haa
      cases haa
    refine ⟨⟨ha, han⟩, ?_⟩
    rw [(hdr_congr (hhdrF a ⟨ha, han⟩)).2.2.2, hal2 a ha han, (hdr_congr (hhdr1 a ha)).2.2.2]
    exact haa

/-- The function `coalesce` on the pending block when the block before it and
the block after it are both free. -/
theorem Inv.coalesce_case4 {h : Heap} {B : Nat → Prop} {L : Nat → List Nat} {x : Nat}
    (hinv : Inv h B L (fun a => a = x))
    (hpx : h.palloc_at x = false) (hnf : h.alloc_at (x + h.size_at x) = false) :
    ∃ r h' B' L', coalesce h x = Except.ok (r, h') ∧ Inv h' B' L' (fun _ => False) ∧
      h'.lo = h.lo ∧ h'.brk = h.brk ∧ h'.limit = h.limit ∧
      h'.heap_listp = h.heap_listp ∧ B' r ∧ h'.alloc_at r = false ∧
      h.size_at x ≤ h'.size_at r ∧
      (∀ a, B a → h.alloc_at a = true → B' a ∧ h'.alloc_at a = true) := by
  have ht := hinv.tiling
  obtain ⟨hxB, hxe, hxf⟩ := hinv.hole x rfl
  obtain ⟨hsx16, hsxm, hnB, hnr⟩ := ht.next_range hxB hxe
  obtain ⟨hxm8, hxl, hxr⟩ := ht.range x hxB
  have hlimw := ht.lim
  have hword : h.brk ≤ WORD := by omega
  obtain ⟨p, hfp, hpB, hplt, hpe, hpf, hsp16⟩ := hinv.prev_found hxB hpx
    (fun q _ hq hh => by rw [hh] at hq; omega)
  have hspm := size_at_mod h p
  obtain ⟨hpm8, hpl, hpr⟩ := ht.range p hpB
  have hpx' : p ≠ x := by omega
  have hpp : h.palloc_at p = true :=
    hinv.palloc_of_free hpB hpf hpx' (fun q _ hq hh => by rw [hh] at hq; omega)
  have hne : x + h.size_at x ≠ h.brk - 8 := by
    intro hh
    rw [hh, hinv.epi_alloc] at hnf
    cases hnf
  obtain ⟨hsn16, hsnm, hnnB, hnnr⟩ := ht.next_range hnB hne
  have hnx : x + h.size_at x ≠ x := by omega
  have hnp : x + h.size_at x ≠ p := by omega
  have hnnx : x + h.size_at x + h.size_at (x + h.size_at x) ≠ x := by omega
  have hSlt : h.size_at p + (h.size_at x + h.size_at (x + h.size_at x)) < WORD := by omega
  have hSm : (h.size_at p + (h.size_at x + h.size_at (x + h.size_at x))) % 16 = 0 := by
    omega
  have hS16 : 16 ≤ h.size_at p + (h.size_at x + h.size_at (x + h.size_at x)) := by omega
  have hT16 : 16 ≤ h.size_at x + h.size_at (x + h.size_at x) := by omega
  have hTm : (h.size_at x + h.size_at (x + h.size_at x)) % 16 = 0 := by omega
  have hnnW : x + h.size_at x + h.size_at (x + h.size_at x) + 8 ≤ WORD := by omega
  have hnnp : x + h.size_at x + h.size_at (x + h.size_at x) =
      p + (h.size_at p + (h.size_at x + h.size_at (x + h.size_at x))) := by omega
  have hfeq : p + (h.size_at p + (h.size_at x + h.size_at (x + h.size_at x))) - 8 =
      x + h.size_at x + h.size_at (x + h.size_at x) - 8 := by omega
  have hpnn : p ≠ x + h.size_at x + h.size_at (x + h.size_at x) := by omega
  have hS8 : 8 ≤ h.size_at p + (h.size_at x + h.size_at (x + h.size_at x)) := by omega
  have hpW : p + 8 + (h.size_at p + (h.size_at x + h.size_at (x + h.size_at x))) ≤ WORD := by
    omega
  have hfv : h.valid (p + (h.size_at p + (h.size_at x + h.size_at (x + h.size_at x))) - 8) :=
    ⟨by omega, by omega, by omega⟩
  have hsle : h.size_at x ≤
      h.size_at p + (h.size_at x + h.size_at (x + h.size_at x)) := by omega
  have hcomm : (h.size_at x + (h.size_at (x + h.size_at x) + h.size_at p) % WORD) % WORD =
      h.size_at p + (h.size_at x + h.size_at (x + h.size_at x)) := by
    rw [Nat.mod_eq_of_lt (by omega : h.size_at (x + h.size_at x) + h.size_at p < WORD),
      Nat.mod_eq_of_lt (by omega)]
    omega
  have hnna : h.alloc_at (x + h.size_at x + h.size_at (x + h.size_at x)) = true :=
    hinv.nofree2 _ hnB hne hnx hnnx hnf
  obtain ⟨hidx, hmem⟩ := hinv.free_member hpB hpf hpx'
  obtain ⟨h1, hrm1, hinv1, hlo1, hbrk1, hlim1, hhl1, hhdr1, _⟩ := hinv.remove_member hidx hmem
  have f2 := hdr_congr (hhdr1 _ hnB)
  obtain ⟨hidx2, hmem2⟩ := hinv1.free_member hnB (by rw [f2.2.2.2]; exact hnf)
    (fun hh => hh.elim hnx hnp)
  obtain ⟨h2, hrm2, hinv2, hlo2, hbrk2, hlim2, hhl2, hhdr2, _⟩ := hinv1.remove_member hidx2 hmem2
  have hhdr : ∀ a, B a → h2.mem a = h.mem a := fun a ha => by rw [hhdr2 a ha, hhdr1 a ha]
  have e1 := hdr_congr (hhdr x hxB)
  have e2 := hdr_congr (hhdr _ hnB)
  have e3 := hdr_congr (hhdr p hpB)
  have e4 := hdr_congr (hhdr _ hnnB)
  have hlo : h2.lo = h.lo := by rw [hlo2, hlo1]
  have hbrk : h2.brk = h.brk := by rw [hbrk2, hbrk1]
  have hvp2 : h2.valid p := valid_congr hlo hbrk (ht.valid_hdr hpB)
  have hvnn2 : h2.valid (x + h.size_at x + h.size_at (x + h.size_at x)) :=
    valid_congr hlo hbrk (ht.valid_hdr hnnB)
  -- the state in which only the block and its successor are merged
  obtain ⟨m, hm⟩ : ∃ m : Heap, m = ((h2.put x (pack
      (h.size_at x + h.size_at (x + h.size_at x)) (h.psize_at x) false false)).put
      (x + h.size_at x + h.size_at (x + h.size_at x))
      (pack (h.size_at (x + h.size_at x + h.size_at (x + h.size_at x)))
        false false true)).put
      (x + h.size_at x + h.size_at (x + h.size_at x) - 8)
      (pack (h.size_at x + h.size_at (x + h.size_at x)) false false false) := ⟨_, rfl⟩
  obtain ⟨hmx, hmnn, hmf, hmfr, hm1, hm2, hm3, hm4, hm5⟩ :=
    merge_words h2 x _ _ _ _ _ hxm8 hT16 hTm (Nat.add_assoc _ _ _) (size_at_mod h _)
      (size_at_lt h _) hnnW m hm
  obtain ⟨hinvm, hsxm', hpnnm, halm⟩ := @Inv.merge h2 m B _ _ x (x + h.size_at x)
    (x + h.size_at x + h.size_at (x + h.size_at x)) hinv2 (Or.inl (Or.inl rfl))
    (by rw [e1.1]) (Or.inr rfl) (by rw [e2.1]) (by rw [e4.2.2.2]; exact hnna)
    hm1 hm2 hm3 hm4 hm5
    (by rw [e1.1, e2.1, e1.2.1, e1.2.2.1, hpx]; exact hmx)
    (by rw [e1.1, e2.1]; exact hmf)
    (by rw [e4.1]; exact hmnn) hmfr
  rw [e1.1, e2.1] at hsxm'
  have g3 := hdr_congr (hmfr p (Or.inl hplt))
  obtain ⟨hmsnn, _, _, hmann⟩ := hdr_of_word hmnn (size_at_mod h _) (size_at_lt h _)
  -- the state that `coalesce` produces before the insertion
  obtain ⟨k, hk⟩ : ∃ k : Heap, k = ((h2.put p (pack
      (h.size_at p + (h.size_at x + h.size_at (x + h.size_at x)))
      (h.psize_at p) true false)).put
      (x + h.size_at x + h.size_at (x + h.size_at x))
      (pack (h.size_at (x + h.size_at x + h.size_at (x + h.size_at x)))
        false false true)).put
      (p + (h.size_at p + (h.size_at x + h.size_at (x + h.size_at x))) - 8)
      (pack (h.size_at p + (h.size_at x + h.size_at (x + h.size_at x)))
        false false false) := ⟨_, rfl⟩
  obtain ⟨hwx, hwnn, hwf, hkfr, hk1, hk2, hk3, hk4, hk5⟩ :=
    merge_words h2 p _ _ _ _ _ hpm8 hS16 hSm hnnp (size_at_mod h _)
      (size_at_lt h _) hnnW k (by rw [hk, hfeq])
  have hfr : ∀ a, a < p ∨ x + h.size_at x + h.size_at (x + h.size_at x) < a →
      k.mem a = m.mem a := fun a ha => by
    rw [hkfr a ha, hmfr a (ha.elim (fun hl => Or.inl (Nat.lt_trans hl hplt)) Or.inr)]
  have hb1 : k.lo = m.lo := by rw [hk1, hm1]
  have hb2 : k.brk = m.brk := by rw [hk2, hm2]
  have hb3 : k.limit = m.limit := by rw [hk3, hm3]
  have hb4 : k.heap_listp = m.heap_listp := by rw [hk4, hm4]
  have hb5 : k.seg_free_list = m.seg_free_list := by rw [hk5, hm5]
  obtain ⟨hinvk, hsxk, hpnnk, halk⟩ := @Inv.merge m k _ _ _ p x
    (x + h.size_at x + h.size_at (x + h.size_at x)) hinvm
    ⟨Or.inl (Or.inr rfl), hnp.symm⟩ (by rw [g3.1, e3.1, hpe])
    ⟨Or.inl (Or.inl rfl), hnx.symm⟩ (by rw [hsxm']; exact Nat.add_assoc _ _ _) hmann
    hb1 hb2 hb3 hb4 hb5
    (by rw [g3.1, e3.1, hsxm', g3.2.1, e3.2.1, g3.2.2.1, e3.2.2.1, hpp]; exact hwx)
    (by rw [g3.1, e3.1, hsxm']; exact hwf)
    (by rw [hmsnn]; exact hwnn) hfr
  rw [g3.1, e3.1, hsxm'] at hsxk
  have hinv3 : Inv k (fun a => (B a ∧ a ≠ x + h.size_at x) ∧ a ≠ x)
      (erase_at (erase_at L (find_index (h.size_at p)) p)
        (find_index (h1.size_at (x + h.size_at x))) (x + h.size_at x))
      (fun a => a = p) := by
    apply hinvk.congr_set (fun a => Iff.rfl)
    intro a
    constructor
    · rintro ⟨⟨(h1a | h1a) | h1a, h2a⟩, h3a⟩
      · exact absurd h1a h3a
      · exact h1a
      · exact absurd h1a h2a
    · intro h1a
      exact ⟨⟨Or.inl (Or.inr h1a), by rw [h1a]; exact hnp.symm⟩, by rw [h1a]; exact hpx'⟩
  obtain ⟨_, _, hpx2, hfx2⟩ := hdr_of_word hwx hSm hSlt
  obtain ⟨_, _, _, hna2⟩ := hdr_of_word hwnn (size_at_mod h _) (size_at_lt h _)
  have hnn2 : p + k.size_at p = x + h.size_at x + h.size_at (x + h.size_at x) := by
    rw [hsxk]; exact hnnp.symm
  obtain ⟨hF, hins, hinvF, hloF, hbrkF, hlimF, hhlF, hhdrF, _⟩ :=
    hinv3.insert_pending hpx2 (by rw [hnn2]; exact hna2) (by rw [hnn2]; exact hpnnk)
  have hBp : (B p ∧ p ≠ x + h.size_at x) ∧ p ≠ x := ⟨⟨hpB, hnp.symm⟩, hpx'⟩
  refine ⟨p, hF, _, _, ?_, hinvF, by rw [hloF, hb1, hm1, hlo], by rw [hbrkF, hb2, hm2, hbrk],
    by rw [hlimF, hb3, hm3, hlim2, hlim1], by rw [hhlF, hb4, hm4, hhl2, hhl1], hBp,
    ?_, ?_, ?_⟩
  · rw [coalesce_both_free h x (h.size_at x) (h.size_at (x + h.size_at x))
      (h.size_at (x + h.size_at x + h.size_at (x + h.size_at x))) p
      (h.size_at p) (h.psize_at p) hword (ht.valid_hdr hxB) rfl rfl rfl
      (ht.valid_hdr hnB) (ht.valid_hdr hnnB) hpx hnf hfp (ht.valid_hdr hpB)
      rfl rfl, hrm1, ok_bind, hrm2, ok_bind,
      hcomm, write_header_ok _ _ _ _ _ _ hvp2, ok_bind,
      write_header_ok _ _ _ _ _ _ (by exact hvnn2), ok_bind,
      write_free_footer_ok _ p _
        (h.size_at p + (h.size_at x + h.size_at (x + h.size_at x))) false
        (by exact hvp2)
        (by rw [put_size_other _ _ _ _ hpnn]
            exact put_size_same _ _ _ _ _ _ hSm hSlt)
        hS8
        (by exact (show h2.valid
            (p + (h.size_at p + (h.size_at x + h.size_at (x + h.size_at x))) - 8) from
          valid_congr hlo hbrk hfv))
        hpW, ok_bind, ← hk, hins]
    rfl
  · rw [(hdr_congr (hhdrF p hBp)).2.2.2]
    exact hfx2
  · rw [(hdr_congr (hhdrF p hBp)).1, hsxk]
    exact hsle
  · intro a ha haa
    have han : a ≠ x + h.size_at x := by
      intro hh
      rw [hh, hnf] at haa
      cases haa
    have hax : a ≠ x := by
      intro hh
      rw [hh, hxf] at haa
      cases haa
    refine ⟨⟨⟨ha, han⟩, hax⟩, ?_⟩
    rw [(hdr_congr (hhdrF a ⟨⟨ha, han⟩, hax⟩)).2.2.2, halk a ⟨ha, han⟩ hax, halm a ha han,
      (hdr_congr (hhdr a ha)).2.2.2]
    exact haa

/-- The function `coalesce` on the one pending block of the invariant: the call
returns a free block that holds the pending block, the invariant holds with no
pending block, the arena keeps its bounds and every allocated block stays an
allocated block. -/
theorem Inv.coalesce_ok {h : Heap} {B : Nat → Prop} {L : Nat → List Nat} {x : Nat}
    (hinv : Inv h B L (fun a => a = x)) :
    ∃ r h' B' L', coalesce h x = Except.ok (r, h') ∧ Inv h' B' L' (fun _ => False) ∧
      h'.lo = h.lo ∧ h'.brk = h.brk ∧ h'.limit = h.limit ∧
      h'.heap_listp = h.heap_listp ∧ B' r ∧ h'.alloc_at r = false ∧
      h.size_at x ≤ h'.size_at r ∧
      (∀ a, B a → h.alloc_at a = true → B' a ∧ h'.alloc_at a = true) := by
  cases hpx : h.palloc_at x
  · cases hna : h.alloc_at (x + h.size_at x)
    · exact hinv.coalesce_case4 hpx hna
    · exact hinv.coalesce_case3 hpx hna
  · cases hna : h.alloc_at (x + h.size_at x)
    · exact hinv.coalesce_case2 hpx hna
    · exact hinv.coalesce_case1 hpx hna

/-- The function `free` on the payload of an allocated block: the call returns,
the invariant holds afterwards, the arena keeps its bounds, and every other
allocated block stays an allocated block. -/
theorem Inv.free_ok {h : Heap} {B : Nat → Prop} {L : Nat → List Nat} {b : Nat}
    (hinv : Inv h B L (fun _ => False)) (hb : B b) (hbe : b ≠ h.brk - 8)
    (hal : h.alloc_at b = true) :
    ∃ h' B' L', free h (b + 8) = Except.ok h' ∧ Inv h' B' L' (fun _ => False) ∧
      h'.lo = h.lo ∧ h'.brk = h.brk ∧ h'.limit = h.limit ∧
      h'.heap_listp = h.heap_listp ∧
      (∀ a, B a → a ≠ b → h.alloc_at a = true → B' a ∧ h'.alloc_at a = true) := by
  have ht := hinv.tiling
  obtain ⟨hs16, hsm, hnB, hnr⟩ := ht.next_range hb hbe
  obtain ⟨hbm8, hbl, hbr⟩ := ht.range b hb
  have hlimw := ht.lim
  have hslt := size_at_lt h b
  have hvb := ht.valid_hdr hb
  have hp : payload_to_header (b + 8) = b := by
    unfold payload_to_header wsize
    rw [psub_eq _ _ (by omega) (by omega)]
    omega
  obtain ⟨k, hk⟩ : ∃ k : Heap, k = (h.put b (pack (h.size_at b) (h.psize_at b)
      (h.palloc_at b) false)).put (b + h.size_at b - 8)
      (pack (h.size_at b) false false false) := ⟨_, rfl⟩
  have hwb : k.word b = pack (h.size_at b) (h.psize_at b) (h.palloc_at b) false := by
    rw [hk, put_word_other _ _ _ _ (by omega)]
    exact put_word_same _ _ _ (pack_lt _ _ _ _ hsm hslt)
  have hwf : k.word (b + h.size_at b - 8) = pack (h.size_at b) false false false := by
    rw [hk]
    exact put_word_same _ _ _ (pack_lt _ _ _ _ hsm hslt)
  have hfr : ∀ a, a ≠ b → a ≠ b + h.size_at b - 8 → k.mem a = h.mem a := by
    intro a h1 h2
    rw [hk, put_mem_other _ _ _ _ h2, put_mem_other _ _ _ _ h1]
  have hb1 : k.lo = h.lo := by rw [hk]; rfl
  have hb2 : k.brk = h.brk := by rw [hk]; rfl
  have hb3 : k.limit = h.limit := by rw [hk]; rfl
  have hb4 : k.heap_listp = h.heap_listp := by rw [hk]; rfl
  have hb5 : k.seg_free_list = h.seg_free_list := by rw [hk]; rfl
  have hinv1 := hinv.mark_free hb hbe hal hb1 hb2 hb3 hb4 hb5 hwb hwf hfr
  have hinv2 : Inv k B L (fun a => a = b) :=
    hinv1.congr_set (fun a => Iff.rfl) (fun a => ⟨fun hh => hh.elim False.elim id, Or.inr⟩)
  obtain ⟨r, hF, B', L', hco, hinvF, hloF, hbrkF, hlimF, hhlF, _, _, _, hallocF⟩ :=
    hinv2.coalesce_ok
  refine ⟨hF, B', L', ?_, hinvF, by rw [hloF, hb1], by rw [hbrkF, hb2], by rw [hlimF, hb3],
    by rw [hhlF, hb4], ?_⟩
  · unfold free
    rw [if_neg (show b + 8 ≠ NULL by unfold NULL; omega)]
    simp only [hp]
    rw [get_size_ok h b hvb, ok_bind, get_alloc_ok h b _ _ _ hvb, ok_bind,
      get_alloc_ok h b _ _ _ hvb, ok_bind, write_header_ok h b _ _ _ _ hvb, ok_bind,
      write_free_footer_ok _ b _ (h.size_at b) false (by exact hvb)
        (put_size_same _ _ _ _ _ _ hsm hslt) (by omega)
        (by exact (show h.valid (b + h.size_at b - 8) from ⟨by omega, by omega, by omega⟩))
        (by omega), ok_bind]
    have : (h.put b (pack (h.size_at b) (extract_alloc (h.word b) true false false)
        (extract_alloc (h.word b) false true false) false)).put (b + h.size_at b - 8)
        (pack (h.size_at b) false false false) = k := hk.symm
    rw [this, hco]
    rfl
  · intro a ha hab haa
    apply hallocF a ha
    have hm := (ht.range a ha).1
    rw [(hdr_congr (hfr a hab (by omega))).2.2.2]
    exact haa

theorem ite_bool_decide (p : Prop) [Decidable p] :
    (if p then true else false) = decide p := by
  by_cases hp : p <;> simp [hp]

/-- The function `place` on a free block of the invariant, with
`16 ≤ asize ≤ size` and `asize` a multiple of 16: the call returns, the block
is allocated with at least `asize` bytes, the invariant holds afterwards, the
arena keeps its bounds and every allocated block stays an allocated block. -/
theorem Inv.place_ok {h : Heap} {B : Nat → Prop} {L : Nat → List Nat} {b asize : Nat}
    (hinv : Inv h B L (fun _ => False)) (hb : B b) (hf : h.alloc_at b = false)
    (h16 : 16 ≤ asize) (hmod : asize % 16 = 0) (hle : asize ≤ h.size_at b) :
    ∃ h' B' L', place h b asize = Except.ok h' ∧ Inv h' B' L' (fun _ => False) ∧
      h'.lo = h.lo ∧ h'.brk = h.brk ∧ h'.limit = h.limit ∧
      h'.heap_listp = h.heap_listp ∧ B' b ∧ h'.alloc_at b = true ∧
      asize ≤ h'.size_at b ∧ b ≠ h.brk - 8 ∧
      (∀ a, B a → h.alloc_at a = true → B' a ∧ h'.alloc_at a = true) := by
  have ht := hinv.tiling
  have hbe : b ≠ h.brk - 8 := by
    intro hh
    rw [hh, hinv.epi_alloc] at hf
    cases hf
  obtain ⟨hs16, hsm, hnB, hnr⟩ := ht.next_range hb hbe
  obtain ⟨hbm8, hbl, hbr⟩ := ht.range b hb
  have hlimw := ht.lim
  have hword : h.brk ≤ WORD := by omega
  have hpp : h.palloc_at b = true :=
    hinv.palloc_of_free hb hf (fun hh => hh) (fun _ _ _ hh => hh)
  have hna : h.alloc_at (b + h.size_at b) = true :=
    hinv.nofree2 b hb hbe (fun hh => hh) (fun hh => hh) hf
  have hp16 := ht.p16 b hb hbe
  obtain ⟨hidx, hmem⟩ := hinv.free_member hb hf (fun hh => hh)
  obtain ⟨h1, hrm, hinv1, hlo1, hbrk1, hlim1, hhl1, hhdr1, _⟩ :=
    hinv.remove_member hidx hmem
  have e1 := hdr_congr (hhdr1 b hb)
  have e2 := hdr_congr (hhdr1 _ hnB)
  by_cases hsplit : asize + 16 ≤ h.size_at b
  · obtain ⟨h5, hpl, hlo5, hbrk5, hlim5, hhl5, hseg5, hwb, hwr, hwf, hwn, hfr⟩ :=
      place_split hrm hlo1 hbrk1 hword hbm8 (by omega) h16 hmod hsplit
        (ht.valid_hdr hnB)
    obtain ⟨hinv2, hsb2, hab2, hsr2, hpr2, han2, hpn2, hal2⟩ :=
      @Inv.split h1 h5 B _ _ b asize (b + asize) (b + h.size_at b) hinv1 (Or.inr rfl)
        (by rw [e1.2.2.1]; exact hpp) h16 hmod (by rw [e1.1]; exact hsplit) rfl
        (by rw [e1.1]) (by rw [e2.2.2.2]; exact hna) hlo5 hbrk5 hlim5 hhl5 hseg5
        (by rw [e1.2.1]; exact hwb)
        (by rw [e1.1, ← ite_bool_decide]; exact hwr)
        (by rw [e1.1]
            intro hh
            have := hwf hh
            exact this)
        (by rw [e1.1, ← ite_bool_decide]; exact hwn)
        (fun a ha => hfr a (by omega) (by omega) (by omega) (by omega))
    have hinv3 : Inv h5 (fun a => B a ∨ a = b + asize) (erase_at L
        (find_index (h.size_at b)) b) (fun a => a = b + asize) := by
      apply hinv2.congr_set (fun a => Iff.rfl)
      intro a
      constructor
      · rintro (⟨h1a | h1a, h2a⟩ | h1a)
        · exact h1a.elim
        · exact absurd h1a h2a
        · exact h1a
      · intro h1a
        exact Or.inr h1a
    rw [e1.1] at hsr2
    have hnn : b + asize + h5.size_at (b + asize) = b + h.size_at b := by
      rw [hsr2]; omega
    obtain ⟨hF, hins, hinvF, hloF, hbrkF, hlimF, hhlF, hhdrF, _⟩ :=
      hinv3.insert_pending hpr2 (by rw [hnn]; exact han2) (by rw [hnn]; exact hpn2)
    refine ⟨hF, _, _, by rw [hpl, hins], hinvF, by rw [hloF, hlo5, hlo1],
      by rw [hbrkF, hbrk5, hbrk1], by rw [hlimF, hlim5, hlim1],
      by rw [hhlF, hhl5, hhl1], Or.inl hb, ?_, ?_, hbe, ?_⟩
    · rw [(hdr_congr (hhdrF b (Or.inl hb))).2.2.2]
      exact hab2
    · rw [(hdr_congr (hhdrF b (Or.inl hb))).1, hsb2]
    · intro a ha haa
      have hab : a ≠ b := by
        intro hh
        rw [hh, hf] at haa
        cases haa
      refine ⟨Or.inl ha, ?_⟩
      rw [(hdr_congr (hhdrF a (Or.inl ha))).2.2.2, hal2 a ha hab,
        (hdr_congr (hhdr1 a ha)).2.2.2]
      exact haa
  · have hsa : h.size_at b = asize := by omega
    obtain ⟨h3, hpl, hlo3, hbrk3, hlim3, hhl3, hseg3, hwb, hwn, hfr⟩ :=
      place_whole hrm hlo1 hbrk1 hword hbm8 (by omega) hs16 hle (by omega)
        (ht.valid_hdr hnB)
    have hbit : (if asize = 16 then true else false) = h.psize_at (b + h.size_at b) := by
      rw [hp16, ite_bool_decide, hsa]
    obtain ⟨hinv2, hab2, hsb2, hal2⟩ :=
      @Inv.allocate h1 h3 B _ _ b hinv1 (Or.inr rfl)
        (by rw [e1.2.2.1]; exact hpp) (by rw [e1.1, e2.2.2.2]; exact hna)
        hlo3 hbrk3 hlim3 hhl3 hseg3
        (by rw [e1.1, e1.2.1]; exact hwb)
        (by rw [e1.1, e2.2.1, ← hbit]; exact hwn)
        (fun a h1a h2a => hfr a h1a (by rw [← e1.1]; exact h2a))
    have hinv3 : Inv h3 B (erase_at L (find_index (h.size_at b)) b) (fun _ => False) := by
      apply hinv2.congr_set (fun a => Iff.rfl)
      intro a
      constructor
      · rintro ⟨h1a | h1a, h2a⟩
        · exact h1a
        · exact absurd h1a h2a
      · intro h1a
        exact h1a.elim
    refine ⟨h3, _, _, hpl, hinv3, by rw [hlo3, hlo1], by rw [hbrk3, hbrk1],
      by rw [hlim3, hlim1], by rw [hhl3, hhl1], hb, hab2, ?_, hbe, ?_⟩
    · rw [hsb2, e1.1]
      exact hle
    · intro a ha haa
      have hab : a ≠ b := by
        intro hh
        rw [hh, hf] at haa
        cases haa
      refine ⟨ha, ?_⟩
      rw [hal2 a ha hab, (hdr_congr (hhdr1 a ha)).2.2.2]
      exact haa

theorem round_up_of_multiple (m : Nat) (hm : m % 16 = 0) (hlt : m + 15 < WORD) :
    round_up m dsize = m := by
  unfold round_up dsize wsize
  unfold WORD at hlt ⊢
  have h1 : (m + (2 * 8 - 1)) % 2 ^ 64 = m + 15 := by
    rw [Nat.mod_eq_of_lt (by omega)]
  rw [h1]
  have h2 : (m + 15) / (2 * 8) = m / 16 := by omega
  rw [h2]
  have h3 : 2 * 8 * (m / 16) = m := by omega
  rw [h3]
  exact Nat.mod_eq_of_lt (by omega)

/-- The function `extend_heap` on a state with the invariant, for a size of at
least 32 bytes that is a multiple of 16: either `mem_sbrk` refuses and the
state is unchanged, or the call returns a free block of at least that size, the
invariant holds afterwards and every allocated block stays an allocated
block. -/
theorem Inv.extend_heap_ok {h : Heap} {B : Nat → Prop} {L : Nat → List Nat} {m : Nat}
    (hinv : Inv h B L (fun _ => False)) (hm32 : 32 ≤ m) (hmm : m % 16 = 0)
    (hmlt : m + 15 < WORD) :
    (mem_sbrk h m = none ∧ extend_heap h m = Except.ok (NULL, h)) ∨
    ∃ r h' B' L', extend_heap h m = Except.ok (r, h') ∧ Inv h' B' L' (fun _ => False) ∧
      h'.lo = h.lo ∧ h.brk ≤ h'.brk ∧ h'.limit = h.limit ∧
      h'.heap_listp = h.heap_listp ∧ B' r ∧ h'.alloc_at r = false ∧
      m ≤ h'.size_at r ∧
      (∀ a, B a → a ≠ h.brk - 8 → h.alloc_at a = true → B' a ∧ h'.alloc_at a = true) := by
  have ht := hinv.tiling
  obtain ⟨e1, e2, e3⟩ := ht.epi
  obtain ⟨hem8, hel, her⟩ := ht.range _ e2
  have hlimw := ht.lim
  by_cases hfit : h.brk + m ≤ h.limit
  · right
    have hsb : mem_sbrk h m = some (h.brk, { h with brk := h.brk + m }) := by
      unfold mem_sbrk
      rw [if_pos hfit]
    have hp : payload_to_header h.brk = h.brk - 8 := by
      unfold payload_to_header wsize
      exact psub_eq _ _ (by omega) (by omega)
    obtain ⟨k0, hk0⟩ : ∃ k0 : Heap, k0 = { h with brk := h.brk + m } := ⟨_, rfl⟩
    have hv0 : k0.valid (h.brk - 8) := by
      rw [hk0]
      exact ⟨by omega, by show h.lo ≤ _; omega, by show _ ≤ h.brk + m; omega⟩
    have hw0 : ∀ a, k0.word a = h.word a := by
      intro a; rw [hk0]; rfl
    obtain ⟨k, hk⟩ : ∃ k : Heap, k = ((k0.put (h.brk - 8) (pack m (h.psize_at (h.brk - 8))
        (h.palloc_at (h.brk - 8)) false)).put (h.brk - 8 + m - 8)
        (pack m false false false)).put (h.brk - 8 + m) (pack 0 false false true) :=
      ⟨_, rfl⟩
    have hwe : k.word (h.brk - 8) = pack m (h.psize_at (h.brk - 8))
        (h.palloc_at (h.brk - 8)) false := by
      rw [hk, put_word_other _ _ _ _ (by omega), put_word_other _ _ _ _ (by omega)]
      exact put_word_same _ _ _ (pack_lt _ _ _ _ hmm (by omega))
    have hwf : k.word (h.brk - 8 + m - 8) = pack m false false false := by
      rw [hk, put_word_other _ _ _ _ (by omega)]
      exact put_word_same _ _ _ (pack_lt _ _ _ _ hmm (by omega))
    have hwn : k.word (h.brk - 8 + m) = pack 0 false false true := by
      rw [hk]
      exact put_word_same _ _ _ (by decide)
    have hfr : ∀ a, a < h.brk - 8 → k.mem a = h.mem a := by
      intro a ha
      rw [hk, put_mem_other _ _ _ _ (by omega), put_mem_other _ _ _ _ (by omega),
        put_mem_other _ _ _ _ (by omega), hk0]
    have hb1 : k.lo = h.lo := by rw [hk, hk0]; rfl
    have hb2 : k.brk = h.brk + m := by rw [hk, hk0]; rfl
    have hb3 : k.limit = h.limit := by rw [hk, hk0]; rfl
    have hb4 : k.heap_listp = h.heap_listp := by rw [hk, hk0]; rfl
    have hb5 : k.seg_free_list = h.seg_free_list := by rw [hk, hk0]; rfl
    obtain ⟨hinv1, hse1, _, hal1⟩ := hinv.extend hm32 hmm hfit rfl hb1 hb2 hb3 hb4 hb5
      hwe hwf hwn hfr
    have hinv2 : Inv k (fun a => B a ∨ a = h.brk - 8 + m) L (fun a => a = h.brk - 8) :=
      hinv1.congr_set (fun a => Iff.rfl)
        (fun a => ⟨fun hh => hh.elim False.elim id, Or.inr⟩)
    obtain ⟨r, hF, B', L', hco, hinvF, hloF, hbrkF, hlimF, hhlF, hrB, hrf, hrs, hallocF⟩ :=
      hinv2.coalesce_ok
    refine ⟨r, hF, B', L', ?_, hinvF, by rw [hloF, hb1], by rw [hbrkF, hb2]; omega,
      by rw [hlimF, hb3], by rw [hhlF, hb4], hrB, hrf, by rw [← hse1]; exact hrs, ?_⟩
    · unfold extend_heap
      simp only [round_up_of_multiple m hmm hmlt, hsb, hp]
      rw [← hk0, get_alloc_ok k0 _ _ _ _ hv0, ok_bind, get_alloc_ok k0 _ _ _ _ hv0, ok_bind,
        write_header_ok k0 _ _ _ _ _ hv0, ok_bind,
        write_free_footer_ok _ (h.brk - 8) _ m false (by exact hv0)
          (put_size_same _ _ _ _ _ _ hmm (by omega)) (by omega)
          (by exact (show k0.valid (h.brk - 8 + m - 8) from by
            rw [hk0]
            exact ⟨by omega, by show h.lo ≤ _; omega, by show _ ≤ h.brk + m; omega⟩))
          (by omega), ok_bind,
        find_next_eq _ (h.brk - 8) m (by exact hv0)
          (by rw [put_size_other _ _ _ _ (by omega)]
              exact put_size_same _ _ _ _ _ _ hmm (by omega)) (by omega), ok_bind,
        write_header_ok _ _ _ _ _ _ (by
          exact (show k0.valid (h.brk - 8 + m) from by
            rw [hk0]
            exact ⟨by omega, by show h.lo ≤ _; omega, by show _ ≤ h.brk + m; omega⟩)),
        ok_bind]
      have : ((k0.put (h.brk - 8) (pack m (extract_alloc (k0.word (h.brk - 8)) true false false)
          (extract_alloc (k0.word (h.brk - 8)) false true false) false)).put
          (h.brk - 8 + m - 8) (pack m false false false)).put (h.brk - 8 + m)
          (pack 0 false false true) = k := by
        rw [hk, hw0]
        rfl
      rw [this, hco]
    · intro a ha hae haa
      apply hallocF a (Or.inl ha)
      rw [hal1 a ha hae]
      exact haa
  · left
    have hsb : mem_sbrk h m = none := by
      unfold mem_sbrk
      rw [if_neg hfit]
    refine ⟨hsb, ?_⟩
    unfold extend_heap
    simp only [round_up_of_multiple m hmm hmlt, hsb]
    rfl

/-- The adjusted size of a request of at most `max_request` bytes. -/
theorem round_up_request (n : Nat) (hn : n ≤ max_request) :
    round_up ((n + wsize) % WORD) dsize % 16 = 0 ∧
    n + 8 ≤ round_up ((n + wsize) % WORD) dsize ∧
    16 ≤ round_up ((n + wsize) % WORD) dsize ∧
    round_up ((n + wsize) % WORD) dsize + 15 < WORD := by
  have hw : WORD = 18446744073709551616 := by decide
  have hws : wsize = 8 := rfl
  have hds : dsize = 16 := rfl
  have hmr : max_request = 18446744073709551592 := by decide
  unfold round_up
  rw [hw, hws, hds]
  rw [hmr] at hn
  omega

/-- The block that find-n-fit selects in a bucket list with a block of at least
`asize` bytes is a member of the list and has at least `asize` bytes. -/
theorem fit_in_bucket_mem (h : Heap) (asize : Nat) (l : List Nat)
    (hex : ∃ b ∈ l, asize ≤ h.size_at b) :
    fit_in_bucket h asize l ∈ l ∧ asize ≤ h.size_at (fit_in_bucket h asize l) := by
  unfold fit_in_bucket
  cases hfe : fit_exact_first h asize 9 l with
  | some e =>
    simp only []
    unfold fit_exact_first at hfe
    cases hfind : l.find? (fun b => decide (h.size_at b = asize)) with
    | none =>
      rw [hfind] at hfe
      cases hfe
    | some e' =>
      rw [hfind] at hfe
      simp only [] at hfe
      by_cases hlt : (fit_larger h asize
          (l.takeWhile (fun b => decide (h.size_at b ≠ asize)))).length < 9
      · rw [if_pos hlt] at hfe
        cases hfe
        have h1 := List.find?_some hfind
        have h2 := List.mem_of_find?_eq_some hfind
        simp only [decide_eq_true_eq] at h1
        exact ⟨h2, by omega⟩
      · rw [if_neg hlt] at hfe
        cases hfe
  | none =>
    simp only []
    have hne : fit_larger h asize l ≠ [] := by
      obtain ⟨b, hb, hbs⟩ := hex
      by_cases hbe : h.size_at b = asize
      · unfold fit_exact_first at hfe
        cases hfind : l.find? (fun b => decide (h.size_at b = asize)) with
        | none =>
          have := List.find?_eq_none.mp hfind b hb
          simp [hbe] at this
        | some e =>
          rw [hfind] at hfe
          simp only [] at hfe
          by_cases hlt : (fit_larger h asize
              (l.takeWhile (fun b => decide (h.size_at b ≠ asize)))).length < 9
          · rw [if_pos hlt] at hfe
            cases hfe
          · have hsub : (fit_larger h asize
                (l.takeWhile (fun b => decide (h.size_at b ≠ asize)))).length ≤
                (fit_larger h asize l).length :=
              ((List.takeWhile_sublist _).filter _).length_le
            intro hnil
            rw [hnil] at hsub
            simp only [List.length_nil] at hsub
            omega
      · intro hnil
        have hmem : b ∈ fit_larger h asize l := by
          unfold fit_larger
          exact List.mem_filter.mpr ⟨hb, by simp; omega⟩
        rw [hnil] at hmem
        cases hmem
    have hne9 : (fit_larger h asize l).take 9 ≠ [] := by
      intro hnil
      cases hl : fit_larger h asize l with
      | nil => exact hne hl
      | cons a t =>
        rw [hl] at hnil
        simp at hnil
    obtain ⟨m, hm, hmm⟩ := fit_smallest_some h _ none (Or.inr hne9)
    rw [hm]
    rcases hmm with hmm | hmm
    · cases hmm
    · have := fit_larger_sub h asize l m (List.mem_of_mem_take hmm)
      exact ⟨this.1, by
        show asize ≤ h.size_at m
        omega⟩

/-- The outer loop of `find_fit` on a well-formed index returns, and the block
it returns is `NULL` or a member of the index with at least `asize` bytes. -/
theorem find_fit_buckets_total {h : Heap} {L : Nat → List Nat} {asize : Nat}
    (hrep : IndexRep h L) :
    ∀ (cnt i : Nat), 1 ≤ i → i + cnt = 14 →
      ∃ r, find_fit_buckets h asize cnt i 9 (WORD - 1) NULL = Except.ok r ∧
        (r = NULL ∨ ∃ j, j < 14 ∧ r ∈ L j ∧ asize ≤ h.size_at r) := by
  intro cnt
  induction cnt with
  | zero =>
    intro i _ _
    exact ⟨NULL, rfl, Or.inl rfl⟩
  | succ cnt ih =>
    intro i h1 h2
    have hi : i < 14 := by omega
    have hmem : ∀ b ∈ L i, b ≠ NULL ∧ h.valid b ∧ h.valid (b + 16) ∧ b + 16 < WORD := by
      intro b hb
      obtain ⟨hblk, hfi⟩ := hrep.block i hi b hb
      have hs := find_index_bounds (h.size_at b) _ hfi
      have h32 : 32 ≤ h.size_at b := by omega
      have := hblk.2.2.2
      have := hrep.brk_le
      exact ⟨hblk.ne_null, hblk.valid_header, hblk.valid_next h32, by omega⟩
    have key : find_fit_list h asize (fuel h) (h.seg_free_list i) 9 (WORD - 1) NULL =
        Except.ok (fit_scan h asize 9 none (L i)) :=
      find_fit_list_spec (L i) NULL (h.seg_free_list i) (fuel h) 9 none
        (hrep.double i h1 hi) hmem (hrep.length_lt_fuel hi) (by norm_num)
    unfold find_fit_buckets
    rw [key, ok_bind]
    by_cases hex : ∃ b ∈ L i, asize ≤ h.size_at b
    · obtain ⟨hm1, hm2⟩ := fit_in_bucket_mem h asize (L i) hex
      rcases fit_scan_found h asize (L i) (fun b hb => (hmem b hb).1) hex with
        hr | ⟨n, ms, hr, hne⟩
      · rw [hr]
        exact ⟨_, rfl, Or.inr ⟨i, hi, hm1, hm2⟩⟩
      · rw [hr]
        refine ⟨fit_in_bucket h asize (L i), ?_, Or.inr ⟨i, hi, hm1, hm2⟩⟩
        show (if fit_in_bucket h asize (L i) ≠ NULL then
          pure (fit_in_bucket h asize (L i)) else _) = _
        rw [if_pos hne]
        rfl
    · have hsmall : ∀ b ∈ L i, h.size_at b < asize := by
        intro b hb
        by_contra hh
        exact hex ⟨b, hb, by omega⟩
      rw [fit_scan_none h asize 9 none (by norm_num) (L i) hsmall]
      obtain ⟨r, hr, hrr⟩ := ih (i + 1) (by omega) (by omega)
      refine ⟨r, ?_, hrr⟩
      show (if NULL ≠ NULL then pure NULL
        else find_fit_buckets h asize cnt (i + 1) 9 (WORD - 1) NULL) = _
      rw [if_neg (fun hx => hx rfl)]
      exact hr

/-- The function `find_fit` on a well-formed index, for a multiple of 16 of at
least 16: the call returns `NULL` or a member of the index with at least
`asize` bytes. -/
theorem find_fit_total {h : Heap} {L : Nat → List Nat} {asize : Nat}
    (hrep : IndexRep h L) (h16 : 16 ≤ asize) (hmod : asize % 16 = 0) :
    ∃ r, find_fit h asize = Except.ok r ∧
      (r = NULL ∨ ∃ j, j < 14 ∧ r ∈ L j ∧ asize ≤ h.size_at r) := by
  unfold find_fit
  simp only []
  by_cases hs : find_index asize = 0 ∧ h.seg_free_list 0 ≠ NULL
  · rw [if_pos hs]
    refine ⟨_, rfl, Or.inr ⟨0, by norm_num, ?_⟩⟩
    rcases hrep.head_cases (show 0 < 14 by norm_num) with ⟨h0, _⟩ | ⟨t, hL⟩
    · exact absurd h0 hs.2
    · have hm : h.seg_free_list 0 ∈ L 0 := by rw [hL]; exact List.mem_cons_self _ _
      have := (hrep.block 0 (by norm_num) _ hm).1.2.2.1
      have := (find_index_zero asize).mp hs.1
      exact ⟨hm, by omega⟩
  · rw [if_neg hs]
    have hb := (find_index_bounds asize _ rfl).1
    by_cases h0 : find_index asize = 0
    · rw [if_pos h0, h0]
      exact find_fit_buckets_total hrep 13 1 (by norm_num) (by norm_num)
    · rw [if_neg h0]
      exact find_fit_buckets_total hrep (14 - find_index asize) (find_index asize)
        (by omega) (by omega)

theorem max_chunk (a : Nat) (hm : a % 16 = 0) (hlt : a + 15 < WORD) :
    32 ≤ max a chunksize ∧ max a chunksize % 16 = 0 ∧ max a chunksize + 15 < WORD ∧
      a ≤ max a chunksize := by
  have hchunk : chunksize = 4096 := by decide
  have hw : WORD = 18446744073709551616 := by decide
  unfold max
  rw [hchunk]
  rw [hw] at hlt ⊢
  split <;> omega

/-- The function `malloc` on a state with the invariant, for a request of at
most `max_request` bytes: the call returns; the invariant holds afterwards;
every allocated block stays an allocated block; and the result is `NULL` or the
payload of an allocated block of at least `n + 8` bytes that is none of the
blocks allocated before. -/
theorem Inv.malloc_ok {h : Heap} {B : Nat → Prop} {L : Nat → List Nat} {n : Nat}
    (hinv : Inv h B L (fun _ => False)) (hn : n ≤ max_request) :
    ∃ p h' B' L', malloc h n = Except.ok (p, h') ∧ Inv h' B' L' (fun _ => False) ∧
      h'.lo = h.lo ∧ h.brk ≤ h'.brk ∧
      (∀ a, B a → a ≠ h.brk - 8 → h.alloc_at a = true → B' a ∧ h'.alloc_at a = true) ∧
      (p = NULL ∨ ∃ b, p = b + 8 ∧ B' b ∧ b ≠ h'.brk - 8 ∧ h'.alloc_at b = true ∧
        n + 8 ≤ h'.size_at b ∧
        ∀ a, B a → a ≠ h.brk - 8 → h.alloc_at a = true → a ≠ b) := by
  have ht := hinv.tiling
  have hinit : h.heap_listp ≠ NULL := by
    rw [ht.hl]
    unfold NULL
    omega
  have hlimw := ht.lim
  have hpay : ∀ r, B r ∨ True → r + 8 < WORD → header_to_payload r = r + 8 := by
    intro r _ hr
    unfold header_to_payload wsize
    exact padd_eq _ _ hr
  unfold malloc
  rw [if_neg hinit]
  simp only [pure_bind]
  by_cases h0 : n = 0
  · rw [if_pos h0]
    exact ⟨NULL, h, B, L, rfl, hinv, rfl, le_refl _, fun a ha _ haa => ⟨ha, haa⟩, Or.inl rfl⟩
  · rw [if_neg h0]
    obtain ⟨ham, han, ha16, halt⟩ := round_up_request n hn
    obtain ⟨r, hfit, hr⟩ := find_fit_total hinv.index ha16 ham
    rw [hfit, ok_bind]
    by_cases hr0 : r = NULL
    · rw [if_pos hr0]
      have hmx := max_chunk _ ham halt
      rcases hinv.extend_heap_ok hmx.1 hmx.2.1 hmx.2.2.1 with ⟨_, hext⟩ |
        ⟨b, h1, B1, L1, hext, hinv1, hlo1, hbrk1, hlim1, hhl1, hbB, hbf, hbs, hal1⟩
      · rw [hext, ok_bind]
        simp only [if_pos]
        exact ⟨NULL, h, B, L, rfl, hinv, rfl, le_refl _, fun a ha _ haa => ⟨ha, haa⟩,
          Or.inl rfl⟩
      · rw [hext, ok_bind]
        have hb0 : b ≠ NULL := hinv1.tiling.block_ne_null hbB
        simp only [if_neg hb0]
        obtain ⟨h2, B2, L2, hpl, hinv2, hlo2, hbrk2, hlim2, hhl2, hbB2, hba2, hbs2, hbe2,
          hal2⟩ := hinv1.place_ok hbB hbf ha16 ham (by omega)
        rw [hpl, ok_bind]
        have hbr := (hinv1.tiling.range b hbB).2.2
        have hlimw1 := hinv1.tiling.lim
        rw [hpay b (Or.inr trivial) (by omega)]
        refine ⟨b + 8, h2, B2, L2, rfl, hinv2, by rw [hlo2, hlo1], by rw [hbrk2]; exact hbrk1,
          ?_, Or.inr ⟨b, rfl, hbB2, by rw [hbrk2]; exact hbe2, hba2, by omega, ?_⟩⟩
        · intro a ha hae haa
          obtain ⟨h1a, h2a⟩ := hal1 a ha hae haa
          exact hal2 a h1a h2a
        · intro a ha hae haa hab
          obtain ⟨_, h2a⟩ := hal1 a ha hae haa
          rw [hab, hbf] at h2a
          cases h2a
    · rw [if_neg hr0]
      rcases hr with hr | ⟨j, hj, hrj, hrs⟩
      · exact absurd hr hr0
      · obtain ⟨hrB, hrf, _, _, _⟩ := hinv.member hj hrj
        obtain ⟨h2, B2, L2, hpl, hinv2, hlo2, hbrk2, hlim2, hhl2, hbB2, hba2, hbs2, hbe2,
          hal2⟩ := hinv.place_ok hrB hrf ha16 ham hrs
        rw [hpl, ok_bind]
        have hbr := (ht.range r hrB).2.2
        rw [hpay r (Or.inr trivial) (by omega)]
        refine ⟨r + 8, h2, B2, L2, rfl, hinv2, hlo2, by rw [hbrk2],
          fun a ha _ haa => hal2 a ha haa,
          Or.inr ⟨r, rfl, hbB2, by rw [hbrk2]; exact hbe2, hba2, by omega, ?_⟩⟩
        intro a ha hae haa hab
        rw [hab, hrf] at haa
        cases haa

/-- The state that `mm_init` builds before it extends the heap, with the two
sentinel words written: the invariant holds with the epilogue as the only
block. -/
theorem Inv.sentinels (k : Heap) (base : Nat) (hb : base % 16 = 0)
    (hlo : k.lo = base) (hbrk : k.brk = base + 16) (hlim : k.brk ≤ k.limit ∧ k.limit ≤ WORD)
    (hhl : k.heap_listp = base + 8) (hseg : k.seg_free_list = fun _ => NULL)
    (hw : k.word (base + 8) = pack 0 false true true) :
    Inv k (fun a => a = base + 8) (fun _ => []) (fun _ => False) := by
  obtain ⟨hs, _, hpa, hal⟩ := hdr_of_word hw (by decide : 0 % 16 = 0) (by decide : 0 < WORD)
  have he : k.brk - 8 = base + 8 := by omega
  refine ⟨⟨by rw [hlo]; exact hb, hlim, by rw [hhl, hlo], by rw [hlo], ?_, ?_, ?_, ?_, ?_, ?_⟩,
    by rw [hlo]; exact hpa, by rw [he]; exact hal, ?_, ?_, ?_, ?_, ?_, ?_⟩
  · rw [hlo, he]
    exact ⟨by omega, rfl, hs⟩
  · intro b hbb
    rw [hbb, hlo, hbrk]
    exact ⟨by omega, by omega, by omega⟩
  · intro b hbb hbe
    rw [he] at hbe
    exact absurd hbb hbe
  · intro b c hbb hcc hlt
    rw [hbb, hcc] at hlt
    omega
  · intro b hbb hbe
    rw [hlo] at hbe
    exact absurd hbb hbe
  · intro b hbb hbe
    rw [he] at hbe
    exact absurd hbb hbe
  · intro b hbb hbe
    rw [he] at hbe
    exact absurd hbb hbe
  · intro b hbb hbe
    rw [he] at hbe
    exact absurd hbb hbe
  · intro b hbb hf
    rw [hbb, hal] at hf
    cases hf
  · intro x hx
    exact hx.elim
  · refine ⟨by omega, ?_, ?_, ?_, ?_, ?_⟩
    · rw [hseg]
      exact rfl
    · intro i _ _
      rw [hseg]
      exact rfl
    · intro i _ b hbb
      cases hbb
    · intro i _
      exact List.nodup_nil
    · intro i j _ _ b hbb
      cases hbb
  · intro b
    constructor
    · rintro ⟨i, _, hbb⟩
      cases hbb
    · rintro ⟨hbb, hf, _⟩
      rw [hbb, hal] at hf
      cases hf

/-- After a successful `mm_init` on an empty arena with a 16-byte aligned base
the invariant holds. -/
theorem init_inv (m : Nat → Nat) (base cap : Nat) (h : Heap) (hb : base % 16 = 0)
    (hc : base + cap ≤ WORD) (hi : mm_init (fresh m base cap) = Except.ok (true, h)) :
    ∃ B L, Inv h B L (fun _ => False) := by
  unfold mm_init at hi
  by_cases hfit : base + 2 * wsize ≤ base + cap
  · have hsb : mem_sbrk (fresh m base cap) (2 * wsize) =
        some (base, { fresh m base cap with brk := base + 2 * wsize }) := by
      unfold mem_sbrk
      rw [if_pos (by exact hfit)]
      rfl
    have hws : wsize = 8 := rfl
    rw [hws] at hfit
    obtain ⟨k, hk⟩ : ∃ k : Heap, k =
        { { ((({ fresh m base cap with brk := base + 2 * wsize } : Heap).put base
          (pack 0 false true true)).put (base + 8) (pack 0 false true true)) with
          heap_listp := base + 8 } with seg_free_list := fun _ => NULL } := ⟨_, rfl⟩
    have hinv0 : Inv k (fun a => a = base + 8) (fun _ => []) (fun _ => False) := by
      apply Inv.sentinels k base hb
      · rw [hk]; rfl
      · rw [hk]; rfl
      · rw [hk]
        exact ⟨by show base + 2 * wsize ≤ base + cap; rw [hws]; exact hfit, hc⟩
      · rw [hk]
      · rw [hk]
      · rw [hk]
        exact put_word_same _ _ _ (by decide)
    have hv1 : ({ fresh m base cap with brk := base + 2 * wsize } : Heap).valid base :=
      ⟨by omega, le_refl _, by show base + 8 ≤ base + 2 * wsize; rw [hws]; omega⟩
    have hv2 : ({ fresh m base cap with brk := base + 2 * wsize } : Heap).valid (base + 8) :=
      ⟨by omega, by show base ≤ base + 8; omega,
        by show base + 8 + 8 ≤ base + 2 * wsize; rw [hws]⟩
    have hpd : padd base wsize = base + 8 := by
      rw [hws]
      exact padd_eq _ _ (by omega)
    simp only [hsb] at hi
    rw [store_ok _ _ _ hv1, ok_bind, hpd, store_ok _ _ _ (by exact hv2), ok_bind] at hi
    have hchunk : chunksize = 4096 := by decide
    rcases hinv0.extend_heap_ok (m := chunksize) (by rw [hchunk]; norm_num)
        (by rw [hchunk]) (by rw [hchunk]; decide) with
      ⟨_, hext⟩ | ⟨r, h', B', L', hext, hinv', _, _, _, _, hrB, _⟩
    · rw [hk] at hext
      rw [hext] at hi
      simp only [ok_bind, if_pos] at hi
      cases hi
    · rw [hk] at hext
      rw [hext] at hi
      have hr0 : r ≠ NULL := hinv'.tiling.block_ne_null hrB
      simp only [ok_bind, if_neg hr0] at hi
      cases hi
      exact ⟨B', L', hinv'⟩
  · have hsb : mem_sbrk (fresh m base cap) (2 * wsize) = none := by
      unfold mem_sbrk
      rw [if_neg (by exact hfit)]
    simp only [hsb] at hi
    cases hi

/-- A write into the payload of an allocated block keeps the invariant and
every header. -/
theorem Inv.payload_write {h h' : Heap} {B : Nat → Prop} {L : Nat → List Nat} {b : Nat}
    (hinv : Inv h B L (fun _ => False)) (hb : B b) (hbe : b ≠ h.brk - 8)
    (hal : h.alloc_at b = true)
    (hlo : h'.lo = h.lo) (hbrk : h'.brk = h.brk) (hlim : h'.limit = h.limit)
    (hhl : h'.heap_listp = h.heap_listp) (hseg : h'.seg_free_list = h.seg_free_list)
    (hfr : ∀ a, ¬ (b + 8 ≤ a ∧ a < b + h.size_at b) → h'.mem a = h.mem a) :
    Inv h' B L (fun _ => False) ∧ ∀ a, B a → h'.mem a = h.mem a := by
  have ht := hinv.tiling
  obtain ⟨hs16, hsm, hnB, hnr⟩ := ht.next_range hb hbe
  have hhdr : ∀ a, B a → h'.mem a = h.mem a := by
    intro a ha
    apply hfr
    intro hh
    have hab : b ≠ a := by omega
    rcases ht.disjoint hb ha hab with hd | hd
    · omega
    · have := (ht.range a ha).1
      have := (ht.range b hb).1
      omega
  refine ⟨?_, hhdr⟩
  apply hinv.index_step hlo hbrk hlim hhl hhdr
  · intro c hc hcf h16
    apply hfr
    intro hh
    have hcb : c ≠ b := by
      intro he
      rw [he, hal] at hcf
      cases hcf
    rcases ht.disjoint hc hb hcb with hd | hd <;> omega
  · apply IndexRep.frame hinv.index hlo hbrk (fun i _ => by rw [hseg])
    intro i hi c hc
    obtain ⟨hcB, hcf, _, hc16, hc32⟩ := hinv.member hi hc
    have hcb : c ≠ b := by
      intro he
      rw [he, hal] at hcf
      cases hcf
    have hd := ht.disjoint hcB hb hcb
    have hcm := (ht.range c hcB).1
    have hbm := (ht.range b hb).1
    refine ⟨(hdr_congr (hhdr c hcB)).1, word_congr (hfr _ (by omega)), ?_⟩
    intro hi1
    have := hc32 hi1
    exact word_congr (hfr _ (by omega))
  · exact hinv.members
  · intro x hx
    exact hx.elim
  · intro a _ _ _ hx
    exact hx.elim
  · intro a _ _ _ _ hx
    exact hx.elim (fun hh => hh.elim) (fun hh => hh.elim)

/-- The function `memcpy` changes only words of the destination range. -/
theorem memcpy_frame {h h' : Heap} {dst src n : Nat}
    (hm : memcpy h dst src n = Except.ok h') :
    h'.lo = h.lo ∧ h'.brk = h.brk ∧ h'.limit = h.limit ∧
      h'.heap_listp = h.heap_listp ∧ h'.seg_free_list = h.seg_free_list ∧
      ∀ a, ¬ (dst ≤ a ∧ a < dst + n) → h'.mem a = h.mem a := by
  unfold memcpy at hm
  by_cases h0 : n = 0
  · rw [if_pos h0] at hm
    cases hm
    exact ⟨rfl, rfl, rfl, rfl, rfl, fun _ _ => rfl⟩
  · rw [if_neg h0] at hm
    split at hm
    · cases hm
      refine ⟨rfl, rfl, rfl, rfl, rfl, ?_⟩
      intro a ha
      have hdiv := Nat.div_add_mod n 8
      show (if a % 8 = 0 ∧ dst ≤ a ∧ a < dst + 8 * (n / 8) then _
        else if n % 8 ≠ 0 ∧ a = dst + 8 * (n / 8) then _ else h.mem a) = h.mem a
      rw [if_neg (by omega), if_neg (by omega)]
    · cases hm

/-- The function `memset0` changes only words of the destination range. -/
theorem memset0_frame {h h' : Heap} {bp n : Nat}
    (hm : memset0 h bp n = Except.ok h') :
    h'.lo = h.lo ∧ h'.brk = h.brk ∧ h'.limit = h.limit ∧
      h'.heap_listp = h.heap_listp ∧ h'.seg_free_list = h.seg_free_list ∧
      ∀ a, ¬ (bp ≤ a ∧ a < bp + n) → h'.mem a = h.mem a := by
  unfold memset0 at hm
  by_cases h0 : n = 0
  · rw [if_pos h0] at hm
    cases hm
    exact ⟨rfl, rfl, rfl, rfl, rfl, fun _ _ => rfl⟩
  · rw [if_neg h0] at hm
    split at hm
    · cases hm
      refine ⟨rfl, rfl, rfl, rfl, rfl, ?_⟩
      intro a ha
      have hdiv := Nat.div_add_mod n 8
      show (if a % 8 = 0 ∧ bp ≤ a ∧ a < bp + 8 * (n / 8) then _
        else if n % 8 ≠ 0 ∧ a = bp + 8 * (n / 8) then _ else h.mem a) = h.mem a
      rw [if_neg (by omega), if_neg (by omega)]
    · cases hm

/-! ### Reachable states -/

/-- A block of the implicit list is a block of the invariant. -/
theorem Tiling.heap_block {h : Heap} {B : Nat → Prop} (ht : Tiling h B) {b : Nat}
    (hb : HeapBlock h b) : B b ∧ b ≠ h.brk - 8 := by
  induction hb with
  | first h0 =>
    rw [ht.hl] at h0 ⊢
    refine ⟨ht.first, ?_⟩
    intro he
    rw [he, ht.epi.2.2] at h0
    exact h0 rfl
  | next _ h0 ih =>
    refine ⟨(ht.next _ ih.1 ih.2).2, ?_⟩
    intro he
    rw [he, ht.epi.2.2] at h0
    exact h0 rfl

/-- The live pointers of a smaller list are live. -/
theorem Good.mono {h : Heap} {live live' : List Nat} (hg : Good h live)
    (hsub : ∀ p ∈ live', p ∈ live) : Good h live' := by
  obtain ⟨B, L, hinv, hl⟩ := hg
  exact ⟨B, L, hinv, fun p hp => hl p (hsub p hp)⟩

/-- Live blocks stay live across a step that keeps every allocated block
allocated and does not shrink the arena. -/
theorem live_step {h h' : Heap} {B B' : Nat → Prop} {L : Nat → List Nat}
    (hinv : Inv h B L (fun _ => False)) (hbrk : h.brk ≤ h'.brk)
    (hpres : ∀ a, B a → a ≠ h.brk - 8 → h.alloc_at a = true →
      B' a ∧ h'.alloc_at a = true) {p : Nat}
    (hp : ∃ b, p = b + 8 ∧ B b ∧ b ≠ h.brk - 8 ∧ h.alloc_at b = true) :
    ∃ b, p = b + 8 ∧ B' b ∧ b ≠ h'.brk - 8 ∧ h'.alloc_at b = true := by
  obtain ⟨b, hpb, hb, hbe, hal⟩ := hp
  obtain ⟨h1, h2⟩ := hpres b hb hbe hal
  have := (hinv.tiling.range b hb).2.2
  exact ⟨b, hpb, h1, by omega, h2⟩

/-- A successful `malloc` with a request of at most `max_request` bytes keeps
the state good, with the result added to the live pointers. -/
theorem Good.malloc_step {h h' : Heap} {live : List Nat} {n p : Nat}
    (hg : Good h live) (hn : n ≤ max_request)
    (hm : malloc h n = Except.ok (p, h')) :
    Good h' (if p = NULL then live else p :: live) := by
  obtain ⟨B, L, hinv, hl⟩ := hg
  obtain ⟨p1, h1, B1, L1, hm1, hinv1, _, hbrk1, hpres, hres⟩ := hinv.malloc_ok hn
  rw [hm1] at hm
  cases hm
  refine ⟨B1, L1, hinv1, ?_⟩
  intro q hq
  have hold : ∀ q ∈ live, ∃ b, q = b + 8 ∧ B1 b ∧ b ≠ h'.brk - 8 ∧ h'.alloc_at b = true :=
    fun q hq => live_step hinv hbrk1 hpres (hl q hq)
  by_cases hp0 : p = NULL
  · rw [if_pos hp0] at hq
    exact hold q hq
  · rw [if_neg hp0] at hq
    rcases List.mem_cons.mp hq with hq | hq
    · rcases hres with hres | ⟨b, hpb, hb, hbe, hal, _⟩
      · exact absurd hres hp0
      · exact ⟨b, by rw [hq]; exact hpb, hb, hbe, hal⟩
    · exact hold q hq

/-- A successful `free` of a live pointer, or of `NULL`, keeps the state good,
with the pointer taken out of the live pointers. -/
theorem Good.free_step {h h' : Heap} {live : List Nat} {p : Nat}
    (hg : Good h live) (hp : p = NULL ∨ p ∈ live)
    (hf : free h p = Except.ok h') :
    Good h' (live.filter (fun q => decide (q ≠ p))) := by
  by_cases hp0 : p = NULL
  · rw [hp0] at hf ⊢
    have : free h NULL = Except.ok h := rfl
    rw [this] at hf
    cases hf
    exact hg.mono (fun q hq => (List.mem_filter.mp hq).1)
  · rcases hp with hp | hp
    · exact absurd hp hp0
    · obtain ⟨B, L, hinv, hl⟩ := hg
      obtain ⟨b, hpb, hb, hbe, hal⟩ := hl p hp
      obtain ⟨h1, B1, L1, hf1, hinv1, _, hbrk1, _, _, hpres⟩ := hinv.free_ok hb hbe hal
      rw [hpb, hf1] at hf
      cases hf
      refine ⟨B1, L1, hinv1, ?_⟩
      intro q hq
      obtain ⟨hq1, hq2⟩ := List.mem_filter.mp hq
      simp only [decide_eq_true_eq] at hq2
      obtain ⟨c, hqc, hc, hce, hcal⟩ := hl q hq1
      have hcb : c ≠ b := by
        intro he
        rw [hqc, hpb, he] at hq2
        exact hq2 rfl
      obtain ⟨h1c, h2c⟩ := hpres c hc hcb hcal
      exact ⟨c, hqc, h1c, by rw [hbrk1]; exact hce, h2c⟩

/-- A successful `calloc` whose byte count is at most `max_request` keeps the
state good, with the result added to the live pointers. -/
theorem Good.calloc_step {h h' : Heap} {live : List Nat} {nmemb size p : Nat}
    (hg : Good h live) (hn : nmemb * size ≤ max_request)
    (hc : calloc h nmemb size = Except.ok (p, h')) :
    Good h' (if p = NULL then live else p :: live) := by
  have hmr : max_request < WORD := by decide
  have hmod : (nmemb * size) % WORD = nmemb * size := Nat.mod_eq_of_lt (by omega)
  unfold calloc at hc
  simp only [hmod] at hc
  by_cases h0 : nmemb = 0
  · rw [if_pos h0] at hc
    cases hc
  · rw [if_neg h0] at hc
    by_cases hov : nmemb * size / nmemb ≠ size
    · rw [if_pos hov] at hc
      cases hc
      rw [if_pos rfl]
      exact hg
    · rw [if_neg hov] at hc
      obtain ⟨B, L, hinv, hl⟩ := hg
      obtain ⟨p1, h1, B1, L1, hm1, hinv1, _, hbrk1, hpres, hres⟩ := hinv.malloc_ok hn
      rw [hm1, ok_bind] at hc
      simp only [] at hc
      have hold : ∀ q ∈ live,
          ∃ b, q = b + 8 ∧ B1 b ∧ b ≠ h1.brk - 8 ∧ h1.alloc_at b = true :=
        fun q hq => live_step hinv hbrk1 hpres (hl q hq)
      by_cases hp0 : p1 = NULL
      · rw [if_pos hp0] at hc
        cases hc
        rw [if_pos rfl]
        exact ⟨B1, L1, hinv1, hold⟩
      · rw [if_neg hp0] at hc
        rcases hres with hres | ⟨b, hpb, hb, hbe, hal, hsz, _⟩
        · exact absurd hres hp0
        · cases hms : memset0 h1 p1 (nmemb * size) with
          | error e =>
            rw [hms] at hc
            cases hc
          | ok h2 =>
            rw [hms, ok_bind] at hc
            cases hc
            obtain ⟨f1, f2, f3, f4, f5, ffr⟩ := memset0_frame hms
            obtain ⟨hinv2, hhdr2⟩ := hinv1.payload_write hb hbe hal f1 f2 f3 f4 f5
              (fun a ha => ffr a (by omega))
            rw [if_neg hp0]
            refine ⟨B1, L1, hinv2, ?_⟩
            intro q hq
            rcases List.mem_cons.mp hq with hq | hq
            · exact ⟨b, by rw [hq]; exact hpb, hb, by rw [f2]; exact hbe,
                by rw [(hdr_congr (hhdr2 b hb)).2.2.2]; exact hal⟩
            · obtain ⟨c, hqc, hcB, hce, hca⟩ := hold q hq
              exact ⟨c, hqc, hcB, by rw [f2]; exact hce,
                by rw [(hdr_congr (hhdr2 c hcB)).2.2.2]; exact hca⟩

/-- A successful `realloc` of a live pointer, or of `NULL`, with a request of
at most `max_request` bytes keeps the state good. -/
theorem Good.realloc_step {h h' : Heap} {live : List Nat} {p n q : Nat}
    (hg : Good h live) (hp : p = NULL ∨ p ∈ live) (hn : n ≤ max_request)
    (hr : realloc h p n = Except.ok (q, h')) :
    Good h' (if n = 0 then live.filter (fun r => decide (r ≠ p))
      else if q = NULL then live
      else q :: live.filter (fun r => decide (r ≠ p))) := by
  unfold realloc at hr
  simp only [] at hr
  by_cases h0 : n = 0
  · rw [if_pos h0] at hr
    rw [if_pos h0]
    cases hf : free h p with
    | error e =>
      rw [hf] at hr
      cases hr
    | ok h1 =>
      rw [hf, ok_bind] at hr
      cases hr
      exact hg.free_step hp hf
  · rw [if_neg h0] at hr
    rw [if_neg h0]
    by_cases hp0 : p = NULL
    · rw [if_pos hp0] at hr
      have := hg.malloc_step hn hr
      by_cases hq0 : q = NULL
      · rw [if_pos hq0] at this ⊢
        exact this
      · rw [if_neg hq0] at this ⊢
        apply this.mono
        intro x hx
        rcases List.mem_cons.mp hx with hx | hx
        · rw [hx]; exact List.mem_cons_self _ _
        · exact List.mem_cons_of_mem _ (List.mem_filter.mp hx).1
    · rw [if_neg hp0] at hr
      rcases hp with hp | hp
      · exact absurd hp hp0
      · obtain ⟨B, L, hinv, hl⟩ := hg
        obtain ⟨p1, h1, B1, L1, hm1, hinv1, _, hbrk1, hpres, hres⟩ := hinv.malloc_ok hn
        rw [hm1, ok_bind] at hr
        simp only [] at hr
        have hold : ∀ x ∈ live,
            ∃ b, x = b + 8 ∧ B1 b ∧ b ≠ h1.brk - 8 ∧ h1.alloc_at b = true :=
          fun x hx => live_step hinv hbrk1 hpres (hl x hx)
        by_cases hp10 : p1 = NULL
        · rw [if_pos hp10] at hr
          cases hr
          rw [if_pos rfl]
          exact ⟨B1, L1, hinv1, hold⟩
        · rw [if_neg hp10] at hr
          rcases hres with hres | ⟨b, hpb, hb, hbe, hal, hsz, hnew⟩
          · exact absurd hres hp10
          · obtain ⟨c, hpc, hcB, hce, hca⟩ := hl p hp
            obtain ⟨hcB1, hca1⟩ := hpres c hcB hce hca
            have hcb : c ≠ b := hnew c hcB hce hca
            have hcr := (hinv1.tiling.range c hcB1).2.2
            have hlimw := hinv1.tiling.lim
            have hepi1 := hinv1.tiling.epi.1
            have hce1 : c ≠ h1.brk - 8 := by
              have := (hinv.tiling.range c hcB).2.2
              have := hinv.tiling.epi.1
              omega
            have hpay : payload_to_header p = c := by
              unfold payload_to_header wsize
              rw [hpc, psub_eq _ _ (by omega) (by omega)]
              omega
            rw [hpay] at hr
            have hgps : get_payload_size h1 c = Except.ok (wsub (h1.size_at c) wsize) := by
              unfold get_payload_size
              rw [get_size_ok h1 c (hinv1.tiling.valid_hdr hcB1)]
              rfl
            rw [hgps, ok_bind] at hr
            cases hmc : memcpy h1 p1 p
                (if n < wsub (h1.size_at c) wsize then n else wsub (h1.size_at c) wsize) with
            | error e =>
              rw [hmc] at hr
              cases hr
            | ok h2 =>
              rw [hmc, ok_bind] at hr
              obtain ⟨f1, f2, f3, f4, f5, ffr⟩ := memcpy_frame hmc
              have hcopy : (if n < wsub (h1.size_at c) wsize then n
                  else wsub (h1.size_at c) wsize) ≤ n := by
                split <;> omega
              obtain ⟨hinv2, hhdr2⟩ := hinv1.payload_write hb hbe hal f1 f2 f3 f4 f5
                (fun a ha => ffr a (by omega))
              have hca2 : h2.alloc_at c = true := by
                rw [(hdr_congr (hhdr2 c hcB1)).2.2.2]; exact hca1
              obtain ⟨h3, B3, L3, hf3, hinv3, _, hbrk3, _, _, hpres3⟩ :=
                hinv2.free_ok hcB1 (by rw [f2]; exact hce1) hca2
              rw [hpc, hf3, ok_bind] at hr
              cases hr
              rw [if_neg hp10]
              refine ⟨B3, L3, hinv3, ?_⟩
              intro x hx
              rcases List.mem_cons.mp hx with hx | hx
              · have hb2 : h2.alloc_at b = true := by
                  rw [(hdr_congr (hhdr2 b hb)).2.2.2]; exact hal
                obtain ⟨h1b, h2b⟩ := hpres3 b hb (fun hh => hcb hh.symm) hb2
                exact ⟨b, by rw [hx]; exact hpb, h1b, by rw [hbrk3, f2]; exact hbe, h2b⟩
              · obtain ⟨hx1, hx2⟩ := List.mem_filter.mp hx
                simp only [decide_eq_true_eq] at hx2
                obtain ⟨d, hxd, hdB, hde, hda⟩ := hold x hx1
                have hdc : d ≠ c := by
                  intro he
                  rw [hxd, hpc, he] at hx2
                  exact hx2 rfl
                have hd2 : h2.alloc_at d = true := by
                  rw [(hdr_congr (hhdr2 d hdB)).2.2.2]; exact hda
                obtain ⟨h1d, h2d⟩ := hpres3 d hdB hdc hd2
                exact ⟨d, hxd, h1d, by rw [hbrk3, f2]; exact hde, h2d⟩

/-- Every reachable state is good. -/
theorem Reach.good {h : Heap} {live : List Nat} (hr : Reach h live) : Good h live := by
  induction hr with
  | init m base cap h hb hc hi =>
    obtain ⟨B, L, hinv⟩ := init_inv m base cap h hb hc hi
    exact ⟨B, L, hinv, fun p hp => by cases hp⟩
  | malloc n p h' _ hn hm ih => exact ih.malloc_step hn hm
  | free p h' _ hp hf ih => exact ih.free_step hp hf
  | realloc p n q h' _ hp hn hr ih => exact ih.realloc_step hp hn hr
  | calloc nmemb size p h' _ hn hc ih => exact ih.calloc_step hn hc

/-- Without a bound on the request sizes the footer of a free block can
disagree with its header on the size: after `a = malloc(16)`,
`p = malloc(2^64 - 8)`, `free(a)`, `free(p)` on `heap0` the free block at 4104
has a header of size 4096, and the word at `4104 + 4096 - 8` is 4064. -/
theorem footer_stale_after_overflow :
    (do let (a, h) ← malloc heap0 16
        let (p, h) ← malloc h (2 ^ 64 - 8)
        let h ← free h a
        let h ← free h p
        let size ← get_size h 4104
        let alloc ← get_alloc h 4104 false false true
        let footer ← load h (4104 + 4096 - 8)
        pure (a, p, size, alloc, footer)) =
      Except.ok (4112, 4144, 4096, false, 4064) := by
  rfl

/-- C22 (amended): in every state reached from a successful `mm_init` by
calls of `malloc`, `free`, `realloc` and `calloc` that succeed, with `free` and
`realloc` applied to `NULL` or a live pointer and every request of at most
`max_request = 2^64 - 24` bytes, every free block `b` of size greater than 16
met on the walk over the heap from `heap_listp` has a readable header and, at
`b + size - 8`, the footer word `pack(size, false, false, false)`: the footer
holds the size and the allocation bit of the header with both status bits
clear, and it is not the header word, whose previous-allocated bit is set. -/
theorem C22_free_block_footer (h : Heap) (live : List Nat) (hr : Reach h live) (b : Nat)
    (hb : HeapBlock h b) (hf : h.alloc_at b = false) (hs : 16 < h.size_at b) :
    get_size h b = Except.ok (h.size_at b) ∧
    load h (b + h.size_at b - 8) = Except.ok (pack (h.size_at b) false false false) ∧
    extract_size (h.word (b + h.size_at b - 8)) = extract_size (h.word b) ∧
    extract_alloc (h.word (b + h.size_at b - 8)) false false true =
      extract_alloc (h.word b) false false true ∧
    extract_alloc (h.word b) false true false = true ∧
    h.word (b + h.size_at b - 8) ≠ h.word b := by
  obtain ⟨B, L, hinv, _⟩ := hr.good
  have ht := hinv.tiling
  obtain ⟨hB, hbe⟩ := ht.heap_block hb
  have hw := hinv.footer b hB hf hs
  have hmod := size_at_mod h b
  have hr1 := ht.range b hB
  have hr2 := ht.range _ (ht.next b hB hbe).2
  have hlim := ht.lim
  have hlt : h.size_at b < WORD := by omega
  have hpa : h.palloc_at b = true :=
    hinv.palloc_of_free hB hf (fun hx => hx) (fun _ _ _ hx => hx)
  have hv : h.valid (b + h.size_at b - 8) := ⟨by omega, by omega, by omega⟩
  refine ⟨get_size_ok h b (ht.valid_hdr hB), ?_, ?_, ?_, hpa, ?_⟩
  · rw [load_ok h _ hv, hw]
  · rw [hw, extract_size_pack _ _ _ _ hmod hlt]
    rfl
  · rw [hw, alloc_bit_pack _ _ _ _ _ _ hmod]
    exact hf.symm
  · intro he
    have h1 : extract_alloc (h.word (b + h.size_at b - 8)) false true false = true := by
      rw [he]
      exact hpa
    rw [hw, prev_bit_pack _ _ _ _ _ hmod] at h1
    cases h1

/-- C22 (witness): the state after `malloc(24); malloc(24)` on the initialised
heap `heap1`, in which 4112 and 4144 are live, and its free block at 4168. -/
theorem C22_free_block_footer_witness :
    get_size heap_live2 4168 = Except.ok (heap_live2.size_at 4168) ∧
    load heap_live2 (4168 + heap_live2.size_at 4168 - 8) =
      Except.ok (pack (heap_live2.size_at 4168) false false false) ∧
    extract_size (heap_live2.word (4168 + heap_live2.size_at 4168 - 8)) =
      extract_size (heap_live2.word 4168) ∧
    extract_alloc (heap_live2.word (4168 + heap_live2.size_at 4168 - 8)) false false true =
      extract_alloc (heap_live2.word 4168) false false true ∧
    extract_alloc (heap_live2.word 4168) false true false = true ∧
    heap_live2.word (4168 + heap_live2.size_at 4168 - 8) ≠ heap_live2.word 4168 :=
  C22_free_block_footer heap_live2 [4144, 4112]
    (Reach.malloc 24 4144 heap_live2
      (Reach.malloc 24 4112 (match malloc heap1 24 with | .ok r => r.2 | .error _ => heap1)
        (Reach.init (fun _ => 0) 0x1000 (20 * (1 <<< 20)) heap1 (by decide) (by decide) rfl)
        (by decide) rfl)
      (by decide) rfl)
    4168
    (HeapBlock.next (HeapBlock.next (HeapBlock.first (by decide)) (by decide)) (by decide))
    (by decide) (by decide)

end MmFinal2

namespace Mm1

/-! ## Verification of `mm_1.c` -/

/-- A size read from a header of `mm_1.c` is a multiple of 16. -/
theorem extract_size_mod16 (w : Nat) : extract_size w % 16 = 0 :=
  (MmFinal2.extract_size_props w).1

/-- The function `mm_checkheap` of `mm_1.c` returns `true` on no state: its
first test compares the size of the first block, a multiple of 16, with
`wsize = 8`. -/
theorem checkheap1_never_true (h : Heap) (r : Bool)
    (hr : mm_checkheap h = Except.ok r) : r = false := by
  unfold mm_checkheap at hr
  cases hs : get_size h h.heap_listp with
  | error e => rw [hs] at hr; cases hr
  | ok size =>
    have hsz : size % 16 = 0 := by
      unfold get_size at hs
      cases hw : load h h.heap_listp with
      | error e => rw [hw] at hs; cases hs
      | ok w =>
        rw [hw] at hs
        have : extract_size w = size := by
          injection hs
        rw [← this]
        exact extract_size_mod16 w
    have hne : size ≠ wsize := by
      unfold wsize
      omega
    rw [hs] at hr
    simp only [bind, Except.bind] at hr
    rw [if_pos hne] at hr
    injection hr with hr
    exact hr.symm

/-- C35 (the code violates the claim): on the heap right after a successful
`mm_init` of `mm_1.c` the first block `heap_listp = 4104` has the header 4096
(size 4096, free), and `mm_checkheap` returns `false`. -/
theorem C35_first_checkheap_rejects_initial_heap :
    (do let r ← mm_init heap0
        let size ← get_size heap1 heap1.heap_listp
        let alloc ← get_alloc heap1 heap1.heap_listp
        let c ← mm_checkheap heap1
        pure (r.1, heap1.heap_listp, size, alloc, wsize, c)) =
      Except.ok (true, 4104, 4096, false, 8, false) := by
  rfl

end Mm1
